import Mathlib

/-! FlintQS: a shallow embedding of the quadratic sieve and its checked properties.

The definitions below follow the C++ sources (`QS.cpp`, `lprels.cpp`,
`TonelliShanks.cpp`, `ModuloArith.cpp`).  Bignums (`mpz_t`) are `Int`, arrays are
lists read with `getD`, loops are folds over index ranges or fuelled recursions.
-/

namespace FlintQS

/-! ## GMP primitives used by the sources -/

/-- GMP `mpz_mod`: the remainder, never negative for a non-zero modulus. -/
def mpz_mod (a n : Int) : Int := a % n

/-- GMP `mpz_gcd`: the greatest common divisor, never negative. -/
def mpz_gcd (a b : Int) : Int := (Int.gcd a b : Int)

/-- GMP `mpz_div_ui` (floor division by an unsigned word). -/
def mpz_div_ui (a : Int) (d : Nat) : Int := a / (d : Int)

/-! ## QS.cpp, mainRoutine: the square root and GCD step (lines 1518-1555) -/

/-- Data the final loop of `mainRoutine` reads. -/
structure SqrtInput where
  /-- the global `n`, which holds `k*N` when the loop is reached -/
  n : Int
  multiplier : Nat
  numPrimes : Nat
  ncols : Nat
  factorBase : List Nat
  XArr : List Int
  /-- `relations[c][1..relations[c][0]]`, the prime indices of relation `c` with multiplicity -/
  relations : List (List Nat)
  /-- `colarray[i].orig` -/
  orig : List Nat
  /-- the array returned by `block_lanczos`, one 64-bit mask per column -/
  nullrows : List Nat

/-- The value of `(u_int64_t)(1) << l` (lines 1482 and 1526).  For `l < 64` it is `2^l`.
A count of 64 or more is outside what the language defines for a 64-bit operand; `wide l`
stands for the 64-bit value the machine delivers then. -/
def shiftOne (wide : Nat → Nat) (l : Nat) : Nat :=
  if l < 64 then 1 <<< l else wide l % 2 ^ 64

/-- The shift of x86-64, which takes the count modulo 64. -/
def shiftMod64 (l : Nat) : Nat := 1 <<< (l % 64)

/-- Modelled from the spec: `getNullEntry` of `lanczos.h` (absent from the sources);
the null-space vectors are "packed as 64-bit masks per column", so entry `(i, l)` is
`nullrows[i] & ((u_int64_t)(1) << l)` as a truth value. -/
def getNullEntry (wide : Nat → Nat) (nullrows : List Nat) (i l : Nat) : Bool :=
  decide (nullrows.getD i 0 &&& shiftOne wide l ≠ 0)

/-- `for (i = 0, mask = 0; i < ncols; i++) mask |= nullrows[i];` -/
def nullMask (nullrows : List Nat) (ncols : Nat) : Nat :=
  (List.range ncols).foldl (fun m i => m ||| nullrows.getD i 0) 0

/-- `primecount[idx]++` on an array held as a list. -/
def incrAt : List Nat → Nat → List Nat
  | [], _ => []
  | c :: cs, 0 => (c + 1) :: cs
  | c :: cs, k + 1 => c :: incrAt cs k

/-- The inner loop `for (j = 1; j <= relations[c][0]; j++) primecount[relations[c][j]]++`. -/
def countRelation (primecount : List Nat) (rel : List Nat) : List Nat :=
  rel.foldl incrAt primecount

/-- One pass of the body of `for (i = 0; i < ncols; i++)` at lines 1530-1541,
on the pair `(temp2, primecount)`; `n` is already divided by the multiplier. -/
def ySideStep (wide : Nat → Nat) (inp : SqrtInput) (n : Int) (l : Nat) (st : Int × List Nat)
    (i : Nat) : Int × List Nat :=
  let st1 : Int × List Nat :=
    if getNullEntry wide inp.nullrows i l then
      (st.1 * inp.XArr.getD (inp.orig.getD i 0) 0,
        countRelation st.2 (inp.relations.getD (inp.orig.getD i 0) []))
    else st
  if i % 30 = 0 then (mpz_mod st1.1 n, st1.2) else st1

/-- Lines 1527-1541: `temp2` and `primecount` after the loop over the columns. -/
def ySide (wide : Nat → Nat) (inp : SqrtInput) (n : Int) (l : Nat) : Int × List Nat :=
  (List.range inp.ncols).foldl (ySideStep wide inp n l) (1, List.replicate inp.numPrimes 0)

/-- One pass of the body of `for (j = 0; j < numPrimes; j++)` at lines 1542-1548. -/
def xSideStep (inp : SqrtInput) (n : Int) (primecount : List Nat) (temp : Int) (j : Nat) : Int :=
  let temp3 : Int := ((inp.factorBase.getD j 0 : Nat) : Int) ^ (primecount.getD j 0 / 2)
  let t := temp * temp3
  if j % 30 = 0 then mpz_mod t n else t

/-- Lines 1542-1548: `temp` after the loop over the factor base. -/
def xSide (inp : SqrtInput) (n : Int) (primecount : List Nat) : Int :=
  (List.range inp.numPrimes).foldl (xSideStep inp n primecount) 1

/-- Lines 1549-1550: `gcd(temp2 - temp, n)` for null-space bit `l`. -/
def sqrtGcd (wide : Nat → Nat) (inp : SqrtInput) (n : Int) (l : Nat) : Int :=
  let y := ySide wide inp n l
  mpz_gcd (y.1 - xSide inp n y.2) n

/-- Lines 1551-1554: the value is printed only when it is neither `n` nor `1`. -/
def printedAt (wide : Nat → Nat) (inp : SqrtInput) (n : Int) (l : Nat) : List Int :=
  let g := sqrtGcd wide inp n l
  if g ≠ n ∧ g ≠ 1 then [g] else []

/-- The search `while (!(mask & ((u_int64_t)(1) << l))) l++;` inside the range `l < 64` where
the shift is defined: it is given `64 - l` steps and reports `none` when it leaves that
range. -/
def skipClearBits (mask : Nat) : Nat → Nat → Option Nat
  | 0, _ => none
  | fuel + 1, l => if mask.testBit l then some l else skipClearBits mask fuel (l + 1)

/-- `while (!(mask & ((u_int64_t)(1) << l))) l++;` (line 1526) as the program runs it: the
loop has no bound on `l`, it ends at the first `l` whose shifted bit meets `mask`; `none`
when `fuel` tests have not found one. -/
def findSetBit (wide : Nat → Nat) (mask : Nat) : Nat → Nat → Option Nat
  | 0, _ => none
  | fuel + 1, l =>
    if mask &&& shiftOne wide l ≠ 0 then some l else findSetBit wide mask fuel (l + 1)

/-- `for (long l = 0; l < 64; l++) { ... }` of lines 1524-1555: the numbers printed after
`FACTORS:` within `fuel` rounds.  The test `l < 64` is made at the head of a round only: the
search of line 1526 may leave the range, and the body then runs with that `l`. -/
def factorLoop (wide : Nat → Nat) (inp : SqrtInput) (n : Int) (mask : Nat) :
    Nat → Nat → List Int
  | 0, _ => []
  | fuel + 1, l =>
    if l < 64 then
      match findSetBit wide mask (fuel + 1) l with
      | none => []
      | some l1 => printedAt wide inp n l1 ++ factorLoop wide inp n mask fuel (l1 + 1)
    else []

/-- Lines 1520-1555: divide the multiplier out of `n`, then run the loop over the
null-space bits. -/
def printedFactors (wide : Nat → Nat) (inp : SqrtInput) (fuel : Nat) : List Int :=
  factorLoop wide inp (mpz_div_ui inp.n inp.multiplier) (nullMask inp.nullrows inp.ncols) fuel 0

/-- The columns among `is` that belong to dependency `l`. -/
def selCols (wide : Nat → Nat) (inp : SqrtInput) (l : Nat) (is : List Nat) : List Nat :=
  is.filter (fun i => getNullEntry wide inp.nullrows i l)

/-- `relations[colarray[i].orig]` as a list of prime indices. -/
def relOf (inp : SqrtInput) (i : Nat) : List Nat :=
  inp.relations.getD (inp.orig.getD i 0) []

/-- `XArr[colarray[i].orig]`. -/
def xOf (inp : SqrtInput) (i : Nat) : Int :=
  inp.XArr.getD (inp.orig.getD i 0) 0

/-- A small run of the final loop: `N = 77`, two relations `13^2 = 20^2 = 3 * 5 (mod 77)`. -/
def sqrtExample : SqrtInput :=
  { n := 77, multiplier := 1, numPrimes := 4, ncols := 2, factorBase := [1, 2, 3, 5],
    XArr := [13, 20], relations := [[2, 3], [2, 3]], orig := [0, 1], nullrows := [1, 1] }

/-! ## lprels.cpp, read_matrix (lines 522-579) -/

/-- A relation line `X : e1 p1 e2 p2 ... 0` as `gmp_sscanf`, `strtok` and `atol` deliver it:
the value `X` and the `(exponent, prime index)` pairs that follow the colon. -/
structure RelLine where
  X : Int
  pairs : List (Nat × Nat)
  deriving DecidableEq

/-- Modelled from the spec: `xorColEntry` of `lanczos.h` (absent from the sources), "XOR a bit
at column = relation index, row = prime index"; a column is the list of its occupied rows. -/
def xorColEntry (col : List Nat) (p : Nat) : List Nat :=
  if p ∈ col then col.erase p else col ++ [p]

/-- Modelled from the spec: `clearCol` of `lanczos.h` (absent from the sources); a discarded
relation leaves an empty column. -/
def clearCol (_col : List Nat) : List Nat := []

/-- The variables `read_matrix` updates. -/
structure MatState where
  relsFound : Nat
  XArr : List Int
  relations : List (List Nat)
  colarray : List (List Nat)

/-- The pairs the parsing loop of lines 544-552 consumes: it leaves at the first zero
exponent (`e = atol(s); if (!e) break;`). -/
def parsedPairs (ln : RelLine) : List (Nat × Nat) :=
  ln.pairs.takeWhile (fun ep => ep.1 ≠ 0)

/-- Line 549: `if (e & 1) xorColEntry(colarray, *relsFound, p)` over the parsed pairs. -/
def parseColumn (col : List Nat) (ps : List (Nat × Nat)) : List Nat :=
  ps.foldl (fun c ep => if ep.1 % 2 = 1 then xorColEntry c ep.2 else c) col

/-- Line 550: `for (i = 0; i < e; i++) relations[*relsFound][++numfactors] = p`. -/
def parseRelation (ps : List (Nat × Nat)) : List Nat :=
  ps.foldl (fun r ep => r ++ List.replicate ep.1 ep.2) []

/-- Lines 556-560: the product of the listed primes, reduced whenever the 1-based position
`i` is a multiple of 30. -/
def checkProduct (n : Int) (factorBase : List Nat) : List Nat → Nat → Int → Int
  | [], _, test1 => test1
  | p :: ps, i, test1 =>
    let t := test1 * ((factorBase.getD p 0 : Nat) : Int)
    checkProduct n factorBase ps (i + 1) (if i % 30 = 0 then mpz_mod t n else t)

/-- Lines 555-572: whether the sanity check lets the relation stay.  `test1` and `test2`
are the reduced product and the reduced square; the line stays when they are equal or
when their sum is `n`. -/
def relationKept (n : Int) (factorBase : List Nat) (X : Int) (rel : List Nat) : Bool :=
  let test1 := mpz_mod (checkProduct n factorBase rel 1 1) n
  let test2 := mpz_mod (X * X) n
  if test1 ≠ test2 then
    if test1 + test2 ≠ n then false else true
  else true

/-- The body of the `while` loop of lines 538-573 for one line of the file. -/
def readLine (n : Int) (factorBase : List Nat) (st : MatState) (ln : RelLine) : MatState :=
  let c := st.relsFound
  let ps := parsedPairs ln
  let rel := parseRelation ps
  let st1 : MatState :=
    { relsFound := c
      XArr := st.XArr.set c ln.X
      relations := st.relations.set c rel
      colarray := st.colarray.set c (parseColumn (st.colarray.getD c []) ps) }
  if relationKept n factorBase ln.X rel then
    { st1 with relsFound := c + 1 }
  else
    { st1 with colarray := st1.colarray.set c (clearCol (st1.colarray.getD c [])) }

/-- The loop `while (fgets(...) && (*relsFound) < relSought)` over the lines of the file. -/
def read_matrix (n : Int) (factorBase : List Nat) (relSought : Nat) :
    List RelLine → MatState → MatState
  | [], st => st
  | ln :: rest, st =>
    if st.relsFound < relSought then
      read_matrix n factorBase relSought rest (readLine n factorBase st ln)
    else st

/-- The product `prod p_i^e_i` a relation line stands for. -/
def relationProduct (factorBase : List Nat) (ln : RelLine) : Int :=
  ((parsedPairs ln).map (fun ep => ((factorBase.getD ep.2 0 : Nat) : Int) ^ ep.1)).prod

/-- An empty matrix state with room for `relSought` columns. -/
def emptyMat (relSought : Nat) : MatState :=
  { relsFound := 0
    XArr := List.replicate relSought 0
    relations := List.replicate relSought []
    colarray := List.replicate relSought [] }

/-- The line `8 : 1 3 0` (the closing `0` is the terminator): over the factor base `[1, 2, 3, 13]` and `n = 77` it stands for
`8^2 = 64` against the product `13`, as the sieve writes it for `Q = 64 - 77 = -13`. -/
def negativeLine : RelLine := { X := 8, pairs := [(1, 3)] }

/-! ## lprels.cpp, combine_large_primes (lines 619-754) -/

/-- GMP `mpz_invert`: the inverse of `a` modulo `N` in `[0, |N|)` when there is one,
`none` (return value zero) when there is none. -/
def mpz_invert (a N : Int) : Option Int :=
  ((List.range N.natAbs).find? (fun x : Nat => decide ((a * (x : Int)) % N = 1 % N))).map
    (fun x : Nat => (x : Int))

/-- The conversion of a `long` to the `unsigned long` argument of `mpz_set_ui` and
`mpz_gcd_ui` on a 64-bit word. -/
def toUlong (x : Int) : Int := x % 2 ^ 64

/-- GMP `mpz_gcd_ui(rop, N, q)` with the `long` argument converted to `unsigned long`. -/
def mpz_gcd_ui (N : Int) (q : Int) : Int := (Int.gcd N (toUlong q) : Int)

/-- A partial relation line `q @ Y : e1 p1 ... 0` as `set_lp_entry` splits it
(`mpqs_lp_entry`), with `Y` read by `gmp_sscanf` and the exponent string by `strtok`/`atol`. -/
structure LpEntry where
  q : Int
  Y : Int
  E : List (Nat × Nat)
  deriving DecidableEq

/-- `ei[p] += e` on an array held as a list. -/
def addAt : List Nat → Nat → Nat → List Nat
  | [], _, _ => []
  | c :: cs, 0, e => (c + e) :: cs
  | c :: cs, k + 1, e => c :: addAt cs k e

/-- `set_exponents` (lines 619-633): add the exponents of a relation string to `ei`; the
loop leaves at the first zero exponent. -/
def set_exponents (ei : List Nat) (r : List (Nat × Nat)) : List Nat :=
  (r.takeWhile (fun ep => ep.1 ≠ 0)).foldl (fun a ep => addAt a ep.2 ep.1) ei

/-- What `combine_large_primes` hands back: the return value `c`, the lines written to
`FNEW` and the value stored in `factor` on the early return. -/
structure CombOut where
  c : Nat
  fnew : List RelLine
  factor : Option Int
  deriving DecidableEq

/-- The local variables of the main loop of `combine_large_primes`. -/
structure CombState where
  e0 : LpEntry
  e1 : LpEntry
  /-- the row `i` the next line is read into (0 or 1) -/
  i : Nat
  old_q : Int
  inv_q : Int
  Y1 : Int
  c : Nat
  fnew : List RelLine

/-- Outcome of the inversion loop at the start of a new run. -/
inductive RunStart where
  /-- the loop was left with `inv_q` and `old_q` -/
  | inverted (inv_q old_q : Int)
  /-- a divisor was stored in `factor` and the function returned -/
  | factor (g : Int)
  /-- the loop never ends -/
  | diverges

/-- Lines 700-713: `old_q = e[i].q; mpz_set_ui(inv_q, old_q); while (!mpz_invert(...))`.
When the inverse is missing and the gcd is `N`, `old_q` becomes `-1` and `continue`
re-tests the loop condition with `inv_q = N`; a second round with the same outcome
repeats for ever. -/
def startRun (N : Int) (q : Int) : RunStart :=
  match mpz_invert (toUlong q) N with
  | some inv => RunStart.inverted inv q
  | none =>
    if mpz_gcd_ui N q = N then
      match mpz_invert N N with
      | some inv => RunStart.inverted inv (-1)
      | none =>
        if mpz_gcd_ui N (-1) = N then RunStart.diverges
        else RunStart.factor (mpz_gcd_ui N (-1))
    else RunStart.factor (mpz_gcd_ui N q)

/-- Lines 727-732: `new_Y = Y1*Y2*inv_q mod N`, replaced by `N - new_Y` when that is
smaller in absolute value. -/
def combinedY (N Y1 Y2 inv_q : Int) : Int :=
  let new_Y := mpz_mod (Y1 * Y2 * inv_q) N
  let new_Y1 := N - new_Y
  if new_Y1.natAbs < new_Y.natAbs then new_Y1 else new_Y

/-- Lines 737-743: the pairs ` ei[l] l` for the non-zero entries, in index order. -/
def exponentPairs (ei : List Nat) : List (Nat × Nat) :=
  ((List.range ei.length).filter (fun l => ei.getD l 0 ≠ 0)).map (fun l => (ei.getD l 0, l))

/-- The body of the main loop (lines 694-748) over the remaining lines of `COMB`. -/
def combineLoop (numPrimes : Nat) (N : Int) : List LpEntry → CombState → Option CombOut
  | [], st => some { c := st.c, fnew := st.fnew, factor := none }
  | b :: rest, st =>
    let e0 := if st.i = 0 then b else st.e0
    let e1 := if st.i = 0 then st.e1 else b
    if b.q ≠ st.old_q then
      match startRun N b.q with
      | RunStart.inverted inv old_q =>
        combineLoop numPrimes N rest
          { st with e0 := e0, e1 := e1, old_q := old_q, inv_q := inv, Y1 := b.Y, i := 1 - st.i }
      | RunStart.factor g => some { c := st.c, fnew := st.fnew, factor := some g }
      | RunStart.diverges => none
    else
      let ei := set_exponents (set_exponents (List.replicate numPrimes 0) e0.E) e1.E
      let Y2 := b.Y
      if st.Y1.natAbs ≠ Y2.natAbs then
        combineLoop numPrimes N rest
          { st with e0 := e0, e1 := e1, c := st.c + 1,
                    fnew := st.fnew ++ [{ X := combinedY N st.Y1 Y2 st.inv_q,
                                          pairs := exponentPairs ei }] }
      else combineLoop numPrimes N rest { st with e0 := e0, e1 := e1 }

/-- `combine_large_primes` (lines 653-754) on the lines of `COMB`: the first line is read
(lines 665-692, skipping lines whose `q` has gcd `N` with `N`), then the main loop runs. -/
def combine_large_primes (numPrimes : Nat) (N : Int) : List LpEntry → Option CombOut
  | [] => some { c := 0, fnew := [], factor := none }
  | a :: rest =>
    match mpz_invert (toUlong a.q) N with
    | some inv =>
      combineLoop numPrimes N rest
        { e0 := a, e1 := { q := 0, Y := 0, E := [] }, i := 1, old_q := a.q, inv_q := inv,
          Y1 := a.Y, c := 0, fnew := [] }
    | none =>
      if mpz_gcd_ui N a.q = N then combine_large_primes numPrimes N rest
      else some { c := 0, fnew := [], factor := some (mpz_gcd_ui N a.q) }

/-- The total exponent a relation string gives to prime index `l`. -/
def exponentOf (E : List (Nat × Nat)) (l : Nat) : Nat :=
  (((E.takeWhile (fun ep => ep.1 ≠ 0)).filter (fun ep => ep.2 = l)).map (fun ep => ep.1)).sum

/-- The product `prod_{l < numPrimes} p_l ^ v l` over the factor base. -/
def smoothProduct (factorBase : List Nat) (numPrimes : Nat) (v : Nat → Nat) : Int :=
  ((List.range numPrimes).map (fun l => ((factorBase.getD l 0 : Nat) : Int) ^ v l)).prod

/-- A partial relation is sound: its prime indices lie in the factor base, `q` is a
machine word prime to `N`, and `Y^2 = q * prod p_l^E_l (mod N)`. -/
def LpSound (factorBase : List Nat) (numPrimes : Nat) (N : Int) (a : LpEntry) : Prop :=
  0 ≤ a.q ∧ a.q < 2 ^ 63 ∧ Int.gcd a.q N = 1 ∧
  (∀ ep ∈ a.E, ep.2 < numPrimes) ∧
  a.Y ^ 2 ≡ a.q * smoothProduct factorBase numPrimes (exponentOf a.E) [ZMOD N]

/-- The line written for the pair `(a, b)` is the combined relation: its square is the
product with the exponents added, and its exponent list is the pointwise sum, zero
entries left out, in increasing index order. -/
def CombinedFrom (factorBase : List Nat) (numPrimes : Nat) (N : Int) (a b : LpEntry)
    (ln : RelLine) : Prop :=
  a.q = b.q ∧
  ln.X ^ 2 ≡ smoothProduct factorBase numPrimes (fun l => exponentOf a.E l + exponentOf b.E l)
    [ZMOD N] ∧
  ln.pairs = ((List.range numPrimes).filter
      (fun l => exponentOf a.E l + exponentOf b.E l ≠ 0)).map
      (fun l => (exponentOf a.E l + exponentOf b.E l, l))

/-- Two partial relations over `N = 77` and the factor base `[1, 2, 3, 5]` sharing the
large prime `13`: `1^2 = 13 * 2 * 3` and `2^2 = 13 * 2^3 * 3 (mod 77)`. -/
def lpExample : List LpEntry :=
  [{ q := 13, Y := 1, E := [(1, 1), (1, 2)] }, { q := 13, Y := 2, E := [(3, 1), (1, 2)] }]

/-- The invariant of the main loop of `combine_large_primes`: the row that is not written
next holds the first line of the current run, `old_q`, `Y1` and `inv_q` belong to it, and
every line written so far is a combined relation of two lines of the file. -/
def CombInv (fb : List Nat) (numPrimes : Nat) (N : Int) (lines : List LpEntry)
    (st : CombState) : Prop :=
  st.i ≤ 1 ∧
  (∃ f ∈ lines, (if st.i = 0 then st.e1 else st.e0) = f ∧ st.old_q = f.q ∧ st.Y1 = f.Y ∧
    f.q * st.inv_q ≡ 1 [ZMOD N]) ∧
  ∀ ln ∈ st.fnew, ∃ a ∈ lines, ∃ b ∈ lines, CombinedFrom fb numPrimes N a b ln


/-! ## QS.cpp, modinverse (lines 265-316) -/

/-- A value as a signed `w`-bit `long` holds it (two's complement). -/
def wrapLong (w : Nat) (x : Int) : Int := (x + 2 ^ (w - 1)) % 2 ^ w - 2 ^ (w - 1)

/-- The globals `u1, u3, v1, v3` of the inversion routine. -/
structure InvState where
  u1 : Int
  u3 : Int
  v1 : Int
  v3 : Int
  deriving DecidableEq

/-- One pass of the body of `while (v3)` at lines 280-311, every result stored in a
`w`-bit `long`: `quot = u3 - v3`, the unrolled cases for quotient 0, 1, 2, 3 and the
general case with `quot = u3 / v3`. -/
def modinverseStep (w : Nat) (s : InvState) : InvState :=
  let quot := wrapLong w (s.u3 - s.v3)
  if s.u3 < wrapLong w (s.v3 * 4) then
    if quot < s.v3 then
      if quot < 0 then
        { u1 := s.v1, u3 := s.v3, v1 := s.u1, v3 := s.u3 }
      else
        { u1 := s.v1, u3 := s.v3,
          v1 := wrapLong w (s.u1 - s.v1), v3 := wrapLong w (s.u3 - s.v3) }
    else if quot < wrapLong w (s.v3 * 2) then
      { u1 := s.v1, u3 := s.v3,
        v1 := wrapLong w (s.u1 - wrapLong w (s.v1 * 2)),
        v3 := wrapLong w (s.u3 - wrapLong w (s.v3 * 2)) }
    else
      { u1 := s.v1, u3 := s.v3,
        v1 := wrapLong w (s.u1 - wrapLong w (s.v1 * 3)),
        v3 := wrapLong w (s.u3 - wrapLong w (s.v3 * 3)) }
  else
    let quot2 := wrapLong w (Int.tdiv s.u3 s.v3)
    { u1 := s.v1, u3 := s.v3,
      v1 := wrapLong w (s.u1 - wrapLong w (s.v1 * quot2)),
      v3 := wrapLong w (s.u3 - wrapLong w (s.v3 * quot2)) }

/-- The loop `while (v3) { ... }`; `none` when the fuel runs out before `v3 = 0`. -/
def modinverseLoop (w : Nat) : Nat → InvState → Option InvState
  | 0, s => if s.v3 = 0 then some s else none
  | fuel + 1, s =>
    if s.v3 = 0 then some s else modinverseLoop w fuel (modinverseStep w s)

/-- `modinverse(a, p)` on `w`-bit words: the arguments are stored in the `long` globals,
the loop runs (at most `p + 1` passes are allowed for), and `u1`, raised by `p` when
negative, is returned as an `unsigned long`. -/
def modinverse (w : Nat) (a p : Nat) : Option Int :=
  match modinverseLoop w (p + 1)
      { u1 := 1, u3 := wrapLong w a, v1 := 0, v3 := wrapLong w p } with
  | none => none
  | some s => some ((if s.u1 < 0 then s.u1 + (p : Int) else s.u1) % 2 ^ w)

/-- The ordinary extended Euclidean step with quotient `q = u3 / v3`. -/
def euclidStep (s : InvState) : InvState :=
  { u1 := s.v1, u3 := s.v3, v1 := s.u1 - s.v1 * (s.u3 / s.v3), v3 := s.u3 - s.v3 * (s.u3 / s.v3) }

/-- What the loop of `modinverse(a, p)` keeps true: the remainders are in range and
coprime, the coefficients alternate in sign with determinant `p`, and each row is a
multiple of `a` modulo `p`. -/
def InvInvariant (a p : Int) (s : InvState) : Prop :=
  0 < s.u3 ∧ s.u3 ≤ p ∧ 0 ≤ s.v3 ∧ s.v3 ≤ p ∧ -p ≤ s.u1 ∧ s.u1 ≤ p ∧
  IsCoprime s.u3 s.v3 ∧
  ((0 ≤ s.u1 ∧ s.v1 ≤ 0 ∧ s.u1 * s.v3 - s.v1 * s.u3 = p) ∨
    (s.u1 ≤ 0 ∧ 0 ≤ s.v1 ∧ s.v1 * s.u3 - s.u1 * s.v3 = p)) ∧
  s.u1 * a ≡ s.u3 [ZMOD p] ∧ s.v1 * a ≡ s.v3 [ZMOD p]

/-! ## TonelliShanks.cpp, sqrtmod (lines 67-120) -/

/-- GMP `mpz_kronecker(a, p)` for a prime lower argument `p`, the only case the sources
use: `(a/2)` is `0` for even `a`, `1` for `a = ±1 (mod 8)` and `-1` for `a = ±3 (mod 8)`;
for odd `p` it is the Legendre symbol, evaluated by Euler's criterion. -/
def mpz_kronecker (a : Int) (p : Nat) : Int :=
  if p = 2 then
    if a % 2 = 0 then 0 else if a % 8 = 1 ∨ a % 8 = 7 then 1 else -1
  else
    let e := (a % (p : Int)) ^ ((p - 1) / 2) % (p : Int)
    if e = 0 then 0 else if e = 1 then 1 else -1

/-- GMP `mpz_powm`: `b^e mod m`, never negative for a positive modulus. -/
def mpz_powm (b : Int) (e : Nat) (m : Int) : Int := b ^ e % m

/-- `modmul` of ModuloArith.cpp: `mpz_mul` followed by `mpz_fdiv_r`. -/
def modmul (a b p : Int) : Int := Int.fmod (a * b) p

/-- GMP `mpz_remove(p1, p1, two)`: the number of factors `2` taken out and what is left. -/
def removeTwos : Nat → Nat → Nat × Nat
  | 0, n => (0, n)
  | fuel + 1, n =>
    if n % 2 = 0 ∧ n ≠ 0 then ((removeTwos fuel (n / 2)).1 + 1, (removeTwos fuel (n / 2)).2)
    else (0, n)

/-- `for (k = 2; ; k++) if (mpz_ui_kronecker(k, p) == -1) break;` -/
def findNonResidue (p : Nat) : Nat → Nat → Option Nat
  | 0, _ => none
  | fuel + 1, k => if mpz_kronecker k p = -1 then some k else findNonResidue p fuel (k + 1)

/-- `for (m = 1; (m <= r-1) && (mpz_cmp_ui(bpow, 1)); m++) mpz_powm_ui(bpow, bpow, 2, p);`
with `n` the number of values of `m` still allowed; the result is the final `m`. -/
def findM (p : Int) : Nat → Int → Int → Int
  | 0, m, _ => m
  | n + 1, m, bpow => if bpow ≠ 1 then findM p n (m + 1) (mpz_powm bpow 2 p) else m

/-- The variables `xsq`, `b`, `r` of the main loop. -/
structure TSState where
  xsq : Int
  b : Int
  r : Int

/-- One pass of the body of `while (mpz_cmp_ui(b, 1))` at lines 100-114. -/
def tsStep (p g : Int) (st : TSState) : TSState :=
  let m := findM p (st.r - 1).toNat 1 st.b
  let gpow := (fun x => mpz_powm x 2 p)^[(st.r - m - 1).toNat] g
  let xsq := modmul st.xsq gpow p
  let gpow2 := mpz_powm gpow 2 p
  { xsq := xsq, b := modmul st.b gpow2 p, r := m }

/-- The loop `while (mpz_cmp_ui(b, 1)) { ... }`; `none` when the fuel runs out. -/
def tsLoop (p g : Int) : Nat → TSState → Option Int
  | 0, st => if st.b = 1 then some st.xsq else none
  | fuel + 1, st => if st.b = 1 then some st.xsq else tsLoop p g fuel (tsStep p g st)

/-- `sqrtmod(asqrt, a, p)`: the pair `(return value, asqrt)`; `fuel` bounds the search for
a non-residue and the passes of the main loop. -/
def sqrtmod (fuel : Nat) (a : Int) (p : Nat) : Option (Int × Int) :=
  if mpz_kronecker a p ≠ 1 then some (0, 0)
  else
    let r := (removeTwos (p - 1) (p - 1)).1
    let p1 := (removeTwos (p - 1) (p - 1)).2
    let b := mpz_powm a p1 p
    match findNonResidue p fuel 2 with
    | none => none
    | some k =>
      let g := mpz_powm k p1 p
      let xsq := mpz_powm a ((p1 + 1) / 2) p
      if b = 1 then some (1, xsq)
      else
        match tsLoop p g fuel { xsq := xsq, b := b, r := r } with
        | none => none
        | some x => some (1, x)

/-! ## QS.cpp, computeFactorBase (lines 425-455) -/

/-- The first prime among `c, c+1, ...`, looked for in `fuel` steps. -/
def nextPrimeSearch : Nat → Nat → Nat
  | 0, c => c
  | fuel + 1, c => if Nat.Prime c then c else nextPrimeSearch fuel (c + 1)

/-- GMP `mpz_nextprime`: the next prime greater than `n` (it lies below `2n + 2`). -/
def mpz_nextprime (n : Nat) : Nat := nextPrimeSearch (n + 2) (n + 1)

/-- GMP `mpz_get_ui` into an `unsigned long` of `w` bits: the low `w` bits of the value. -/
def mpz_get_ui (w : Nat) (x : Nat) : Nat := x % 2 ^ w

/-- The loop `while (primesinbase < B)` of lines 440-448; `fb` holds the entries written so
far (`primesinbase = fb.length`), `cur` is `currentPrime`; `none` when the fuel runs out. -/
def factorBaseLoop (w : Nat) (n : Int) (B : Nat) : Nat → Nat → List Nat → Option (List Nat)
  | 0, _, fb => if fb.length < B then none else some fb
  | fuel + 1, cur, fb =>
    if fb.length < B then
      factorBaseLoop w n B fuel (mpz_nextprime cur)
        (if mpz_kronecker n cur = 1 then fb ++ [mpz_get_ui w cur] else fb)
    else some fb

/-- `computeFactorBase(n, B, multiplier)` on `w`-bit words: the entries of `factorBase` in
index order. -/
def computeFactorBase (w fuel : Nat) (n : Int) (B multiplier : Nat) : Option (List Nat) :=
  factorBaseLoop w n B fuel 3 (if multiplier ≠ 2 then [multiplier, 2] else [multiplier])

/-- An odd prime `q` with Kronecker symbol `(n/q) = 1`. -/
def GoodPrime (n : Int) (q : Nat) : Prop :=
  Nat.Prime q ∧ q ≠ 2 ∧ mpz_kronecker n q = 1

/-- What the loop of `computeFactorBase` keeps true of the entries after the leading ones:
they increase strictly, are good primes below `cur`, and no good prime below `cur` is
missing. -/
def FactorBaseInv (n : Int) (cur : Nat) (rest : List Nat) : Prop :=
  Nat.Prime cur ∧ cur ≠ 2 ∧ List.Pairwise (· < ·) rest ∧
  (∀ q ∈ rest, GoodPrime n q ∧ q < cur) ∧
  ∀ q, q < cur → GoodPrime n q → q ∈ rest

/-! ## QS.cpp, mainRoutine: polynomial generation (lines 1189-1284), with the root
corrections of sieveInterval and sieve2 and the values of evaluateSieve -/

/-- The globals and constants that cut the factor base into sieving ranges. -/
structure SieveConfig where
  numPrimes : Nat
  firstprime : Nat
  /-- the constant `MEDIUMPRIME` -/
  MEDIUMPRIME : Nat
  midprime : Nat
  secondprime : Nat

/-- The ranges as `main` sets them (lines 1600-1605) with `MEDIUMPRIME = 900`,
`MIDPRIME = 1500`, `SECONDPRIME = 6000`. -/
def mainConfig (numPrimes firstprime : Nat) : SieveConfig :=
  { numPrimes := numPrimes
    firstprime := firstprime
    MEDIUMPRIME := 900
    midprime := if numPrimes < 1500 then numPrimes else 1500
    secondprime := if numPrimes < 6000 then numPrimes else 6000 }

/-- What the polynomial part of `mainRoutine` reads: the word size of `long`, `n = kN`,
the half width of the sieve, the factor base with the square roots of `n`, the indices
`aind` chosen for `A` and their offset `min`. -/
structure PolyInput where
  w : Nat
  n : Int
  Mdiv2 : Nat
  factorBase : List Nat
  sqrts : List Int
  aind : List Nat
  min : Nat
  cfg : SieveConfig

/-- The number `s` of prime factors of `A`. -/
def PolyInput.s (inp : PolyInput) : Nat := inp.aind.length

/-- `factorBase[aind[i]+min]`. -/
def aPrime (inp : PolyInput) (i : Nat) : Nat :=
  inp.factorBase.getD (inp.aind.getD i 0 + inp.min) 0

/-- `A`: `mpz_set_ui(A,1)` followed by one `mpz_mul_ui(A,A,factorBase[aind[i]+min])` per
chosen index. -/
def polyA (inp : PolyInput) : Int :=
  (List.range inp.s).foldl (fun A i => A * ((aPrime inp i : Nat) : Int)) 1

/-- Lines 1192-1193: `mpz_div_ui(temp,A,p); amodp[i] = mpz_fdiv_r_ui(temp,temp,p);` -/
def amodp (inp : PolyInput) (i : Nat) : Int :=
  (polyA inp / ((aPrime inp i : Nat) : Int)) % ((aPrime inp i : Nat) : Int)

/-- `modinverse(mpz_get_ui(temp), p)` used as a number. -/
def modinverseU (w : Nat) (a : Int) (p : Nat) : Int := (modinverse w a.toNat p).getD 0

/-- Lines 1195-1204: the term `Bterms[i]`. -/
def bTerm (inp : PolyInput) (i : Nat) : Int :=
  let p : Nat := aPrime inp i
  let t1 : Int := modinverseU inp.w (amodp inp i) p
  let t2 : Int := (t1 * inp.sqrts.getD (inp.aind.getD i 0 + inp.min) 0) % (p : Int)
  let t3 : Int := if t2 > ((p / 2 : Nat) : Int) then -(t2 - (p : Int)) else t2
  (t3 * polyA inp) / (p : Int)

/-- Lines 1207-1211: `B = Bterms[0] + Bterms[1] + ... + Bterms[s-1]`. -/
def initialB (inp : PolyInput) : Int :=
  (List.range' 1 (inp.s - 1)).foldl (fun B i => B + bTerm inp i) (bTerm inp 0)

/-- Lines 1241-1244: `for (j=0; j<s; j++) if (((polyindex>>j)&1)!=0) break;` with `k`
values of `j` left. -/
def lowBitLoop (polyindex : Nat) : Nat → Nat → Nat
  | 0, j => j
  | k + 1, j => if (polyindex >>> j).testBit 0 then j else lowBitLoop polyindex k (j + 1)

/-- The index `j` of the term flipped for `polyindex`. -/
def flipIndex (inp : PolyInput) (polyindex : Nat) : Nat := lowBitLoop polyindex inp.s 0

/-- Line 1245: `polyadd = (((polyindex>>j)&2)!=0)`. -/
def polyadd (inp : PolyInput) (polyindex : Nat) : Bool :=
  (polyindex >>> flipIndex inp polyindex).testBit 1

/-- Lines 1245-1253: `B` plus or minus twice `Bterms[j]`. -/
def flipB (inp : PolyInput) (B : Int) (polyindex : Nat) : Int :=
  if polyadd inp polyindex then
    B + bTerm inp (flipIndex inp polyindex) + bTerm inp (flipIndex inp polyindex)
  else B - bTerm inp (flipIndex inp polyindex) - bTerm inp (flipIndex inp polyindex)

/-- `B` of sibling `polyindex`: the initial `B` for 0, then one flip per step of the loop
`for (polyindex=1; polyindex<(1<<(s-1))-1; polyindex++)`. -/
def siblingB (inp : PolyInput) : Nat → Int
  | 0 => initialB inp
  | t + 1 => flipB inp (siblingB inp t) (t + 1)

/-- Lines 1282-1284: `C = (B*B - n) / A` by `mpz_divexact`. -/
def polyC (inp : PolyInput) (B : Int) : Int := (B * B - inp.n) / polyA inp

/-- evaluateSieve, lines 538-542: `X = A*x + B` with `x = i + ctimesreps - Mdiv2`. -/
def sieveX (A B : Int) (Mdiv2 ctimesreps i : Nat) : Int :=
  let temp : Int := ((i + ctimesreps : Nat) : Int) - (Mdiv2 : Int)
  B + A * temp

/-- evaluateSieve, lines 538-545: `res = (A*x + 2B)*x + C`. -/
def sieveQ (A B C : Int) (Mdiv2 ctimesreps i : Nat) : Int :=
  let temp : Int := ((i + ctimesreps : Nat) : Int) - (Mdiv2 : Int)
  let temp3 : Int := B + A * temp
  let temp2 : Int := (temp3 + B) * temp
  temp2 + C

/-- The polynomial `Q(x) = A*x^2 + 2*B*x + C`. -/
def polyQ (A B C x : Int) : Int := A * x ^ 2 + 2 * B * x + C

/-- Line 1216: `Ainv[i] = modinverse(mpz_fdiv_r_ui(temp,A,p),p)` with `p = factorBase[i]`. -/
def initAinv (inp : PolyInput) (i : Nat) : Int :=
  modinverseU inp.w (polyA inp % ((inp.factorBase.getD i 0 : Nat) : Int))
    (inp.factorBase.getD i 0)

/-- Lines 1218-1223: `Ainv2B[j][i] = (Bterms[j] mod p) * (2*Ainv[i]) mod p`. -/
def ainv2B (inp : PolyInput) (j i : Nat) : Int :=
  ((bTerm inp j % ((inp.factorBase.getD i 0 : Nat) : Int)) * (2 * initAinv inp i))
    % ((inp.factorBase.getD i 0 : Nat) : Int)

/-- Lines 1225-1230: `soln1[i]` for the initial `B`. -/
def initSoln1 (inp : PolyInput) (i : Nat) : Int :=
  let p : Int := ((inp.factorBase.getD i 0 : Nat) : Int)
  ((inp.sqrts.getD i 0 - initialB inp % p + p) * initAinv inp i + (inp.Mdiv2 : Int)) % p

/-- Lines 1231-1234: `soln2[i]` for the initial `B` (the sum is not reduced). -/
def initSoln2 (inp : PolyInput) (i : Nat) : Int :=
  let p : Int := ((inp.factorBase.getD i 0 : Nat) : Int)
  (-(inp.sqrts.getD i 0 - p) * (2 * initAinv inp i)) % p + initSoln1 inp i

/-- The arrays `soln1` and `soln2`. -/
structure SolnState where
  soln1 : List Int
  soln2 : List Int
  deriving DecidableEq

/-- Lines 1213-1235: the loop `for (i=0; i<numPrimes; i++)` filling both arrays. -/
def initSolns (inp : PolyInput) : SolnState :=
  { soln1 := (List.range inp.cfg.numPrimes).map (initSoln1 inp)
    soln2 := (List.range inp.cfg.numPrimes).map (initSoln2 inp) }

/-- `while (soln >= currentprime) soln -= currentprime;` in `fuel` passes at most. -/
def whileSub (p : Int) : Nat → Int → Int
  | 0, x => x
  | fuel + 1, x => if x ≥ p then whileSub p fuel (x - p) else x

/-- The correction of one root as sieveInterval (lines 797-801, 813-817, 866-870) and
sieve2 (lines 938-942, 967-971) apply it:
`correction = polyadd ? -polycorr[prime]+currentprime : polycorr[prime]`, then the
reduction loop. -/
def correctSoln (p polycorr : Int) (padd : Bool) (soln : Int) : Int :=
  let correction : Int := if padd then -polycorr + p else polycorr
  whileSub p (soln + correction).toNat (soln + correction)

/-- Both roots of `prime` corrected, with `polycorr = Ainv2B[j]`. -/
def correctAt (inp : PolyInput) (polyindex : Nat) (st : SolnState) (prime : Nat) : SolnState :=
  let p : Int := ((inp.factorBase.getD prime 0 : Nat) : Int)
  let pc : Int := ainv2B inp (flipIndex inp polyindex) prime
  { soln1 := st.soln1.set prime (correctSoln p pc (polyadd inp polyindex)
      (st.soln1.getD prime 0))
    soln2 := st.soln2.set prime (correctSoln p pc (polyadd inp polyindex)
      (st.soln2.getD prime 0)) }

/-- The same behind the test `if (soln2[prime] == 0xFFFFFFFF) continue;`. -/
def correctAtChecked (inp : PolyInput) (polyindex : Nat) (st : SolnState) (prime : Nat) :
    SolnState :=
  if st.soln2.getD prime 0 = 0xFFFFFFFF then st else correctAt inp polyindex st prime

/-- sieve2 (lines 933-985) as far as the roots go: the primes of `[midprime, secondprime)`
and of `[secondprime, numPrimes)` are corrected. -/
def sieve2Solns (inp : PolyInput) (polyindex : Nat) (st : SolnState) : SolnState :=
  let st1 := (List.range' inp.cfg.midprime (inp.cfg.secondprime - inp.cfg.midprime)).foldl
    (correctAt inp polyindex) st
  (List.range' inp.cfg.secondprime (inp.cfg.numPrimes - inp.cfg.secondprime)).foldl
    (correctAt inp polyindex) st1

/-- sieveInterval with `first` set (lines 791-908) as far as the roots go: the primes of
`[1, firstprime)` and `[firstprime, MEDIUMPRIME)` are corrected unless `soln2` holds the
sentinel, those of `[MEDIUMPRIME, midprime)` always. -/
def sieveIntervalSolns (inp : PolyInput) (polyindex : Nat) (st : SolnState) : SolnState :=
  let st1 := (List.range' 1 (inp.cfg.firstprime - 1)).foldl
    (correctAtChecked inp polyindex) st
  let st2 := (List.range' inp.cfg.firstprime (inp.cfg.MEDIUMPRIME - inp.cfg.firstprime)).foldl
    (correctAtChecked inp polyindex) st1
  (List.range' inp.cfg.MEDIUMPRIME (inp.cfg.midprime - inp.cfg.MEDIUMPRIME)).foldl
    (correctAt inp polyindex) st2

/-- Lines 1260-1274: the root of the prime `factorBase[aind[j]+min]` of `A`. -/
def aPrimeSoln (inp : PolyInput) (B : Int) (j : Nat) : Int :=
  let p : Int := ((aPrime inp j : Nat) : Int)
  let D : Int := inp.n % (p * p)
  let Bdivp2 : Int := B % (p * p)
  let u1 : Int := modinverseU inp.w (((Bdivp2 * amodp inp j) % p) % p) (aPrime inp j)
  ((-(Bdivp2 * Bdivp2 - D)) / p * u1 + (inp.Mdiv2 : Int) + p) % p

/-- Lines 1257-1276: for every prime of `A`, `soln1` is recomputed and `soln2` is set to
the sentinel `0xFFFFFFFF`. -/
def recomputeAPrimes (inp : PolyInput) (B : Int) (st : SolnState) : SolnState :=
  (List.range inp.s).foldl
    (fun st j =>
      { soln1 := st.soln1.set (inp.aind.getD j 0 + inp.min) (aPrimeSoln inp B j)
        soln2 := st.soln2.set (inp.aind.getD j 0 + inp.min) 0xFFFFFFFF })
    st

/-- The arrays `soln1`, `soln2` after the corrections for sibling `polyindex` (sieve2, then
the first block of sieveInterval, lines 1293 and 1298); for 0 the initial arrays. -/
def siblingSolns (inp : PolyInput) : Nat → SolnState
  | 0 => initSolns inp
  | t + 1 =>
    sieveIntervalSolns inp (t + 1)
      (sieve2Solns inp (t + 1)
        (recomputeAPrimes inp (siblingB inp (t + 1)) (siblingSolns inp t)))

/-- The primes chosen for `A` are as the selection loop and the factor base leave them:
at least one, all prime, pairwise different, each within the word range of `modinverse`,
and `sqrts` holds a square root of `n` modulo each. -/
def GoodA (inp : PolyInput) : Prop :=
  1 ≤ inp.s ∧
  (∀ i, i < inp.s → Nat.Prime (aPrime inp i)) ∧
  (∀ i, i < inp.s → ∀ l, l < inp.s → i ≠ l → aPrime inp i ≠ aPrime inp l) ∧
  (∀ i, i < inp.s → 4 * ((aPrime inp i : Nat) : Int) < 2 ^ (inp.w - 1)) ∧
  (∀ i, i < inp.s →
    inp.sqrts.getD (inp.aind.getD i 0 + inp.min) 0 ^ 2 ≡ inp.n [ZMOD ((aPrime inp i : Nat) : Int)])

/-- The sign of `Bterms[i]` in the `B` of sibling `t`: bit `i` of the Gray code of `t`. -/
def graySign (t i : Nat) : Int := if xor (t.testBit i) (t.testBit (i + 1)) then -1 else 1

/-- A small polynomial family: `n = 77`, `A = 17 * 23 * 37`, sieve half width 10. -/
def polyExample : PolyInput :=
  { w := 64, n := 77, Mdiv2 := 10,
    factorBase := [1, 2, 13, 17, 19, 23, 37, 41],
    sqrts := [0, 1, 5, 3, 1, 10, 15, 6],
    aind := [1, 3, 4], min := 2,
    cfg := { numPrimes := 8, firstprime := 3, MEDIUMPRIME := 7, midprime := 7,
             secondprime := 7 } }

/-- The pair `(soln1[i], soln2[i])`. -/
def SolnState.entry (st : SolnState) (i : Nat) : Int × Int :=
  (st.soln1.getD i 0, st.soln2.getD i 0)

/-- Both arrays have `N` entries. -/
def SolnState.Sized (st : SolnState) (N : Nat) : Prop :=
  st.soln1.length = N ∧ st.soln2.length = N

/-- The correction of sibling `polyindex` on the pair of roots of prime index `i`. -/
def correctedEntry (inp : PolyInput) (polyindex i : Nat) (e : Int × Int) : Int × Int :=
  (correctSoln ((inp.factorBase.getD i 0 : Nat) : Int) (ainv2B inp (flipIndex inp polyindex) i)
      (polyadd inp polyindex) e.1,
    correctSoln ((inp.factorBase.getD i 0 : Nat) : Int) (ainv2B inp (flipIndex inp polyindex) i)
      (polyadd inp polyindex) e.2)

/-- The same behind the sentinel test. -/
def checkedEntry (inp : PolyInput) (polyindex i : Nat) (e : Int × Int) : Int × Int :=
  if e.2 = 0xFFFFFFFF then e else correctedEntry inp polyindex i e

/-- The ranges of the factor base follow one another:
`firstprime ≤ MEDIUMPRIME ≤ midprime ≤ secondprime ≤ numPrimes`. -/
def SieveConfig.Ordered (c : SieveConfig) : Prop :=
  c.firstprime ≤ c.MEDIUMPRIME ∧ c.MEDIUMPRIME ≤ c.midprime ∧ c.midprime ≤ c.secondprime ∧
    c.secondprime ≤ c.numPrimes

/-- A factor-base prime outside `A` whose roots the sieve follows: index `i ≥ 2` inside the
factor base, `p = factorBase[i]` prime, not a divisor of `A`, inside the word range of
`modinverse` and below the sentinel, with `sqrts[i]^2 = n (mod p)`. -/
def SievedPrime (inp : PolyInput) (i : Nat) : Prop :=
  2 ≤ i ∧ i < inp.cfg.numPrimes ∧ Nat.Prime (inp.factorBase.getD i 0) ∧
  ¬ ((inp.factorBase.getD i 0 : Nat) : Int) ∣ polyA inp ∧
  4 * ((inp.factorBase.getD i 0 : Nat) : Int) < 2 ^ (inp.w - 1) ∧
  2 * ((inp.factorBase.getD i 0 : Nat) : Int) ≤ 0xFFFFFFFF ∧
  inp.sqrts.getD i 0 ^ 2 ≡ inp.n [ZMOD ((inp.factorBase.getD i 0 : Nat) : Int)]

/-! ## lprels.cpp, the relation files (lines 97-484)

A C string is the list of its bytes before the terminating NUL.  A file is the list of its
lines, each with its closing newline; every line is taken to be shorter than
`MPQS_STRING_LENGTH`, so that one `fgets` delivers one line. -/

/-- C `strcmp`: zero on equal strings, else the sign of the first differing byte. -/
def strcmp : List Char → List Char → Int
  | [], [] => 0
  | [], _ :: _ => -1
  | _ :: _, [] => 1
  | a :: s, b :: t => if a = b then strcmp s t else (a.toNat : Int) - (b.toNat : Int)

/-- C `isspace` in the C locale: space and the bytes 9 to 13. -/
def isspace (c : Char) : Bool := c = ' ' || (9 ≤ c.toNat && c.toNat ≤ 13)

/-- C `isdigit`. -/
def isdigit (c : Char) : Bool := 48 ≤ c.toNat && c.toNat ≤ 57

/-- The value of the leading run of decimal digits, continuing from `acc`. -/
def digitsValue : Nat → List Char → Nat
  | acc, [] => acc
  | acc, c :: s => if isdigit c then digitsValue (10 * acc + (c.toNat - 48)) s else acc

/-- The range of a `long` of `w` bits: out-of-range values are replaced by the nearest
bound, as `strtol` does. -/
def clampLong (w : Nat) (x : Int) : Int :=
  if x < -(2 ^ (w - 1)) then -(2 ^ (w - 1))
  else if 2 ^ (w - 1) - 1 < x then 2 ^ (w - 1) - 1 else x

/-- C `strtol(s, NULL, 10)` on a `long` of `w` bits: leading white space, an optional sign,
then the run of digits (zero when there is none). -/
def strtol (w : Nat) (s : List Char) : Int :=
  match s.dropWhile isspace with
  | '-' :: t => clampLong w (-(digitsValue 0 t : Int))
  | '+' :: t => clampLong w (digitsValue 0 t)
  | t => clampLong w (digitsValue 0 t)

/-- C `atol`, which is `strtol(s, NULL, 10)`. -/
def atol (w : Nat) (s : List Char) : Int := strtol w s

/-- `relations_cmp` (lines 97-107): by leading number, ties by `strcmp`. -/
def relations_cmp (w : Nat) (a b : List Char) : Int :=
  let qa := strtol w a
  let qb := strtol w b
  if qa < qb then -1
  else if qa > qb then 1
  else strcmp a b

/-- C `qsort` with `relations_cmp`: the sorted arrangement; elements that compare equal
are equal strings, so the arrangement does not depend on the sorting method. -/
def qsort (w : Nat) (table : List (List Char)) : List (List Char) :=
  table.insertionSort (fun a b => relations_cmp w a b ≤ 0)

/-- The reading loop of `sort_lp_file` (lines 169-221),
`for (i = 0, sort_table--; ; i++, sort_table--)`: `cur` is the line sitting in `cur_line`,
`table` the array from `sort_table + 1` upwards, `rest` the lines not yet read.  The body
stores `cur` at `*sort_table` and leaves by `break`, without the increment of `i`, when
`fgets` finds no further line.  Returns `i` and the array from `sort_table` upwards. -/
def readLoop : List (List Char) → Nat → List (List Char) → List Char →
    Nat × List (List Char)
  | [], i, table, cur => (i, cur :: table)
  | l :: rest, i, table, cur => readLoop rest (i + 1) (cur :: table) l

/-- The writing loop of `sort_lp_file` (lines 231-239): `for (j = 1; j < i; j++)`, writing
`sort_table[j]` unless it equals `old_s`; `pending` is `sort_table[j ..]`, `fuel` is
`i - j`. -/
def writeLoop : Nat → List Char → List (List Char) → List (List Char) × Nat →
    List (List Char) × Nat
  | 0, _, _, out => out
  | _ + 1, _, [], out => out
  | fuel + 1, old_s, l :: pending, out =>
    writeLoop fuel l pending
      (if strcmp old_s l ≠ 0 then (out.1 ++ [l], out.2 + 1) else out)

/-- `sort_lp_file` (lines 130-255): the file afterwards and the return value `count`.  An
empty file is left alone with return value 0. -/
def sort_lp_file (w : Nat) (file : List (List Char)) : List (List Char) × Nat :=
  match file with
  | [] => ([], 0)
  | first :: rest =>
    let r := readLoop rest 0 [] first
    let i := r.1
    let sort_table := qsort w (r.2.take i) ++ r.2.drop i
    let s0 := sort_table.headD []
    writeLoop (i - 1) s0 sort_table.tail ([s0], 1)

/-! ## lprels.cpp, mergesort_lp_file_internal (lines 294-484) -/

/-- The files and the local variables of `mergesort_lp_file_internal`.  `lprel` and `lpnew`
hold the lines not yet read, `tmp` and `comb` the lines written so far.  The last two
fields are not variables of the program: `dropped` counts the passes through the branch
`/* do nothing here */` that discards an exact duplicate, `runs` the writes of a first
line (`line_new_old` or `line`) that open a run in `COMB`. -/
structure MergeState where
  lprel : List (List Char)
  lpnew : List (List Char)
  tmp : List (List Char)
  comb : List (List Char)
  line_new : List Char
  line_new_old : List Char
  line : List Char
  q_new : Int
  q_new_old : Int
  q : Int
  i : Nat
  c : Nat
  comb_in_progress : Bool
  dropped : Nat
  runs : Nat
  deriving DecidableEq

/-- What `mergesort_lp_file_internal` leaves: the files `TMP` (the future `LPREL`) and
`COMB`, the return value, and the two counters of `MergeState`. -/
structure MergeOut where
  tmp : List (List Char)
  comb : List (List Char)
  ret : Nat
  dropped : Nat
  runs : Nat
  deriving DecidableEq

/-- The three inner loops of the main merging loop `for(;;)`. -/
inductive MergePhase where
  /-- `while (q > q_new)`, lines 369-401 -/
  | newCatchesUp
  /-- `while (q < q_new)`, lines 410-422 -/
  | relCatchesUp
  /-- `while (q == q_new)`, lines 434-471 -/
  | equalKeys
  deriving DecidableEq

/-- The macro `swap_lines()`: the two line buffers change places. -/
def swap_lines (st : MergeState) : MergeState :=
  { st with line_new := st.line_new_old, line_new_old := st.line_new }

/-- Lines 388-399 and 446-456: write the first line `head` of a run to `COMB` unless the
run is in progress, then the current line, and count it. -/
def writeCombinable (head : List Char) (st : MergeState) : MergeState :=
  let st1 : MergeState :=
    if !st.comb_in_progress then
      { st with comb := st.comb ++ [head], comb_in_progress := true, runs := st.runs + 1 }
    else st
  { st1 with comb := st1.comb ++ [st1.line_new], i := st1.i + 1 }

/-- The loop of lines 329-357, run when `LPREL` is empty in large-prime mode, over the
lines of `LPNEW` that follow the first. -/
def relEmptyLoop (w : Nat) : List (List Char) → MergeState → MergeOut
  | [], st =>
    { tmp := st.tmp, comb := st.comb, ret := st.i, dropped := st.dropped, runs := st.runs }
  | l :: rest, st =>
    let st1 : MergeState := { st with lpnew := rest, line_new := l, q_new := atol w l }
    if st1.q_new_old = st1.q_new then
      relEmptyLoop w rest (writeCombinable st1.line_new_old st1)
    else
      relEmptyLoop w rest
        (swap_lines { st1 with q_new_old := st1.q_new, comb_in_progress := false,
                               tmp := st1.tmp ++ [st1.line_new] })

/-- One pass through the test of the inner loop `ph`: either one iteration of its body or
the way to the next loop, with the assignments that stand between the loops (lines
405-407 after the first, line 473 and the head of `for(;;)`, line 365, after the third).
`COMB` tells whether the file `COMB` is non-NULL (large-prime mode).  A `return` gives
`Sum.inl`. -/
def mergeStep (w : Nat) ( COMB : Bool) (ph : MergePhase) (st : MergeState) :
    Sum MergeOut (MergePhase × MergeState) :=
  match ph with
  | MergePhase.newCatchesUp =>
    if st.q > st.q_new then
      let st1 : MergeState :=
        if !COMB || !st.comb_in_progress then { st with tmp := st.tmp ++ [st.line_new] }
        else st
      let st2 : MergeState :=
        if !COMB then { st1 with c := st1.c + 1 }
        else if !st1.comb_in_progress then swap_lines { st1 with q_new_old := st1.q_new }
        else st1
      match st2.lpnew with
      | [] =>
        let c := if !COMB then st2.c + 1 else st2.c + st2.i
        Sum.inl
          { tmp := st2.tmp ++ [st2.line] ++ st2.lprel, comb := st2.comb
            ret := if COMB then c else c + st2.lprel.length
            dropped := st2.dropped, runs := st2.runs }
      | l :: rest =>
        let st3 : MergeState := { st2 with lpnew := rest, line_new := l, q_new := atol w l }
        if !COMB then Sum.inr (MergePhase.newCatchesUp, st3)
        else if st3.q_new_old ≠ st3.q_new then
          Sum.inr (MergePhase.newCatchesUp, { st3 with comb_in_progress := false })
        else Sum.inr (MergePhase.newCatchesUp, writeCombinable st3.line_new_old st3)
    else
      Sum.inr (MergePhase.relCatchesUp,
        { st with c := if COMB then st.c + st.i else st.c, i := 0, comb_in_progress := false })
  | MergePhase.relCatchesUp =>
    if st.q < st.q_new then
      let st1 : MergeState :=
        { st with tmp := st.tmp ++ [st.line], c := if !COMB then st.c + 1 else st.c }
      match st1.lprel with
      | [] =>
        Sum.inl
          { tmp := st1.tmp ++ [st1.line_new] ++ st1.lpnew, comb := st1.comb
            ret := if COMB then st1.c else st1.c + st1.lpnew.length + 1
            dropped := st1.dropped, runs := st1.runs }
      | l :: rest =>
        Sum.inr (MergePhase.relCatchesUp, { st1 with lprel := rest, line := l, q := atol w l })
    else Sum.inr (MergePhase.equalKeys, st)
  | MergePhase.equalKeys =>
    if st.q = st.q_new then
      let st1 : MergeState :=
        if strcmp st.line_new st.line = 0 then { st with dropped := st.dropped + 1 }
        else if !COMB then { st with tmp := st.tmp ++ [st.line_new], c := st.c + 1 }
        else writeCombinable st.line st
      match st1.lpnew with
      | [] =>
        let c := if !COMB then st1.c + 1 else st1.c + st1.i
        Sum.inl
          { tmp := st1.tmp ++ [st1.line] ++ st1.lprel, comb := st1.comb
            ret := if COMB then c else c + st1.lprel.length
            dropped := st1.dropped, runs := st1.runs }
      | l :: rest =>
        Sum.inr (MergePhase.equalKeys,
          { st1 with lpnew := rest, line_new := l, q_new := atol w l })
    else
      Sum.inr (MergePhase.newCatchesUp,
        { st with c := if COMB then st.c + st.i else st.c, i := 0, comb_in_progress := false })

/-- The main merging loop, `fuel` passes of `mergeStep`; `none` when the fuel runs out. -/
def mergeRun (w : Nat) ( COMB : Bool) : Nat → MergePhase → MergeState → Option MergeOut
  | 0, _, _ => none
  | fuel + 1, ph, st =>
    match mergeStep w COMB ph st with
    | Sum.inl out => some out
    | Sum.inr next => mergeRun w COMB fuel next.1 next.2

/-- The variables after the first line of each file has been read (lines 358-360). -/
def mergeStart (w : Nat) (line_new : List Char) (new_rest : List (List Char))
    (line : List Char) (rel_rest : List (List Char)) : MergeState :=
  { lprel := rel_rest, lpnew := new_rest, tmp := [], comb := []
    line_new := line_new, line_new_old := [], line := line
    q_new := atol w line_new, q_new_old := -1, q := atol w line
    i := 0, c := 0, comb_in_progress := false, dropped := 0, runs := 0 }

/-- `mergesort_lp_file_internal(LPREL, LPNEW, COMB, TMP)` on the lines of the two input
files; `COMB` is `true` in large-prime mode (file non-NULL), `false` in full-relations
mode. -/
def mergesort_lp_file_internal (w fuel : Nat) ( COMB : Bool) ( LPREL LPNEW : List (List Char)) :
    Option MergeOut :=
  match LPNEW with
  | [] =>
    some { tmp := LPREL, comb := [], ret := if COMB then 0 else LPREL.length
           dropped := 0, runs := 0 }
  | line_new :: new_rest =>
    match LPREL with
    | [] =>
      if !COMB then
        some { tmp := [line_new] ++ new_rest, comb := [], ret := new_rest.length + 1
               dropped := 0, runs := 0 }
      else
        some (relEmptyLoop w new_rest
          (swap_lines
            { lprel := [], lpnew := new_rest, tmp := [line_new], comb := []
              line_new := line_new, line_new_old := [], line := []
              q_new := 0, q_new_old := atol w line_new, q := 0
              i := 0, c := 0, comb_in_progress := false, dropped := 0, runs := 0 }))
    | line :: rel_rest =>
      mergeRun w COMB fuel MergePhase.newCatchesUp (mergeStart w line_new new_rest line rel_rest)

/-- How many passes of `mergeStep` can go by at most before a line is read: the tests of
the three loops exclude one another. -/
def mergeRank (ph : MergePhase) (st : MergeState) : Nat :=
  match ph with
  | MergePhase.newCatchesUp => if st.q > st.q_new then 0 else if st.q < st.q_new then 1 else 2
  | MergePhase.relCatchesUp => if st.q < st.q_new then 0 else if st.q = st.q_new then 1 else 2
  | MergePhase.equalKeys => if st.q = st.q_new then 0 else if st.q > st.q_new then 1 else 2

/-- A bound on the passes of `mergeStep` still to come: three for each unread line. -/
def mergeMeasure (ph : MergePhase) (st : MergeState) : Nat :=
  3 * (st.lprel.length + st.lpnew.length) + mergeRank ph st

/-- Whether `line_new` still waits to be written: in the first loop a line already sent
to `COMB` (run in progress) does not. -/
def pendingNew (ph : MergePhase) (st : MergeState) : Nat :=
  if ph = MergePhase.newCatchesUp ∧ st.comb_in_progress = true then 0 else 1

/-- The bookkeeping of the main loop in large-prime mode, for input files of `total` lines
together: every line read is in `TMP`, or in `COMB` behind the first line of its run
(`c + i` of them), or dropped, or waits in `line` or `line_new`. -/
def MergeInv (total : Nat) (ph : MergePhase) (st : MergeState) : Prop :=
  st.tmp.length + (st.c + st.i) + st.dropped + pendingNew ph st + 1
      + st.lprel.length + st.lpnew.length = total ∧
  st.comb.length = st.c + st.i + st.runs ∧
  (ph = MergePhase.relCatchesUp → st.i = 0) ∧
  (ph = MergePhase.newCatchesUp → st.comb_in_progress = true →
    st.q_new_old = st.q_new ∧ st.q > st.q_new)

/-! ## lprels.cpp and QS.cpp, relation lines as strings (lines 538-553, 591-646) -/

/-- The decimal digits of `n`, most significant first, in front of `acc`; `fuel` bounds
the number of digits. -/
def decimalAux : Nat → Nat → List Char → List Char
  | 0, _, acc => acc
  | fuel + 1, n, acc =>
    if n < 10 then Char.ofNat (48 + n) :: acc
    else decimalAux fuel (n / 10) (Char.ofNat (48 + n % 10) :: acc)

/-- The decimal numeral of a natural number (`0` for zero). -/
def decimal (n : Nat) : List Char := decimalAux (n + 1) n []

/-- The conversion `%Zd` of `gmp_sprintf`, and `%ld` on a value of the `long` range: a
minus sign for negative values, then the decimal numeral. -/
def printInt (x : Int) : List Char :=
  if x < 0 then '-' :: decimal x.natAbs else decimal x.natAbs

/-- The conversion `%ld` of `sprintf` applied to an `unsigned long` argument of `w` bits:
the bits are read as a `long`. -/
def printLd (w : Nat) (x : Nat) : List Char := printInt (wrapLong w x)

/-- `add_factor` (lines 591-595): `sprintf(*last, " %ld %ld", ei, pi)` at the end of the
string written so far. -/
def add_factor (w : Nat) (str : List Char) (ei pi : Nat) : List Char :=
  str ++ ' ' :: printLd w ei ++ ' ' :: printLd w pi

/-- `add_0` (lines 601-607): the closing ` 0`. -/
def add_0 (str : List Char) : List Char := str ++ [' ', '0']

/-- The string `rel_str` that `add_factor`, called for each pair in turn, and `add_0`
build. -/
def relString (w : Nat) (pairs : List (Nat × Nat)) : List Char :=
  add_0 (pairs.foldl (fun str ep => add_factor w str ep.1 ep.2) [])

/-- The text of a partial relation line, `fprintf(LPNEW, "%s @ %s :%s\n", Q_str, X_str,
rel_str)` with `Q_str` and `X_str` written by `gmp_sprintf` with `%Zd` (QS.cpp, lines
692-695); the arrays the three strings pass through are in `writePartial`. -/
def partialLine (w : Nat) (q X : Int) (pairs : List (Nat × Nat)) : List Char :=
  printInt q ++ [' ', '@', ' '] ++ printInt X ++ [' ', ':'] ++ relString w pairs ++ ['\n']

/-- The text of a full relation line, `fprintf(RELS, "%s :%s\n", X_str, rel_str)` (QS.cpp,
line 748). -/
def fullLine (w : Nat) (X : Int) (pairs : List (Nat × Nat)) : List Char :=
  printInt X ++ [' ', ':'] ++ relString w pairs ++ ['\n']

/-- C `strchr` followed by cutting the string there: the part before the first `c` and the
part behind it; `none` when `c` does not occur (`strchr` returns NULL). -/
def cutAt (c : Char) : List Char → Option (List Char × List Char)
  | [] => none
  | a :: s =>
    if a = c then some ([], s)
    else (cutAt c s).map (fun r => (a :: r.1, r.2))

/-- `#define MPQS_STRING_LENGTH (4 * 1024UL)` (lprels.h, line 29). -/
def MPQS_STRING_LENGTH : Nat := 4 * 1024

/-- `fgets(buf, n, file)` when the next line of the file is `line`, newline included: at
most `n - 1` bytes are delivered. -/
def fgets (n : Nat) (line : List Char) : List Char := line.take (n - 1)

/-- A string written into an array `char buf[cap]` by `sprintf`, `gmp_sprintf` or `strcpy`,
none of which looks at the size of the array: the bytes and their closing NUL have to fit;
`none` when the write leaves the array. -/
def intoBuffer (cap : Nat) (s : List Char) : Option (List Char) :=
  if s.length < cap then some s else none

/-- `set_lp_entry` (lines 637-646): `q` by `atol` from the text before the first blank, `Y`
from three bytes further on to the next blank, `E` from three bytes further on to the
newline, both copied by `strcpy` into the arrays `Y` and `E` of `MPQS_STRING_LENGTH` bytes;
`none` when a `strchr` finds nothing or a copy does not fit. -/
def set_lp_entry (w : Nat) (buf : List Char) : Option (Int × List Char × List Char) :=
  match cutAt ' ' buf with
  | none => none
  | some (s1, r1) =>
    match cutAt ' ' (r1.drop 2) with
    | none => none
    | some (Y, r2) =>
      match cutAt '\n' (r2.drop 2) with
      | none => none
      | some (E, _) =>
        match intoBuffer MPQS_STRING_LENGTH Y, intoBuffer MPQS_STRING_LENGTH E with
        | some Y1, some E1 => some (atol w s1, Y1, E1)
        | _, _ => none

/-- The tokens that `strtok(s, " \n")` and the calls `strtok(NULL, " \n")` after it deliver,
in order; `cur` is the token begun. -/
def strtokAll : List Char → List Char → List (List Char)
  | cur, [] => if cur.isEmpty then [] else [cur]
  | cur, c :: s =>
    if c = ' ' || c = '\n' then
      if cur.isEmpty then strtokAll [] s else cur :: strtokAll [] s
    else strtokAll (cur ++ [c]) s

/-- The loop of `set_exponents` (lines 626-632) and of `read_matrix` (lines 544-552) over
the tokens: `e = atol(s); if (!e) break;` then the index from the next token.  `none` when
that token is missing (`atol` is handed NULL). -/
def tokenPairs (w : Nat) : List (List Char) → Option (List (Int × Int))
  | [] => some []
  | [t] => if atol w t = 0 then some [] else none
  | t :: u :: rest =>
    if atol w t = 0 then some []
    else (tokenPairs w rest).map (fun ps => (atol w t, atol w u) :: ps)

/-- The conversion `%Zd` of `gmp_sscanf`: white space, an optional minus sign, then the
run of digits; `none` when no digit follows (nothing is stored). -/
def gmp_sscanf (s : List Char) : Option Int :=
  match s.dropWhile isspace with
  | '-' :: c :: t => if isdigit c then some (-(digitsValue 0 (c :: t) : Int)) else none
  | c :: t => if isdigit c then some (digitsValue 0 (c :: t) : Int) else none
  | [] => none

/-- The pairs as the arrays of `unsigned long` take them. -/
def natPairs (ps : List (Int × Int)) : List (Nat × Nat) :=
  ps.map (fun ep => (ep.1.toNat, ep.2.toNat))

/-- A line of `COMB` as `combine_large_primes` reads it (lines 669, 691, 725-727):
`set_lp_entry`, `Y` by `gmp_sscanf`, the pairs of `E` by the loop of `set_exponents`. -/
def lpEntryOfLine (w : Nat) (buf : List Char) : Option LpEntry :=
  match set_lp_entry w buf with
  | none => none
  | some (q, Y, E) =>
    match gmp_sscanf Y, tokenPairs w (strtokAll [] E) with
    | some y, some ps => some { q := q, Y := y, E := natPairs ps }
    | _, _ => none

/-- A line of the full relations file as `read_matrix` reads it (lines 541-552):
`gmp_sscanf(buf, "%Zd", ...)`, then the tokens from two bytes behind the colon. -/
def relLineOfLine (w : Nat) (buf : List Char) : Option RelLine :=
  match gmp_sscanf buf, cutAt ':' buf with
  | some x, some (_, r) =>
    (tokenPairs w (strtokAll [] (r.drop 1))).map (fun ps => { X := x, pairs := natPairs ps })
  | _, _ => none

/-- The text that the calls of `add_factor` for `pairs` append. -/
def pairsText (w : Nat) (pairs : List (Nat × Nat)) : List Char :=
  pairs.flatMap (fun ep => ' ' :: printLd w ep.1 ++ ' ' :: printLd w ep.2)

/-- The numerals written for `pairs`, in order. -/
def pairsTokens (w : Nat) (pairs : List (Nat × Nat)) : List (List Char) :=
  pairs.flatMap (fun ep => [printLd w ep.1, printLd w ep.2])

/-- A partial relation line as evaluateSieve builds it (QS.cpp, lines 678-695): the pairs go
into `char rel_str[MPQS_STRING_LENGTH]` (line 1043), `X` and `q` into `char X_str[200]` and
`char Q_str[200]` (lines 516-517); `none` when one of the writes leaves its array. -/
def writePartial (w : Nat) (q X : Int) (pairs : List (Nat × Nat)) : Option (List Char) :=
  match intoBuffer MPQS_STRING_LENGTH (relString w pairs), intoBuffer 200 (printInt X),
      intoBuffer 200 (printInt q) with
  | some r, some xs, some qs => some (qs ++ [' ', '@', ' '] ++ xs ++ [' ', ':'] ++ r ++ ['\n'])
  | _, _, _ => none

/-- A full relation line as evaluateSieve builds it (QS.cpp, lines 734-750), through
`rel_str` and `X_str`. -/
def writeFull (w : Nat) (X : Int) (pairs : List (Nat × Nat)) : Option (List Char) :=
  match intoBuffer MPQS_STRING_LENGTH (relString w pairs), intoBuffer 200 (printInt X) with
  | some r, some xs => some (xs ++ [' ', ':'] ++ r ++ ['\n'])
  | _, _ => none

/-! ## QS.cpp, evaluateSieve at one candidate position (lines 536-754) -/

/-- The division loop of `mpz_remove`: `e` factors `f` taken out so far. -/
def removeLoop (f : Int) : Nat → Int → Nat → Int × Nat
  | 0, res, e => (res, e)
  | fuel + 1, res, e =>
    if res % f = 0 then removeLoop f fuel (res / f) (e + 1) else (res, e)

/-- GMP `mpz_remove(res, res, f)`: what is left of `res` and the number of factors `f`
taken out; nothing is taken out of zero or by a factor below 2. -/
def mpz_remove (res : Int) (f : Nat) : Int × Nat :=
  if f ≤ 1 ∨ res = 0 then (res, 0) else removeLoop (f : Int) res.natAbs res 0

/-- The number of binary digits of `n` (zero for zero). -/
def bitLength : Nat → Nat → Nat
  | 0, _ => 0
  | fuel + 1, n => if n = 0 then 0 else bitLength fuel (n / 2) + 1

/-- GMP `mpz_sizeinbase(x, 2)`: the number of bits of `|x|`, and 1 for zero. -/
def mpz_sizeinbase2 (x : Int) : Nat :=
  if x = 0 then 1 else bitLength x.natAbs x.natAbs

/-- What `evaluateSieve` works with at position `i` of the block that starts at
`ctimesreps`: the polynomial, the factor base with its sizes, the roots, the flags of
`sieve2`, the byte `sieve[i]`, the array `exponents` as the position before left it, and the
global parameters. -/
structure EvalInput where
  A : Int
  B : Int
  C : Int
  Mdiv2 : Nat
  ctimesreps : Nat
  i : Nat
  factorBase : List Nat
  primeSizes : List Nat
  solns : SolnState
  flags : List Nat
  sieveByte : Nat
  errorbits : Nat
  exponents : List Nat
  cfg : SieveConfig
  largeprime : Nat
  aind : List Nat
  min : Nat
  s : Nat

/-- The variables of the trial division: `res`, the byte `extra`, the array `exponents`
and the pairs `factors[2j], factors[2j+1]` (exponent, index) stored so far. -/
structure TrialState where
  res : Int
  extra : Nat
  exponents : List Nat
  factors : List (Nat × Nat)
  deriving DecidableEq

/-- The value `X = A*x + B` at the position (`temp3`). -/
def EvalInput.X (inp : EvalInput) : Int := sieveX inp.A inp.B inp.Mdiv2 inp.ctimesreps inp.i

/-- The value `Q(x) = A*x^2 + 2*B*x + C` at the position (`res` before the division). -/
def EvalInput.Q (inp : EvalInput) : Int :=
  sieveQ inp.A inp.B inp.C inp.Mdiv2 inp.ctimesreps inp.i

/-- Line 547-548: `bits = mpz_sizeinbase(res,2); bits -= errorbits;` on an
`unsigned char`. -/
def EvalInput.bits (inp : EvalInput) : Nat :=
  (mpz_sizeinbase2 inp.Q % 256 + 256 - inp.errorbits % 256) % 256

/-- Whether `(i + ctimesreps) % factorBase[k]` is one of the two roots of index `k`. -/
def rootHit (inp : EvalInput) (k : Nat) : Prop :=
  (((inp.i + inp.ctimesreps) % inp.factorBase.getD k 0 : Nat) : Int) = inp.solns.soln1.getD k 0 ∨
  (((inp.i + inp.ctimesreps) % inp.factorBase.getD k 0 : Nat) : Int) = inp.solns.soln2.getD k 0

instance (inp : EvalInput) (k : Nat) : Decidable (rootHit inp k) := by
  unfold rootHit; infer_instance

/-- Lines 552-569: the multiplier `factorBase[0]` (when it is not 1) and `factorBase[1]`. -/
def trialStart (inp : EvalInput) : TrialState :=
  let st0 : TrialState :=
    if inp.factorBase.getD 0 0 ≠ 1 then
      let r := mpz_remove inp.Q (inp.factorBase.getD 0 0)
      { res := r.1
        extra := if r.2 ≠ 0 then inp.primeSizes.getD 0 0 % 256 else 0
        exponents := inp.exponents.set 0 r.2
        factors := [] }
    else { res := inp.Q, extra := 0, exponents := inp.exponents, factors := [] }
  let r := mpz_remove st0.res (inp.factorBase.getD 1 0)
  { st0 with res := r.1, extra := (st0.extra + r.2) % 256, exponents := st0.exponents.set 1 r.2 }

/-- The body of the loop `for (k = 2; k < firstprime; k++)` (lines 571-602). -/
def firstStep (inp : EvalInput) (st : TrialState) (k : Nat) : TrialState :=
  if inp.solns.soln2.getD k 0 ≠ 0xFFFFFFFF then
    if rootHit inp k then
      let r := mpz_remove st.res (inp.factorBase.getD k 0)
      { st with res := r.1, extra := (st.extra + inp.primeSizes.getD k 0) % 256
                exponents := st.exponents.set k r.2 }
    else { st with exponents := st.exponents.set k 0 }
  else
    let r := mpz_remove st.res (inp.factorBase.getD k 0)
    { st with res := r.1
              extra := if r.2 ≠ 0 then (st.extra + inp.primeSizes.getD k 0) % 256 else st.extra
              exponents := st.exponents.set k r.2 }

/-- The state after the loop over the indices below `firstprime`. -/
def trialFirst (inp : EvalInput) : TrialState :=
  (List.range' 2 (inp.cfg.firstprime - 2)).foldl (firstStep inp) (trialStart inp)

/-- Line 604: `sieve[i] += extra` on an `unsigned char`. -/
def EvalInput.sieveValue (inp : EvalInput) : Nat :=
  (inp.sieveByte + (trialFirst inp).extra) % 256

/-- The size test of line 605, `sieve[i] >= bits`. -/
def EvalInput.passesSizeTest (inp : EvalInput) : Prop := inp.bits ≤ inp.sieveValue

instance (inp : EvalInput) : Decidable inp.passesSizeTest := by
  unfold EvalInput.passesSizeTest; infer_instance

/-- The body of the loop over `[firstprime, secondprime)` (lines 610-642). -/
def secondStep (inp : EvalInput) (st : TrialState) (k : Nat) : TrialState :=
  if inp.solns.soln2.getD k 0 ≠ 0xFFFFFFFF then
    if rootHit inp k then
      let r := mpz_remove st.res (inp.factorBase.getD k 0)
      { st with res := r.1, extra := (st.extra + inp.primeSizes.getD k 0) % 256
                factors := st.factors ++ [(r.2, k)] }
    else st
  else
    let r := mpz_remove st.res (inp.factorBase.getD k 0)
    { st with res := r.1
              extra := if r.2 ≠ 0 then (st.extra + inp.primeSizes.getD k 0) % 256 else st.extra
              factors := if r.2 ≠ 0 then st.factors ++ [(r.2, k)] else st.factors }

/-- The body of the loop over `[secondprime, numPrimes)` (lines 646-669); `vv` is
`1 << (i & 7)`. -/
def thirdStep (inp : EvalInput) (st : TrialState) (k : Nat) : TrialState :=
  if (inp.flags.getD k 0).testBit (inp.i % 8) then
    if rootHit inp k then
      let r := mpz_remove st.res (inp.factorBase.getD k 0)
      { st with res := r.1, extra := (st.extra + inp.primeSizes.getD k 0) % 256
                factors := st.factors ++ [(r.2, k)] }
    else st
  else st

/-- A loop `for (k = ...; (k < bound) && (extra < sieve[i]); k++)` with `n = bound - k`
indices to go. -/
def trialLoop (inp : EvalInput) (step : EvalInput → TrialState → Nat → TrialState) :
    Nat → Nat → TrialState → TrialState
  | 0, _, st => st
  | n + 1, k, st =>
    if st.extra < inp.sieveValue then trialLoop inp step n (k + 1) (step inp st k) else st

/-- The state after the three loops of the trial division. -/
def trialAll (inp : EvalInput) : TrialState :=
  trialLoop inp thirdStep (inp.cfg.numPrimes - inp.cfg.secondprime) inp.cfg.secondprime
    (trialLoop inp secondStep (inp.cfg.secondprime - inp.cfg.firstprime) inp.cfg.firstprime
      (trialFirst inp))

/-- The three loops of `add_factor` calls (lines 678-689 and their two copies): the
non-zero entries of `exponents`, the stored pairs, and exponent 1 for each prime of `A`. -/
def writtenPairs (inp : EvalInput) (st : TrialState) : List (Nat × Nat) :=
  ((List.range inp.cfg.firstprime).filter (fun i => st.exponents.getD i 0 ≠ 0)).map
      (fun i => (st.exponents.getD i 0, i))
    ++ st.factors
    ++ (List.range inp.s).map (fun j => (1, inp.aind.getD j 0 + inp.min))

/-- What one position adds to the files: nothing, a line of `LPNEW` or a line of `RELS`. -/
inductive SieveOutput where
  | nothing
  | partialRel (q X : Int) (pairs : List (Nat × Nat))
  | fullRel (X : Int) (pairs : List (Nat × Nat))
  deriving DecidableEq

/-- Lines 673-754: the choice by the size of what the division left. -/
def classify (res : Int) (largeprime : Nat) (X : Int) (pairs : List (Nat × Nat)) :
    SieveOutput :=
  if res > 1000 then
    if res < (largeprime : Int) then SieveOutput.partialRel res X pairs
    else SieveOutput.nothing
  else
    if -res > 1000 then
      if -res < (largeprime : Int) then SieveOutput.partialRel (-res) X pairs
      else SieveOutput.nothing
    else SieveOutput.fullRel X pairs

/-- The body of `if (i < M)` (lines 536-754) for one candidate position. -/
def evaluatePosition (inp : EvalInput) : SieveOutput :=
  if inp.passesSizeTest then
    classify (trialAll inp).res inp.largeprime inp.X (writtenPairs inp (trialAll inp))
  else SieveOutput.nothing

/-- Both stored roots of index `k` are roots of `Q(x) = A*x^2 + 2*B*x + C` at
`x = soln - Mdiv2` modulo `factorBase[k]`. -/
def RootsRight (inp : EvalInput) (k : Nat) : Prop :=
  polyQ inp.A inp.B inp.C (inp.solns.soln1.getD k 0 - (inp.Mdiv2 : Int))
    ≡ 0 [ZMOD ((inp.factorBase.getD k 0 : Nat) : Int)] ∧
  polyQ inp.A inp.B inp.C (inp.solns.soln2.getD k 0 - (inp.Mdiv2 : Int))
    ≡ 0 [ZMOD ((inp.factorBase.getD k 0 : Nat) : Int)]

instance (inp : EvalInput) (k : Nat) : Decidable (RootsRight inp k) := by
  unfold RootsRight; infer_instance

/-- What the trial division keeps true before index `k`: `res` is `Q` without the factors
taken out so far, it is not zero, what was taken out is coprime to the entries from `k` on,
and the stored pairs have positive exponents. -/
def TrialInv (inp : EvalInput) (k : Nat) (st : TrialState) : Prop :=
  (∃ m : Int, inp.Q = st.res * m ∧
    ∀ k', k ≤ k' → k' < inp.cfg.numPrimes →
      IsCoprime m ((inp.factorBase.getD k' 0 : Nat) : Int)) ∧
  st.res ≠ 0 ∧ ∀ ep ∈ st.factors, 0 < ep.1

/-- Position 1 of the first sibling of `polyExample` with the accumulator byte 200. -/
def evalExample : EvalInput :=
  { A := polyA polyExample, B := siblingB polyExample 1
    C := polyC polyExample (siblingB polyExample 1)
    Mdiv2 := 10, ctimesreps := 0, i := 1
    factorBase := polyExample.factorBase, primeSizes := [0, 1, 4, 4, 4, 5, 5, 5]
    solns := siblingSolns polyExample 1, flags := [0, 0, 0, 0, 0, 0, 0, 255]
    sieveByte := 200, errorbits := 10, exponents := List.replicate 3 0
    cfg := { numPrimes := 8, firstprime := 3, MEDIUMPRIME := 7, midprime := 7, secondprime := 7 }
    largeprime := 100000, aind := polyExample.aind, min := polyExample.min, s := 3 }

/-! ## Sign vectors of the sibling polynomials -/

/-- The number with the binary digits `bs`, least significant first. -/
def bitsToNat : List Bool → Nat
  | [] => 0
  | b :: bs => Nat.bit b (bitsToNat bs)

/-- From the flags `es` (flag `j` says that bits `j` and `j + 1` differ) to the bits
themselves, the bits above the list being zero. -/
def suffixXor : List Bool → List Bool
  | [] => []
  | e :: es => xor e ((suffixXor es).headD false) :: suffixXor es

/-- The `polyindex` whose signs are `ε` on the first `s - 1` terms (`-1` where bits `j` and
`j + 1` of the index differ). -/
def grayIndex (s : Nat) (ε : Nat → Int) : Nat :=
  bitsToNat (suffixXor ((List.range (s - 1)).map (fun j => decide (ε j = -1))))

/-! ## TonelliShanks.cpp, sqrtmodpk (lines 122-147), and ModuloArith.cpp, chinese (lines 54-68) -/

/-- GMP `mpz_fdiv_r`: the remainder of the floored division. -/
def mpz_fdiv_r (a n : Int) : Int := Int.fmod a n

/-- `sqrtmodpow(res, z, a, pk)` (lines 122-134): `res = z + (a - z*z) * (2*z)^-1 mod pk`;
`none` when `2*z` has no inverse modulo `pk` (`mpz_invert` leaves its result undefined). -/
def sqrtmodpow (z a pk : Int) : Option Int :=
  match mpz_invert (z * 2) pk with
  | none => none
  | some inv =>
    let tempsqpow := mpz_fdiv_r (a - z * z) pk
    some (modmul tempsqpow inv pk + z)

/-- The loop `for (i = 2; i <= k; i++)` of `sqrtmodpk` with `n` rounds to go. -/
def sqrtmodpkLoop (a p : Int) : Nat → Int → Int → Option Int
  | 0, res, _ => some res
  | n + 1, res, pk =>
    match sqrtmodpow res a (pk * p) with
    | none => none
    | some r => sqrtmodpkLoop a p n r (pk * p)

/-- `sqrtmodpk(res, z, a, p, k)` (lines 136-147): the value left in `res`. -/
def sqrtmodpk (z a p : Int) (k : Nat) : Option Int := sqrtmodpkLoop a p (k - 1) z p

/-- `chinese(res, n, x1, x2, n1, n2)` (lines 54-68): the values left in `res` and `n`; `none`
when one of the two inverses does not exist. -/
def chinese (x1 x2 n1 n2 : Int) : Option (Int × Int) :=
  let ntemp := n1 * n2
  match mpz_invert n2 n1, mpz_invert n1 n2 with
  | some i1, some i2 =>
    let restemp := modmul (modmul i1 n2 ntemp) x1 ntemp
    let chtemp := modmul (modmul i2 n1 ntemp) x2 ntemp
    some (mpz_fdiv_r (restemp + chtemp) ntemp, ntemp)
  | _, _ => none

/-! ## QS.cpp, evaluateSieve: the word-wise scan of the accumulator (lines 519-536, 755-768)
and the threshold chosen by main (lines 146-156, 1607, 1626) -/

/-- `sieve2[j] & SIEVEMASK` as a truth value: the word `j` of `W` bytes has a byte with bit 6
or bit 7 set (`SIEVEMASK` is `0xC0` in every byte). The word is read as a whole: `none` when
one of its bytes lies outside the buffer. -/
def wordMasked (W : Nat) (sieve : List Nat) (j : Nat) : Option Bool :=
  if (j + 1) * W ≤ sieve.length then
    some (((sieve.drop (j * W)).take W).any (fun b => decide (b &&& 0xC0 ≠ 0)))
  else none

/-- `while (!(sieve2[j] & SIEVEMASK)) j++;` -/
def skipWords (W : Nat) (sieve : List Nat) : Nat → Nat → Option Nat
  | 0, _ => none
  | fuel + 1, j =>
    match wordMasked W sieve j with
    | none => none
    | some true => some j
    | some false => skipWords W sieve fuel (j + 1)

/-- `while ((i<j*sizeof(unsigned long))&&(sieve[i] < threshold)) i++;` with `n` the number
of bytes between `i` and `j*sizeof(unsigned long)`. -/
def skipBytes (threshold : Nat) (sieve : List Nat) : Nat → Nat → Option Nat
  | 0, i => some i
  | n + 1, i =>
    match sieve[i]? with
    | none => none
    | some b => if b < threshold then skipBytes threshold sieve n (i + 1) else some i

/-- The `do ... while (sieve[i] < threshold)` loop of lines 528-534, started with word index
`j`; the result is the pair `(i, j)` it leaves. -/
def findCandidate (W threshold : Nat) (sieve : List Nat) : Nat → Nat → Option (Nat × Nat)
  | 0, _ => none
  | fuel + 1, j =>
    match skipWords W sieve (fuel + 1) j with
    | none => none
    | some j1 =>
      match skipBytes threshold sieve W (j1 * W) with
      | none => none
      | some i =>
        match sieve[i]? with
        | none => none
        | some b =>
          if b < threshold then findCandidate W threshold sieve fuel (j1 + 1)
          else some (i, j1 + 1)

/-- The loop `while (j<M/sizeof(unsigned long))` of lines 526-766, started with word index
`j`: the positions `i` that pass `if (i<M)` and are evaluated, in order. The `i++` that ends
the body has no effect, the next round sets `i` anew. -/
def scanLoop (W threshold M : Nat) (sieve : List Nat) : Nat → Nat → Option (List Nat)
  | 0, _ => none
  | fuel + 1, j =>
    if j < M / W then
      match findCandidate W threshold sieve (fuel + 1) j with
      | none => none
      | some (i, j1) =>
        match scanLoop W threshold M sieve fuel j1 with
        | none => none
        | some rest => some (if i < M then i :: rest else rest)
    else some []

/-- The positions `evaluateSieve` examines: the scan from `j = 0`. -/
def evaluatedPositions (W threshold M : Nat) (sieve : List Nat) (fuel : Nat) :
    Option (List Nat) :=
  scanLoop W threshold M sieve fuel 0

/-- The table `thresholds` (lines 146-156), for 40 to 91 decimal digits. -/
def thresholds : List Nat :=
  [66, 67, 67, 68, 68, 68, 69, 69, 69, 69,
   70, 70, 70, 71, 71, 71, 72, 72, 73, 73,
   74, 74, 75, 75, 76, 76, 77, 77, 78, 79,
   80, 81, 82, 83, 84,
   85, 86, 87, 88, 89,
   91, 92, 93, 93, 94,
   95, 96, 97, 98, 100,
   101, 102]

/-- The value `main` stores in the global `unsigned char threshold` (lines 1607 and 1626):
the table entry up to 91 digits, `43+(7*decdigits)/10` above, cut to eight bits by the
assignment. -/
def mainThreshold (decdigits : Nat) : Nat :=
  if decdigits ≤ 91 then thresholds.getD (decdigits - 40) 0 % 256
  else (43 + (7 * decdigits) / 10) % 256


/-! ## QS.cpp, main and mainRoutine: sieve length and blocks (lines 161-171, 1288-1314,
1589-1590, 1616), the sibling loop (line 1237), the number of factors of `A` (line 1072),
and the score of knuthSchroeppel (lines 355-378) -/

/-- `#define CACHEBLOCKSIZE 64000`. -/
def CACHEBLOCKSIZE : Nat := 64000

/-- The table `sieveSize` (lines 161-171), for 40 to 91 decimal digits. -/
def sieveSize : List Nat :=
  [32000, 32000, 32000, 32000, 32000, 32000, 32000, 32000, 32000, 32000,
   32000, 32000, 32000, 32000, 32000, 32000, 32000, 32000, 32000, 32000,
   32000, 32000, 32000, 32000, 32000, 32000, 32000, 32000, 32000, 32000,
   32000, 32000, 64000, 64000, 64000,
   96000, 96000, 96000, 128000, 128000,
   160000, 160000, 160000, 160000, 160000,
   192000, 192000, 192000, 192000, 192000,
   192000, 192000]

/-- The `Mdiv2` that `main` hands to `mainRoutine` (lines 1589-1590 and 1616), with
`SIEVEDIV = 1`. -/
def mainMdiv2 (decdigits : Nat) : Nat :=
  if decdigits ≤ 91 then
    let Mdiv2 := sieveSize.getD (decdigits - 40) 0 / 1
    if Mdiv2 * 2 < CACHEBLOCKSIZE then CACHEBLOCKSIZE / 2 else Mdiv2
  else 192000 / 1

/-- One call `sieveInterval(M, numPrimes, sieve + start, last, first, ...)`. -/
structure SieveCall where
  M : Nat
  start : Nat
  last : Bool
  first : Bool
  deriving DecidableEq

/-- `for (reps = 1; reps < mpz_get_ui(q)-1; reps++) sieveInterval(CACHEBLOCKSIZE, ...,
sieve+CACHEBLOCKSIZE*reps, 0, 0, ...)`: the calls and the value of `reps` after the loop. -/
def middleBlocks (q : Nat) : Nat → Nat → List SieveCall × Nat
  | 0, reps => ([], reps)
  | fuel + 1, reps =>
    if reps < q - 1 then
      let r := middleBlocks q fuel (reps + 1)
      ({ M := CACHEBLOCKSIZE, start := CACHEBLOCKSIZE * reps, last := false, first := false }
        :: r.1, r.2)
    else ([], reps)

/-- Lines 1288-1314: the calls of `sieveInterval` for one sibling, in order. -/
def sieveCalls (Mdiv2 : Nat) : List SieveCall :=
  let temp := Mdiv2 * 2
  let q := temp / CACHEBLOCKSIZE
  let r := temp % CACHEBLOCKSIZE
  { M := CACHEBLOCKSIZE, start := 0, last := false, first := true } ::
    (if 1 < q then
      let mid := middleBlocks q q 1
      let reps := mid.2
      mid.1 ++
        (if r = 0 then
          [{ M := CACHEBLOCKSIZE, start := CACHEBLOCKSIZE * reps, last := true, first := false }]
        else
          [{ M := CACHEBLOCKSIZE, start := CACHEBLOCKSIZE * reps, last := false,
             first := false },
           { M := r, start := CACHEBLOCKSIZE * (reps + 1), last := true, first := false }])
    else [])

/-- `(1<<(s-1))-1` in the test of line 1237.  The literal `1` is an `int` of 32 bits, so
the shift has a value for `0 ≤ s-1 ≤ 30` only: `none` outside that range. -/
def polyBound (s : Nat) : Option Int :=
  if 1 ≤ s ∧ s - 1 ≤ 30 then some (((1 <<< (s - 1) : Nat) : Int) - 1) else none

/-- The loop of line 1237 with the flip of lines 1245-1253 as its body: the value of `B`
after each round, from the given `polyindex` and `B` on. -/
def flipLoop (inp : PolyInput) (bound : Int) : Nat → Nat → Int → List Int
  | 0, _, _ => []
  | fuel + 1, polyindex, B =>
    if (polyindex : Int) < bound then
      flipB inp B polyindex :: flipLoop inp bound fuel (polyindex + 1) (flipB inp B polyindex)
    else []

/-- The values `B` takes for one `A`: the initial `B` of lines 1207-1211, then the value
after each round of the sibling loop; `none` when the bound of the loop has no value. -/
def siblingBs (inp : PolyInput) (fuel : Nat) : Option (List Int) :=
  (polyBound inp.s).map (fun bound => initialB inp :: flipLoop inp bound fuel 1 (initialB inp))

/-- Line 1072: `s = mpz_sizeinbase(n,2)/28+1`. -/
def numAFactors (n : Int) : Nat := mpz_sizeinbase2 n / 28 + 1

/-- The `switch (kron*mpz_kronecker(mult,prime))` of lines 361-373 with
`kron = mpz_kronecker(n,prime)`: how many times `logpdivp` is added to
`factors[multindex]` (case 0 adds it once, case 1 adds `2.0*logpdivp`, the default case
adds nothing). -/
def ksIncrement (n : Int) (mult p : Nat) : Nat :=
  let kron := mpz_kronecker n p
  match kron * mpz_kronecker (mult : Int) p with
  | 0 => 1
  | 1 => 2
  | _ => 0


/-! ## F2matrix.cpp: insertEntry, getEntry, swapRows, xorRows, constructMat, gaussReduce -/

/-- The table `bitPattern`: entry `k` is the bit `31 - k` of a 32-bit word. -/
def bitPattern (k : Nat) : Nat := 2 ^ (31 - k)

/-- A matrix is a list of rows, a row a list of 32-bit words. `insertEntry`:
`m[i][j / 32] |= bitPattern[j % 32]`. -/
def insertEntry (m : List (List Nat)) (i j : Nat) : List (List Nat) :=
  m.set i ((m.getD i []).set (j / 32) ((m.getD i []).getD (j / 32) 0 ||| bitPattern (j % 32)))

/-- `getEntry`: `m[i][j / 32] & bitPattern[j % 32]`. -/
def getEntry (m : List (List Nat)) (i j : Nat) : Nat :=
  (m.getD i []).getD (j / 32) 0 &&& bitPattern (j % 32)

/-- `swapRows`: the row pointers `m[x]` and `m[y]` change places. -/
def swapRows (m : List (List Nat)) (x y : Nat) : List (List Nat) :=
  (m.set x (m.getD y [])).set y (m.getD x [])

/-- `xorRows(m, source, dest, length)`: `x[i] ^= y[i]` for the words `i < length` of the
rows `x = m[dest]`, `y = m[source]`; the loop in steps of eight and the `switch` that falls
through its cases visit each of these words once. -/
def xorRows (m : List (List Nat)) (source dest length : Nat) : List (List Nat) :=
  m.set dest
    ((List.range length).foldl
      (fun x i => x.set i (x.getD i 0 ^^^ (m.getD source []).getD i 0)) (m.getD dest []))

/-- `constructMat(cols, rows)`: `rows` rows of `2*dwords` zero words, then the second half
is made the identity by `insertEntry(m,i,i+32*dwords)`. -/
def constructMat (cols rows : Nat) : List (List Nat) :=
  let dwords := if cols % 32 ≠ 0 then cols / 32 + 1 else cols / 32
  (List.range rows).foldl (fun m i => insertEntry m i (i + 32 * dwords))
    (List.replicate rows (List.replicate (2 * dwords) 0))

/-- The `static` locals of `gaussReduce`, which keep their values from one call to the
next; `length` is initialised by the first call only (`none` before it). -/
structure GaussStatics where
  rowUpto : Nat
  irow : Nat
  length : Option Nat
  deriving DecidableEq

/-- The statics when the program starts: `rowUpto = 0`, `length` not yet initialised. -/
def gaussStatics0 : GaussStatics := { rowUpto := 0, irow := 0, length := none }

/-- `while ((irow < relSought)&&(getEntry(m,irow,icol)==0UL)) irow++;` -/
def findPivot (m : List (List Nat)) (icol relSought : Nat) : Nat → Nat → Nat
  | 0, irow => irow
  | fuel + 1, irow =>
    if irow < relSought ∧ getEntry m irow icol = 0 then findPivot m icol relSought fuel (irow + 1)
    else irow

/-- The body of the loop over `icol` (lines 169-190); the state is the matrix with
`rowUpto` and `irow`. -/
def gaussColumn (relSought length : Nat) (st : List (List Nat) × Nat × Nat) (icol : Nat) :
    List (List Nat) × Nat × Nat :=
  let m := st.1
  let rowUpto := st.2.1
  let irow := findPivot m icol relSought relSought rowUpto
  if irow < relSought then
    let m1 := swapRows m rowUpto irow
    let m2 := (List.range' (rowUpto + 1) (relSought - (rowUpto + 1))).foldl
      (fun mm checkRow =>
        if getEntry mm checkRow icol ≠ 0 then xorRows mm rowUpto checkRow length else mm) m1
    (m2, rowUpto + 1, irow)
  else (m, rowUpto, irow)

/-- `gaussReduce(m, numPrimes, relSought, extras)` with its statics passed in and out: the
return value, the matrix and the statics it leaves. The columns run from `numPrimes-1`
down to 0. -/
def gaussReduce (st : GaussStatics) (m : List (List Nat)) (numPrimes relSought : Nat)
    (extras : Int) : Nat × List (List Nat) × GaussStatics :=
  let length0 := st.length.getD ((((numPrimes : Int) + extras) % 2 ^ 32).toNat / 32)
  let length1 := if numPrimes % 32 ≠ 0 then (length0 + 1) % 2 ^ 32 else length0
  let length := length1 * 2 % 2 ^ 32
  let r := (List.range numPrimes).reverse.foldl (gaussColumn relSought length)
    (m, st.rowUpto, st.irow)
  (r.2.1, r.1, { rowUpto := r.2.1, irow := r.2.2, length := some length })

/-- Two rows with the same single entry in column 0: `constructMat(1, 2)` with
`insertEntry(m,0,0)` and `insertEntry(m,1,0)`. -/
def gaussExample : List (List Nat) := insertEntry (insertEntry (constructMat 1 2) 0 0) 1 0


/-! ## QS.cpp, mainRoutine: the choice of the factors of `A` (lines 1128-1187) and random
(lines 997-1001) -/

/-- `random(upto)` with the global `randval` passed in and out: the new `randval` and the
value returned. The product is formed in 64 bits. -/
def random (randval upto : Nat) : Nat × Nat :=
  let r := (randval % 2 ^ 64 * 1025416097 + 286824428) % 2 ^ 64 % 4294967291
  (r, r % upto)

/-- `for (j=0;((j<i)&&(aind[j]!=ran));j++);` over the entries `aind[0..i)`: the value of
`j` it leaves, which is `i` exactly when `ran` is not among them. -/
def scanAind (aind : List Int) (ran : Int) : Nat :=
  (aind.takeWhile (fun a => decide (a ≠ ran))).length

/-- `j=-1L; while (j!=i) { ran++; for (...); }`: `ran` is increased, at least once, until
it differs from every entry chosen so far. -/
def freshIndex (aind : List Int) : Nat → Int → Option Int
  | 0, _ => none
  | fuel + 1, ran =>
    if scanAind aind (ran + 1) = aind.length then some (ran + 1)
    else freshIndex aind fuel (ran + 1)

/-- The loop `for (i = 0; i < s-1; )` of lines 1148-1172: the offsets `aind[0..s-1)` and the
state of the generator. Each round samples one offset from `span/2+random(span/2)` and, if
one more is wanted, a paired one from
`((min+span/2)*(min+span/2))/(ran+min) - random(10)-min`. The values are of type `long`;
the model is exact as long as they fit. -/
def sampleLoop (s span min : Int) : Nat → Nat × List Int → Option (Nat × List Int)
  | 0, _ => none
  | fuel + 1, (randval, aind) =>
    if (aind.length : Int) < s - 1 then
      let r := random randval (Int.tdiv span 2).toNat
      match freshIndex aind (aind.length + 1) (Int.tdiv span 2 + (r.2 : Int)) with
      | none => none
      | some ran =>
        let aind1 := aind ++ [ran]
        if (aind1.length : Int) < s - 1 then
          let r2 := random r.1 10
          match freshIndex aind1 (aind1.length + 1)
              (Int.tdiv ((min + Int.tdiv span 2) * (min + Int.tdiv span 2)) (ran + min)
                - (r2.2 : Int) - min) with
          | none => none
          | some ran2 => sampleLoop s span min fuel (r2.1, aind1 ++ [ran2])
        else some (r.1, aind1)
    else some (randval, aind)

/-- The relation synthesised from the first line `f` of a run and a later line `b` of the
same run: `Y = Y_f * Y_b * q^-1 mod N` (or `N - Y` when that is smaller in absolute value)
and the exponents of both lines added, zero entries left out. -/
def pairedLine (numPrimes : Nat) (N : Int) (f b : LpEntry) : RelLine :=
  { X := combinedY N f.Y b.Y ((mpz_invert (toUlong f.q) N).getD 0),
    pairs := ((List.range numPrimes).filter
        (fun l => exponentOf f.E l + exponentOf b.E l ≠ 0)).map
      (fun l => (exponentOf f.E l + exponentOf b.E l, l)) }

/-- The lines the specification asks for: every line that is not the first of its run of
equal `q` is paired with the first line of that run, and with no other, and the pair is
left out when both have the same `|Y|`. The first argument is the first line of the run
being read, if any. -/
def pairRuns (numPrimes : Nat) (N : Int) : Option LpEntry → List LpEntry → List RelLine
  | _, [] => []
  | none, b :: rest => pairRuns numPrimes N (some b) rest
  | some f, b :: rest =>
    if b.q = f.q then
      (if f.Y.natAbs ≠ b.Y.natAbs then [pairedLine numPrimes N f b] else []) ++
        pairRuns numPrimes N (some f) rest
    else pairRuns numPrimes N (some b) rest

/-- Three partial relations over `N = 77` with the large prime `13` and one with `17`. -/
def runExample : List LpEntry :=
  [{ q := 13, Y := 1, E := [(1, 1), (1, 2)] }, { q := 13, Y := 2, E := [(3, 1), (1, 2)] },
   { q := 13, Y := -1, E := [(1, 1), (1, 2)] }, { q := 17, Y := 3, E := [(1, 3)] }]


/-! ## QS.cpp, mainRoutine: the processing of the relation files (lines 1322-1349) -/

/-- The relation files and counters `mainRoutine` keeps between two rounds of processing:
the files `lpnew`, `lprels`, `rels`, `frels`, `flprels` as lists of lines, and `relsFound`,
`totcomb`, `next_cutoff`, `next_inc`. The variable `factor` is not among them: after the
call of `combine_large_primes` it is not read again before `mpz_clear(factor)`. -/
structure RelFiles where
  lpnew : List (List Char)
  lprels : List (List Char)
  rels : List (List Char)
  frels : List (List Char)
  flprels : List (List Char)
  relsFound : Nat
  totcomb : Nat
  next_cutoff : Nat
  next_inc : Nat
  deriving DecidableEq

/-- The lines of `COMB` as `combine_large_primes` reads them. -/
def readComb (w : Nat) : List (List Char) → Option (List LpEntry)
  | [] => some []
  | l :: rest =>
    match lpEntryOfLine w l, readComb w rest with
    | some e, some es => some (e :: es)
    | _, _ => none

/-- The body of `if (2*potrels >= next_cutoff)` (lines 1324-1348): `lpnew` is sorted and
merged into `lprels`, the combinable lines going to `comb`; `rels` is sorted and merged into
`frels`, which gives `relsFound`; `combine_large_primes` writes `fnew` from `comb` (its
return value is dropped, and so is what it stores in `factor`); `fnew` is sorted and merged
into `flprels`, which gives `totcomb`; then the cutoff is moved. -/
def relationsBlock (w fuel numPrimes relSought : Nat) (N : Int) (st : RelFiles) :
    Option RelFiles :=
  match mergesort_lp_file_internal w fuel true st.lprels (sort_lp_file w st.lpnew).1 with
  | none => none
  | some m1 =>
    match mergesort_lp_file_internal w fuel false st.frels (sort_lp_file w st.rels).1 with
    | none => none
    | some m2 =>
      match readComb w m1.comb with
      | none => none
      | some entries =>
        match combine_large_primes numPrimes N entries with
        | none => none
        | some cout =>
          let fnew := cout.fnew.map (fun ln => fullLine w ln.X ln.pairs)
          match mergesort_lp_file_internal w fuel false st.flprels (sort_lp_file w fnew).1 with
          | none => none
          | some m3 =>
            let next_inc :=
              if st.next_cutoff < relSought ∧ st.next_cutoff + st.next_inc / 2 ≥ relSought
              then st.next_inc / 2 else st.next_inc
            some { lpnew := [], lprels := m1.tmp, rels := [], frels := m2.tmp,
                   flprels := m3.tmp, relsFound := m2.ret, totcomb := m3.ret,
                   next_cutoff := st.next_cutoff + next_inc, next_inc := next_inc }

/-- The test `while (relsFound + totcomb < relSought)` of line 1144: sieving goes on. -/
def keepsSieving (relSought : Nat) (st : RelFiles) : Bool :=
  decide (st.relsFound + st.totcomb < relSought)

/-- Partial relations over `N = 77` whose large prime 7 divides `N`, as lines of `lpnew`. -/
def factorExample : RelFiles :=
  { lpnew := [partialLine 64 7 1 [(1, 1)], partialLine 64 7 2 [(1, 2)],
              partialLine 64 7 3 [(1, 1)]],
    lprels := [], rels := [], frels := [], flprels := [],
    relsFound := 0, totcomb := 0, next_cutoff := 1, next_inc := 1 }


/-! ## QS.cpp, sieveInterval (lines 778-911) and sieve2 (lines 919-988): the accumulator

Positions are byte offsets from the start of the array `sieve` of `mainRoutine`; the
accumulator is a map from offsets to bytes. The roots handed to these definitions are the
corrected ones (the correction of lines 813-817, 866-870, 938-942, 967-971 is
`correctSoln`); a prime whose `soln2` held the sentinel before the correction is `marked`. -/

/-- `(* position)+=currentprimesize` on an `unsigned char`. -/
def addByte (mem : Int → Nat) (pos : Int) (size : Nat) : Int → Nat :=
  fun i => if i = pos then (mem i + size) % 256 else mem i

/-- The statement `(* position)+=currentprimesize,(* (position+diff))+=currentprimesize,
position+=currentprime;` written `n` times in a row. -/
def hitSteps (p : Int) (size : Nat) (diff : Int) : Nat → Int × (Int → Nat) → Int × (Int → Nat)
  | 0, s => s
  | n + 1, s =>
    hitSteps p size diff n (s.1 + p, addByte (addByte s.2 s.1 size) (s.1 + diff) size)

/-- A loop `while (cond) { ... }` whose body is that statement `reps` times; `cond` tests
`position`. -/
def sieveWhile (cond : Int → Bool) (reps : Nat) (p : Int) (size : Nat) (diff : Int) :
    Nat → Int × (Int → Nat) → Int × (Int → Nat)
  | 0, s => s
  | fuel + 1, s =>
    if cond s.1 then sieveWhile cond reps p size diff fuel (hitSteps p size diff reps s)
    else s

/-- `while ((end - position > 0)&&(end - position2 > 0)) { (* position)+=currentprimesize,
position+=currentprime, (* position2)+=currentprimesize, position2+=currentprime; }` on
`(position, position2, accumulator)`. -/
def pairWhile (p : Int) (size : Nat) (e : Int) :
    Nat → Int × Int × (Int → Nat) → Int × Int × (Int → Nat)
  | 0, s => s
  | fuel + 1, s =>
    if e - s.1 > 0 ∧ e - s.2.1 > 0 then
      pairWhile p size e fuel
        (s.1 + p, s.2.1 + p, addByte (addByte s.2.2 s.1 size) s.2.1 size)
    else s

/-- The two closing tests of sieveInterval: `if (end - position2 > 0) { (* position2)+=...,
position2+=currentprime; }` and the same for `position`. -/
def tailHits (p : Int) (size : Nat) (e : Int) (s : Int × Int × (Int → Nat)) :
    Int × Int × (Int → Nat) :=
  let mem1 := if e - s.2.1 > 0 then addByte s.2.2 s.2.1 size else s.2.2
  let pos2 := if e - s.2.1 > 0 then s.2.1 + p else s.2.1
  let mem2 := if e - s.1 > 0 then addByte mem1 s.1 size else mem1
  let pos := if e - s.1 > 0 then s.1 + p else s.1
  (pos, pos2, mem2)

/-- Lines 823-845: one prime of `[firstprime, MEDIUMPRIME)` in one block that ends at `e`,
from the cursors `position`, `position2`: the loop unrolled four times up to
`bound = end - 4p`, the loop `while ((end - position > 0)&&(end - position - diff > 0))`,
and the closing tests. The result is the cursors and the accumulator. -/
def smallPrimeBlock (p : Int) (size : Nat) (e : Int) (fuel : Nat) (pos pos2 : Int)
    (mem : Int → Nat) : Int × Int × (Int → Nat) :=
  let diff := pos2 - pos
  let s1 := sieveWhile (fun x => decide (e - p * 4 - x > 0)) 4 p size diff fuel (pos, mem)
  let s2 := sieveWhile (fun x => decide (e - x > 0 ∧ e - x - diff > 0)) 1 p size diff fuel s1
  tailHits p size e (s2.1, s2.1 + diff, s2.2)

/-- Lines 876-902: one prime of `[MEDIUMPRIME, midprime)` in one block: the loop unrolled
twice up to `bound = end - 2p`, the loop on both cursors, and the closing tests. -/
def mediumPrimeBlock (p : Int) (size : Nat) (e : Int) (fuel : Nat) (pos pos2 : Int)
    (mem : Int → Nat) : Int × Int × (Int → Nat) :=
  let diff := pos2 - pos
  let s1 := sieveWhile (fun x => decide (e - 2 * p - x > 0)) 2 p size diff fuel (pos, mem)
  tailHits p size e (pairWhile p size e fuel (s1.1, s1.1 + diff, s1.2))

/-- What sieveInterval and sieve2 work on: the accumulator, the arrays `offsets`,
`offsets2` (as offsets from `sieve`) and `flags`. -/
structure SieveState where
  mem : Int → Nat
  offsets : Nat → Int
  offsets2 : Nat → Int
  flags : Nat → Nat

/-- What the sieve reads: the factor base, `primeSizes`, the corrected roots, the primes
whose `soln2` held the sentinel, and the ranges. -/
structure SieveInput where
  factorBase : List Nat
  primeSizes : List Nat
  soln1 : List Int
  soln2 : List Int
  marked : Nat → Bool
  cfg : SieveConfig

/-- The body of the two loops over `prime` in sieveInterval for the call `call`; `small`
selects the loop of lines 805-853 (with the sentinel test) or that of lines 859-908. -/
def sieveIntervalPrime (inp : SieveInput) (call : SieveCall) (fuel : Nat) (small : Bool)
    (st : SieveState) (prime : Nat) : SieveState :=
  if small ∧ inp.marked prime then st
  else
    let p : Int := ((inp.factorBase.getD prime 0 : Nat) : Int)
    let size := inp.primeSizes.getD prime 0
    let e : Int := (call.start : Int) + (call.M : Int)
    let pos := if call.first then (call.start : Int) + inp.soln1.getD prime 0
      else st.offsets prime
    let pos2 := if call.first then (call.start : Int) + inp.soln2.getD prime 0
      else st.offsets2 prime
    let r := if small then smallPrimeBlock p size e fuel pos pos2 st.mem
      else mediumPrimeBlock p size e fuel pos pos2 st.mem
    { mem := r.2.2
      offsets := if call.last then st.offsets
        else fun k => if k = prime then r.1 else st.offsets k
      offsets2 := if call.last then st.offsets2
        else fun k => if k = prime then r.2.1 else st.offsets2 k
      flags := st.flags }

/-- One call of sieveInterval: the primes of `[firstprime, MEDIUMPRIME)`, then those of
`[MEDIUMPRIME, midprime)`. -/
def sieveInterval (inp : SieveInput) (fuel : Nat) (st : SieveState) (call : SieveCall) :
    SieveState :=
  let st1 := (List.range' inp.cfg.firstprime (inp.cfg.MEDIUMPRIME - inp.cfg.firstprime)).foldl
    (sieveIntervalPrime inp call fuel true) st
  (List.range' inp.cfg.MEDIUMPRIME (inp.cfg.midprime - inp.cfg.MEDIUMPRIME)).foldl
    (sieveIntervalPrime inp call fuel false) st1

/-- Lines 933-959 of sieve2: one prime of `[midprime, secondprime)`: the loop on both
cursors, then each cursor still inside the interval is hit once. -/
def sieve2Prime (inp : SieveInput) (M fuel : Nat) (st : SieveState) (prime : Nat) :
    SieveState :=
  let p : Int := ((inp.factorBase.getD prime 0 : Nat) : Int)
  let size := inp.primeSizes.getD prime 0
  let s := pairWhile p size (M : Int) fuel
    (inp.soln1.getD prime 0, inp.soln2.getD prime 0, st.mem)
  let mem1 := if (M : Int) - s.2.1 > 0 then addByte s.2.2 s.2.1 size else s.2.2
  { st with mem := if (M : Int) - s.1 > 0 then addByte mem1 s.1 size else mem1 }

/-- `while (end - position > 0) { flags[prime]|=((unsigned char)1<<((position-sieve)&7)),
(* position)+=currentprimesize, position+=currentprime; }` on
`(position, accumulator, flags[prime])`. -/
def flagWhile (p : Int) (size : Nat) (e : Int) :
    Nat → Int × (Int → Nat) × Nat → Int × (Int → Nat) × Nat
  | 0, s => s
  | fuel + 1, s =>
    if e - s.1 > 0 then
      flagWhile p size e fuel
        (s.1 + p, addByte s.2.1 s.1 size, (s.2.2 ||| 1 <<< (s.1 % 8).toNat) % 256)
    else s

/-- Lines 962-985 of sieve2: one prime of `[secondprime, numPrimes)`: the loop for
`position`, then the loop for `position2`. -/
def sieve2Flagged (inp : SieveInput) (M fuel : Nat) (st : SieveState) (prime : Nat) :
    SieveState :=
  let p : Int := ((inp.factorBase.getD prime 0 : Nat) : Int)
  let size := inp.primeSizes.getD prime 0
  let s1 := flagWhile p size (M : Int) fuel (inp.soln1.getD prime 0, st.mem, st.flags prime)
  let s2 := flagWhile p size (M : Int) fuel (inp.soln2.getD prime 0, s1.2.1, s1.2.2)
  { st with mem := s2.2.1, flags := fun k => if k = prime then s2.2.2 else st.flags k }

/-- `sieve2(M, ...)`: the accumulator and `flags` are cleared, the sentinel is set, then
the two loops over the primes run. -/
def sieve2 (inp : SieveInput) (M fuel : Nat) (st : SieveState) : SieveState :=
  let st0 : SieveState :=
    { st with
      mem := fun i => if 0 ≤ i ∧ i < (M : Int) then 0 else if i = (M : Int) then 255 else st.mem i
      flags := fun k => if k < inp.cfg.numPrimes then 0 else st.flags k }
  let st1 := (List.range' inp.cfg.midprime (inp.cfg.secondprime - inp.cfg.midprime)).foldl
    (sieve2Prime inp M fuel) st0
  (List.range' inp.cfg.secondprime (inp.cfg.numPrimes - inp.cfg.secondprime)).foldl
    (sieve2Flagged inp M fuel) st1

/-- Lines 1288-1314: `sieve2` over the whole interval, then the calls of sieveInterval. -/
def siblingSieve (inp : SieveInput) (Mdiv2 fuel : Nat) (st : SieveState) : SieveState :=
  (sieveCalls Mdiv2).foldl (sieveInterval inp fuel) (sieve2 inp (Mdiv2 * 2) fuel st)

/-- How often the progression `soln, soln + p, ...` meets position `i`: once when
`i ≡ soln (mod p)`, else not. -/
def rootHits (p : Int) (soln i : Int) : Nat := if (i - soln) % p = 0 then 1 else 0

/-- The naive sieve: the sum of `primeSizes[prime]` over the unmarked primes of
`[firstprime, numPrimes)`, counted once for each of the two roots that meets `i`. -/
def naiveSieve (inp : SieveInput) (i : Int) : Nat :=
  ((List.range' inp.cfg.firstprime (inp.cfg.numPrimes - inp.cfg.firstprime)).map
    (fun prime =>
      if inp.marked prime then 0
      else inp.primeSizes.getD prime 0 *
        (rootHits ((inp.factorBase.getD prime 0 : Nat) : Int) (inp.soln1.getD prime 0) i +
          rootHits ((inp.factorBase.getD prime 0 : Nat) : Int) (inp.soln2.getD prime 0) i))).sum

/-- How often the progression `start, start + p, ...` meets position `i` before `bound`. -/
def progHits (p start bound i : Int) : Nat :=
  if start ≤ i ∧ i < bound ∧ (i - start) % p = 0 then 1 else 0

/-- The accumulator `mem'` is `mem` after `h i` additions of `size` to byte `i`: untouched
where `h` is zero, the sum modulo 256 everywhere, and a byte stays a byte. -/
def Adds (size : Nat) (mem mem' : Int → Nat) (h : Int → Nat) : Prop :=
  ∀ i, (h i = 0 → mem' i = mem i) ∧ mem' i % 256 = (mem i + size * h i) % 256 ∧
    (mem i < 256 → mem' i < 256)

/-- A small sieve: the primes 3 (index 2, small loop), 5 (index 3, medium loop), 7 (index
4, first loop of sieve2) and 11 (index 5, second loop of sieve2). -/
def sieveExample : SieveInput :=
  { factorBase := [1, 2, 3, 5, 7, 11], primeSizes := [0, 1, 2, 2, 3, 3],
    soln1 := [0, 0, 1, 2, 3, 4], soln2 := [0, 1, 2, 4, 5, 9], marked := fun _ => false,
    cfg := { numPrimes := 6, firstprime := 2, MEDIUMPRIME := 3, midprime := 4,
             secondprime := 5 } }

/-- The arrays as `calloc` leaves them. -/
def sieveState0 : SieveState :=
  { mem := fun _ => 0, offsets := fun _ => 0, offsets2 := fun _ => 0, flags := fun _ => 0 }

/-- The first element of the progression `soln, soln + p, ...` that is not below `e`: where
the cursor of a root stands when everything below `e` has been sieved. -/
def cursorAt (p soln e : Int) : Int :=
  if e ≤ soln then soln else soln + ((e - soln + p - 1) / p) * p

/-- The accumulator `mem'` is `mem` with `F i` added to byte `i` modulo 256, nothing
outside `[0, M)` is touched, and a byte stays a byte. -/
def SieveAdds (M : Int) (mem mem' : Int → Nat) (F : Int → Nat) : Prop :=
  (∀ i, mem' i % 256 = (mem i + F i) % 256) ∧ (∀ i, (i < 0 ∨ M ≤ i) → mem' i = mem i) ∧
    (∀ i, mem i < 256 → mem' i < 256)

/-- What the prime `prime` adds to byte `i` while its two cursors move from the positions
they have at `lo` to those they have at `hi`. -/
def primeHits (inp : SieveInput) (prime : Nat) (lo hi i : Int) : Nat :=
  inp.primeSizes.getD prime 0 *
    (progHits ((inp.factorBase.getD prime 0 : Nat) : Int)
        (cursorAt ((inp.factorBase.getD prime 0 : Nat) : Int) (inp.soln1.getD prime 0) lo)
        (cursorAt ((inp.factorBase.getD prime 0 : Nat) : Int) (inp.soln1.getD prime 0) hi) i +
      progHits ((inp.factorBase.getD prime 0 : Nat) : Int)
        (cursorAt ((inp.factorBase.getD prime 0 : Nat) : Int) (inp.soln2.getD prime 0) lo)
        (cursorAt ((inp.factorBase.getD prime 0 : Nat) : Int) (inp.soln2.getD prime 0) hi) i)

/-- The roots of `prime` are as the correction leaves them: the prime is positive and both
roots lie in `[0, p)`. -/
def RootsReduced (inp : SieveInput) (prime : Nat) : Prop :=
  0 < inp.factorBase.getD prime 0 ∧
    0 ≤ inp.soln1.getD prime 0 ∧
    inp.soln1.getD prime 0 < ((inp.factorBase.getD prime 0 : Nat) : Int) ∧
    0 ≤ inp.soln2.getD prime 0 ∧
    inp.soln2.getD prime 0 < ((inp.factorBase.getD prime 0 : Nat) : Int)

instance (inp : SieveInput) (prime : Nat) : Decidable (RootsReduced inp prime) := by
  unfold RootsReduced
  infer_instance


/-! ## QS.cpp, evaluateSieve as a whole: the scan with the evaluation of each candidate
(lines 519-768) -/

/-- The loop `while (j<M/sizeof(unsigned long))` of evaluateSieve (lines 526-766) with the
body of `if (i<M)`: the candidate the scan finds is evaluated with the byte `sieve[i]` and
the array `exponents` as they stand, `sieve[i] += extra` (line 604) is stored, and the
position is recorded with what it adds to the files.  `inp` carries the polynomial and the
globals; its fields `i`, `sieveByte` and `exponents` are set for each position. -/
def evaluateLoop (W threshold M : Nat) (inp : EvalInput) :
    Nat → Nat → List Nat → List Nat → Option (List (Nat × SieveOutput))
  | 0, _, _, _ => none
  | fuel + 1, j, sieve, exponents =>
    if j < M / W then
      match findCandidate W threshold sieve (fuel + 1) j with
      | none => none
      | some (i, j1) =>
        if i < M then
          match evaluateLoop W threshold M inp fuel j1
              (sieve.set i
                ({ inp with i := i, sieveByte := sieve.getD i 0, exponents := exponents }
                  : EvalInput).sieveValue)
              (trialFirst { inp with i := i, sieveByte := sieve.getD i 0,
                                     exponents := exponents }).exponents with
          | none => none
          | some rest =>
            some ((i, evaluatePosition { inp with i := i, sieveByte := sieve.getD i 0,
                                                  exponents := exponents }) :: rest)
        else evaluateLoop W threshold M inp fuel j1 sieve exponents
    else some []

/-- `evaluateSieve` on the accumulator `sieve` of a block of `M` bytes: the positions
evaluated, in order, each with what it adds to the files. -/
def evaluateSieve (W threshold M : Nat) (inp : EvalInput) (sieve : List Nat) (fuel : Nat) :
    Option (List (Nat × SieveOutput)) :=
  evaluateLoop W threshold M inp fuel 0 sieve inp.exponents

/-- An accumulator of two words of eight bytes and the word of the sentinel: word 0 has a
byte with bit 6 set that stays below the threshold 100, word 1 begins with a byte above
it. -/
def twiceExample : List Nat :=
  [70, 0, 0, 0, 0, 0, 0, 0, 200, 0, 0, 0, 0, 0, 0, 0, 255, 0, 0, 0, 0, 0, 0, 0]

/-- A polynomial family for a perfect square: `n = 90509^2`, `A = 17 * 23 * 37`, sieve half
width 10; `sqrts` holds `90509` modulo each entry. -/
def squareExample : PolyInput :=
  { w := 64, n := 8191879081, Mdiv2 := 10,
    factorBase := [1, 2, 13, 17, 19, 23, 37, 41],
    sqrts := [0, 1, 3, 1, 12, 4, 7, 22],
    aind := [1, 3, 4], min := 2,
    cfg := { numPrimes := 8, firstprime := 3, MEDIUMPRIME := 7, midprime := 7,
             secondprime := 7 } }

/-- Position 3 of the first sibling of `squareExample`, where `A*x + B = -90509` and
`Q(x) = 0`, with the accumulator byte 250. -/
def zeroExample : EvalInput :=
  { A := polyA squareExample, B := siblingB squareExample 1
    C := polyC squareExample (siblingB squareExample 1)
    Mdiv2 := 10, ctimesreps := 0, i := 3
    factorBase := squareExample.factorBase, primeSizes := [0, 1, 4, 4, 4, 5, 5, 5]
    solns := siblingSolns squareExample 1, flags := [0, 0, 0, 0, 0, 0, 0, 255]
    sieveByte := 250, errorbits := 10, exponents := List.replicate 3 0
    cfg := squareExample.cfg
    largeprime := 100000, aind := squareExample.aind, min := squareExample.min, s := 3 }

/-! ## lprels.cpp, mergesort_lp_file_internal in large-prime mode: where the lines go -/

/-- The lines of `COMB` that the runs account for; a run is its first line with the lines
written behind it, and the latest run stands first in the list. -/
def combOf : List (List Char × List (List Char)) → List (List Char)
  | [] => []
  | r :: rest => combOf rest ++ (r.1 :: r.2)

/-- The lines of the runs behind their first lines. -/
def tailsOf : List (List Char × List (List Char)) → List (List Char)
  | [] => []
  | r :: rest => tailsOf rest ++ r.2

/-- The number of lines of `ls` equal to `x`. -/
def occurrences (x : List Char) (ls : List (List Char)) : Nat :=
  ls.countP (fun y => decide (y = x))

/-- The line `line_new` as long as it waits to be written: in the first loop a line already
sent to `COMB` (run in progress) does not. -/
def pendingLine (ph : MergePhase) (st : MergeState) : List (List Char) :=
  if ph = MergePhase.newCatchesUp ∧ st.comb_in_progress = true then [] else [st.line_new]

/-- What the main loop keeps true in large-prime mode, for the input files `LPREL` and
`LPNEW`, the runs written to `COMB` so far and the lines dropped so far: `COMB` consists of
the runs; the first line of a run is in `TMP` or is the line `line` still to be written
there, and the lines behind it have its large prime; a dropped line is a line of `LPNEW`
that is also a line of `LPREL`; every line read is in `TMP`, behind the first line of a run,
dropped, waiting in `line_new` or `line`, or still unread; `c + i` counts the lines behind
the first lines. -/
def MergeTrace (w : Nat) ( LPREL LPNEW : List (List Char)) (ph : MergePhase) (st : MergeState)
    (runs : List (List Char × List (List Char))) (dropped : List (List Char)) : Prop :=
  st.comb = combOf runs ∧
  (∀ r ∈ runs, r.2 ≠ [] ∧ (r.1 ∈ st.tmp ∨ r.1 = st.line) ∧ ∀ l ∈ r.2, atol w l = atol w r.1) ∧
  (∀ l ∈ dropped, l ∈ LPNEW ∧ l ∈ LPREL) ∧
  (∀ x, occurrences x st.tmp + occurrences x (tailsOf runs) + occurrences x dropped
      + occurrences x (pendingLine ph st) + occurrences x [st.line]
      + occurrences x st.lprel + occurrences x st.lpnew
    = occurrences x LPREL + occurrences x LPNEW) ∧
  st.c + st.i = (tailsOf runs).length ∧
  (st.line ∈ LPREL ∧ st.line_new ∈ LPNEW ∧
    (∀ l ∈ st.lprel, l ∈ LPREL) ∧ (∀ l ∈ st.lpnew, l ∈ LPNEW)) ∧
  (st.q = atol w st.line ∧ st.q_new = atol w st.line_new) ∧
  (ph = MergePhase.relCatchesUp → st.i = 0 ∧ st.comb_in_progress = false) ∧
  (ph = MergePhase.newCatchesUp → st.comb_in_progress = true →
    st.q_new_old = st.q_new ∧ st.q > st.q_new ∧ st.line_new_old ∈ st.tmp ∧
    atol w st.line_new_old = st.q_new_old ∧
    ∃ fs rest, runs = (st.line_new_old, fs) :: rest) ∧
  (ph = MergePhase.equalKeys → st.comb_in_progress = true →
    ∃ fs rest, runs = (st.line, fs) :: rest)

/-- What holds of the files when `mergesort_lp_file_internal` returns in large-prime mode. -/
def MergeFinal (w : Nat) ( LPREL LPNEW : List (List Char)) (out : MergeOut)
    (runs : List (List Char × List (List Char))) (dropped : List (List Char)) : Prop :=
  out.comb = combOf runs ∧
  (∀ r ∈ runs, r.2 ≠ [] ∧ r.1 ∈ out.tmp ∧ ∀ l ∈ r.2, atol w l = atol w r.1) ∧
  (∀ l ∈ dropped, l ∈ LPNEW ∧ l ∈ LPREL) ∧
  (∀ x, occurrences x out.tmp + occurrences x (tailsOf runs) + occurrences x dropped
    = occurrences x LPREL + occurrences x LPNEW) ∧
  out.ret = (tailsOf runs).length

/-! ## Theorems -/

theorem mem_factorLoop (wide : Nat → Nat) (inp : SqrtInput) (n : Int) (mask : Nat) :
    ∀ (fuel l : Nat) (f : Int), f ∈ factorLoop wide inp n mask fuel l →
      ∃ l1, f ∈ printedAt wide inp n l1 := by
  intro fuel
  induction fuel with
  | zero => intro l f hf; simp [factorLoop] at hf
  | succ k ih =>
    intro l f hf
    unfold factorLoop at hf
    split_ifs at hf with hl
    · cases hs : findSetBit wide mask (k + 1) l with
      | none => rw [hs] at hf; simp at hf
      | some l1 =>
        rw [hs] at hf
        simp only [List.mem_append] at hf
        rcases hf with hf | hf
        · exact ⟨l1, hf⟩
        · exact ih _ _ hf
    · simp at hf

theorem printedAt_spec (wide : Nat → Nat) (inp : SqrtInput) (n : Int) (hn : 0 < n) (l : Nat) (f : Int)
    (hf : f ∈ printedAt wide inp n l) : f ∣ n ∧ 1 < f ∧ f < n := by
  unfold printedAt at hf
  simp only at hf
  split_ifs at hf with h
  · simp only [List.mem_singleton] at hf
    subst hf
    obtain ⟨h1, h2⟩ := h
    unfold sqrtGcd mpz_gcd at *
    simp only at *
    set d := (ySide wide inp n l).1 - xSide inp n (ySide wide inp n l).2 with hd
    have hdvd : ((Int.gcd d n : Nat) : Int) ∣ n := Int.gcd_dvd_right
    have hpos : 0 < Int.gcd d n := Int.gcd_pos_of_ne_zero_right d (ne_of_gt hn)
    have hle : ((Int.gcd d n : Nat) : Int) ≤ n := Int.le_of_dvd hn hdvd
    refine ⟨hdvd, ?_, lt_of_le_of_ne hle h1⟩
    have : (1 : Int) ≤ (Int.gcd d n : Nat) := by exact_mod_cast hpos
    exact lt_of_le_of_ne this (Ne.symm h2)
  · simp at hf

/-- C1: every number printed after `FACTORS:` by the final loop of `mainRoutine` is a
divisor `f` of `N = n / multiplier` with `1 < f < N`, for any null-space vectors,
`X` values and exponent lists, however many rounds the loop makes and whatever the shift
delivers when the search of line 1526 has left the range `l < 64`. -/
theorem printedFactors_nontrivial_divisors (wide : Nat → Nat) (inp : SqrtInput) (fuel : Nat)
    (hN : 0 < mpz_div_ui inp.n inp.multiplier) :
    ∀ f ∈ printedFactors wide inp fuel,
      f ∣ mpz_div_ui inp.n inp.multiplier ∧ 1 < f ∧ f < mpz_div_ui inp.n inp.multiplier := by
  intro f hf
  obtain ⟨l1, hl1⟩ := mem_factorLoop wide inp _ _ _ _ f hf
  exact printedAt_spec wide inp _ hN l1 f hl1

/-- Inside the range `l < 64` the test of line 1526 is the test of bit `l` of `mask`. -/
theorem and_shiftOne_ne_zero (wide : Nat → Nat) (m l : Nat) (hl : l < 64) :
    (m &&& shiftOne wide l ≠ 0) ↔ m.testBit l = true := by
  unfold shiftOne
  rw [if_pos hl, Nat.one_shiftLeft]
  constructor
  · intro h
    by_contra hb
    apply h
    apply Nat.eq_of_testBit_eq
    intro i
    simp only [Nat.testBit_and, Nat.testBit_two_pow, Nat.zero_testBit]
    by_cases hi : l = i
    · subst hi; simp [hb]
    · simp [hi]
  · intro h h0
    have := congrArg (fun x => x.testBit l) h0
    simp [Nat.testBit_and, Nat.testBit_two_pow, h] at this

/-- As long as the search of line 1526 stays below 64 it is the search for a set bit of
`mask`, whatever the machine does with larger shift counts. -/
theorem findSetBit_eq_skipClearBits (wide : Nat → Nat) (mask : Nat) :
    ∀ (fuel l : Nat), l + fuel ≤ 64 → findSetBit wide mask fuel l = skipClearBits mask fuel l := by
  intro fuel
  induction fuel with
  | zero => intro l _; rfl
  | succ k ih =>
    intro l hl
    rw [findSetBit, skipClearBits]
    by_cases hb : mask.testBit l = true
    · rw [if_pos ((and_shiftOne_ne_zero wide mask l (by omega)).mpr hb), if_pos hb]
    · rw [if_neg (fun h => hb ((and_shiftOne_ne_zero wide mask l (by omega)).mp h)), if_neg hb]
      exact ih (l + 1) (by omega)

theorem incrAt_length (pc : List Nat) (k : Nat) : (incrAt pc k).length = pc.length := by
  induction pc generalizing k with
  | nil => rfl
  | cons c cs ih => cases k <;> simp [incrAt, ih]

theorem incrAt_getD (pc : List Nat) (k j : Nat) (hk : k < pc.length) :
    (incrAt pc k).getD j 0 = pc.getD j 0 + (if j = k then 1 else 0) := by
  induction pc generalizing k j with
  | nil => simp at hk
  | cons c cs ih =>
    cases k with
    | zero => cases j <;> simp [incrAt]
    | succ k =>
      cases j with
      | zero => simp [incrAt]
      | succ j =>
        simp only [incrAt, List.getD_cons_succ]
        rw [ih k j (by simpa using hk)]
        simp

theorem countRelation_length (rel pc : List Nat) : (countRelation pc rel).length = pc.length := by
  induction rel generalizing pc with
  | nil => rfl
  | cons r rs ih =>
    simp only [countRelation, List.foldl_cons] at ih ⊢
    rw [ih, incrAt_length]

theorem countRelation_getD (rel pc : List Nat) (j : Nat) (h : ∀ p ∈ rel, p < pc.length) :
    (countRelation pc rel).getD j 0 = pc.getD j 0 + rel.count j := by
  induction rel generalizing pc with
  | nil => simp [countRelation]
  | cons r rs ih =>
    simp only [countRelation, List.foldl_cons] at ih ⊢
    rw [ih (incrAt pc r) (by intro p hp; rw [incrAt_length]; exact h p (by simp [hp])),
      incrAt_getD pc r j (h r (by simp)), List.count_cons]
    by_cases hjr : j = r
    · subst hjr; simp; ring
    · have : ¬ (r == j) = true := by simpa using (Ne.symm hjr)
      simp [hjr, this]

theorem ySide_fold (wide : Nat → Nat) (inp : SqrtInput) (n : Int) (l : Nat) (is : List Nat) :
    ∀ (st : Int × List Nat),
      (∀ i ∈ is, getNullEntry wide inp.nullrows i l = true → ∀ p ∈ relOf inp i, p < st.2.length) →
      ((is.foldl (ySideStep wide inp n l) st).1 ≡ st.1 * ((selCols wide inp l is).map (xOf inp)).prod [ZMOD n])
      ∧ (is.foldl (ySideStep wide inp n l) st).2.length = st.2.length
      ∧ ∀ j, (is.foldl (ySideStep wide inp n l) st).2.getD j 0
          = st.2.getD j 0 + ((selCols wide inp l is).map (fun i => (relOf inp i).count j)).sum := by
  induction is with
  | nil => intro st _; simp [selCols]
  | cons i is ih =>
    intro st hidx
    simp only [List.foldl_cons]
    have hidx' : ∀ i' ∈ is, getNullEntry wide inp.nullrows i' l = true →
        ∀ p ∈ relOf inp i', p < (ySideStep wide inp n l st i).2.length := by
      intro i' hi' hs p hp
      have hlen : (ySideStep wide inp n l st i).2.length = st.2.length := by
        unfold ySideStep
        by_cases hsel : getNullEntry wide inp.nullrows i l = true <;> by_cases h30 : i % 30 = 0 <;>
          simp [hsel, h30, countRelation_length]
      rw [hlen]
      exact hidx i' (by simp [hi']) hs p hp
    obtain ⟨h1, h2, h3⟩ := ih (ySideStep wide inp n l st i) hidx'
    by_cases hsel : getNullEntry wide inp.nullrows i l = true
    · have hstep1 : (ySideStep wide inp n l st i).1 ≡ st.1 * xOf inp i [ZMOD n] := by
        unfold ySideStep xOf
        by_cases h30 : i % 30 = 0
        · simp only [hsel, h30, if_true, mpz_mod]
          exact Int.mod_modEq _ _
        · simp only [hsel, h30, if_true, if_false]
          exact Int.ModEq.refl _
      have hstep2 : (ySideStep wide inp n l st i).2 = countRelation st.2 (relOf inp i) := by
        unfold ySideStep relOf
        by_cases h30 : i % 30 = 0 <;> simp [hsel, h30]
      refine ⟨?_, ?_, ?_⟩
      · refine h1.trans ?_
        simp only [selCols, List.filter_cons, hsel, if_true, List.map_cons, List.prod_cons]
        rw [← mul_assoc]
        exact Int.ModEq.mul_right _ hstep1
      · rw [h2, hstep2, countRelation_length]
      · intro j
        rw [h3 j, hstep2, countRelation_getD _ _ _ (hidx i (by simp) hsel)]
        simp only [selCols, List.filter_cons, hsel, if_true, List.map_cons, List.sum_cons]
        ring
    · have hstep1 : (ySideStep wide inp n l st i).1 ≡ st.1 [ZMOD n] := by
        unfold ySideStep
        by_cases h30 : i % 30 = 0
        · simp only [hsel, h30, if_true, mpz_mod]
          exact Int.mod_modEq _ _
        · simp only [hsel, h30, if_false]
          exact Int.ModEq.refl _
      have hstep2 : (ySideStep wide inp n l st i).2 = st.2 := by
        unfold ySideStep
        by_cases h30 : i % 30 = 0 <;> simp [hsel, h30]
      refine ⟨?_, ?_, ?_⟩
      · refine h1.trans ?_
        simp only [selCols, List.filter_cons, hsel]
        exact Int.ModEq.mul_right _ hstep1
      · rw [h2, hstep2]
      · intro j
        rw [h3 j, hstep2]
        simp [selCols, List.filter_cons, hsel]

theorem xSide_fold (inp : SqrtInput) (n : Int) (pc : List Nat) (js : List Nat) :
    ∀ t : Int, js.foldl (xSideStep inp n pc) t
      ≡ t * (js.map (fun j => ((inp.factorBase.getD j 0 : Nat) : Int) ^ (pc.getD j 0 / 2))).prod
        [ZMOD n] := by
  induction js with
  | nil => intro t; simp
  | cons j js ih =>
    intro t
    simp only [List.foldl_cons, List.map_cons, List.prod_cons]
    refine (ih _).trans ?_
    rw [← mul_assoc]
    apply Int.ModEq.mul_right
    unfold xSideStep
    by_cases h30 : j % 30 = 0
    · simp only [h30, if_true, mpz_mod]; exact Int.mod_modEq _ _
    · simp only [h30, if_false]; exact Int.ModEq.refl _

theorem list_prod_sq_modEq (n : Int) (S : List Nat) (X P : Nat → Int)
    (h : ∀ i ∈ S, X i ^ 2 ≡ P i [ZMOD n]) :
    (S.map X).prod ^ 2 ≡ (S.map P).prod [ZMOD n] := by
  induction S with
  | nil => simp
  | cons i S ih =>
    simp only [List.map_cons, List.prod_cons, mul_pow]
    exact Int.ModEq.mul (h i (by simp)) (ih (fun i' hi' => h i' (by simp [hi'])))

theorem prod_map_eq_prod_range_pow (m : Nat) (f : Nat → Int) (r : List Nat)
    (h : ∀ p ∈ r, p < m) :
    (r.map f).prod = ∏ j in Finset.range m, f j ^ r.count j := by
  rw [Finset.prod_list_map_count]
  apply Finset.prod_subset
  · intro p hp
    simp only [List.mem_toFinset] at hp
    simpa using h p hp
  · intro j _ hj
    simp only [List.mem_toFinset] at hj
    rw [List.count_eq_zero_of_not_mem hj, pow_zero]

theorem prod_rel_eq_prod_range_pow (m : Nat) (f : Nat → Int) (rel : Nat → List Nat) (S : List Nat)
    (h : ∀ i ∈ S, ∀ p ∈ rel i, p < m) :
    (S.map (fun i => ((rel i).map f).prod)).prod
      = ∏ j in Finset.range m, f j ^ (S.map (fun i => (rel i).count j)).sum := by
  induction S with
  | nil => simp
  | cons i S ih =>
    simp only [List.map_cons, List.prod_cons, List.sum_cons]
    rw [ih (fun i' hi' => h i' (by simp [hi'])),
      prod_map_eq_prod_range_pow m f (rel i) (h i (by simp)), ← Finset.prod_mul_distrib]
    apply Finset.prod_congr rfl
    intro j _
    rw [pow_add]

theorem list_range_prod_eq (m : Nat) (g : Nat → Int) :
    ((List.range m).map g).prod = ∏ j in Finset.range m, g j := by
  induction m with
  | zero => simp
  | succ k ih => rw [List.range_succ, List.map_append, List.prod_append, ih,
      Finset.prod_range_succ]; simp

theorem getD_replicate_zero (m j : Nat) : (List.replicate m 0).getD j 0 = 0 := by
  rw [List.getD_eq_getElem?_getD, List.getElem?_replicate]
  split_ifs <;> rfl


/-- C2: in the square-root step for null-space bit `l`, when every selected relation
satisfies `X_i^2 = prod p^e (mod kN)`, every prime index is a factor-base index and the
summed exponent of every factor-base entry over the selected relations is even, the loops
leave, periodic reductions included, `y` (`temp2`) congruent modulo `N = kN / multiplier` to
the product of the selected `X_i`, `primecount[j]` equal to the summed exponent of entry `j`,
and `x` (`temp`) congruent to the product of the `factorBase[j]^(primecount[j]/2)`; and
`y^2 = x^2 (mod N)`. -/
theorem sqrt_step_congruence (wide : Nat → Nat) (inp : SqrtInput) (l : Nat)
    (hk : (inp.multiplier : Int) ∣ inp.n)
    (hidx : ∀ i < inp.ncols, getNullEntry wide inp.nullrows i l = true →
      ∀ p ∈ inp.relations.getD (inp.orig.getD i 0) [], p < inp.numPrimes)
    (hrel : ∀ i < inp.ncols, getNullEntry wide inp.nullrows i l = true →
      inp.XArr.getD (inp.orig.getD i 0) 0 ^ 2
        ≡ ((inp.relations.getD (inp.orig.getD i 0) []).map
            (fun p => ((inp.factorBase.getD p 0 : Nat) : Int))).prod [ZMOD inp.n])
    (heven : ∀ j < inp.numPrimes,
      Even ((((List.range inp.ncols).filter (fun i => getNullEntry wide inp.nullrows i l)).map
        (fun i => (inp.relations.getD (inp.orig.getD i 0) []).count j)).sum)) :
    (ySide wide inp (mpz_div_ui inp.n inp.multiplier) l).1
      ≡ (((List.range inp.ncols).filter (fun i => getNullEntry wide inp.nullrows i l)).map
          (fun i => inp.XArr.getD (inp.orig.getD i 0) 0)).prod
        [ZMOD mpz_div_ui inp.n inp.multiplier] ∧
    (∀ j, (ySide wide inp (mpz_div_ui inp.n inp.multiplier) l).2.getD j 0
      = (((List.range inp.ncols).filter (fun i => getNullEntry wide inp.nullrows i l)).map
          (fun i => (inp.relations.getD (inp.orig.getD i 0) []).count j)).sum) ∧
    xSide inp (mpz_div_ui inp.n inp.multiplier)
        (ySide wide inp (mpz_div_ui inp.n inp.multiplier) l).2
      ≡ ∏ j in Finset.range inp.numPrimes,
          ((inp.factorBase.getD j 0 : Nat) : Int)
            ^ ((ySide wide inp (mpz_div_ui inp.n inp.multiplier) l).2.getD j 0 / 2)
        [ZMOD mpz_div_ui inp.n inp.multiplier] ∧
    (ySide wide inp (mpz_div_ui inp.n inp.multiplier) l).1 ^ 2
      ≡ xSide inp (mpz_div_ui inp.n inp.multiplier)
          (ySide wide inp (mpz_div_ui inp.n inp.multiplier) l).2 ^ 2
        [ZMOD mpz_div_ui inp.n inp.multiplier] := by
  set N := mpz_div_ui inp.n inp.multiplier with hN
  have hNdvd : N ∣ inp.n := by
    rw [hN]; unfold mpz_div_ui
    exact Dvd.intro _ (Int.ediv_mul_cancel hk)
  set S := selCols wide inp l (List.range inp.ncols) with hS
  have hfold := ySide_fold wide inp N l (List.range inp.ncols)
    (1, List.replicate inp.numPrimes 0)
    (by
      intro i hi hs p hp
      simp only [List.length_replicate]
      exact hidx i (by simpa using hi) hs p hp)
  obtain ⟨hy, _, hpc⟩ := hfold
  have hy' : (ySide wide inp N l).1 ≡ (S.map (xOf inp)).prod [ZMOD N] := by
    simpa [ySide] using hy
  have hpc' : ∀ j, (ySide wide inp N l).2.getD j 0
      = (S.map (fun i => (relOf inp i).count j)).sum := by
    intro j
    have := hpc j
    simp only [getD_replicate_zero, zero_add] at this
    unfold ySide
    rw [this]
  have hx := xSide_fold inp N (ySide wide inp N l).2 (List.range inp.numPrimes) 1
  rw [one_mul, list_range_prod_eq] at hx
  have hx' : xSide inp N (ySide wide inp N l).2
      ≡ ∏ j in Finset.range inp.numPrimes,
          ((inp.factorBase.getD j 0 : Nat) : Int) ^ ((ySide wide inp N l).2.getD j 0 / 2)
        [ZMOD N] := hx
  refine ⟨hy', hpc', hx', ?_⟩
  have hSmem : ∀ i ∈ S, i < inp.ncols ∧ getNullEntry wide inp.nullrows i l = true := by
    intro i hi
    simp only [hS, selCols, List.mem_filter, List.mem_range] at hi
    exact hi
  have hprod : (S.map (xOf inp)).prod ^ 2
      ≡ (S.map (fun i => ((relOf inp i).map
          (fun p => ((inp.factorBase.getD p 0 : Nat) : Int))).prod)).prod [ZMOD N] := by
    apply list_prod_sq_modEq
    intro i hi
    obtain ⟨h1, h2⟩ := hSmem i hi
    exact (hrel i h1 h2).of_dvd hNdvd
  rw [prod_rel_eq_prod_range_pow inp.numPrimes _ (relOf inp) S
    (fun i hi p hp => hidx i (hSmem i hi).1 (hSmem i hi).2 p hp)] at hprod
  refine ((hy'.pow 2).trans hprod).trans ((hx'.pow 2).trans ?_).symm
  rw [← Finset.prod_pow]
  apply Int.ModEq.symm
  have heq : ∀ a b : Int, a = b → a ≡ b [ZMOD N] := fun a b h => by rw [h]
  apply heq
  apply Finset.prod_congr rfl
  intro j hj
  rw [← pow_mul, hpc' j]
  congr 1
  have he := heven j (by simpa using hj)
  obtain ⟨c, hc⟩ := he
  have : (S.map (fun i => (relOf inp i).count j)).sum = c + c := hc
  rw [this]; omega

theorem printedFactors_nontrivial_divisors_witness :
    0 < mpz_div_ui sqrtExample.n sqrtExample.multiplier ∧
    printedFactors shiftMod64 sqrtExample 70 = [7, 7] ∧
    ∀ f ∈ printedFactors shiftMod64 sqrtExample 70,
      f ∣ mpz_div_ui sqrtExample.n sqrtExample.multiplier ∧ 1 < f ∧
        f < mpz_div_ui sqrtExample.n sqrtExample.multiplier :=
  ⟨by decide, by decide,
    printedFactors_nontrivial_divisors shiftMod64 sqrtExample 70 (by decide)⟩

theorem sqrt_step_congruence_witness :
    (ySide shiftMod64 sqrtExample 77 0).1 = 260 ∧
    (ySide shiftMod64 sqrtExample 77 0).2 = [0, 0, 2, 2] ∧
    xSide sqrtExample 77 (ySide shiftMod64 sqrtExample 77 0).2 = 15 ∧
    (ySide shiftMod64 sqrtExample (mpz_div_ui sqrtExample.n sqrtExample.multiplier) 0).1 ^ 2
      ≡ xSide sqrtExample (mpz_div_ui sqrtExample.n sqrtExample.multiplier)
          (ySide shiftMod64 sqrtExample
            (mpz_div_ui sqrtExample.n sqrtExample.multiplier) 0).2 ^ 2
        [ZMOD mpz_div_ui sqrtExample.n sqrtExample.multiplier] :=
  ⟨by decide, by decide, by decide,
    (sqrt_step_congruence shiftMod64 sqrtExample 0 (by decide) (by decide) (by decide)
      (by decide)).2.2.2⟩

/-! ### read_matrix -/

theorem checkProduct_modEq (n : Int) (fb : List Nat) (rel : List Nat) :
    ∀ (i : Nat) (t : Int),
      checkProduct n fb rel i t ≡ t * (rel.map (fun p => ((fb.getD p 0 : Nat) : Int))).prod
        [ZMOD n] := by
  induction rel with
  | nil => intro i t; simp [checkProduct]
  | cons p ps ih =>
    intro i t
    simp only [checkProduct, List.map_cons, List.prod_cons]
    refine (ih _ _).trans ?_
    rw [← mul_assoc]
    apply Int.ModEq.mul_right
    by_cases h30 : i % 30 = 0
    · simp only [h30, if_true, mpz_mod]; exact Int.mod_modEq _ _
    · simp only [h30, if_false]; exact Int.ModEq.refl _

theorem parseRelation_fold (fb : List Nat) (ps : List (Nat × Nat)) :
    ∀ r : List Nat,
      ((ps.foldl (fun r ep => r ++ List.replicate ep.1 ep.2) r).map
          (fun p => ((fb.getD p 0 : Nat) : Int))).prod
        = (r.map (fun p => ((fb.getD p 0 : Nat) : Int))).prod
          * (ps.map (fun ep => ((fb.getD ep.2 0 : Nat) : Int) ^ ep.1)).prod := by
  induction ps with
  | nil => intro r; simp
  | cons ep ps ih =>
    intro r
    simp only [List.foldl_cons, List.map_cons, List.prod_cons]
    rw [ih, List.map_append, List.prod_append, List.map_replicate, List.prod_replicate, mul_assoc]

theorem parseRelation_prod (fb : List Nat) (ln : RelLine) :
    ((parseRelation (parsedPairs ln)).map (fun p => ((fb.getD p 0 : Nat) : Int))).prod
      = relationProduct fb ln := by
  unfold parseRelation relationProduct
  rw [parseRelation_fold]; simp

theorem relationKept_iff (n : Int) (fb : List Nat) (ln : RelLine) :
    relationKept n fb ln.X (parseRelation (parsedPairs ln)) = true ↔
      (ln.X ^ 2 ≡ relationProduct fb ln [ZMOD n]
        ∨ relationProduct fb ln % n + ln.X ^ 2 % n = n) := by
  have h1 : mpz_mod (checkProduct n fb (parseRelation (parsedPairs ln)) 1 1) n
      = relationProduct fb ln % n := by
    have := checkProduct_modEq n fb (parseRelation (parsedPairs ln)) 1 1
    rw [one_mul, parseRelation_prod] at this
    exact this
  have h2 : mpz_mod (ln.X * ln.X) n = ln.X ^ 2 % n := by
    unfold mpz_mod; rw [sq]
  unfold relationKept
  simp only [h1, h2]
  unfold Int.ModEq
  by_cases he : relationProduct fb ln % n = ln.X ^ 2 % n
  · simp [he]
  · by_cases hs : relationProduct fb ln % n + ln.X ^ 2 % n = n
    · simp [he, hs]
    · have he' : ¬ ln.X ^ 2 % n = relationProduct fb ln % n := fun h => he h.symm
      simp [he, hs, he']

theorem sum_mod_eq_iff (n a b : Int) (hn : 0 < n) :
    (a % n = b % n ∨ a % n + b % n = n) ↔ (b ≡ a [ZMOD n] ∨ b ≡ -a [ZMOD n]) := by
  have ha0 := Int.emod_nonneg a (ne_of_gt hn)
  have ha1 := Int.emod_lt_of_pos a hn
  have hb0 := Int.emod_nonneg b (ne_of_gt hn)
  have hb1 := Int.emod_lt_of_pos b hn
  constructor
  · rintro (h | h)
    · exact Or.inl h.symm
    · right
      have h1 : (a + b) % n = 0 := by
        rw [Int.add_emod, h, Int.emod_self]
      have h2 : n ∣ a + b := Int.dvd_of_emod_eq_zero h1
      apply Int.ModEq.symm
      rw [Int.modEq_iff_dvd]
      have : b - -a = a + b := by ring
      rw [this]; exact h2
  · rintro (h | h)
    · exact Or.inl h.symm
    · have h2 : n ∣ a + b := by
        have := (Int.modEq_iff_dvd.mp h.symm)
        have e : b - -a = a + b := by ring
        rw [e] at this; exact this
      have h3 : n ∣ a % n + b % n := by
        have : (a % n + b % n) % n = 0 := by
          rw [← Int.add_emod]; exact Int.emod_eq_zero_of_dvd h2
        exact Int.dvd_of_emod_eq_zero this
      obtain ⟨c, hc⟩ := h3
      have hc0 : 0 ≤ c := by
        by_contra hneg
        push_neg at hneg
        have : n * c ≤ n * (-1) := by
          apply mul_le_mul_of_nonneg_left _ (le_of_lt hn); omega
        linarith
      have hc2 : c < 2 := by
        by_contra hge
        push_neg at hge
        have : n * 2 ≤ n * c := mul_le_mul_of_nonneg_left hge (le_of_lt hn)
        linarith
      have hc' : c = 0 ∨ c = 1 := by omega
      rcases hc' with rfl | rfl
      · left; omega
      · right; rw [hc]; ring

theorem readLine_relsFound (n : Int) (fb : List Nat) (st : MatState) (ln : RelLine) :
    (relationKept n fb ln.X (parseRelation (parsedPairs ln)) = true →
      (readLine n fb st ln).relsFound = st.relsFound + 1) ∧
    (relationKept n fb ln.X (parseRelation (parsedPairs ln)) = false →
      (readLine n fb st ln).relsFound = st.relsFound ∧
      (readLine n fb st ln).colarray.getD st.relsFound [] = []) := by
  constructor
  · intro h; simp [readLine, h]
  · intro h
    simp only [readLine, h, clearCol]
    refine ⟨rfl, ?_⟩
    simp only [Bool.false_eq_true, if_false]
    rw [List.getD_eq_getElem?_getD, List.getElem?_set]
    simp only [if_true]
    split_ifs <;> rfl

/-- C3 (as the code has it): while `relsFound < relSought`, `read_matrix` keeps a relation
line, advancing `relsFound` past it, exactly when the parsed `X` and pairs satisfy
`X^2 = prod p_i^e_i (mod kN)` or `X^2 = -prod p_i^e_i (mod kN)`; a line failing both is
discarded: `relsFound` stays and the column is cleared. -/
theorem read_matrix_keeps_iff (n : Int) (fb : List Nat) (relSought : Nat) (st : MatState)
    (ln : RelLine) (rest : List RelLine) (hn : 0 < n) (hroom : st.relsFound < relSought) :
    read_matrix n fb relSought (ln :: rest) st
        = read_matrix n fb relSought rest (readLine n fb st ln) ∧
    ((ln.X ^ 2 ≡ relationProduct fb ln [ZMOD n] ∨ ln.X ^ 2 ≡ -relationProduct fb ln [ZMOD n]) →
      (readLine n fb st ln).relsFound = st.relsFound + 1) ∧
    (¬ (ln.X ^ 2 ≡ relationProduct fb ln [ZMOD n]
          ∨ ln.X ^ 2 ≡ -relationProduct fb ln [ZMOD n]) →
      (readLine n fb st ln).relsFound = st.relsFound ∧
      (readLine n fb st ln).colarray.getD st.relsFound [] = []) := by
  have hk := relationKept_iff n fb ln
  have hiff : relationKept n fb ln.X (parseRelation (parsedPairs ln)) = true ↔
      (ln.X ^ 2 ≡ relationProduct fb ln [ZMOD n]
        ∨ ln.X ^ 2 ≡ -relationProduct fb ln [ZMOD n]) := by
    rw [hk, ← sum_mod_eq_iff n _ _ hn]
    unfold Int.ModEq
    constructor
    · rintro (h | h)
      · exact Or.inl h.symm
      · exact Or.inr h
    · rintro (h | h)
      · exact Or.inl h.symm
      · exact Or.inr h
  obtain ⟨h1, h2⟩ := readLine_relsFound n fb st ln
  refine ⟨by simp [read_matrix, hroom], fun h => h1 (hiff.mpr h), fun h => h2 ?_⟩
  cases hb : relationKept n fb ln.X (parseRelation (parsedPairs ln)) with
  | false => rfl
  | true => exact absurd (hiff.mp hb) h

theorem read_matrix_keeps_iff_witness :
    read_matrix 77 [1, 2, 3, 13] 3 [negativeLine, { X := 9, pairs := [(1, 1)] }]
        (emptyMat 3)
      = read_matrix 77 [1, 2, 3, 13] 3 [{ X := 9, pairs := [(1, 1)] }]
        (readLine 77 [1, 2, 3, 13] (emptyMat 3) negativeLine) ∧
    ((negativeLine.X ^ 2 ≡ relationProduct [1, 2, 3, 13] negativeLine [ZMOD 77]
        ∨ negativeLine.X ^ 2 ≡ -relationProduct [1, 2, 3, 13] negativeLine [ZMOD 77]) →
      (readLine 77 [1, 2, 3, 13] (emptyMat 3) negativeLine).relsFound
        = (emptyMat 3).relsFound + 1) ∧
    (¬ (negativeLine.X ^ 2 ≡ relationProduct [1, 2, 3, 13] negativeLine [ZMOD 77]
          ∨ negativeLine.X ^ 2 ≡ -relationProduct [1, 2, 3, 13] negativeLine [ZMOD 77]) →
      (readLine 77 [1, 2, 3, 13] (emptyMat 3) negativeLine).relsFound = (emptyMat 3).relsFound ∧
      (readLine 77 [1, 2, 3, 13] (emptyMat 3) negativeLine).colarray.getD
        (emptyMat 3).relsFound [] = []) :=
  read_matrix_keeps_iff 77 [1, 2, 3, 13] 3 (emptyMat 3) negativeLine
    [{ X := 9, pairs := [(1, 1)] }] (by decide) (by decide)

/-- C3 fails as stated: over `n = 77` and the factor base `[1, 2, 3, 13]` the line
`8 : 1 3 0` is kept by `read_matrix` although `8^2 = 64` is not congruent to `13`. -/
theorem read_matrix_keeps_negative :
    (read_matrix 77 [1, 2, 3, 13] 3 [negativeLine] (emptyMat 3)).relsFound = 1 ∧
    (read_matrix 77 [1, 2, 3, 13] 3 [negativeLine] (emptyMat 3)).colarray.getD 0 [] = [3] ∧
    ¬ (negativeLine.X ^ 2 ≡ relationProduct [1, 2, 3, 13] negativeLine [ZMOD 77]) := by
  decide

/-! ### combine_large_primes -/

theorem mpz_invert_some {a N inv : Int} (h : mpz_invert a N = some inv) :
    a * inv ≡ 1 [ZMOD N] := by
  unfold mpz_invert at h
  rw [Option.map_eq_some'] at h
  obtain ⟨x, hx, rfl⟩ := h
  have := List.find?_some hx
  simpa [Int.ModEq] using this

theorem mpz_invert_of_gcd {a N : Int} (hN : 0 < N) (h : Int.gcd a N = 1) :
    ∃ inv, mpz_invert a N = some inv ∧ a * inv ≡ 1 [ZMOD N] := by
  have hex : ∃ x ∈ List.range N.natAbs, (a * (x : Int)) % N = 1 % N := by
    refine ⟨(Int.gcdA a N % N).toNat, ?_, ?_⟩
    · rw [List.mem_range]
      have h0 := Int.emod_nonneg (Int.gcdA a N) (ne_of_gt hN)
      have h1 := Int.emod_lt_of_pos (Int.gcdA a N) hN
      omega
    · have h0 := Int.emod_nonneg (Int.gcdA a N) (ne_of_gt hN)
      rw [Int.toNat_of_nonneg h0]
      have hb := Int.gcd_eq_gcd_ab a N
      rw [h] at hb
      have : a * (Int.gcdA a N % N) ≡ 1 [ZMOD N] := by
        have h2 : a * (Int.gcdA a N % N) ≡ a * Int.gcdA a N [ZMOD N] :=
          Int.ModEq.mul_left _ (Int.mod_modEq _ _)
        refine h2.trans ?_
        rw [Int.modEq_iff_dvd]
        refine ⟨Int.gcdB a N, ?_⟩
        push_cast at hb
        rw [hb]; ring
      exact this
  cases hf : (List.range N.natAbs).find? (fun x : Nat => decide ((a * (x : Int)) % N = 1 % N)) with
  | none =>
    rw [List.find?_eq_none] at hf
    obtain ⟨x, hx, hx2⟩ := hex
    exact absurd (by simpa using hx2) (hf x hx)
  | some x =>
    have hm : mpz_invert a N = some (x : Int) := by unfold mpz_invert; rw [hf]; rfl
    exact ⟨x, hm, mpz_invert_some hm⟩

theorem toUlong_of_range {q : Int} (h0 : 0 ≤ q) (h1 : q < 2 ^ 63) : toUlong q = q := by
  unfold toUlong
  apply Int.emod_eq_of_lt h0
  have : (2 : Int) ^ 63 < 2 ^ 64 := by norm_num
  linarith

theorem addAt_length (ei : List Nat) (k e : Nat) : (addAt ei k e).length = ei.length := by
  induction ei generalizing k with
  | nil => rfl
  | cons c cs ih => cases k <;> simp [addAt, ih]

theorem addAt_getD (ei : List Nat) (k e l : Nat) (hk : k < ei.length) :
    (addAt ei k e).getD l 0 = ei.getD l 0 + (if k = l then e else 0) := by
  induction ei generalizing k l with
  | nil => simp at hk
  | cons c cs ih =>
    cases k with
    | zero => cases l <;> simp [addAt]
    | succ k =>
      cases l with
      | zero => simp [addAt]
      | succ l =>
        simp only [addAt, List.getD_cons_succ]
        rw [ih k l (by simpa using hk)]
        simp

theorem foldl_addAt (ps : List (Nat × Nat)) :
    ∀ (ei : List Nat), (∀ ep ∈ ps, ep.2 < ei.length) →
      (ps.foldl (fun a ep => addAt a ep.2 ep.1) ei).length = ei.length ∧
      ∀ l, (ps.foldl (fun a ep => addAt a ep.2 ep.1) ei).getD l 0
        = ei.getD l 0 + ((ps.filter (fun ep => ep.2 = l)).map (fun ep => ep.1)).sum := by
  induction ps with
  | nil => intro ei _; simp
  | cons ep ps ih =>
    intro ei h
    simp only [List.foldl_cons]
    obtain ⟨h1, h2⟩ := ih (addAt ei ep.2 ep.1)
      (by intro ep' hep'; rw [addAt_length]; exact h ep' (by simp [hep']))
    refine ⟨by rw [h1, addAt_length], ?_⟩
    intro l
    rw [h2 l, addAt_getD ei ep.2 ep.1 l (h ep (by simp)), List.filter_cons]
    by_cases hl : ep.2 = l
    · simp [hl]; ring
    · simp [hl]

theorem set_exponents_spec (ei : List Nat) (E : List (Nat × Nat))
    (h : ∀ ep ∈ E, ep.2 < ei.length) :
    (set_exponents ei E).length = ei.length ∧
    ∀ l, (set_exponents ei E).getD l 0 = ei.getD l 0 + exponentOf E l := by
  unfold set_exponents exponentOf
  exact foldl_addAt _ ei (fun ep hep => h ep (List.takeWhile_subset _ hep))

theorem smoothProduct_add (fb : List Nat) (m : Nat) (v w : Nat → Nat) :
    smoothProduct fb m (fun l => v l + w l) = smoothProduct fb m v * smoothProduct fb m w := by
  unfold smoothProduct
  rw [← List.prod_map_mul]
  congr 1
  apply List.map_congr_left
  intro l _
  exact pow_add _ _ _

theorem combinedY_sq (N Y1 Y2 inv : Int) :
    combinedY N Y1 Y2 inv ^ 2 ≡ (Y1 * Y2 * inv) ^ 2 [ZMOD N] := by
  have h1 : mpz_mod (Y1 * Y2 * inv) N ≡ Y1 * Y2 * inv [ZMOD N] := Int.mod_modEq _ _
  unfold combinedY
  simp only
  split_ifs
  · have h2 : N - mpz_mod (Y1 * Y2 * inv) N ≡ -(Y1 * Y2 * inv) [ZMOD N] := by
      have h3 : N - mpz_mod (Y1 * Y2 * inv) N ≡ 0 - (Y1 * Y2 * inv) [ZMOD N] :=
        Int.ModEq.sub (by simp [Int.ModEq]) h1
      simpa using h3
    have := h2.pow 2
    rwa [neg_sq] at this
  · exact h1.pow 2

theorem combine_algebra (N q inv Y1 Y2 P1 P2 : Int) (h1 : Y1 ^ 2 ≡ q * P1 [ZMOD N])
    (h2 : Y2 ^ 2 ≡ q * P2 [ZMOD N]) (hq : q * inv ≡ 1 [ZMOD N]) :
    (Y1 * Y2 * inv) ^ 2 ≡ P1 * P2 [ZMOD N] := by
  have e1 : (Y1 * Y2 * inv) ^ 2 = Y1 ^ 2 * Y2 ^ 2 * inv ^ 2 := by ring
  have e2 : q * P1 * (q * P2) * inv ^ 2 = (q * inv) ^ 2 * (P1 * P2) := by ring
  rw [e1]
  refine ((h1.mul h2).mul_right _).trans ?_
  rw [e2]
  have := (hq.pow 2).mul_right (P1 * P2)
  simpa using this

theorem exponentPairs_combined (numPrimes : Nat) (E0 E1 : List (Nat × Nat))
    (h0 : ∀ ep ∈ E0, ep.2 < numPrimes) (h1 : ∀ ep ∈ E1, ep.2 < numPrimes) :
    exponentPairs (set_exponents (set_exponents (List.replicate numPrimes 0) E0) E1)
      = ((List.range numPrimes).filter (fun l => exponentOf E0 l + exponentOf E1 l ≠ 0)).map
          (fun l => (exponentOf E0 l + exponentOf E1 l, l)) := by
  obtain ⟨hl0, hg0⟩ := set_exponents_spec (List.replicate numPrimes 0) E0
    (by simpa using h0)
  obtain ⟨hl1, hg1⟩ := set_exponents_spec (set_exponents (List.replicate numPrimes 0) E0) E1
    (by rw [hl0]; simpa using h1)
  have hget : ∀ l, (set_exponents (set_exponents (List.replicate numPrimes 0) E0) E1).getD l 0
      = exponentOf E0 l + exponentOf E1 l := by
    intro l
    rw [hg1 l, hg0 l]
    have : (List.replicate numPrimes 0).getD l 0 = 0 := by
      rw [List.getD_eq_getElem?_getD, List.getElem?_replicate]
      split_ifs <;> rfl
    rw [this, zero_add]
  unfold exponentPairs
  rw [hl1, hl0, List.length_replicate]
  simp only [hget]

theorem combineLoop_new_run (numPrimes : Nat) (N : Int) (b : LpEntry) (rest : List LpEntry)
    (st : CombState) (inv oq : Int) (h : b.q ≠ st.old_q)
    (hstart : startRun N b.q = RunStart.inverted inv oq) :
    combineLoop numPrimes N (b :: rest) st
      = combineLoop numPrimes N rest
          { st with e0 := if st.i = 0 then b else st.e0, e1 := if st.i = 0 then st.e1 else b,
                    old_q := oq, inv_q := inv, Y1 := b.Y, i := 1 - st.i } := by
  rw [combineLoop]
  simp only [if_pos h, hstart]

theorem combineLoop_same_run (numPrimes : Nat) (N : Int) (b : LpEntry) (rest : List LpEntry)
    (st : CombState) (h : b.q = st.old_q) (hY : st.Y1.natAbs ≠ b.Y.natAbs) :
    combineLoop numPrimes N (b :: rest) st
      = combineLoop numPrimes N rest
          { st with e0 := if st.i = 0 then b else st.e0, e1 := if st.i = 0 then st.e1 else b,
                    c := st.c + 1,
                    fnew := st.fnew ++ [{ X := combinedY N st.Y1 b.Y st.inv_q,
                                          pairs := exponentPairs (set_exponents (set_exponents
                                            (List.replicate numPrimes 0)
                                            (if st.i = 0 then b else st.e0).E)
                                            (if st.i = 0 then st.e1 else b).E) }] } := by
  rw [combineLoop]
  simp only [if_neg (not_not.mpr h), if_pos hY]

theorem combineLoop_same_run_skip (numPrimes : Nat) (N : Int) (b : LpEntry)
    (rest : List LpEntry) (st : CombState) (h : b.q = st.old_q)
    (hY : ¬ st.Y1.natAbs ≠ b.Y.natAbs) :
    combineLoop numPrimes N (b :: rest) st
      = combineLoop numPrimes N rest
          { st with e0 := if st.i = 0 then b else st.e0,
                    e1 := if st.i = 0 then st.e1 else b } := by
  rw [combineLoop]
  simp only [if_neg (not_not.mpr h), if_neg hY]

theorem combineLoop_sound (fb : List Nat) (numPrimes : Nat) (N : Int) (hN : 0 < N)
    (lines : List LpEntry) (hs : ∀ a ∈ lines, LpSound fb numPrimes N a) :
    ∀ (rest : List LpEntry) (st : CombState), (∀ b ∈ rest, b ∈ lines) →
      CombInv fb numPrimes N lines st →
      ∃ out, combineLoop numPrimes N rest st = some out ∧ out.factor = none ∧
        ∀ ln ∈ out.fnew, ∃ a ∈ lines, ∃ b ∈ lines, CombinedFrom fb numPrimes N a b ln := by
  intro rest
  induction rest with
  | nil =>
    intro st _ hinv
    exact ⟨_, rfl, rfl, hinv.2.2⟩
  | cons b rest ih =>
    intro st hmem hinv
    obtain ⟨hi, ⟨f, hf, hrow, hq, hY, hinvq⟩, hout⟩ := hinv
    have hb : b ∈ lines := hmem b (by simp)
    have hrest : ∀ b' ∈ rest, b' ∈ lines := fun b' hb' => hmem b' (by simp [hb'])
    obtain ⟨hb0, hb1, hbg, hbi, hbc⟩ := hs b hb
    obtain ⟨hf0, hf1, hfg, hfi, hfc⟩ := hs f hf
    have hi01 : st.i = 0 ∨ st.i = 1 := by omega
    by_cases hne : b.q ≠ st.old_q
    · obtain ⟨inv, hinv1, hinv2⟩ := mpz_invert_of_gcd hN hbg
      have hstart : startRun N b.q = RunStart.inverted inv b.q := by
        unfold startRun
        rw [toUlong_of_range hb0 hb1, hinv1]
      rw [combineLoop_new_run numPrimes N b rest st inv b.q hne hstart]
      apply ih _ hrest
      refine ⟨by simp only; omega, ⟨b, hb, ?_, rfl, rfl, hinv2⟩, hout⟩
      rcases hi01 with h | h <;> simp [h]
    · have hqo : b.q = st.old_q := not_not.mp hne
      have hqeq : b.q = f.q := by rw [hqo, hq]
      have hY2 : (st.Y1 * b.Y * st.inv_q) ^ 2
          ≡ smoothProduct fb numPrimes (exponentOf f.E)
            * smoothProduct fb numPrimes (exponentOf b.E) [ZMOD N] := by
        rw [hY]
        have hbc' : b.Y ^ 2 ≡ f.q * smoothProduct fb numPrimes (exponentOf b.E) [ZMOD N] := by
          rw [← hqeq]; exact hbc
        exact combine_algebra N f.q st.inv_q f.Y b.Y _ _ hfc hbc' hinvq
      by_cases hY12 : st.Y1.natAbs ≠ b.Y.natAbs
      · rw [combineLoop_same_run numPrimes N b rest st hqo hY12]
        apply ih _ hrest
        refine ⟨hi, ⟨f, hf, ?_, hq, hY, hinvq⟩, ?_⟩
        · rcases hi01 with h | h
          · simp only [h, if_true] at hrow ⊢; exact hrow
          · have h0 : ¬ st.i = 0 := by omega
            simp only [h0, if_false] at hrow ⊢; exact hrow
        intro ln hln
        simp only [List.mem_append, List.mem_singleton] at hln
        rcases hln with hln | hln
        · exact hout ln hln
        · subst hln
          rcases hi01 with h | h
          · simp only [h, if_true] at hrow ⊢
            refine ⟨b, hb, f, hf, hqeq, ?_, ?_⟩
            · rw [smoothProduct_add, mul_comm]
              exact (combinedY_sq _ _ _ _).trans hY2
            · rw [hrow]
              exact exponentPairs_combined numPrimes b.E f.E hbi hfi
          · have h0 : ¬ st.i = 0 := by omega
            simp only [h0, if_false] at hrow ⊢
            refine ⟨f, hf, b, hb, hqeq.symm, ?_, ?_⟩
            · rw [smoothProduct_add]
              exact (combinedY_sq _ _ _ _).trans hY2
            · rw [hrow]
              exact exponentPairs_combined numPrimes f.E b.E hfi hbi
      · rw [combineLoop_same_run_skip numPrimes N b rest st hqo hY12]
        apply ih _ hrest
        refine ⟨hi, ⟨f, hf, ?_, hq, hY, hinvq⟩, hout⟩
        rcases hi01 with h | h
        · simp only [h, if_true] at hrow ⊢; exact hrow
        · have h0 : ¬ st.i = 0 := by omega
          simp only [h0, if_false] at hrow ⊢; exact hrow

theorem combine_sound (fb : List Nat) (numPrimes : Nat) (N : Int)
    (lines : List LpEntry) (hN : 0 < N) (hs : ∀ a ∈ lines, LpSound fb numPrimes N a) :
    ∃ out, combine_large_primes numPrimes N lines = some out ∧ out.factor = none ∧
      ∀ ln ∈ out.fnew, ∃ a ∈ lines, ∃ b ∈ lines, CombinedFrom fb numPrimes N a b ln := by
  cases lines with
  | nil => exact ⟨_, rfl, rfl, by simp⟩
  | cons a rest =>
    obtain ⟨ha0, ha1, hag, hai, hac⟩ := hs a (by simp)
    obtain ⟨inv, hinv1, hinv2⟩ := mpz_invert_of_gcd hN hag
    unfold combine_large_primes
    rw [toUlong_of_range ha0 ha1, hinv1]
    apply combineLoop_sound fb numPrimes N hN (a :: rest) hs rest _ (fun b hb => by simp [hb])
    refine ⟨le_refl _, ⟨a, by simp, ?_, rfl, rfl, hinv2⟩, by simp⟩
    simp

theorem combine_pair (fb : List Nat) (numPrimes : Nat) (N : Int) (a b : LpEntry)
    (hN : 0 < N) (ha : LpSound fb numPrimes N a) (hb : LpSound fb numPrimes N b)
    (hq : a.q = b.q) (hY : a.Y.natAbs ≠ b.Y.natAbs) :
    ∃ ln, combine_large_primes numPrimes N [a, b]
        = some { c := 1, fnew := [ln], factor := none } ∧
      CombinedFrom fb numPrimes N a b ln := by
  obtain ⟨ha0, ha1, hag, hai, hac⟩ := ha
  obtain ⟨hb0, hb1, hbg, hbi, hbc⟩ := hb
  obtain ⟨inv, hinv1, hinv2⟩ := mpz_invert_of_gcd hN hag
  refine ⟨{ X := combinedY N a.Y b.Y inv,
            pairs := exponentPairs (set_exponents (set_exponents
              (List.replicate numPrimes 0) a.E) b.E) }, ?_, hq, ?_, ?_⟩
  · unfold combine_large_primes
    rw [toUlong_of_range ha0 ha1, hinv1]
    simp only
    rw [combineLoop_same_run numPrimes N b [] _ hq.symm hY]
    simp [combineLoop]
  · simp only
    rw [smoothProduct_add]
    refine (combinedY_sq _ _ _ _).trans ?_
    have hbc' : b.Y ^ 2 ≡ a.q * smoothProduct fb numPrimes (exponentOf b.E) [ZMOD N] := by
      rw [hq]; exact hbc
    exact combine_algebra N a.q inv a.Y b.Y _ _ hac hbc' hinv2
  · exact exponentPairs_combined numPrimes a.E b.E hai hbi

/-- C4: when every line of `COMB` is a sound partial relation (`gcd(q, N) = 1`,
`Y^2 = q * prod p_i^E_i (mod N)`), `combine_large_primes` returns without a factor, and
every relation it writes to `FNEW` comes from two lines `a`, `b` with the same large
prime: `X_new^2 = prod p_i^(E1_i + E2_i) (mod N)` and the exponent list is the pointwise
sum `E1 + E2`, non-zero entries only, in increasing index order.  For a file of two lines
with one `q` and `|Y1| ≠ |Y2|` exactly that relation is written. -/
theorem combine_large_primes_relation (fb : List Nat) (numPrimes : Nat) (N : Int)
    (lines : List LpEntry) (hN : 0 < N) (hs : ∀ a ∈ lines, LpSound fb numPrimes N a) :
    (∃ out, combine_large_primes numPrimes N lines = some out ∧ out.factor = none ∧
      ∀ ln ∈ out.fnew, ∃ a ∈ lines, ∃ b ∈ lines, CombinedFrom fb numPrimes N a b ln) ∧
    (∀ a b, lines = [a, b] → a.q = b.q → a.Y.natAbs ≠ b.Y.natAbs →
      ∃ ln, combine_large_primes numPrimes N lines
          = some { c := 1, fnew := [ln], factor := none } ∧
        CombinedFrom fb numPrimes N a b ln) := by
  refine ⟨combine_sound fb numPrimes N lines hN hs, ?_⟩
  intro a b hl hq hY
  subst hl
  exact combine_pair fb numPrimes N a b hN (hs a (by simp)) (hs b (by simp)) hq hY

theorem combine_large_primes_relation_witness :
    combine_large_primes 4 77 lpExample
      = some { c := 1, fnew := [{ X := 12, pairs := [(4, 1), (2, 2)] }], factor := none } ∧
    (∃ out, combine_large_primes 4 77 lpExample = some out ∧ out.factor = none ∧
      ∀ ln ∈ out.fnew, ∃ a ∈ lpExample, ∃ b ∈ lpExample,
        CombinedFrom [1, 2, 3, 5] 4 77 a b ln) ∧
    (∀ a b, lpExample = [a, b] → a.q = b.q → a.Y.natAbs ≠ b.Y.natAbs →
      ∃ ln, combine_large_primes 4 77 lpExample
          = some { c := 1, fnew := [ln], factor := none } ∧
        CombinedFrom [1, 2, 3, 5] 4 77 a b ln) :=
  ⟨by decide,
    combine_large_primes_relation [1, 2, 3, 5] 4 77 lpExample (by decide)
      (by unfold LpSound; decide)⟩

/-! ### modinverse -/

theorem two_pow_word (w : Nat) (p : Int) (hp : 0 < p) (hw : 4 * p < 2 ^ (w - 1)) :
    (2 : Int) ^ w = 2 * 2 ^ (w - 1) := by
  cases w with
  | zero => simp at hw; omega
  | succ k => simp [pow_succ]; ring

theorem wrapLong_of_range (w : Nat) (x : Int) (hw : (2 : Int) ^ w = 2 * 2 ^ (w - 1))
    (h0 : -(2 : Int) ^ (w - 1) ≤ x) (h1 : x < 2 ^ (w - 1)) : wrapLong w x = x := by
  unfold wrapLong
  rw [hw, Int.emod_eq_of_lt (by linarith) (by linarith)]
  ring

theorem wrapLong_small (w : Nat) (p x : Int) (hp : 0 < p) (hw : 4 * p < 2 ^ (w - 1))
    (h0 : -(4 * p) ≤ x) (h1 : x ≤ 4 * p) : wrapLong w x = x :=
  wrapLong_of_range w x (two_pow_word w p hp hw) (by linarith) (by linarith)

theorem inv_v1_bounds (a p : Int) (s : InvState) (hI : InvInvariant a p s) (hv : 0 < s.v3) :
    ∀ q : Int, 0 ≤ q → q ≤ s.u3 → -p ≤ s.v1 * q ∧ s.v1 * q ≤ p := by
  obtain ⟨hu3, hu3p, hv3, hv3p, hu1l, hu1u, hcop, hdet, hua, hva⟩ := hI
  intro q hq0 hq1
  rcases hdet with ⟨h1, h2, h3⟩ | ⟨h1, h2, h3⟩
  · have hA : 0 ≤ (-s.v1) * (s.u3 - q) := mul_nonneg (by linarith) (by linarith)
    have hB : 0 ≤ s.u1 * s.v3 := mul_nonneg h1 (le_of_lt hv)
    have hC : 0 ≤ (-s.v1) * q := mul_nonneg (by linarith) hq0
    constructor <;> nlinarith
  · have hA : 0 ≤ s.v1 * (s.u3 - q) := mul_nonneg h2 (by linarith)
    have hB : 0 ≤ (-s.u1) * s.v3 := mul_nonneg (by linarith) (le_of_lt hv)
    have hC : 0 ≤ s.v1 * q := mul_nonneg h2 hq0
    constructor <;> nlinarith

theorem quot_facts (u3 v3 : Int) (hu : 0 < u3) (hv : 0 < v3) :
    0 ≤ u3 / v3 ∧ u3 / v3 ≤ u3 ∧ v3 * (u3 / v3) ≤ u3 ∧ u3 < v3 * (u3 / v3 + 1) := by
  have h1 := Int.emod_add_ediv u3 v3
  have h2 := Int.emod_nonneg u3 (ne_of_gt hv)
  have h3 := Int.emod_lt_of_pos u3 hv
  have h4 : 0 ≤ u3 / v3 := Int.ediv_nonneg (le_of_lt hu) (le_of_lt hv)
  refine ⟨h4, ?_, by linarith, by linarith⟩
  have : 0 ≤ (v3 - 1) * (u3 / v3) := mul_nonneg (by linarith) h4
  nlinarith

theorem quot_eq (u3 v3 k : Int) (hv : 0 < v3) (h0 : v3 * k ≤ u3) (h1 : u3 < v3 * (k + 1)) :
    u3 / v3 = k :=
  ((Int.ediv_emod_unique hv).mpr ⟨by ring, by linarith, by linarith⟩ :
    u3 / v3 = k ∧ u3 % v3 = u3 - v3 * k).1

theorem modinverseStep_eq_euclidStep (w : Nat) (a p : Int) (s : InvState)
    (hw : 4 * p < 2 ^ (w - 1)) (hI : InvInvariant a p s) (hv : 0 < s.v3) :
    modinverseStep w s = euclidStep s := by
  have hb := inv_v1_bounds a p s hI hv
  obtain ⟨hu3, hu3p, hv3, hv3p, hu1l, hu1u, hcop, hdet, hua, hva⟩ := hI
  have hp : 0 < p := by linarith
  have wr : ∀ x : Int, -(4 * p) ≤ x → x ≤ 4 * p → wrapLong w x = x :=
    fun x h0 h1 => wrapLong_small w p x hp hw h0 h1
  have hb1 := hb 1 (by norm_num) (by linarith)
  obtain ⟨hq0, hq1, hq2, hq3⟩ := quot_facts s.u3 s.v3 hu3 hv
  have hbq := hb (s.u3 / s.v3) hq0 hq1
  unfold modinverseStep euclidStep
  simp only
  rw [wr (s.u3 - s.v3) (by linarith) (by linarith), wr (s.v3 * 4) (by linarith) (by linarith),
    wr (s.v3 * 2) (by linarith) (by linarith)]
  by_cases c4 : s.u3 < s.v3 * 4
  · rw [if_pos c4]
    by_cases c2 : s.u3 - s.v3 < s.v3
    · rw [if_pos c2]
      by_cases c0 : s.u3 - s.v3 < 0
      · rw [if_pos c0]
        have hq : s.u3 / s.v3 = 0 := quot_eq _ _ 0 hv (by linarith) (by linarith)
        rw [hq]; simp
      · rw [if_neg c0]
        have hq : s.u3 / s.v3 = 1 := quot_eq _ _ 1 hv (by linarith) (by linarith)
        rw [hq, wr (s.u1 - s.v1) (by linarith) (by linarith)]
        simp
    · rw [if_neg c2]
      by_cases c3 : s.u3 - s.v3 < s.v3 * 2
      · rw [if_pos c3]
        have hq : s.u3 / s.v3 = 2 := quot_eq _ _ 2 hv (by linarith) (by linarith)
        rw [hq, wr (s.v1 * 2) (by linarith) (by linarith),
          wr (s.u1 - s.v1 * 2) (by linarith) (by linarith),
          wr (s.u3 - s.v3 * 2) (by linarith) (by linarith)]
      · rw [if_neg c3]
        have hq : s.u3 / s.v3 = 3 := quot_eq _ _ 3 hv (by linarith) (by linarith)
        rw [hq, wr (s.v1 * 3) (by linarith) (by linarith),
          wr (s.v3 * 3) (by linarith) (by linarith),
          wr (s.u1 - s.v1 * 3) (by linarith) (by linarith),
          wr (s.u3 - s.v3 * 3) (by linarith) (by linarith)]
  · rw [if_neg c4]
    rw [Int.tdiv_eq_ediv (le_of_lt hu3) (le_of_lt hv), wr (s.u3 / s.v3) (by linarith) (by linarith),
      wr (s.v1 * (s.u3 / s.v3)) (by linarith) (by linarith),
      wr (s.v3 * (s.u3 / s.v3)) (by nlinarith) (by linarith),
      wr (s.u1 - s.v1 * (s.u3 / s.v3)) (by linarith) (by linarith),
      wr (s.u3 - s.v3 * (s.u3 / s.v3)) (by linarith) (by linarith)]

theorem euclidStep_invariant (a p : Int) (s : InvState) (hI : InvInvariant a p s)
    (hv : 0 < s.v3) :
    InvInvariant a p (euclidStep s) ∧ (euclidStep s).v3 < s.v3 := by
  have hb := inv_v1_bounds a p s hI hv
  obtain ⟨hu3, hu3p, hv3, hv3p, hu1l, hu1u, hcop, hdet, hua, hva⟩ := hI
  obtain ⟨hq0, hq1, hq2, hq3⟩ := quot_facts s.u3 s.v3 hu3 hv
  have hb1 := hb 1 (by norm_num) (by linarith)
  unfold euclidStep
  refine ⟨⟨hv, hv3p, by simp only; linarith, by simp only; linarith, by simp only; linarith,
    by simp only; linarith, ?_, ?_, hva, ?_⟩, by simp only; linarith⟩
  · simp only
    have := hcop.symm.add_mul_left_right (-(s.u3 / s.v3))
    have e : s.u3 + s.v3 * -(s.u3 / s.v3) = s.u3 - s.v3 * (s.u3 / s.v3) := by ring
    rwa [e] at this
  · simp only
    rcases hdet with ⟨h1, h2, h3⟩ | ⟨h1, h2, h3⟩
    · right
      refine ⟨h2, ?_, ?_⟩
      · have : 0 ≤ (-s.v1) * (s.u3 / s.v3) := mul_nonneg (by linarith) hq0
        linarith
      · linear_combination h3
    · left
      refine ⟨h2, ?_, ?_⟩
      · have : 0 ≤ s.v1 * (s.u3 / s.v3) := mul_nonneg h2 hq0
        linarith
      · linear_combination h3
  · simp only
    have : (s.u1 - s.v1 * (s.u3 / s.v3)) * a = s.u1 * a - s.v1 * a * (s.u3 / s.v3) := by ring
    rw [this]
    have e : s.u3 - s.v3 * (s.u3 / s.v3) = s.u3 - s.v3 * (s.u3 / s.v3) := rfl
    exact Int.ModEq.sub hua (hva.mul_right _)

theorem modinverseLoop_spec (w : Nat) (a p : Int) (hw : 4 * p < 2 ^ (w - 1)) :
    ∀ (fuel : Nat) (s : InvState), InvInvariant a p s → s.v3 ≤ fuel →
      ∃ s', modinverseLoop w fuel s = some s' ∧ InvInvariant a p s' ∧ s'.v3 = 0 := by
  intro fuel
  induction fuel with
  | zero =>
    intro s hI hf
    have h0 : s.v3 = 0 := by
      have := hI.2.2.1
      simp at hf
      omega
    exact ⟨s, by simp [modinverseLoop, h0], hI, h0⟩
  | succ k ih =>
    intro s hI hf
    by_cases h0 : s.v3 = 0
    · exact ⟨s, by simp [modinverseLoop, h0], hI, h0⟩
    · have hv : 0 < s.v3 := lt_of_le_of_ne hI.2.2.1 (Ne.symm h0)
      obtain ⟨hI', hlt⟩ := euclidStep_invariant a p s hI hv
      have hstep := modinverseStep_eq_euclidStep w a p s hw hI hv
      have := ih (euclidStep s) hI' (by push_cast at hf; omega)
      obtain ⟨s', h1, h2, h3⟩ := this
      refine ⟨s', ?_, h2, h3⟩
      rw [modinverseLoop, if_neg h0, hstep, h1]

theorem modinverse_init_invariant (w : Nat) (a p : Nat) (hw : 4 * (p : Int) < 2 ^ (w - 1))
    (hcop : Nat.Coprime a p) (ha0 : 0 < a) (ha : a < p) :
    InvInvariant a p { u1 := 1, u3 := wrapLong w a, v1 := 0, v3 := wrapLong w p } := by
  have hp : (0 : Int) < p := by exact_mod_cast (lt_trans ha0 ha)
  have ha' : (a : Int) < p := by exact_mod_cast ha
  have ha0' : (0 : Int) < a := by exact_mod_cast ha0
  rw [wrapLong_small w p a hp hw (by linarith) (by linarith),
    wrapLong_small w p p hp hw (by linarith) (by linarith)]
  refine ⟨ha0', le_of_lt ha', le_of_lt hp, le_refl _, by simp only; linarith, by simp only; linarith,
    ?_, Or.inl ⟨by norm_num, le_refl _, by simp⟩, by simp only [one_mul]; exact Int.ModEq.refl _, ?_⟩
  · exact Nat.isCoprime_iff_coprime.mpr hcop
  · simp only [zero_mul]
    exact (Int.modEq_zero_iff_dvd.mpr (dvd_refl _)).symm

theorem modinverse_coprime (w : Nat) (a p : Nat) (hw : 4 * (p : Int) < 2 ^ (w - 1))
    (hcop : Nat.Coprime a p) (ha0 : 0 < a) (ha : a < p) :
    ∃ u : Int, modinverse w a p = some u ∧ 0 ≤ u ∧ u < p ∧ (a : Int) * u ≡ 1 [ZMOD p] := by
  have hp : (0 : Int) < p := by exact_mod_cast (lt_trans ha0 ha)
  have hp1 : (1 : Int) < p := by
    have : 1 < p := by omega
    exact_mod_cast this
  obtain ⟨s', hs1, hs2, hs3⟩ := modinverseLoop_spec w a p hw (p + 1) _
    (modinverse_init_invariant w a p hw hcop ha0 ha)
    (by
      simp only
      rw [wrapLong_small w p p hp hw (by linarith) (by linarith)]
      push_cast; linarith)
  obtain ⟨hu3, hu3p, hv3, hv3p, hu1l, hu1u, hcop', hdet, hua, hva⟩ := hs2
  have hu3one : s'.u3 = 1 := by
    rw [hs3] at hcop'
    have hunit : IsUnit s'.u3 := isCoprime_zero_right.mp hcop'
    rcases Int.isUnit_iff.mp hunit with h | h
    · exact h
    · omega
  rw [hu3one] at hua
  have hne : ¬ (p : Int) ∣ s'.u1 := by
    intro hd
    have h0 : s'.u1 * a ≡ 0 [ZMOD p] := by
      rw [Int.modEq_zero_iff_dvd]
      exact Dvd.dvd.mul_right hd _
    have h1 : (1 : Int) ≡ 0 [ZMOD p] := hua.symm.trans h0
    rw [Int.modEq_zero_iff_dvd] at h1
    have := Int.le_of_dvd (by norm_num) h1
    linarith
  have hu1ne0 : s'.u1 ≠ 0 := fun h => hne (h ▸ dvd_zero _)
  have hu1nep : s'.u1 ≠ p := fun h => hne (h ▸ dvd_refl _)
  have hu1nen : s'.u1 ≠ -p := fun h => hne (h ▸ (dvd_neg.mpr (dvd_refl _)))
  have h2w := two_pow_word w p hp hw
  have hmod : ∀ x : Int, 0 ≤ x → x < p → x % 2 ^ w = x := by
    intro x h0 h1
    apply Int.emod_eq_of_lt h0
    rw [h2w]; linarith
  unfold modinverse
  rw [hs1]
  simp only
  by_cases hneg : s'.u1 < 0
  · rw [if_pos hneg]
    have hlo : 0 ≤ s'.u1 + p := by linarith
    have hhi : s'.u1 + p < p := by linarith
    refine ⟨_, rfl, ?_, ?_, ?_⟩
    · rw [hmod _ hlo hhi]; exact hlo
    · rw [hmod _ hlo hhi]; exact hhi
    · rw [hmod _ hlo hhi]
      have : (a : Int) * (s'.u1 + p) = s'.u1 * a + a * p := by ring
      rw [this]
      have h0 : (a : Int) * p ≡ 0 [ZMOD p] := by
        rw [Int.modEq_zero_iff_dvd]; exact dvd_mul_left _ _
      have := hua.add h0
      simpa using this
  · rw [if_neg hneg]
    have hlo : 0 ≤ s'.u1 := by linarith
    have hhi : s'.u1 < p := lt_of_le_of_ne hu1u hu1nep
    refine ⟨_, rfl, ?_, ?_, ?_⟩
    · rw [hmod _ hlo hhi]; exact hlo
    · rw [hmod _ hlo hhi]; exact hhi
    · rw [hmod _ hlo hhi, mul_comm]; exact hua

theorem modinverse_reach_invariant (w : Nat) (a p : Nat) (hw : 4 * (p : Int) < 2 ^ (w - 1))
    (hcop : Nat.Coprime a p) (ha0 : 0 < a) (ha : a < p) :
    ∀ k : Nat,
      (∀ j < k, ((modinverseStep w)^[j]
          { u1 := 1, u3 := wrapLong w a, v1 := 0, v3 := wrapLong w p }).v3 ≠ 0) →
      InvInvariant a p ((modinverseStep w)^[k]
          { u1 := 1, u3 := wrapLong w a, v1 := 0, v3 := wrapLong w p }) := by
  intro k
  induction k with
  | zero => intro _; exact modinverse_init_invariant w a p hw hcop ha0 ha
  | succ k ih =>
    intro h
    have hI := ih (fun j hj => h j (by omega))
    have hne := h k (by omega)
    have hv : 0 < ((modinverseStep w)^[k]
        { u1 := 1, u3 := wrapLong w a, v1 := 0, v3 := wrapLong w p }).v3 :=
      lt_of_le_of_ne hI.2.2.1 (Ne.symm hne)
    rw [Function.iterate_succ_apply', modinverseStep_eq_euclidStep w a p _ hw hI hv]
    exact (euclidStep_invariant a p _ hI hv).1

/-- C9: for a prime `p` with `4 * p` inside the signed `w`-bit word and `0 < a < p`,
`modinverse(a, p)` ends and returns `u` with `0 <= u < p` and `a * u = 1 (mod p)`; at every
state the loop passes through, the unrolled body (quotient 0, 1, 2, 3 or the division)
is the ordinary extended Euclidean step. -/
theorem modinverse_correct (w : Nat) (a p : Nat) (hp : Nat.Prime p)
    (hw : 4 * (p : Int) < 2 ^ (w - 1)) (ha0 : 0 < a) (ha : a < p) :
    (∃ u : Int, modinverse w a p = some u ∧ 0 ≤ u ∧ u < p ∧ (a : Int) * u ≡ 1 [ZMOD p]) ∧
    ∀ k : Nat,
      (∀ j ≤ k, ((modinverseStep w)^[j]
          { u1 := 1, u3 := wrapLong w a, v1 := 0, v3 := wrapLong w p }).v3 ≠ 0) →
      modinverseStep w ((modinverseStep w)^[k]
          { u1 := 1, u3 := wrapLong w a, v1 := 0, v3 := wrapLong w p })
        = euclidStep ((modinverseStep w)^[k]
          { u1 := 1, u3 := wrapLong w a, v1 := 0, v3 := wrapLong w p }) := by
  have hcop : Nat.Coprime a p :=
    Nat.Coprime.symm ((Nat.Prime.coprime_iff_not_dvd hp).mpr (Nat.not_dvd_of_pos_of_lt ha0 ha))
  refine ⟨modinverse_coprime w a p hw hcop ha0 ha, ?_⟩
  intro k h
  have hI := modinverse_reach_invariant w a p hw hcop ha0 ha k (fun j hj => h j (by omega))
  have hv := lt_of_le_of_ne hI.2.2.1 (Ne.symm (h k (le_refl _)))
  exact modinverseStep_eq_euclidStep w a p _ hw hI hv

theorem modinverse_correct_witness :
    (∃ u : Int, modinverse 64 3 13 = some u ∧ 0 ≤ u ∧ u < (13 : Nat) ∧
      ((3 : Nat) : Int) * u ≡ 1 [ZMOD (13 : Nat)]) ∧
    ∀ k : Nat,
      (∀ j ≤ k, ((modinverseStep 64)^[j]
          { u1 := 1, u3 := wrapLong 64 (3 : Nat), v1 := 0,
            v3 := wrapLong 64 (13 : Nat) }).v3 ≠ 0) →
      modinverseStep 64 ((modinverseStep 64)^[k]
          { u1 := 1, u3 := wrapLong 64 (3 : Nat), v1 := 0, v3 := wrapLong 64 (13 : Nat) })
        = euclidStep ((modinverseStep 64)^[k]
          { u1 := 1, u3 := wrapLong 64 (3 : Nat), v1 := 0,
            v3 := wrapLong 64 (13 : Nat) }) :=
  modinverse_correct 64 3 13 (by decide) (by decide) (by decide) (by decide)


/-! ### sqrtmod -/

theorem cast_reduced_eq_iff (p : Nat) (x c : Int) (hx0 : 0 ≤ x) (hx1 : x < p)
    (hc0 : 0 ≤ c) (hc1 : c < p) : ((x : ZMod p) = (c : ZMod p)) ↔ x = c := by
  constructor
  · intro h
    have h' := (ZMod.intCast_eq_intCast_iff x c p).mp h
    unfold Int.ModEq at h'
    rwa [Int.emod_eq_of_lt hx0 hx1, Int.emod_eq_of_lt hc0 hc1] at h'
  · intro h; rw [h]

theorem cast_mpz_powm (p : Nat) (b : Int) (e : Nat) :
    ((mpz_powm b e p : Int) : ZMod p) = (b : ZMod p) ^ e := by
  unfold mpz_powm
  rw [ZMod.intCast_mod]; push_cast; rfl

theorem cast_modmul (p : Nat) (a b : Int) :
    ((modmul a b p : Int) : ZMod p) = (a : ZMod p) * (b : ZMod p) := by
  unfold modmul
  rw [Int.fmod_eq_emod _ (by positivity), ZMod.intCast_mod]; push_cast; rfl

theorem mpz_powm_range (p : Nat) (hp : 0 < p) (b : Int) (e : Nat) :
    0 ≤ mpz_powm b e p ∧ mpz_powm b e p < p := by
  have hp' : (0 : Int) < p := by exact_mod_cast hp
  exact ⟨Int.emod_nonneg _ (ne_of_gt hp'), Int.emod_lt_of_pos _ hp'⟩

theorem modmul_range (p : Nat) (hp : 0 < p) (a b : Int) :
    0 ≤ modmul a b p ∧ modmul a b p < p := by
  have hp' : (0 : Int) < p := by exact_mod_cast hp
  unfold modmul
  rw [Int.fmod_eq_emod _ (le_of_lt hp')]
  exact ⟨Int.emod_nonneg _ (ne_of_gt hp'), Int.emod_lt_of_pos _ hp'⟩

/-- For an odd prime the model of `mpz_kronecker` is `1`, resp. `-1`, exactly when Euler's
power is. -/
theorem mpz_kronecker_odd (p : Nat) [Fact p.Prime] (hp2 : p ≠ 2) (a : Int) :
    (mpz_kronecker a p = 1 ↔ (a : ZMod p) ^ (p / 2) = 1) ∧
    (mpz_kronecker a p = -1 ↔ (a : ZMod p) ^ (p / 2) = -1) ∧
    (mpz_kronecker a p = 0 ↔ (a : ZMod p) = 0) := by
  have hpp : p.Prime := Fact.out
  have hp1 : 1 < p := hpp.one_lt
  have hp0 : (0 : Int) < p := by exact_mod_cast hpp.pos
  have hodd : (p - 1) / 2 = p / 2 := by
    rcases hpp.eq_two_or_odd with h | h
    · exact absurd h hp2
    · omega
  have hhalf : p / 2 ≠ 0 := by
    have := hpp.two_le; omega
  set e : Int := (a % (p : Int)) ^ ((p - 1) / 2) % (p : Int) with he
  have hecast : (e : ZMod p) = (a : ZMod p) ^ (p / 2) := by
    rw [he, ZMod.intCast_mod]; push_cast
    rw [hodd]
  have he0 : 0 ≤ e := Int.emod_nonneg _ (ne_of_gt hp0)
  have he1 : e < p := Int.emod_lt_of_pos _ hp0
  have h1 : e = 1 ↔ (a : ZMod p) ^ (p / 2) = 1 := by
    rw [← hecast]
    have := cast_reduced_eq_iff p e 1 he0 he1 (by norm_num) (by exact_mod_cast hp1)
    simpa using this.symm
  have h0 : e = 0 ↔ (a : ZMod p) ^ (p / 2) = 0 := by
    rw [← hecast]
    have := cast_reduced_eq_iff p e 0 he0 he1 (le_refl _) hp0
    simpa using this.symm
  have hm1 : (-1 : ZMod p) ≠ 1 := by
    haveI : Fact (2 < p) := ⟨by have := hpp.two_le; omega⟩
    exact ZMod.neg_one_ne_one
  have hm0 : (-1 : ZMod p) ≠ 0 := by simp
  have hkr : mpz_kronecker a p = if e = 0 then 0 else if e = 1 then 1 else -1 := by
    unfold mpz_kronecker
    rw [if_neg hp2]
  by_cases ha : (a : ZMod p) = 0
  · have hz : (a : ZMod p) ^ (p / 2) = 0 := by rw [ha]; exact zero_pow hhalf
    have e0 : e = 0 := h0.mpr hz
    rw [hkr, e0, hz, ha]
    simp
  · have hnz : (a : ZMod p) ^ (p / 2) ≠ 0 := pow_ne_zero _ ha
    have e0 : e ≠ 0 := fun h => hnz (h0.mp h)
    rcases ZMod.pow_div_two_eq_neg_one_or_one p ha with h | h
    · have e1 : e = 1 := h1.mpr h
      rw [hkr, e1, h]
      simp [ha]
      exact fun h' => hm1 h'.symm
    · have e1 : e ≠ 1 := fun h' => hm1 (h ▸ h1.mp h')
      rw [hkr, if_neg e0, if_neg e1, h]
      simp [ha, hm1]

theorem removeTwos_spec : ∀ (fuel n : Nat), 0 < n → n ≤ fuel →
    n = 2 ^ (removeTwos fuel n).1 * (removeTwos fuel n).2 ∧ (removeTwos fuel n).2 % 2 = 1 := by
  intro fuel
  induction fuel with
  | zero => intro n h0 h1; omega
  | succ k ih =>
    intro n h0 h1
    unfold removeTwos
    by_cases h : n % 2 = 0 ∧ n ≠ 0
    · rw [if_pos h]
      obtain ⟨e1, e2⟩ := ih (n / 2) (by omega) (by omega)
      refine ⟨?_, e2⟩
      simp only
      rw [pow_succ, mul_assoc, mul_comm 2, ← mul_assoc, ← e1]
      omega
    · rw [if_neg h]
      simp only [pow_zero, one_mul, true_and]
      omega

theorem findNonResidue_spec (p : Nat) : ∀ (fuel k0 k : Nat), k0 ≤ k →
    mpz_kronecker k p = -1 → k - k0 < fuel →
    ∃ k', findNonResidue p fuel k0 = some k' ∧ mpz_kronecker k' p = -1 := by
  intro fuel
  induction fuel with
  | zero => intro k0 k _ _ h; omega
  | succ f ih =>
    intro k0 k hk hkr hf
    unfold findNonResidue
    by_cases h : mpz_kronecker k0 p = -1
    · exact ⟨k0, by rw [if_pos h], h⟩
    · rw [if_neg h]
      have hne : k0 ≠ k := fun e => h (e ▸ hkr)
      exact ih (k0 + 1) k (by omega) hkr (by omega)

theorem exists_nonresidue (p : Nat) [Fact p.Prime] (hp2 : p ≠ 2) :
    ∃ k : Nat, 2 ≤ k ∧ k < p ∧ mpz_kronecker k p = -1 := by
  have hpp : p.Prime := Fact.out
  obtain ⟨x, hx⟩ := FiniteField.exists_nonsquare (F := ZMod p)
    (by rw [ZMod.ringChar_zmod_n]; exact hp2)
  have hx0 : x ≠ 0 := fun h => hx (h ▸ isSquare_zero)
  have hx1 : x ≠ 1 := fun h => hx (h ▸ isSquare_one)
  have hcast : ((x.val : Nat) : ZMod p) = x := ZMod.natCast_zmod_val x
  refine ⟨x.val, ?_, ZMod.val_lt x, ?_⟩
  · have h0 : x.val ≠ 0 := fun h => hx0 (by rw [← hcast, h]; simp)
    have h1 : x.val ≠ 1 := fun h => hx1 (by rw [← hcast, h]; simp)
    omega
  · have hpow : x ^ (p / 2) = -1 := by
      rcases ZMod.pow_div_two_eq_neg_one_or_one p hx0 with h | h
      · exact absurd ((ZMod.euler_criterion p hx0).mpr h) hx
      · exact h
    have := (mpz_kronecker_odd p hp2 (x.val : Int)).2.1
    rw [this]
    push_cast
    rw [hcast, hpow]

theorem findM_bounds (p : Int) : ∀ (n : Nat) (m bpow : Int),
    m ≤ findM p n m bpow ∧ findM p n m bpow ≤ m + n := by
  intro n
  induction n with
  | zero => intro m b; simp [findM]
  | succ k ih =>
    intro m b
    unfold findM
    by_cases h : b ≠ 1
    · rw [if_pos h]
      obtain ⟨h1, h2⟩ := ih (m + 1) (mpz_powm b 2 p)
      push_cast
      constructor <;> linarith
    · rw [if_neg h]
      push_cast
      constructor <;> linarith

theorem cast_iterate_sq (p : Nat) (g : Int) (j : Nat) :
    ((((fun x => mpz_powm x 2 p)^[j] g : Int)) : ZMod p) = (g : ZMod p) ^ (2 ^ j) := by
  induction j with
  | zero => simp
  | succ k ih =>
    rw [Function.iterate_succ_apply', cast_mpz_powm, ih, ← pow_mul, pow_succ]

theorem tsLoop_terminates (p : Nat) [Fact p.Prime] (a g : Int) (E : Nat)
    (hG : (g : ZMod p) ^ (2 ^ E) = 1) :
    ∀ (r t : Nat) (st : TSState), st.r = (r : Int) → 1 ≤ r →
      (st.xsq : ZMod p) ^ 2 = (a : ZMod p) * (st.b : ZMod p) → 0 ≤ st.b → st.b < p →
      (st.b : ZMod p) * (g : ZMod p) ^ (2 * t) = 1 →
      ∃ F, ∀ fuel, F ≤ fuel → ∃ x, tsLoop p g fuel st = some x ∧
        (x : ZMod p) ^ 2 = (a : ZMod p) := by
  have hpp : p.Prime := Fact.out
  intro r
  induction r using Nat.strong_induction_on with
  | _ r ihr =>
    intro t
    induction t using Nat.strong_induction_on with
    | _ t iht =>
      intro st hr hr1 hx hb0 hb1 ht
      by_cases hb : st.b = 1
      · refine ⟨0, fun fuel _ => ⟨st.xsq, ?_, ?_⟩⟩
        · cases fuel <;> simp [tsLoop, hb]
        · rw [hx, hb]; simp
      · -- one pass of the loop
        obtain ⟨hm1, hm2⟩ := findM_bounds p (st.r - 1).toNat 1 st.b
        set m := findM p (st.r - 1).toNat 1 st.b with hm
        have hmr : m ≤ r := by
          have : ((st.r - 1).toNat : Int) = r - 1 := by
            rw [hr]; omega
          rw [this] at hm2; linarith
        set j := (st.r - m - 1).toNat with hj
        have hstep : tsStep p g st
            = { xsq := modmul st.xsq ((fun x => mpz_powm x 2 p)^[j] g) p,
                b := modmul st.b (mpz_powm ((fun x => mpz_powm x 2 p)^[j] g) 2 p) p,
                r := m } := rfl
        have hx' : ((tsStep p g st).xsq : ZMod p) ^ 2
            = (a : ZMod p) * ((tsStep p g st).b : ZMod p) := by
          rw [hstep]
          simp only [cast_modmul, cast_mpz_powm, cast_iterate_sq]
          rw [mul_pow, hx]; ring
        have hrange := modmul_range p hpp.pos st.b
          (mpz_powm ((fun x => mpz_powm x 2 p)^[j] g) 2 p)
        have hbcast : ((tsStep p g st).b : ZMod p)
            = (st.b : ZMod p) * ((g : ZMod p) ^ (2 ^ j)) ^ 2 := by
          rw [hstep]
          simp only [cast_modmul, cast_mpz_powm, cast_iterate_sq]
        have hfuel : ∀ F', (∀ fuel, F' ≤ fuel → ∃ x, tsLoop p g fuel (tsStep p g st) = some x ∧
            (x : ZMod p) ^ 2 = (a : ZMod p)) →
            ∃ F, ∀ fuel, F ≤ fuel → ∃ x, tsLoop p g fuel st = some x ∧
              (x : ZMod p) ^ 2 = (a : ZMod p) := by
          intro F' hF'
          refine ⟨F' + 1, fun fuel hfu => ?_⟩
          obtain ⟨f, rfl⟩ : ∃ f, fuel = f + 1 := ⟨fuel - 1, by omega⟩
          obtain ⟨x, h1, h2⟩ := hF' f (by omega)
          exact ⟨x, by rw [tsLoop, if_neg hb, h1], h2⟩
        have hmnat : ((m.toNat : Nat) : Int) = m := Int.toNat_of_nonneg (by linarith)
        by_cases hlt : m < r
        · -- `r` goes down
          obtain ⟨c, hc⟩ : ∃ c, 2 ^ E = c + 1 :=
            ⟨2 ^ E - 1, by have := Nat.one_le_two_pow (n := E); omega⟩
          have hnew : ((tsStep p g st).b : ZMod p) * (g : ZMod p) ^ (2 * (t + c * 2 ^ j)) = 1 := by
            rw [hbcast, mul_assoc, ← pow_mul, ← pow_add]
            have : 2 ^ j * 2 + 2 * (t + c * 2 ^ j) = 2 * t + 2 ^ E * (2 ^ j * 2) := by
              rw [hc]; ring
            rw [this, pow_add, pow_mul (g : ZMod p) (2 ^ E), hG, one_pow, mul_one]
            exact ht
          obtain ⟨F', hF'⟩ := ihr m.toNat (by omega) (t + c * 2 ^ j) (tsStep p g st)
            (by rw [hstep]; exact hmnat.symm) (by omega) hx' hrange.1 hrange.2 hnew
          exact hfuel F' hF'
        · -- `r` stays, the exponent `t` goes down
          have hmeq : m = r := le_antisymm hmr (not_lt.mp hlt)
          have hj0 : j = 0 := by rw [hj, hr, hmeq]; omega
          have ht1 : 1 ≤ t := by
            by_contra h0
            have : t = 0 := by omega
            rw [this] at ht
            simp only [mul_zero, pow_zero, mul_one] at ht
            have := (cast_reduced_eq_iff p st.b 1 hb0 hb1 (by norm_num)
              (by exact_mod_cast hpp.one_lt)).mp (by simpa using ht)
            exact hb this
          have hnew : ((tsStep p g st).b : ZMod p) * (g : ZMod p) ^ (2 * (t - 1)) = 1 := by
            rw [hbcast, hj0, pow_zero, pow_one, mul_assoc, ← pow_add]
            have : 2 + 2 * (t - 1) = 2 * t := by omega
            rw [this]; exact ht
          obtain ⟨F', hF'⟩ := iht (t - 1) (by omega) (tsStep p g st)
            (by rw [hstep]; simp only; rw [hmeq]) hr1 hx' hrange.1 hrange.2 hnew
          exact hfuel F' hF'

theorem sqrtmod_unfold (fuel : Nat) (a : Int) (p : Nat) (k : Nat)
    (hkr : mpz_kronecker a p = 1) (hk : findNonResidue p fuel 2 = some k) :
    sqrtmod fuel a p =
      if mpz_powm a (removeTwos (p - 1) (p - 1)).2 p = 1 then
        some ((1 : Int), mpz_powm a (((removeTwos (p - 1) (p - 1)).2 + 1) / 2) p)
      else
        match tsLoop p (mpz_powm k (removeTwos (p - 1) (p - 1)).2 p) fuel
            { xsq := mpz_powm a (((removeTwos (p - 1) (p - 1)).2 + 1) / 2) p,
              b := mpz_powm a (removeTwos (p - 1) (p - 1)).2 p,
              r := (removeTwos (p - 1) (p - 1)).1 } with
        | none => none
        | some x => some ((1 : Int), x) := by
  unfold sqrtmod
  rw [if_neg (by rw [hkr]; simp)]
  simp only [hk]

theorem sqrtmod_residue (a : Int) (p : Nat) (hp : p.Prime) (hp2 : p ≠ 2)
    (hkr : mpz_kronecker a p = 1) :
    ∃ F, ∀ fuel, F ≤ fuel → ∃ r : Int, sqrtmod fuel a p = some (1, r) ∧
      r ^ 2 ≡ a [ZMOD p] := by
  haveI : Fact p.Prime := ⟨hp⟩
  have hodd : p % 2 = 1 := by
    rcases hp.eq_two_or_odd with h | h
    · exact absurd h hp2
    · exact h
  have hp3 : 3 ≤ p := by have := hp.two_le; omega
  have hA : (a : ZMod p) ^ (p / 2) = 1 := (mpz_kronecker_odd p hp2 a).1.mp hkr
  obtain ⟨hsplit, hp1odd⟩ := removeTwos_spec (p - 1) (p - 1) (by omega) (le_refl _)
  set R := (removeTwos (p - 1) (p - 1)).1 with hR
  set p1 := (removeTwos (p - 1) (p - 1)).2 with hp1
  have hR1 : 1 ≤ R := by
    by_contra h
    have : R = 0 := by omega
    rw [this, pow_zero, one_mul] at hsplit
    omega
  obtain ⟨R', hR'⟩ : ∃ R', R = R' + 1 := ⟨R - 1, by omega⟩
  have hhalf : p1 * 2 ^ R' = p / 2 := by
    rw [hR', pow_succ] at hsplit
    have : p - 1 = 2 * (2 ^ R' * p1) := by rw [hsplit]; ring
    have h2 : p / 2 = 2 ^ R' * p1 := by omega
    rw [h2, mul_comm]
  obtain ⟨k0, hk2, hkp, hk0⟩ := exists_nonresidue p hp2
  obtain ⟨c, hc⟩ : ∃ c, 2 ^ R' = c + 1 :=
    ⟨2 ^ R' - 1, by have := Nat.one_le_two_pow (n := R'); omega⟩
  -- the rest depends on which `k` the search returns
  have main : ∀ fuel k, findNonResidue p fuel 2 = some k → mpz_kronecker k p = -1 →
      ∃ F, ∀ fuel', F ≤ fuel' → ∃ x, tsLoop p (mpz_powm k p1 p) fuel'
          { xsq := mpz_powm a ((p1 + 1) / 2) p, b := mpz_powm a p1 p, r := R } = some x ∧
        (x : ZMod p) ^ 2 = (a : ZMod p) := by
    intro fuel k _ hkk
    have hK : ((k : Int) : ZMod p) ^ (p / 2) = -1 := (mpz_kronecker_odd p hp2 k).2.1.mp hkk
    set G : ZMod p := ((mpz_powm k p1 p : Int) : ZMod p) with hGdef
    have hGK : G = ((k : Int) : ZMod p) ^ p1 := cast_mpz_powm p k p1
    have hGhalf : G ^ (2 ^ R') = -1 := by rw [hGK, ← pow_mul, hhalf, hK]
    have hGfull : G ^ (2 ^ R) = 1 := by
      rw [hR', pow_succ, pow_mul, hGhalf]; simp
    have hm1 : (-1 : ZMod p) ≠ 1 := by
      haveI : Fact (2 < p) := ⟨by omega⟩
      exact ZMod.neg_one_ne_one
    have hord : orderOf G = 2 ^ (R' + 1) :=
      orderOf_eq_prime_pow (by rw [hGhalf]; exact hm1) (by rw [← hR']; exact hGfull)
    have hprim : IsPrimitiveRoot G (2 ^ (R' + 1)) := hord ▸ IsPrimitiveRoot.orderOf G
    have hprim2 : IsPrimitiveRoot (G ^ 2) (2 ^ R') :=
      IsPrimitiveRoot.pow (by positivity) hprim (by rw [pow_succ]; ring)
    have hB : (((mpz_powm a p1 p : Int)) : ZMod p) ^ (2 ^ R') = 1 := by
      rw [cast_mpz_powm, ← pow_mul, hhalf, hA]
    haveI : NeZero (2 ^ R') := ⟨by positivity⟩
    obtain ⟨i, hi, hiB⟩ := hprim2.eq_pow_of_pow_eq_one hB
    have ht : (((mpz_powm a p1 p : Int)) : ZMod p) * G ^ (2 * (2 ^ R' - i)) = 1 := by
      rw [← hiB, ← pow_mul, ← pow_add]
      have : 2 * i + 2 * (2 ^ R' - i) = 2 ^ R := by
        rw [hR', pow_succ]; omega
      rw [this, hGfull]
    have hx : (((mpz_powm a ((p1 + 1) / 2) p : Int)) : ZMod p) ^ 2
        = (a : ZMod p) * ((mpz_powm a p1 p : Int) : ZMod p) := by
      rw [cast_mpz_powm, cast_mpz_powm, ← pow_mul, ← pow_succ']
      congr 1; omega
    have hrange := mpz_powm_range p hp.pos a p1
    exact tsLoop_terminates p a (mpz_powm k p1 p) R hGfull R (2 ^ R' - i)
      { xsq := mpz_powm a ((p1 + 1) / 2) p, b := mpz_powm a p1 p, r := R }
      rfl hR1 hx hrange.1 hrange.2 ht
  -- the search with `p` units of fuel
  obtain ⟨kp, hkp1, hkp2⟩ := findNonResidue_spec p p 2 k0 hk2 hk0 (by omega)
  obtain ⟨F, hF⟩ := main p kp hkp1 hkp2
  refine ⟨max p F, fun fuel hfuel => ?_⟩
  obtain ⟨k, hk1, hk2'⟩ := findNonResidue_spec p fuel 2 k0 hk2 hk0
    (by have := le_max_left p F; omega)
  have hsame : k = kp := by
    -- both searches stop at the first non-residue from 2 on
    have hmono : ∀ (f1 f2 s : Nat) (x y : Nat), findNonResidue p f1 s = some x →
        findNonResidue p f2 s = some y → x = y := by
      intro f1
      induction f1 with
      | zero => intro f2 s x y h; simp [findNonResidue] at h
      | succ n ih =>
        intro f2 s x y h1 h2
        cases f2 with
        | zero => simp [findNonResidue] at h2
        | succ n2 =>
          unfold findNonResidue at h1 h2
          by_cases hs : mpz_kronecker s p = -1
          · rw [if_pos hs] at h1 h2
            exact (Option.some.inj h1).symm.trans (Option.some.inj h2)
          · rw [if_neg hs] at h1 h2
            exact ih n2 (s + 1) x y h1 h2
    exact hmono fuel p 2 k kp hk1 hkp1
  subst hsame
  rw [sqrtmod_unfold fuel a p k hkr hk1]
  have hxsq : (((mpz_powm a ((p1 + 1) / 2) p : Int)) : ZMod p) ^ 2
      = (a : ZMod p) * ((mpz_powm a p1 p : Int) : ZMod p) := by
    rw [cast_mpz_powm, cast_mpz_powm, ← pow_mul, ← pow_succ']
    congr 1; omega
  have tocong : ∀ x : Int, (x : ZMod p) ^ 2 = (a : ZMod p) → x ^ 2 ≡ a [ZMOD p] := by
    intro x hx
    rw [← ZMod.intCast_eq_intCast_iff]
    push_cast; exact hx
  by_cases hb1 : mpz_powm a p1 p = 1
  · rw [if_pos hb1]
    refine ⟨_, rfl, tocong _ ?_⟩
    rw [hxsq, hb1]; simp
  · rw [if_neg hb1]
    obtain ⟨x, hx1, hx2⟩ := hF fuel (le_trans (le_max_right p F) hfuel)
    rw [hx1]
    exact ⟨x, rfl, tocong x hx2⟩

theorem sqrtmod_nonresidue (fuel : Nat) (a : Int) (p : Nat) (h : mpz_kronecker a p ≠ 1) :
    sqrtmod fuel a p = some (0, 0) := by
  unfold sqrtmod
  rw [if_pos h]

theorem sqrtmod_two (a : Int) (h : mpz_kronecker a 2 = 1) :
    ∀ fuel, 2 ≤ fuel → sqrtmod fuel a 2 = some (1, 1) := by
  intro fuel hfuel
  have hodd : a % 2 = 1 := by
    unfold mpz_kronecker at h
    simp only [if_true] at h
    by_cases h2 : a % 2 = 0
    · rw [if_pos h2] at h; exact absurd h (by norm_num)
    · omega
  obtain ⟨f, rfl⟩ : ∃ f, fuel = f + 2 := ⟨fuel - 2, by omega⟩
  have hk : findNonResidue 2 (f + 2) 2 = some 3 := by
    simp [findNonResidue, mpz_kronecker]
  rw [sqrtmod_unfold (f + 2) a 2 3 h hk]
  have hrt : removeTwos (2 - 1) (2 - 1) = (0, 1) := by decide
  rw [hrt]
  have hb : mpz_powm a 1 (2 : Nat) = 1 := by
    unfold mpz_powm; simpa using hodd
  simp only [hb, if_true]

theorem kronecker_one_iff_square (a : Int) (p : Nat) (hp : p.Prime) (hp2 : p ≠ 2) :
    mpz_kronecker a p = 1 ↔ (¬ (p : Int) ∣ a ∧ ∃ x : Int, x ^ 2 ≡ a [ZMOD p]) := by
  haveI : Fact p.Prime := ⟨hp⟩
  rw [(mpz_kronecker_odd p hp2 a).1]
  have hhalf : p / 2 ≠ 0 := by have := hp.two_le; omega
  constructor
  · intro h
    have ha : (a : ZMod p) ≠ 0 := by
      intro h0; rw [h0, zero_pow hhalf] at h; exact zero_ne_one h
    refine ⟨fun hd => ha ((ZMod.intCast_zmod_eq_zero_iff_dvd a p).mpr hd), ?_⟩
    obtain ⟨y, hy⟩ := (ZMod.euler_criterion p ha).mpr h
    obtain ⟨x, rfl⟩ := ZMod.intCast_surjective y
    refine ⟨x, ?_⟩
    rw [← ZMod.intCast_eq_intCast_iff]
    push_cast; rw [hy]; ring
  · rintro ⟨hd, x, hx⟩
    have ha : (a : ZMod p) ≠ 0 := fun h0 => hd ((ZMod.intCast_zmod_eq_zero_iff_dvd a p).mp h0)
    apply (ZMod.euler_criterion p ha).mp
    refine ⟨(x : ZMod p), ?_⟩
    have := (ZMod.intCast_eq_intCast_iff (x ^ 2) a p).mpr hx
    push_cast at this
    rw [← this]; ring

/-- C7: for every odd prime `p` and every integer `a` with Kronecker symbol `(a/p) = 1`,
`sqrtmod` ends (every sufficient fuel gives the result), returns `1` and leaves in `asqrt`
a value `r` with `r^2 = a (mod p)`. -/
theorem sqrtmod_returns_root (a : Int) (p : Nat) (hp : p.Prime) (hodd : p ≠ 2)
    (hkr : mpz_kronecker a p = 1) :
    ∃ F, ∀ fuel, F ≤ fuel → ∃ r : Int, sqrtmod fuel a p = some (1, r) ∧
      r ^ 2 ≡ a [ZMOD p] :=
  sqrtmod_residue a p hp hodd hkr

theorem sqrtmod_returns_root_witness :
    sqrtmod 20 2 17 = some (1, 6) ∧
    ∃ F, ∀ fuel, F ≤ fuel → ∃ r : Int, sqrtmod fuel 2 17 = some (1, r) ∧
      r ^ 2 ≡ 2 [ZMOD (17 : Nat)] :=
  ⟨by decide, sqrtmod_returns_root 2 17 (by decide) (by decide) (by decide)⟩

/-- The return value of `sqrtmod` follows the Kronecker symbol: for every prime `p` and
every integer `a` it returns `1` when `(a/p)` is `1` and otherwise returns `0` with
`asqrt = 0`; for odd `p` the symbol is `1` exactly when `a` is a square modulo `p` that `p`
does not divide. -/
theorem sqrtmod_return_value (a : Int) (p : Nat) (hp : p.Prime) :
    (mpz_kronecker a p = 1 →
      ∃ F, ∀ fuel, F ≤ fuel → ∃ r : Int, sqrtmod fuel a p = some (1, r)) ∧
    (mpz_kronecker a p ≠ 1 → ∀ fuel, sqrtmod fuel a p = some (0, 0)) ∧
    (p ≠ 2 →
      (mpz_kronecker a p = 1 ↔ (¬ (p : Int) ∣ a ∧ ∃ x : Int, x ^ 2 ≡ a [ZMOD p]))) := by
  refine ⟨fun h => ?_, fun h fuel => sqrtmod_nonresidue fuel a p h,
    fun h2 => kronecker_one_iff_square a p hp h2⟩
  by_cases h2 : p = 2
  · subst h2
    exact ⟨2, fun fuel hf => ⟨1, sqrtmod_two a h fuel hf⟩⟩
  · obtain ⟨F, hF⟩ := sqrtmod_residue a p hp h2 h
    exact ⟨F, fun fuel hf => by
      obtain ⟨r, hr, _⟩ := hF fuel hf
      exact ⟨r, hr⟩⟩

theorem sqrtmod_return_value_witness :
    (mpz_kronecker 0 3 = 1 →
      ∃ F, ∀ fuel, F ≤ fuel → ∃ r : Int, sqrtmod fuel 0 3 = some (1, r)) ∧
    (mpz_kronecker 0 3 ≠ 1 → ∀ fuel, sqrtmod fuel 0 3 = some (0, 0)) ∧
    (3 ≠ 2 →
      (mpz_kronecker 0 3 = 1 ↔ (¬ ((3 : Nat) : Int) ∣ 0 ∧ ∃ x : Int, x ^ 2 ≡ 0 [ZMOD (3 : Nat)]))) :=
  sqrtmod_return_value 0 3 (by decide)

/-- C8: `sqrtmod` does not return what its interface promises ("Return: 0 if a is not a
square mod p, 1 otherwise"): `0` is a square modulo the prime `3`, yet `sqrtmod` returns `0`
for `a = 0`, `p = 3`; and `3` is a square modulo the prime `2` (`1^2 = 3`), yet `sqrtmod`
returns `0` for `a = 3`, `p = 2` and leaves `asqrt = 0`, which is not a root. -/
theorem sqrtmod_zero_is_square_returns_zero :
    Nat.Prime 3 ∧ (0 : Int) ^ 2 ≡ 0 [ZMOD (3 : Nat)] ∧ sqrtmod 100 0 3 = some (0, 0) ∧
    Nat.Prime 2 ∧ (1 : Int) ^ 2 ≡ 3 [ZMOD (2 : Nat)] ∧ sqrtmod 100 3 2 = some (0, 0) ∧
    ¬ (0 : Int) ^ 2 ≡ 3 [ZMOD (2 : Nat)] := by
  decide

/-! ### computeFactorBase -/

theorem nextPrimeSearch_spec : ∀ (fuel c : Nat), (∃ q, Nat.Prime q ∧ c ≤ q ∧ q < c + fuel) →
    Nat.Prime (nextPrimeSearch fuel c) ∧ c ≤ nextPrimeSearch fuel c ∧
      ∀ q', Nat.Prime q' → c ≤ q' → nextPrimeSearch fuel c ≤ q' := by
  intro fuel
  induction fuel with
  | zero => rintro c ⟨q, _, h1, h2⟩; omega
  | succ f ih =>
    rintro c ⟨q, hq, h1, h2⟩
    unfold nextPrimeSearch
    by_cases hc : Nat.Prime c
    · rw [if_pos hc]
      exact ⟨hc, le_refl _, fun q' _ h => h⟩
    · rw [if_neg hc]
      have hne : q ≠ c := fun e => hc (e ▸ hq)
      obtain ⟨a1, a2, a3⟩ := ih (c + 1) ⟨q, hq, by omega, by omega⟩
      refine ⟨a1, by omega, fun q' hq' h => a3 q' hq' ?_⟩
      have : q' ≠ c := fun e => hc (e ▸ hq')
      omega

theorem mpz_nextprime_spec (n : Nat) :
    Nat.Prime (mpz_nextprime n) ∧ n < mpz_nextprime n ∧
      ∀ q', Nat.Prime q' → n < q' → mpz_nextprime n ≤ q' := by
  have hex : ∃ q, Nat.Prime q ∧ n + 1 ≤ q ∧ q < n + 1 + (n + 2) := by
    by_cases h0 : n = 0
    · exact ⟨2, Nat.prime_two, by omega, by omega⟩
    · obtain ⟨q, hq, h1, h2⟩ := Nat.exists_prime_lt_and_le_two_mul n h0
      exact ⟨q, hq, by omega, by omega⟩
  obtain ⟨a1, a2, a3⟩ := nextPrimeSearch_spec (n + 2) (n + 1) hex
  exact ⟨a1, a2, fun q' hq' h => a3 q' hq' h⟩

theorem exists_large_good_prime (n : Int) (hn : n ≠ 0) (N : Nat) :
    ∃ q, GoodPrime n q ∧ N < q := by
  have hk : 4 * n.natAbs ≠ 0 := by
    have : n.natAbs ≠ 0 := Int.natAbs_ne_zero.mpr hn
    omega
  obtain ⟨q, hq, hNq, hmod⟩ := Nat.exists_prime_gt_modEq_one (k := 4 * n.natAbs) (N + 2) hk
  haveI : Fact q.Prime := ⟨hq⟩
  have hq2 : q ≠ 2 := by omega
  have hqmod : q % (4 * n.natAbs) = 1 := by
    have h1 : 1 < 4 * n.natAbs := by
      have : n.natAbs ≠ 0 := Int.natAbs_ne_zero.mpr hn
      omega
    have := hmod
    unfold Nat.ModEq at this
    rwa [Nat.mod_eq_of_lt h1] at this
  have hoddq : Odd q := hq.odd_of_ne_two hq2
  have hJ : jacobiSym n q = 1 := by
    rw [jacobiSym.mod_right n hoddq, hqmod, jacobiSym.one_right]
  have hL : legendreSym q n = 1 := by
    rw [jacobiSym.legendreSym.to_jacobiSym]; exact hJ
  have hpow : (n : ZMod q) ^ (q / 2) = 1 := by
    rw [← legendreSym.eq_pow, hL]; simp
  exact ⟨q, ⟨hq, hq2, (mpz_kronecker_odd q hq2 n).1.mpr hpow⟩, by omega⟩

theorem factorBaseLoop_step (w : Nat) (n : Int) (B fuel cur : Nat) (fb : List Nat)
    (h : fb.length < B) :
    factorBaseLoop w n B (fuel + 1) cur fb
      = factorBaseLoop w n B fuel (mpz_nextprime cur)
          (if mpz_kronecker n cur = 1 then fb ++ [mpz_get_ui w cur] else fb) := by
  rw [factorBaseLoop, if_pos h]

theorem factorBaseLoop_done (w : Nat) (n : Int) (B fuel cur : Nat) (fb : List Nat)
    (h : ¬ fb.length < B) : factorBaseLoop w n B fuel cur fb = some fb := by
  cases fuel <;> simp [factorBaseLoop, h]

theorem map_get_ui_concat (w : Nat) (init rest : List Nat) (cur : Nat) :
    init ++ rest.map (mpz_get_ui w) ++ [mpz_get_ui w cur]
      = init ++ (rest ++ [cur]).map (mpz_get_ui w) := by
  simp

theorem map_get_ui_of_lt (w : Nat) (rest : List Nat) (h : ∀ q ∈ rest, q < 2 ^ w) :
    rest.map (mpz_get_ui w) = rest := by
  induction rest with
  | nil => rfl
  | cons a l ih =>
    rw [List.map_cons, ih (fun q hq => h q (List.mem_cons_of_mem _ hq))]
    unfold mpz_get_ui
    rw [Nat.mod_eq_of_lt (h a (List.mem_cons_self _ _))]

theorem factorBaseInv_keep (n : Int) (cur : Nat) (rest : List Nat)
    (hI : FactorBaseInv n cur rest) (hk : mpz_kronecker n cur = 1) :
    FactorBaseInv n (mpz_nextprime cur) (rest ++ [cur]) := by
  obtain ⟨hp, h2, hs, hm, hc⟩ := hI
  obtain ⟨a1, a2, a3⟩ := mpz_nextprime_spec cur
  have h3 : 2 ≤ cur := hp.two_le
  refine ⟨a1, by omega, ?_, ?_, ?_⟩
  · rw [List.pairwise_append]
    refine ⟨hs, List.pairwise_singleton _ _, ?_⟩
    intro x hx y hy
    simp only [List.mem_singleton] at hy
    rw [hy]; exact (hm x hx).2
  · intro q hq
    simp only [List.mem_append, List.mem_singleton] at hq
    rcases hq with hq | hq
    · exact ⟨(hm q hq).1, lt_trans (hm q hq).2 a2⟩
    · rw [hq]; exact ⟨⟨hp, h2, hk⟩, a2⟩
  · intro q hq hg
    simp only [List.mem_append, List.mem_singleton]
    by_cases hlt : q < cur
    · exact Or.inl (hc q hlt hg)
    · right
      by_contra hne
      have : cur < q := by omega
      have := a3 q hg.1 this
      omega

theorem factorBaseInv_skip (n : Int) (cur : Nat) (rest : List Nat)
    (hI : FactorBaseInv n cur rest) (hk : ¬ mpz_kronecker n cur = 1) :
    FactorBaseInv n (mpz_nextprime cur) rest := by
  obtain ⟨hp, h2, hs, hm, hc⟩ := hI
  obtain ⟨a1, a2, a3⟩ := mpz_nextprime_spec cur
  have h3 : 2 ≤ cur := hp.two_le
  refine ⟨a1, by omega, hs, fun q hq => ⟨(hm q hq).1, lt_trans (hm q hq).2 a2⟩, ?_⟩
  intro q hq hg
  by_cases hlt : q < cur
  · exact hc q hlt hg
  · have hne : q ≠ cur := fun e => hk (e ▸ hg.2.2)
    have : cur < q := by omega
    have := a3 q hg.1 this
    omega

theorem factorBaseLoop_spec (w : Nat) (n : Int) (hn : n ≠ 0) (B : Nat) (init : List Nat) :
    ∀ (d cur : Nat) (rest : List Nat), FactorBaseInv n cur rest →
      init.length + rest.length + d = B →
      ∃ F, ∀ fuel, F ≤ fuel → ∃ rest' cur',
        factorBaseLoop w n B fuel cur (init ++ rest.map (mpz_get_ui w))
          = some (init ++ rest'.map (mpz_get_ui w)) ∧
        init.length + rest'.length = B ∧ FactorBaseInv n cur' rest' := by
  intro d
  induction d with
  | zero =>
    intro cur rest hI hlen
    refine ⟨0, fun fuel _ => ⟨rest, cur, ?_, ?_, hI⟩⟩
    · apply factorBaseLoop_done
      rw [List.length_append, List.length_map]; omega
    · omega
  | succ d ihd =>
    intro cur rest hI hlen
    obtain ⟨q, hq, hcq⟩ := exists_large_good_prime n hn cur
    -- induction on the distance to the good prime `q`
    have inner : ∀ (gap cur : Nat), FactorBaseInv n cur rest → cur ≤ q → q - cur ≤ gap →
        ∃ F, ∀ fuel, F ≤ fuel → ∃ rest' cur',
          factorBaseLoop w n B fuel cur (init ++ rest.map (mpz_get_ui w))
          = some (init ++ rest'.map (mpz_get_ui w)) ∧
          init.length + rest'.length = B ∧ FactorBaseInv n cur' rest' := by
      intro gap
      induction gap with
      | zero =>
        intro cur hI hle hgap
        have hcur : cur = q := by omega
        have hk : mpz_kronecker n cur = 1 := hcur ▸ hq.2.2
        obtain ⟨F', hF'⟩ := ihd (mpz_nextprime cur) (rest ++ [cur])
          (factorBaseInv_keep n cur rest hI hk) (by rw [List.length_append]; simp; omega)
        refine ⟨F' + 1, fun fuel hf => ?_⟩
        obtain ⟨f, rfl⟩ : ∃ f, fuel = f + 1 := ⟨fuel - 1, by omega⟩
        obtain ⟨rest', cur', h1, h2, h3⟩ := hF' f (by omega)
        refine ⟨rest', cur', ?_, h2, h3⟩
        rw [factorBaseLoop_step w n B f cur _
            (by rw [List.length_append, List.length_map]; omega), if_pos hk,
          map_get_ui_concat]
        exact h1
      | succ g ihg =>
        intro cur hI hle hgap
        by_cases hk : mpz_kronecker n cur = 1
        · obtain ⟨F', hF'⟩ := ihd (mpz_nextprime cur) (rest ++ [cur])
            (factorBaseInv_keep n cur rest hI hk) (by rw [List.length_append]; simp; omega)
          refine ⟨F' + 1, fun fuel hf => ?_⟩
          obtain ⟨f, rfl⟩ : ∃ f, fuel = f + 1 := ⟨fuel - 1, by omega⟩
          obtain ⟨rest', cur', h1, h2, h3⟩ := hF' f (by omega)
          refine ⟨rest', cur', ?_, h2, h3⟩
          rw [factorBaseLoop_step w n B f cur _
              (by rw [List.length_append, List.length_map]; omega), if_pos hk,
            map_get_ui_concat]
          exact h1
        · obtain ⟨a1, a2, a3⟩ := mpz_nextprime_spec cur
          have hne : cur ≠ q := fun e => hk (e ▸ hq.2.2)
          have hlt : cur < q := by omega
          have hnext := a3 q hq.1 hlt
          obtain ⟨F', hF'⟩ := ihg (mpz_nextprime cur) (factorBaseInv_skip n cur rest hI hk)
            hnext (by omega)
          refine ⟨F' + 1, fun fuel hf => ?_⟩
          obtain ⟨f, rfl⟩ : ∃ f, fuel = f + 1 := ⟨fuel - 1, by omega⟩
          obtain ⟨rest', cur', h1, h2, h3⟩ := hF' f (by omega)
          refine ⟨rest', cur', ?_, h2, h3⟩
          rw [factorBaseLoop_step w n B f cur _
            (by rw [List.length_append, List.length_map]; omega), if_neg hk]
          exact h1
    exact inner (q - cur) cur hI (le_of_lt hcq) (le_refl _)

/-- C10: for `kN ≠ 0` and `B ≥ 2`, `computeFactorBase(kN, B, k)` ends (every sufficient fuel
gives the result) with exactly `B` entries: entry 0 is the multiplier `k`, entry 1 is `2`
unless `k = 2`, and the remaining entries are the words `mpz_get_ui` stores for, in strictly
increasing order, exactly the smallest odd primes `p` with Kronecker symbol `(kN/p) = 1`, none
skipped: the primes themselves when they fit in a word; `kN` is a square modulo each of
them. -/
theorem computeFactorBase_spec (w : Nat) (n : Int) (B k : Nat) (hn : n ≠ 0) (hB : 2 ≤ B) :
    ∃ F, ∀ fuel, F ≤ fuel → ∃ fb rest,
      computeFactorBase w fuel n B k = some fb ∧ fb.length = B ∧
      fb = (if k ≠ 2 then [k, 2] else [k]) ++ rest.map (mpz_get_ui w) ∧
      ((∀ q ∈ rest, q < 2 ^ w) → fb = (if k ≠ 2 then [k, 2] else [k]) ++ rest) ∧
      List.Pairwise (· < ·) rest ∧
      (∀ q ∈ rest, Nat.Prime q ∧ q ≠ 2 ∧ mpz_kronecker n q = 1) ∧
      (∀ q ∈ rest, ∀ q', q' < q → Nat.Prime q' → q' ≠ 2 → mpz_kronecker n q' = 1 → q' ∈ rest) ∧
      (∀ q ∈ rest, ∃ x : Int, x ^ 2 ≡ n [ZMOD q]) := by
  have hI0 : FactorBaseInv n 3 [] := by
    refine ⟨Nat.prime_three, by norm_num, List.Pairwise.nil, by simp, ?_⟩
    intro q hq hg
    have h2 := hg.1.two_le
    have : q = 2 := by omega
    exact absurd this hg.2.1
  have hlen : (if k ≠ 2 then [k, 2] else [k]).length
      + ([] : List Nat).length + (B - (if k ≠ 2 then [k, 2] else [k]).length) = B := by
    split_ifs <;> simp <;> omega
  obtain ⟨F, hF⟩ := factorBaseLoop_spec w n hn B (if k ≠ 2 then [k, 2] else [k]) _ 3 [] hI0 hlen
  refine ⟨F, fun fuel hf => ?_⟩
  obtain ⟨rest, cur', h1, h2, hp, hq2, hs, hm, hc⟩ := hF fuel hf
  refine ⟨_, rest, ?_, ?_, rfl, ?_, hs, fun q hq => (hm q hq).1, ?_, ?_⟩
  · unfold computeFactorBase
    rw [List.map_nil, List.append_nil] at h1
    exact h1
  · rw [List.length_append, List.length_map]; exact h2
  · intro hlt
    rw [map_get_ui_of_lt w rest hlt]
  · intro q hq q' hlt hq' hq'2 hk
    exact hc q' (lt_trans hlt (hm q hq).2) ⟨hq', hq'2, hk⟩
  · intro q hq
    obtain ⟨⟨g1, g2, g3⟩, _⟩ := hm q hq
    exact ((kronecker_one_iff_square n q g1 g2).mp g3).2

theorem computeFactorBase_spec_witness :
    computeFactorBase 64 30 77 6 1 = some [1, 2, 13, 17, 19, 23] ∧
    ∃ F, ∀ fuel, F ≤ fuel → ∃ fb rest,
      computeFactorBase 64 fuel 77 6 1 = some fb ∧ fb.length = 6 ∧
      fb = (if 1 ≠ 2 then [1, 2] else [1]) ++ rest.map (mpz_get_ui 64) ∧
      ((∀ q ∈ rest, q < 2 ^ 64) → fb = (if 1 ≠ 2 then [1, 2] else [1]) ++ rest) ∧
      List.Pairwise (· < ·) rest ∧
      (∀ q ∈ rest, Nat.Prime q ∧ q ≠ 2 ∧ mpz_kronecker 77 q = 1) ∧
      (∀ q ∈ rest, ∀ q', q' < q → Nat.Prime q' → q' ≠ 2 → mpz_kronecker 77 q' = 1 →
        q' ∈ rest) ∧
      (∀ q ∈ rest, ∃ x : Int, x ^ 2 ≡ 77 [ZMOD q]) :=
  ⟨by decide, computeFactorBase_spec 64 77 6 1 (by decide) (by decide)⟩

/-! ### Sibling polynomials and their roots -/

theorem foldl_mul_range (f : Nat → Int) (m : Nat) :
    (List.range m).foldl (fun A i => A * f i) 1 = ∏ i in Finset.range m, f i := by
  induction m with
  | zero => simp
  | succ k ih => rw [List.range_succ, List.foldl_append, ih, Finset.prod_range_succ]; simp

theorem polyA_eq_prod (inp : PolyInput) :
    polyA inp = ∏ i in Finset.range inp.s, ((aPrime inp i : Nat) : Int) :=
  foldl_mul_range _ _

theorem aPrime_dvd_polyA (inp : PolyInput) (i : Nat) (hi : i < inp.s) :
    ((aPrime inp i : Nat) : Int) ∣ polyA inp := by
  rw [polyA_eq_prod]
  exact Finset.dvd_prod_of_mem _ (Finset.mem_range.mpr hi)

theorem polyA_div_eq (inp : PolyInput) (hA : GoodA inp) (i : Nat) (hi : i < inp.s) :
    polyA inp / ((aPrime inp i : Nat) : Int)
      = ∏ l in (Finset.range inp.s).erase i, ((aPrime inp l : Nat) : Int) := by
  have hp := (hA.2.1 i hi).pos
  have hne : ((aPrime inp i : Nat) : Int) ≠ 0 := by exact_mod_cast (ne_of_gt hp)
  rw [polyA_eq_prod, ← Finset.mul_prod_erase _ _ (Finset.mem_range.mpr hi)]
  exact Int.mul_ediv_cancel_left _ hne

theorem aPrime_dvd_div_other (inp : PolyInput) (hA : GoodA inp) (i l : Nat) (hi : i < inp.s)
    (hl : l < inp.s) (hne : i ≠ l) :
    ((aPrime inp i : Nat) : Int) ∣ polyA inp / ((aPrime inp l : Nat) : Int) := by
  rw [polyA_div_eq inp hA l hl]
  exact Finset.dvd_prod_of_mem _ (Finset.mem_erase.mpr ⟨hne, Finset.mem_range.mpr hi⟩)

theorem aPrime_not_dvd_div_self (inp : PolyInput) (hA : GoodA inp) (i : Nat) (hi : i < inp.s) :
    ¬ ((aPrime inp i : Nat) : Int) ∣ polyA inp / ((aPrime inp i : Nat) : Int) := by
  rw [polyA_div_eq inp hA i hi]
  have hpi : Prime ((aPrime inp i : Nat) : Int) := Nat.prime_iff_prime_int.mp (hA.2.1 i hi)
  rw [hpi.dvd_finset_prod_iff]
  rintro ⟨l, hl, hd⟩
  rw [Finset.mem_erase, Finset.mem_range] at hl
  have hd' : aPrime inp i ∣ aPrime inp l := by exact_mod_cast hd
  have := (Nat.prime_dvd_prime_iff_eq (hA.2.1 i hi) (hA.2.1 l hl.2)).mp hd'
  exact hA.2.2.1 i hi l hl.2 (Ne.symm hl.1) this

theorem modinverseU_spec (w : Nat) (x : Int) (p : Nat) (hp : p.Prime)
    (hw : 4 * (p : Int) < 2 ^ (w - 1)) (hx : ¬ (p : Int) ∣ x) :
    0 ≤ modinverseU w (x % (p : Int)) p ∧ modinverseU w (x % (p : Int)) p < p ∧
      x * modinverseU w (x % (p : Int)) p ≡ 1 [ZMOD p] := by
  have hp0 : (0 : Int) < p := by exact_mod_cast hp.pos
  have h0 : 0 ≤ x % (p : Int) := Int.emod_nonneg _ (ne_of_gt hp0)
  have h1 : x % (p : Int) < p := Int.emod_lt_of_pos _ hp0
  have hne : x % (p : Int) ≠ 0 := fun h => hx (Int.dvd_of_emod_eq_zero h)
  have hcast : (((x % (p : Int)).toNat : Nat) : Int) = x % (p : Int) := Int.toNat_of_nonneg h0
  have ha0 : 0 < (x % (p : Int)).toNat := by
    have : (0 : Int) < ((x % (p : Int)).toNat : Int) := by rw [hcast]; omega
    exact_mod_cast this
  have ha1 : (x % (p : Int)).toNat < p := by
    have : (((x % (p : Int)).toNat : Nat) : Int) < p := by rw [hcast]; exact h1
    exact_mod_cast this
  have hcop : Nat.Coprime (x % (p : Int)).toNat p :=
    Nat.Coprime.symm ((Nat.Prime.coprime_iff_not_dvd hp).mpr (Nat.not_dvd_of_pos_of_lt ha0 ha1))
  obtain ⟨u, hu, hu0, hu1, hu2⟩ := modinverse_coprime w _ p hw hcop ha0 ha1
  have hU : modinverseU w (x % (p : Int)) p = u := by
    unfold modinverseU; rw [hu]; rfl
  rw [hU]
  refine ⟨hu0, hu1, ?_⟩
  rw [hcast] at hu2
  exact ((Int.mod_modEq x p).symm.mul_right u).trans hu2

theorem bTerm_eq (inp : PolyInput) (hA : GoodA inp) (i : Nat) (hi : i < inp.s) :
    ∃ g : Int, bTerm inp i = g * (polyA inp / ((aPrime inp i : Nat) : Int)) ∧
      g * (polyA inp / ((aPrime inp i : Nat) : Int)) ^ 1 * g
        * (polyA inp / ((aPrime inp i : Nat) : Int)) ≡ inp.n [ZMOD ((aPrime inp i : Nat) : Int)] := by
  obtain ⟨hs, hpr, hdist, hw, hsq⟩ := hA
  have hA' : GoodA inp := ⟨hs, hpr, hdist, hw, hsq⟩
  set p : Nat := aPrime inp i with hp
  set q : Int := polyA inp / (p : Int) with hq
  set r : Int := inp.sqrts.getD (inp.aind.getD i 0 + inp.min) 0 with hr
  have hnd : ¬ (p : Int) ∣ q := aPrime_not_dvd_div_self inp hA' i hi
  obtain ⟨_, _, hinv⟩ := modinverseU_spec inp.w q p (hpr i hi) (hw i hi) hnd
  set u : Int := modinverseU inp.w (q % (p : Int)) p with hu
  set t2 : Int := (u * r) % (p : Int) with ht2
  have ht2c : t2 ≡ u * r [ZMOD p] := Int.mod_modEq _ _
  set t3 : Int := if t2 > ((p / 2 : Nat) : Int) then -(t2 - (p : Int)) else t2 with ht3
  have hb : bTerm inp i = t3 * q := by
    have : bTerm inp i = (t3 * polyA inp) / (p : Int) := rfl
    rw [this, Int.mul_ediv_assoc _ (aPrime_dvd_polyA inp i hi)]
  refine ⟨t3, hb, ?_⟩
  have key : t3 * q ≡ r [ZMOD p] ∨ t3 * q ≡ -r [ZMOD p] := by
    have h1 : u * r * q ≡ r [ZMOD p] := by
      have : u * r * q = r * (q * u) := by ring
      rw [this]
      have := hinv.mul_left r
      simpa using this
    by_cases hc : t2 > ((p / 2 : Nat) : Int)
    · right
      have e : t3 = -(t2 - (p : Int)) := by rw [ht3, if_pos hc]
      rw [e]
      have h2 : -(t2 - (p : Int)) ≡ -(u * r) [ZMOD p] := by
        have h3 : t2 - (p : Int) ≡ u * r - 0 [ZMOD p] :=
          Int.ModEq.sub ht2c (Int.modEq_zero_iff_dvd.mpr (dvd_refl _))
        simpa using h3.neg
      have h4 : -(u * r) * q ≡ -r [ZMOD p] := by
        have e4 : -(u * r) * q = -(u * r * q) := by ring
        rw [e4]; exact h1.neg
      exact (h2.mul_right q).trans h4
    · left
      have e : t3 = t2 := by rw [ht3, if_neg hc]
      rw [e]
      exact (ht2c.mul_right q).trans h1
  have hfin : (t3 * q) ^ 2 ≡ inp.n [ZMOD p] := by
    rcases key with h | h
    · exact (h.pow 2).trans (hsq i hi)
    · have := h.pow 2
      rw [neg_sq] at this
      exact this.trans (hsq i hi)
  have e : t3 * q ^ 1 * t3 * q = (t3 * q) ^ 2 := by ring
  rw [e]; exact hfin

theorem bTerm_sq (inp : PolyInput) (hA : GoodA inp) (i : Nat) (hi : i < inp.s) :
    bTerm inp i ^ 2 ≡ inp.n [ZMOD ((aPrime inp i : Nat) : Int)] := by
  obtain ⟨g, hg, h⟩ := bTerm_eq inp hA i hi
  rw [hg]
  have e : (g * (polyA inp / ((aPrime inp i : Nat) : Int))) ^ 2
      = g * (polyA inp / ((aPrime inp i : Nat) : Int)) ^ 1 * g
        * (polyA inp / ((aPrime inp i : Nat) : Int)) := by ring
  rw [e]; exact h

theorem bTerm_dvd_other (inp : PolyInput) (hA : GoodA inp) (i l : Nat) (hi : i < inp.s)
    (hl : l < inp.s) (hne : i ≠ l) : ((aPrime inp i : Nat) : Int) ∣ bTerm inp l := by
  obtain ⟨g, hg, _⟩ := bTerm_eq inp hA l hl
  rw [hg]
  exact Dvd.dvd.mul_left (aPrime_dvd_div_other inp hA i l hi hl hne) g

theorem lowBitLoop_spec (t : Nat) : ∀ (k j0 : Nat), (∀ i, i < j0 → t.testBit i = false) →
    j0 ≤ lowBitLoop t k j0 ∧ lowBitLoop t k j0 ≤ j0 + k ∧
    (∀ i, i < lowBitLoop t k j0 → t.testBit i = false) ∧
    (lowBitLoop t k j0 < j0 + k → t.testBit (lowBitLoop t k j0) = true) := by
  intro k
  induction k with
  | zero => intro j0 h; simp [lowBitLoop]; exact h
  | succ k ih =>
    intro j0 h
    unfold lowBitLoop
    have hb : (t >>> j0).testBit 0 = t.testBit j0 := by
      rw [Nat.testBit_shiftRight]; simp
    by_cases hc : (t >>> j0).testBit 0 = true
    · rw [if_pos hc]
      exact ⟨le_refl _, by omega, h, fun _ => hb ▸ hc⟩
    · rw [if_neg hc]
      have hf : t.testBit j0 = false := by rw [← hb]; simpa using hc
      obtain ⟨a1, a2, a3, a4⟩ := ih (j0 + 1) (by
        intro i hi
        by_cases e : i = j0
        · rw [e]; exact hf
        · exact h i (by omega))
      exact ⟨by omega, by omega, a3, fun hlt => a4 (by omega)⟩

theorem flipIndex_spec (inp : PolyInput) (t : Nat) (ht0 : 0 < t) (ht : t < 2 ^ inp.s) :
    flipIndex inp t < inp.s ∧ t.testBit (flipIndex inp t) = true ∧
      ∀ i, i < flipIndex inp t → t.testBit i = false := by
  obtain ⟨_, a2, a3, a4⟩ := lowBitLoop_spec t inp.s 0 (by intro i hi; omega)
  have hlt : lowBitLoop t inp.s 0 < inp.s := by
    by_contra hge
    have heq : lowBitLoop t inp.s 0 = inp.s := by omega
    rw [heq] at a3
    have : t = 0 := by
      apply Nat.eq_of_testBit_eq
      intro i
      rw [Nat.zero_testBit]
      by_cases hi : i < inp.s
      · exact a3 i hi
      · apply Nat.testBit_lt_two_pow
        exact lt_of_lt_of_le ht (Nat.pow_le_pow_right (by norm_num) (by omega))
    omega
  exact ⟨hlt, a4 (by simpa using hlt), a3⟩

theorem polyadd_eq (inp : PolyInput) (t : Nat) :
    polyadd inp t = t.testBit (flipIndex inp t + 1) := by
  unfold polyadd
  rw [Nat.testBit_shiftRight]

/-- The bits of `t` against those of `t + 1`, whose lowest set bit is `j`. -/
theorem testBit_pred : ∀ (j t : Nat), (∀ i, i < j → (t + 1).testBit i = false) →
    (t + 1).testBit j = true →
    (∀ i, i < j → t.testBit i = true) ∧ t.testBit j = false ∧
      ∀ i, j < i → t.testBit i = (t + 1).testBit i := by
  intro j
  induction j with
  | zero =>
    intro t _ h1
    have hodd : (t + 1) % 2 = 1 := by simpa using h1
    refine ⟨by intro i hi; omega, by simp; omega, ?_⟩
    intro i hi
    obtain ⟨i', rfl⟩ : ∃ i', i = i' + 1 := ⟨i - 1, by omega⟩
    rw [Nat.testBit_succ, Nat.testBit_succ]
    congr 1; omega
  | succ j ih =>
    intro t h0 h1
    have heven : (t + 1) % 2 = 0 := by
      have := h0 0 (by omega)
      simp at this; omega
    obtain ⟨t', ht'⟩ : ∃ t', t = 2 * t' + 1 := ⟨t / 2, by omega⟩
    have e1 : (t + 1) / 2 = t' + 1 := by omega
    have e2 : t / 2 = t' := by omega
    obtain ⟨b1, b2, b3⟩ := ih t' (by
      intro i hi
      have := h0 (i + 1) (by omega)
      rwa [Nat.testBit_succ, e1] at this) (by rwa [Nat.testBit_succ, e1] at h1)
    refine ⟨?_, ?_, ?_⟩
    · intro i hi
      cases i with
      | zero => simp; omega
      | succ i' => rw [Nat.testBit_succ, e2]; exact b1 i' (by omega)
    · rw [Nat.testBit_succ, e2]; exact b2
    · intro i hi
      obtain ⟨i', rfl⟩ : ∃ i', i = i' + 1 := ⟨i - 1, by omega⟩
      rw [Nat.testBit_succ, Nat.testBit_succ, e1, e2]
      exact b3 i' (by omega)

theorem graySign_step (inp : PolyInput) (t : Nat) (ht : t + 1 < 2 ^ inp.s) :
    (∀ i, i ≠ flipIndex inp (t + 1) → graySign (t + 1) i = graySign t i) ∧
    graySign (t + 1) (flipIndex inp (t + 1)) = -graySign t (flipIndex inp (t + 1)) ∧
    graySign t (flipIndex inp (t + 1)) = if polyadd inp (t + 1) then -1 else 1 := by
  obtain ⟨_, hj1, hj0⟩ := flipIndex_spec inp (t + 1) (by omega) ht
  set j := flipIndex inp (t + 1) with hj
  obtain ⟨b1, b2, b3⟩ := testBit_pred j t hj0 hj1
  have hnext : t.testBit (j + 1) = (t + 1).testBit (j + 1) := b3 (j + 1) (by omega)
  refine ⟨?_, ?_, ?_⟩
  · intro i hi
    unfold graySign
    rcases Nat.lt_trichotomy i j with h | h | h
    · by_cases h2 : i + 1 < j
      · rw [hj0 i h, hj0 (i + 1) h2, b1 i h, b1 (i + 1) h2]; rfl
      · have e : i + 1 = j := by omega
        rw [hj0 i h, e, hj1, b1 i h, b2]; rfl
    · exact absurd h hi
    · rw [b3 i h, b3 (i + 1) (by omega)]
  · unfold graySign
    rw [hj1, b2, hnext]
    cases (t + 1).testBit (j + 1) <;> simp
  · unfold graySign
    rw [polyadd_eq, b2, hnext, ← hj]
    cases (t + 1).testBit (j + 1) <;> simp

theorem foldl_add_range' (f : Nat → Int) (k : Nat) :
    (List.range' 1 k).foldl (fun B i => B + f i) (f 0) = ∑ i in Finset.range (k + 1), f i := by
  induction k with
  | zero => simp
  | succ k ih =>
    rw [List.range'_concat, List.foldl_append, ih, Finset.sum_range_succ _ (k + 1)]
    simp [add_comm]

theorem graySign_zero (i : Nat) : graySign 0 i = 1 := by
  unfold graySign; simp

theorem initialB_eq_sum (inp : PolyInput) (hs : 1 ≤ inp.s) :
    initialB inp = ∑ i in Finset.range inp.s, graySign 0 i * bTerm inp i := by
  unfold initialB
  rw [foldl_add_range']
  have : inp.s - 1 + 1 = inp.s := by omega
  rw [this]
  apply Finset.sum_congr rfl
  intro i _
  rw [graySign_zero, one_mul]

theorem siblingB_eq_sum (inp : PolyInput) (hs : 1 ≤ inp.s) :
    ∀ t, t < 2 ^ inp.s →
      siblingB inp t = ∑ i in Finset.range inp.s, graySign t i * bTerm inp i := by
  intro t
  induction t with
  | zero => intro _; exact initialB_eq_sum inp hs
  | succ t ih =>
    intro ht
    have hprev := ih (by omega)
    obtain ⟨hjs, _, _⟩ := flipIndex_spec inp (t + 1) (by omega) ht
    obtain ⟨g1, g2, g3⟩ := graySign_step inp t ht
    set j := flipIndex inp (t + 1) with hj
    have hjm : j ∈ Finset.range inp.s := Finset.mem_range.mpr hjs
    have hsplit : ∀ τ : Nat, ∑ i in Finset.range inp.s, graySign τ i * bTerm inp i
        = graySign τ j * bTerm inp j
          + ∑ i in (Finset.range inp.s).erase j, graySign τ i * bTerm inp i := fun τ =>
      (Finset.add_sum_erase _ _ hjm).symm
    have hrest : ∑ i in (Finset.range inp.s).erase j, graySign (t + 1) i * bTerm inp i
        = ∑ i in (Finset.range inp.s).erase j, graySign t i * bTerm inp i := by
      apply Finset.sum_congr rfl
      intro i hi
      rw [g1 i (Finset.ne_of_mem_erase hi)]
    have hstep : siblingB inp (t + 1) = flipB inp (siblingB inp t) (t + 1) := rfl
    rw [hstep, hsplit (t + 1), hrest, g2]
    unfold flipB
    rw [← hj, hprev, hsplit t, g3]
    by_cases hp : polyadd inp (t + 1) = true
    · simp only [hp, if_true]; ring
    · simp only [hp, if_false]
      simp only [Bool.false_eq_true, if_false]
      ring

theorem graySign_sq (t i : Nat) : graySign t i ^ 2 = 1 := by
  unfold graySign; split_ifs <;> norm_num

theorem siblingB_sq_modEq (inp : PolyInput) (hA : GoodA inp) (t : Nat) (ht : t < 2 ^ inp.s)
    (i : Nat) (hi : i < inp.s) :
    siblingB inp t ^ 2 ≡ inp.n [ZMOD ((aPrime inp i : Nat) : Int)] := by
  rw [siblingB_eq_sum inp hA.1 t ht,
    ← Finset.add_sum_erase _ _ (Finset.mem_range.mpr hi)]
  have hz : ∑ l in (Finset.range inp.s).erase i, graySign t l * bTerm inp l
      ≡ 0 [ZMOD ((aPrime inp i : Nat) : Int)] := by
    rw [Int.modEq_zero_iff_dvd]
    apply Finset.dvd_sum
    intro l hl
    rw [Finset.mem_erase, Finset.mem_range] at hl
    exact Dvd.dvd.mul_left (bTerm_dvd_other inp hA i l hi hl.2 (Ne.symm hl.1)) _
  have h1 : graySign t i * bTerm inp i
      + ∑ l in (Finset.range inp.s).erase i, graySign t l * bTerm inp l
      ≡ graySign t i * bTerm inp i [ZMOD ((aPrime inp i : Nat) : Int)] := by
    have := (Int.ModEq.refl (graySign t i * bTerm inp i)).add hz
    simpa using this
  refine (h1.pow 2).trans ?_
  rw [mul_pow, graySign_sq, one_mul]
  exact bTerm_sq inp hA i hi

theorem polyA_dvd (inp : PolyInput) (hA : GoodA inp) (t : Nat) (ht : t < 2 ^ inp.s) :
    polyA inp ∣ siblingB inp t * siblingB inp t - inp.n := by
  rw [polyA_eq_prod]
  apply Finset.prod_dvd_of_coprime
  · intro i hi l hl hne
    have hi' : i < inp.s := Finset.mem_range.mp hi
    have hl' : l < inp.s := Finset.mem_range.mp hl
    show IsCoprime ((aPrime inp i : Nat) : Int) ((aPrime inp l : Nat) : Int)
    rw [Nat.isCoprime_iff_coprime]
    exact (Nat.coprime_primes (hA.2.1 i hi') (hA.2.1 l hl')).mpr (hA.2.2.1 i hi' l hl' hne)
  · intro i hi
    have := siblingB_sq_modEq inp hA t ht i (Finset.mem_range.mp hi)
    rw [← sq]
    exact (Int.modEq_iff_dvd.mp this.symm)

/-- C5: for every sibling `t` of a well-formed `A` (the initial `B` for `t = 0`, then one
Gray-code flip per step), `A` divides `B^2 - kN`, the `C` of `mpz_divexact` satisfies
`A * C = B^2 - kN`, and for every sieve position `i` the values of evaluateSieve,
`X = A*x + B` and `Q = A*x^2 + 2*B*x + C` with `x = i - Mdiv2`, satisfy
`A * Q = X^2 - kN`. -/
theorem polynomial_identity (inp : PolyInput) (hA : GoodA inp) (t : Nat)
    (ht : t < 2 ^ (inp.s - 1)) :
    polyA inp ∣ siblingB inp t ^ 2 - inp.n ∧
    polyA inp * polyC inp (siblingB inp t) = siblingB inp t ^ 2 - inp.n ∧
    ∀ i : Nat,
      sieveQ (polyA inp) (siblingB inp t) (polyC inp (siblingB inp t)) inp.Mdiv2 0 i
        = polyQ (polyA inp) (siblingB inp t) (polyC inp (siblingB inp t))
            ((i : Int) - (inp.Mdiv2 : Int)) ∧
      sieveX (polyA inp) (siblingB inp t) inp.Mdiv2 0 i
        = polyA inp * ((i : Int) - (inp.Mdiv2 : Int)) + siblingB inp t ∧
      polyA inp * sieveQ (polyA inp) (siblingB inp t) (polyC inp (siblingB inp t)) inp.Mdiv2 0 i
        = sieveX (polyA inp) (siblingB inp t) inp.Mdiv2 0 i ^ 2 - inp.n := by
  have ht' : t < 2 ^ inp.s :=
    lt_of_lt_of_le ht (Nat.pow_le_pow_right (by norm_num) (Nat.sub_le _ _))
  have hd := polyA_dvd inp hA t ht'
  have hC : polyA inp * polyC inp (siblingB inp t) = siblingB inp t ^ 2 - inp.n := by
    unfold polyC
    rw [Int.mul_ediv_cancel' hd]; ring
  refine ⟨by rw [sq]; exact hd, hC, fun i => ⟨?_, ?_, ?_⟩⟩
  · unfold sieveQ polyQ; push_cast; ring
  · unfold sieveX; push_cast; ring
  · unfold sieveQ sieveX
    push_cast
    have : polyA inp * ((siblingB inp t + polyA inp * ((i : Int) + 0 - (inp.Mdiv2 : Int))
          + siblingB inp t) * ((i : Int) + 0 - (inp.Mdiv2 : Int))
          + polyC inp (siblingB inp t))
        = (siblingB inp t + polyA inp * ((i : Int) + 0 - (inp.Mdiv2 : Int))) ^ 2
          - siblingB inp t ^ 2 + polyA inp * polyC inp (siblingB inp t) := by ring
    rw [this, hC]; ring

theorem polynomial_identity_witness :
    polyA polyExample ∣ siblingB polyExample 2 ^ 2 - polyExample.n ∧
    polyA polyExample * polyC polyExample (siblingB polyExample 2)
      = siblingB polyExample 2 ^ 2 - polyExample.n ∧
    ∀ i : Nat,
      sieveQ (polyA polyExample) (siblingB polyExample 2)
          (polyC polyExample (siblingB polyExample 2)) polyExample.Mdiv2 0 i
        = polyQ (polyA polyExample) (siblingB polyExample 2)
            (polyC polyExample (siblingB polyExample 2))
            ((i : Int) - (polyExample.Mdiv2 : Int)) ∧
      sieveX (polyA polyExample) (siblingB polyExample 2) polyExample.Mdiv2 0 i
        = polyA polyExample * ((i : Int) - (polyExample.Mdiv2 : Int))
          + siblingB polyExample 2 ∧
      polyA polyExample * sieveQ (polyA polyExample) (siblingB polyExample 2)
          (polyC polyExample (siblingB polyExample 2)) polyExample.Mdiv2 0 i
        = sieveX (polyA polyExample) (siblingB polyExample 2) polyExample.Mdiv2 0 i ^ 2
          - polyExample.n :=
  polynomial_identity polyExample (by unfold GoodA; decide) 2 (by decide)

theorem whileSub_spec (p : Int) (hp : 0 < p) : ∀ (fuel : Nat) (x : Int), 0 ≤ x → x ≤ fuel →
    whileSub p fuel x = x % p := by
  intro fuel
  induction fuel with
  | zero =>
    intro x h0 h1
    have : x = 0 := by push_cast at h1; omega
    rw [this]; simp [whileSub]
  | succ f ih =>
    intro x h0 h1
    unfold whileSub
    by_cases hc : x ≥ p
    · rw [if_pos hc, ih (x - p) (by linarith) (by push_cast at h1 ⊢; linarith)]
      exact Int.emod_sub_cancel x p
    · rw [if_neg hc]
      exact (Int.emod_eq_of_lt h0 (by linarith)).symm

theorem correctSoln_spec (p pc : Int) (padd : Bool) (soln : Int) (hp : 0 < p)
    (hpc0 : 0 ≤ pc) (hpc1 : pc < p) (hs : 0 ≤ soln) :
    0 ≤ correctSoln p pc padd soln ∧ correctSoln p pc padd soln < p ∧
      correctSoln p pc padd soln ≡ soln + (if padd then -pc else pc) [ZMOD p] := by
  unfold correctSoln
  simp only
  have hnn : 0 ≤ soln + (if padd = true then -pc + p else pc) := by
    split_ifs <;> linarith
  rw [whileSub_spec p hp _ _ hnn (by rw [Int.toNat_of_nonneg hnn])]
  refine ⟨Int.emod_nonneg _ (ne_of_gt hp), Int.emod_lt_of_pos _ hp, ?_⟩
  refine (Int.mod_modEq _ _).trans ?_
  apply Int.ModEq.add_left
  split_ifs
  · have : -pc + p ≡ -pc + 0 [ZMOD p] :=
      Int.ModEq.add_left _ (Int.modEq_zero_iff_dvd.mpr (dvd_refl _))
    simp only [add_zero] at this
    exact this
  · exact Int.ModEq.refl _

theorem getD_set_self (l : List Int) (i : Nat) (x : Int) (hi : i < l.length) :
    (l.set i x).getD i 0 = x := by
  rw [List.getD_eq_getElem?_getD, List.getElem?_set]
  simp [hi]

theorem getD_set_other (l : List Int) (i k : Nat) (x : Int) (hne : i ≠ k) :
    (l.set k x).getD i 0 = l.getD i 0 := by
  rw [List.getD_eq_getElem?_getD, List.getD_eq_getElem?_getD, List.getElem?_set]
  have : ¬ k = i := fun h => hne h.symm
  simp [this]

/-- The effect on one entry of a fold, over an index range, of an update that touches only
the entry of its own index. -/
theorem foldl_range'_entry (upd : SolnState → Nat → SolnState)
    (G : Nat → Int × Int → Int × Int) (N : Nat)
    (hlen : ∀ st k, st.Sized N → (upd st k).Sized N)
    (hother : ∀ st k i, i ≠ k → (upd st k).entry i = st.entry i)
    (hself : ∀ st k, st.Sized N → k < N → (upd st k).entry k = G k (st.entry k)) :
    ∀ (len a : Nat) (st : SolnState) (i : Nat), st.Sized N → i < N →
      ((List.range' a len).foldl upd st).Sized N ∧
      ((List.range' a len).foldl upd st).entry i
        = if a ≤ i ∧ i < a + len then G i (st.entry i) else st.entry i := by
  intro len
  induction len with
  | zero =>
    intro a st i hs _
    refine ⟨hs, ?_⟩
    have : ¬ (a ≤ i ∧ i < a + 0) := by omega
    rw [if_neg this]
    rfl
  | succ len ih =>
    intro a st i hs hi
    rw [List.range'_succ, List.foldl_cons]
    obtain ⟨h1, h2⟩ := ih (a + 1) (upd st a) i (hlen st a hs) hi
    refine ⟨h1, ?_⟩
    rw [h2]
    by_cases hia : i = a
    · subst hia
      have c1 : ¬ (i + 1 ≤ i ∧ i < i + 1 + len) := by omega
      have c2 : i ≤ i ∧ i < i + (len + 1) := by omega
      rw [if_neg c1, if_pos c2]
      exact hself st i hs hi
    · rw [hother st a i hia]
      by_cases c : a + 1 ≤ i ∧ i < a + 1 + len
      · have c2 : a ≤ i ∧ i < a + (len + 1) := by omega
        rw [if_pos c, if_pos c2]
      · have c2 : ¬ (a ≤ i ∧ i < a + (len + 1)) := by omega
        rw [if_neg c, if_neg c2]

theorem correctAt_props (inp : PolyInput) (t N : Nat) :
    (∀ st k, st.Sized N → (correctAt inp t st k).Sized N) ∧
    (∀ st k i, i ≠ k → (correctAt inp t st k).entry i = st.entry i) ∧
    (∀ st k, st.Sized N → k < N →
      (correctAt inp t st k).entry k = correctedEntry inp t k (st.entry k)) := by
  refine ⟨?_, ?_, ?_⟩
  · intro st k hs
    exact ⟨by simp [correctAt, hs.1], by simp [correctAt, hs.2]⟩
  · intro st k i hne
    unfold correctAt SolnState.entry
    simp only
    rw [getD_set_other _ _ _ _ hne, getD_set_other _ _ _ _ hne]
  · intro st k hs hk
    unfold correctAt SolnState.entry correctedEntry
    simp only
    rw [getD_set_self _ _ _ (by rw [hs.1]; exact hk), getD_set_self _ _ _ (by rw [hs.2]; exact hk)]

theorem correctAtChecked_props (inp : PolyInput) (t N : Nat) :
    (∀ st k, st.Sized N → (correctAtChecked inp t st k).Sized N) ∧
    (∀ st k i, i ≠ k → (correctAtChecked inp t st k).entry i = st.entry i) ∧
    (∀ st k, st.Sized N → k < N →
      (correctAtChecked inp t st k).entry k = checkedEntry inp t k (st.entry k)) := by
  obtain ⟨a1, a2, a3⟩ := correctAt_props inp t N
  refine ⟨?_, ?_, ?_⟩
  · intro st k hs
    unfold correctAtChecked
    split_ifs
    · exact hs
    · exact a1 st k hs
  · intro st k i hne
    unfold correctAtChecked
    split_ifs
    · rfl
    · exact a2 st k i hne
  · intro st k hs hk
    unfold correctAtChecked checkedEntry
    by_cases hc : st.soln2.getD k 0 = 0xFFFFFFFF
    · have : (st.entry k).2 = 0xFFFFFFFF := hc
      rw [if_pos hc, if_pos this]
    · have : ¬ (st.entry k).2 = 0xFFFFFFFF := hc
      rw [if_neg hc, if_neg this]
      exact a3 st k hs hk

theorem sized_set (st : SolnState) (N k1 k2 : Nat) (x y : Int) (hs : st.Sized N) :
    ({ soln1 := st.soln1.set k1 x, soln2 := st.soln2.set k2 y } : SolnState).Sized N :=
  ⟨by simp [hs.1], by simp [hs.2]⟩

theorem recompute_fold (inp : PolyInput) (B : Int) (N i : Nat) :
    ∀ (js : List Nat) (st : SolnState), st.Sized N →
      (∀ j ∈ js, inp.aind.getD j 0 + inp.min ≠ i) →
      (js.foldl (fun st j =>
        ({ soln1 := st.soln1.set (inp.aind.getD j 0 + inp.min) (aPrimeSoln inp B j)
           soln2 := st.soln2.set (inp.aind.getD j 0 + inp.min) 0xFFFFFFFF } : SolnState))
        st).Sized N ∧
      (js.foldl (fun st j =>
        ({ soln1 := st.soln1.set (inp.aind.getD j 0 + inp.min) (aPrimeSoln inp B j)
           soln2 := st.soln2.set (inp.aind.getD j 0 + inp.min) 0xFFFFFFFF } : SolnState))
        st).entry i = st.entry i := by
  intro js
  induction js with
  | nil => intro st hs _; exact ⟨hs, rfl⟩
  | cons j js ih =>
    intro st hs hne
    rw [List.foldl_cons]
    obtain ⟨h1, h2⟩ := ih _ (sized_set st N _ _ _ _ hs) (fun j' hj' => hne j' (by simp [hj']))
    refine ⟨h1, ?_⟩
    rw [h2]
    unfold SolnState.entry
    simp only
    have hji : i ≠ inp.aind.getD j 0 + inp.min := fun h => hne j (by simp) h.symm
    rw [getD_set_other _ _ _ _ hji, getD_set_other _ _ _ _ hji]

theorem recomputeAPrimes_entry (inp : PolyInput) (B : Int) (N i : Nat) (st : SolnState)
    (hs : st.Sized N) (hne : ∀ j, j < inp.s → inp.aind.getD j 0 + inp.min ≠ i) :
    (recomputeAPrimes inp B st).Sized N ∧ (recomputeAPrimes inp B st).entry i = st.entry i :=
  recompute_fold inp B N i (List.range inp.s) st hs
    (fun j hj => hne j (List.mem_range.mp hj))

theorem initSolns_sized (inp : PolyInput) : (initSolns inp).Sized inp.cfg.numPrimes := by
  unfold initSolns SolnState.Sized
  simp

theorem initSolns_entry (inp : PolyInput) (i : Nat) (hi : i < inp.cfg.numPrimes) :
    (initSolns inp).entry i = (initSoln1 inp i, initSoln2 inp i) := by
  unfold initSolns SolnState.entry
  simp only
  rw [List.getD_eq_getElem?_getD, List.getD_eq_getElem?_getD, List.getElem?_map,
    List.getElem?_map, List.getElem?_range hi]
  rfl

theorem sieve_step_entry (inp : PolyInput) (hc : inp.cfg.Ordered) (t i : Nat) (st : SolnState)
    (hs : st.Sized inp.cfg.numPrimes) (h1 : 1 ≤ i) (hi : i < inp.cfg.numPrimes) :
    (sieveIntervalSolns inp t (sieve2Solns inp t st)).Sized inp.cfg.numPrimes ∧
    (sieveIntervalSolns inp t (sieve2Solns inp t st)).entry i
      = if i < inp.cfg.MEDIUMPRIME then checkedEntry inp t i (st.entry i)
        else correctedEntry inp t i (st.entry i) := by
  obtain ⟨c1, c2, c3, c4⟩ := hc
  obtain ⟨a1, a2, a3⟩ := correctAt_props inp t inp.cfg.numPrimes
  obtain ⟨b1, b2, b3⟩ := correctAtChecked_props inp t inp.cfg.numPrimes
  have FA := foldl_range'_entry (correctAt inp t) (correctedEntry inp t) inp.cfg.numPrimes
    a1 a2 a3
  have FB := foldl_range'_entry (correctAtChecked inp t) (checkedEntry inp t)
    inp.cfg.numPrimes b1 b2 b3
  unfold sieveIntervalSolns sieve2Solns
  simp only
  obtain ⟨s1, e1⟩ := FA (inp.cfg.secondprime - inp.cfg.midprime) inp.cfg.midprime st i hs hi
  obtain ⟨s2, e2⟩ := FA (inp.cfg.numPrimes - inp.cfg.secondprime) inp.cfg.secondprime _ i s1 hi
  obtain ⟨s3, e3⟩ := FB (inp.cfg.firstprime - 1) 1 _ i s2 hi
  obtain ⟨s4, e4⟩ := FB (inp.cfg.MEDIUMPRIME - inp.cfg.firstprime) inp.cfg.firstprime _ i s3 hi
  obtain ⟨s5, e5⟩ := FA (inp.cfg.midprime - inp.cfg.MEDIUMPRIME) inp.cfg.MEDIUMPRIME _ i s4 hi
  refine ⟨s5, ?_⟩
  rw [e5, e4, e3, e2, e1]
  by_cases hM : i < inp.cfg.MEDIUMPRIME
  · -- inside the checked ranges of sieveInterval
    have n1 : ¬ (inp.cfg.midprime ≤ i ∧ i < inp.cfg.midprime
        + (inp.cfg.secondprime - inp.cfg.midprime)) := by omega
    have n2 : ¬ (inp.cfg.secondprime ≤ i ∧ i < inp.cfg.secondprime
        + (inp.cfg.numPrimes - inp.cfg.secondprime)) := by omega
    have n5 : ¬ (inp.cfg.MEDIUMPRIME ≤ i ∧ i < inp.cfg.MEDIUMPRIME
        + (inp.cfg.midprime - inp.cfg.MEDIUMPRIME)) := by omega
    rw [if_neg n1, if_neg n2, if_neg n5, if_pos hM]
    by_cases hF : i < inp.cfg.firstprime
    · have p3 : 1 ≤ i ∧ i < 1 + (inp.cfg.firstprime - 1) := by omega
      have n4 : ¬ (inp.cfg.firstprime ≤ i ∧ i < inp.cfg.firstprime
          + (inp.cfg.MEDIUMPRIME - inp.cfg.firstprime)) := by omega
      rw [if_pos p3, if_neg n4]
    · have n3 : ¬ (1 ≤ i ∧ i < 1 + (inp.cfg.firstprime - 1)) := by omega
      have p4 : inp.cfg.firstprime ≤ i ∧ i < inp.cfg.firstprime
          + (inp.cfg.MEDIUMPRIME - inp.cfg.firstprime) := by omega
      rw [if_neg n3, if_pos p4]
  · have n3 : ¬ (1 ≤ i ∧ i < 1 + (inp.cfg.firstprime - 1)) := by omega
    have n4 : ¬ (inp.cfg.firstprime ≤ i ∧ i < inp.cfg.firstprime
        + (inp.cfg.MEDIUMPRIME - inp.cfg.firstprime)) := by omega
    rw [if_neg n3, if_neg n4, if_neg hM]
    by_cases h5 : i < inp.cfg.midprime
    · have n1 : ¬ (inp.cfg.midprime ≤ i ∧ i < inp.cfg.midprime
          + (inp.cfg.secondprime - inp.cfg.midprime)) := by omega
      have n2 : ¬ (inp.cfg.secondprime ≤ i ∧ i < inp.cfg.secondprime
          + (inp.cfg.numPrimes - inp.cfg.secondprime)) := by omega
      have p5 : inp.cfg.MEDIUMPRIME ≤ i ∧ i < inp.cfg.MEDIUMPRIME
          + (inp.cfg.midprime - inp.cfg.MEDIUMPRIME) := by omega
      rw [if_neg n1, if_neg n2, if_pos p5]
    · have n5 : ¬ (inp.cfg.MEDIUMPRIME ≤ i ∧ i < inp.cfg.MEDIUMPRIME
          + (inp.cfg.midprime - inp.cfg.MEDIUMPRIME)) := by omega
      rw [if_neg n5]
      by_cases h6 : i < inp.cfg.secondprime
      · have p1 : inp.cfg.midprime ≤ i ∧ i < inp.cfg.midprime
            + (inp.cfg.secondprime - inp.cfg.midprime) := by omega
        have n2 : ¬ (inp.cfg.secondprime ≤ i ∧ i < inp.cfg.secondprime
            + (inp.cfg.numPrimes - inp.cfg.secondprime)) := by omega
        rw [if_neg n2, if_pos p1]
      · have n1 : ¬ (inp.cfg.midprime ≤ i ∧ i < inp.cfg.midprime
            + (inp.cfg.secondprime - inp.cfg.midprime)) := by omega
        have p2 : inp.cfg.secondprime ≤ i ∧ i < inp.cfg.secondprime
            + (inp.cfg.numPrimes - inp.cfg.secondprime) := by omega
        rw [if_pos p2, if_neg n1]

theorem siblingSolns_sized (inp : PolyInput) :
    ∀ t, (siblingSolns inp t).Sized inp.cfg.numPrimes := by
  intro t
  induction t with
  | zero => exact initSolns_sized inp
  | succ t ih =>
    unfold siblingSolns
    have key : ∀ st : SolnState, st.Sized inp.cfg.numPrimes →
        (recomputeAPrimes inp (siblingB inp (t + 1)) st).Sized inp.cfg.numPrimes := by
      intro st hs
      unfold recomputeAPrimes
      generalize List.range inp.s = js
      induction js generalizing st with
      | nil => exact hs
      | cons j js ihj =>
        rw [List.foldl_cons]
        exact ihj _ (sized_set st _ _ _ _ _ hs)
    obtain ⟨a1, _, _⟩ := correctAt_props inp (t + 1) inp.cfg.numPrimes
    obtain ⟨b1, _, _⟩ := correctAtChecked_props inp (t + 1) inp.cfg.numPrimes
    have fa : ∀ (L : List Nat) (st : SolnState), st.Sized inp.cfg.numPrimes →
        (L.foldl (correctAt inp (t + 1)) st).Sized inp.cfg.numPrimes := by
      intro L
      induction L with
      | nil => intro st hs; exact hs
      | cons k L ihL => intro st hs; rw [List.foldl_cons]; exact ihL _ (a1 st k hs)
    have fb : ∀ (L : List Nat) (st : SolnState), st.Sized inp.cfg.numPrimes →
        (L.foldl (correctAtChecked inp (t + 1)) st).Sized inp.cfg.numPrimes := by
      intro L
      induction L with
      | nil => intro st hs; exact hs
      | cons k L ihL => intro st hs; rw [List.foldl_cons]; exact ihL _ (b1 st k hs)
    unfold sieveIntervalSolns sieve2Solns
    simp only
    exact fa _ _ (fb _ _ (fb _ _ (fa _ _ (fa _ _ (key _ ih)))))

theorem sieved_not_aindex (inp : PolyInput) (i : Nat) (hS : SievedPrime inp i) :
    ∀ j, j < inp.s → inp.aind.getD j 0 + inp.min ≠ i := by
  intro j hj h
  apply hS.2.2.2.1
  have : aPrime inp j = inp.factorBase.getD i 0 := by unfold aPrime; rw [h]
  rw [← this]
  exact aPrime_dvd_polyA inp j hj

theorem ainv2B_spec (inp : PolyInput) (i : Nat) (hS : SievedPrime inp i) (j : Nat) :
    0 ≤ ainv2B inp j i ∧ ainv2B inp j i < ((inp.factorBase.getD i 0 : Nat) : Int) ∧
    polyA inp * ainv2B inp j i ≡ 2 * bTerm inp j [ZMOD ((inp.factorBase.getD i 0 : Nat) : Int)] := by
  obtain ⟨_, _, hp, hnd, hw, _, _⟩ := hS
  have hp0 : (0 : Int) < ((inp.factorBase.getD i 0 : Nat) : Int) := by exact_mod_cast hp.pos
  obtain ⟨_, _, hinv⟩ := modinverseU_spec inp.w (polyA inp) _ hp hw hnd
  unfold ainv2B
  refine ⟨Int.emod_nonneg _ (ne_of_gt hp0), Int.emod_lt_of_pos _ hp0, ?_⟩
  have h1 : (bTerm inp j % ((inp.factorBase.getD i 0 : Nat) : Int)) * (2 * initAinv inp i)
        % ((inp.factorBase.getD i 0 : Nat) : Int)
      ≡ bTerm inp j * (2 * initAinv inp i) [ZMOD ((inp.factorBase.getD i 0 : Nat) : Int)] :=
    (Int.mod_modEq _ _).trans ((Int.mod_modEq _ _).mul_right _)
  refine (h1.mul_left (polyA inp)).trans ?_
  have e : polyA inp * (bTerm inp j * (2 * initAinv inp i))
      = (polyA inp * initAinv inp i) * (2 * bTerm inp j) := by ring
  rw [e]
  have h2 : polyA inp * initAinv inp i ≡ 1 [ZMOD ((inp.factorBase.getD i 0 : Nat) : Int)] := hinv
  have := h2.mul_right (2 * bTerm inp j)
  simpa using this

/-- The roots of a sieved prime after sibling `t`: both are reduced (the second one only
from the first correction on) and `A*(soln - Mdiv2) + B` is the square root, resp. its
negative. -/
theorem root_invariant (inp : PolyInput) (hc : inp.cfg.Ordered) (i : Nat)
    (hS : SievedPrime inp i) :
    ∀ t, 0 ≤ ((siblingSolns inp t).entry i).1 ∧
      ((siblingSolns inp t).entry i).1 < ((inp.factorBase.getD i 0 : Nat) : Int) ∧
      0 ≤ ((siblingSolns inp t).entry i).2 ∧
      ((siblingSolns inp t).entry i).2 < 2 * ((inp.factorBase.getD i 0 : Nat) : Int) ∧
      (1 ≤ t → ((siblingSolns inp t).entry i).2 < ((inp.factorBase.getD i 0 : Nat) : Int)) ∧
      polyA inp * (((siblingSolns inp t).entry i).1 - (inp.Mdiv2 : Int)) + siblingB inp t
        ≡ inp.sqrts.getD i 0 [ZMOD ((inp.factorBase.getD i 0 : Nat) : Int)] ∧
      polyA inp * (((siblingSolns inp t).entry i).2 - (inp.Mdiv2 : Int)) + siblingB inp t
        ≡ -inp.sqrts.getD i 0 [ZMOD ((inp.factorBase.getD i 0 : Nat) : Int)] := by
  have hS' := hS
  obtain ⟨h2i, hi, hp, hnd, hw, hsent, hsq⟩ := hS
  set p : Int := ((inp.factorBase.getD i 0 : Nat) : Int) with hpdef
  have hp0 : 0 < p := by rw [hpdef]; exact_mod_cast hp.pos
  obtain ⟨_, _, hinv⟩ := modinverseU_spec inp.w (polyA inp) _ hp hw hnd
  have hinv' : polyA inp * initAinv inp i ≡ 1 [ZMOD p] := hinv
  have hpz : p ≡ 0 [ZMOD p] := Int.modEq_zero_iff_dvd.mpr (dvd_refl _)
  intro t
  induction t with
  | zero =>
    have he : (siblingSolns inp 0).entry i = (initSoln1 inp i, initSoln2 inp i) :=
      initSolns_entry inp i hi
    rw [he]
    simp only
    have s1a : 0 ≤ initSoln1 inp i := Int.emod_nonneg _ (ne_of_gt hp0)
    have s1b : initSoln1 inp i < p := Int.emod_lt_of_pos _ hp0
    have c1 : initSoln1 inp i
        ≡ (inp.sqrts.getD i 0 - initialB inp % p + p) * initAinv inp i + (inp.Mdiv2 : Int)
          [ZMOD p] := Int.mod_modEq _ _
    have k1 : polyA inp * (initSoln1 inp i - (inp.Mdiv2 : Int)) + initialB inp
        ≡ inp.sqrts.getD i 0 [ZMOD p] := by
      have a1 : polyA inp * (initSoln1 inp i - (inp.Mdiv2 : Int))
          ≡ polyA inp * ((inp.sqrts.getD i 0 - initialB inp % p + p) * initAinv inp i)
            [ZMOD p] := by
        apply Int.ModEq.mul_left
        have := c1.sub_right (inp.Mdiv2 : Int)
        simpa using this
      have a2 : polyA inp * ((inp.sqrts.getD i 0 - initialB inp % p + p) * initAinv inp i)
          ≡ inp.sqrts.getD i 0 - initialB inp [ZMOD p] := by
        have e : polyA inp * ((inp.sqrts.getD i 0 - initialB inp % p + p) * initAinv inp i)
            = (polyA inp * initAinv inp i) * (inp.sqrts.getD i 0 - initialB inp % p + p) := by
          ring
        rw [e]
        have h3 := hinv'.mul_right (inp.sqrts.getD i 0 - initialB inp % p + p)
        rw [one_mul] at h3
        refine h3.trans ?_
        have h4 : inp.sqrts.getD i 0 - initialB inp % p + p
            ≡ inp.sqrts.getD i 0 - initialB inp + 0 [ZMOD p] :=
          Int.ModEq.add (Int.ModEq.sub (Int.ModEq.refl _) (Int.mod_modEq _ _)) hpz
        simpa using h4
      have := (a1.trans a2).add_right (initialB inp)
      simpa using this
    have s2a : 0 ≤ (-(inp.sqrts.getD i 0 - p) * (2 * initAinv inp i)) % p :=
      Int.emod_nonneg _ (ne_of_gt hp0)
    have s2b : (-(inp.sqrts.getD i 0 - p) * (2 * initAinv inp i)) % p < p :=
      Int.emod_lt_of_pos _ hp0
    have hs2 : initSoln2 inp i
        = (-(inp.sqrts.getD i 0 - p) * (2 * initAinv inp i)) % p + initSoln1 inp i := rfl
    have k2 : polyA inp * (initSoln2 inp i - (inp.Mdiv2 : Int)) + initialB inp
        ≡ -inp.sqrts.getD i 0 [ZMOD p] := by
      rw [hs2]
      have e : polyA inp * ((-(inp.sqrts.getD i 0 - p) * (2 * initAinv inp i)) % p
            + initSoln1 inp i - (inp.Mdiv2 : Int)) + initialB inp
          = polyA inp * ((-(inp.sqrts.getD i 0 - p) * (2 * initAinv inp i)) % p)
            + (polyA inp * (initSoln1 inp i - (inp.Mdiv2 : Int)) + initialB inp) := by ring
      rw [e]
      have b1 : polyA inp * ((-(inp.sqrts.getD i 0 - p) * (2 * initAinv inp i)) % p)
          ≡ polyA inp * (-(inp.sqrts.getD i 0 - p) * (2 * initAinv inp i)) [ZMOD p] :=
        Int.ModEq.mul_left _ (Int.mod_modEq _ _)
      have b2 : polyA inp * (-(inp.sqrts.getD i 0 - p) * (2 * initAinv inp i))
          ≡ -(2 * inp.sqrts.getD i 0) [ZMOD p] := by
        have e2 : polyA inp * (-(inp.sqrts.getD i 0 - p) * (2 * initAinv inp i))
            = (polyA inp * initAinv inp i) * (2 * (p - inp.sqrts.getD i 0)) := by ring
        rw [e2]
        have h3 := hinv'.mul_right (2 * (p - inp.sqrts.getD i 0))
        rw [one_mul] at h3
        refine h3.trans ?_
        have h4 : 2 * (p - inp.sqrts.getD i 0) ≡ 2 * (0 - inp.sqrts.getD i 0) [ZMOD p] :=
          Int.ModEq.mul_left _ (Int.ModEq.sub hpz (Int.ModEq.refl _))
        have e3 : 2 * (0 - inp.sqrts.getD i 0) = -(2 * inp.sqrts.getD i 0) := by ring
        rw [e3] at h4; exact h4
      have := (b1.trans b2).add k1
      have e4 : -(2 * inp.sqrts.getD i 0) + inp.sqrts.getD i 0 = -inp.sqrts.getD i 0 := by ring
      rw [e4] at this; exact this
    refine ⟨s1a, s1b, ?_, ?_, ?_, k1, k2⟩
    · rw [hs2]; linarith
    · rw [hs2]; linarith
    · intro h; omega
  | succ t ih =>
    obtain ⟨i1, i2, i3, i4, _, i6, i7⟩ := ih
    have hsz := siblingSolns_sized inp t
    obtain ⟨r1, r2⟩ := recomputeAPrimes_entry inp (siblingB inp (t + 1)) inp.cfg.numPrimes i
      (siblingSolns inp t) hsz (sieved_not_aindex inp i hS')
    obtain ⟨_, e1⟩ := sieve_step_entry inp hc (t + 1) i _ r1 (by omega) hi
    have hstep : (siblingSolns inp (t + 1)).entry i
        = correctedEntry inp (t + 1) i ((siblingSolns inp t).entry i) := by
      have hunf : siblingSolns inp (t + 1)
          = sieveIntervalSolns inp (t + 1) (sieve2Solns inp (t + 1)
              (recomputeAPrimes inp (siblingB inp (t + 1)) (siblingSolns inp t))) := rfl
      rw [hunf, e1, r2]
      have hns : ¬ ((siblingSolns inp t).entry i).2 = 0xFFFFFFFF := by
        intro h
        rw [h] at i4
        linarith
      unfold checkedEntry
      rw [if_neg hns]
      simp
    obtain ⟨q0, q1, q2⟩ := ainv2B_spec inp i hS' (flipIndex inp (t + 1))
    obtain ⟨u1, u2, u3⟩ := correctSoln_spec p (ainv2B inp (flipIndex inp (t + 1)) i)
      (polyadd inp (t + 1)) ((siblingSolns inp t).entry i).1 hp0 q0 q1 i1
    obtain ⟨v1, v2, v3⟩ := correctSoln_spec p (ainv2B inp (flipIndex inp (t + 1)) i)
      (polyadd inp (t + 1)) ((siblingSolns inp t).entry i).2 hp0 q0 q1 i3
    rw [hstep]
    unfold correctedEntry
    simp only
    have hB : siblingB inp (t + 1)
        = siblingB inp t + (if polyadd inp (t + 1) then 2 * bTerm inp (flipIndex inp (t + 1))
            else -(2 * bTerm inp (flipIndex inp (t + 1)))) := by
      have : siblingB inp (t + 1) = flipB inp (siblingB inp t) (t + 1) := rfl
      rw [this]; unfold flipB
      split_ifs <;> ring
    have hcorr : polyA inp * (if polyadd inp (t + 1) then -ainv2B inp (flipIndex inp (t + 1)) i
          else ainv2B inp (flipIndex inp (t + 1)) i)
        + (if polyadd inp (t + 1) then 2 * bTerm inp (flipIndex inp (t + 1))
            else -(2 * bTerm inp (flipIndex inp (t + 1)))) ≡ 0 [ZMOD p] := by
      split_ifs
      · have := q2.neg.add_right (2 * bTerm inp (flipIndex inp (t + 1)))
        have e : polyA inp * -ainv2B inp (flipIndex inp (t + 1)) i
            = -(polyA inp * ainv2B inp (flipIndex inp (t + 1)) i) := by ring
        rw [e]
        rw [neg_add_cancel] at this
        exact this
      · have := q2.add_right (-(2 * bTerm inp (flipIndex inp (t + 1))))
        rw [add_neg_cancel] at this
        exact this
    have step : ∀ (x x' : Int) (ρ : Int),
        x' ≡ x + (if polyadd inp (t + 1) then -ainv2B inp (flipIndex inp (t + 1)) i
          else ainv2B inp (flipIndex inp (t + 1)) i) [ZMOD p] →
        polyA inp * (x - (inp.Mdiv2 : Int)) + siblingB inp t ≡ ρ [ZMOD p] →
        polyA inp * (x' - (inp.Mdiv2 : Int)) + siblingB inp (t + 1) ≡ ρ [ZMOD p] := by
      intro x x' ρ hx hρ
      rw [hB]
      have a1 : polyA inp * (x' - (inp.Mdiv2 : Int))
          ≡ polyA inp * (x + (if polyadd inp (t + 1)
              then -ainv2B inp (flipIndex inp (t + 1)) i
              else ainv2B inp (flipIndex inp (t + 1)) i) - (inp.Mdiv2 : Int)) [ZMOD p] :=
        Int.ModEq.mul_left _ (hx.sub_right _)
      have a2 := a1.add_right (siblingB inp t + (if polyadd inp (t + 1)
            then 2 * bTerm inp (flipIndex inp (t + 1))
            else -(2 * bTerm inp (flipIndex inp (t + 1)))))
      refine a2.trans ?_
      have e : polyA inp * (x + (if polyadd inp (t + 1)
              then -ainv2B inp (flipIndex inp (t + 1)) i
              else ainv2B inp (flipIndex inp (t + 1)) i) - (inp.Mdiv2 : Int))
            + (siblingB inp t + (if polyadd inp (t + 1)
              then 2 * bTerm inp (flipIndex inp (t + 1))
              else -(2 * bTerm inp (flipIndex inp (t + 1)))))
          = (polyA inp * (x - (inp.Mdiv2 : Int)) + siblingB inp t)
            + (polyA inp * (if polyadd inp (t + 1)
                then -ainv2B inp (flipIndex inp (t + 1)) i
                else ainv2B inp (flipIndex inp (t + 1)) i)
              + (if polyadd inp (t + 1) then 2 * bTerm inp (flipIndex inp (t + 1))
                else -(2 * bTerm inp (flipIndex inp (t + 1))))) := by ring
      rw [e]
      have := hρ.add hcorr
      simpa using this
    exact ⟨u1, u2, v1, by linarith, fun _ => v2, step _ _ _ u3 i6, step _ _ _ v3 i7⟩

theorem root_of_modEq (inp : PolyInput) (hA : GoodA inp) (t : Nat) (ht : t < 2 ^ inp.s)
    (q : Nat) (hq : Nat.Prime q) (hnd : ¬ ((q : Nat) : Int) ∣ polyA inp) (r x : Int)
    (hr : r ^ 2 ≡ inp.n [ZMOD ((q : Nat) : Int)])
    (hx : polyA inp * x + siblingB inp t ≡ r [ZMOD ((q : Nat) : Int)] ∨
      polyA inp * x + siblingB inp t ≡ -r [ZMOD ((q : Nat) : Int)]) :
    polyQ (polyA inp) (siblingB inp t) (polyC inp (siblingB inp t)) x
      ≡ 0 [ZMOD ((q : Nat) : Int)] := by
  have hd := polyA_dvd inp hA t ht
  have hC : polyA inp * polyC inp (siblingB inp t) = siblingB inp t * siblingB inp t - inp.n := by
    unfold polyC
    rw [Int.mul_ediv_cancel' hd]
  have hAQ : polyA inp * polyQ (polyA inp) (siblingB inp t) (polyC inp (siblingB inp t)) x
      = (polyA inp * x + siblingB inp t) ^ 2 - inp.n := by
    unfold polyQ
    have : polyA inp * (polyA inp * x ^ 2 + 2 * siblingB inp t * x + polyC inp (siblingB inp t))
        = (polyA inp * x + siblingB inp t) ^ 2 - siblingB inp t * siblingB inp t
          + polyA inp * polyC inp (siblingB inp t) := by ring
    rw [this, hC]; ring
  have hsq : (polyA inp * x + siblingB inp t) ^ 2 ≡ inp.n [ZMOD ((q : Nat) : Int)] := by
    rcases hx with h | h
    · exact (h.pow 2).trans hr
    · have := h.pow 2
      rw [neg_sq] at this
      exact this.trans hr
  have hdvd : ((q : Nat) : Int) ∣ polyA inp
      * polyQ (polyA inp) (siblingB inp t) (polyC inp (siblingB inp t)) x := by
    rw [hAQ]
    exact (Int.modEq_iff_dvd.mp hsq.symm)
  have hpi : Prime ((q : Nat) : Int) := Nat.prime_iff_prime_int.mp hq
  rcases hpi.dvd_or_dvd hdvd with h | h
  · exact absurd h hnd
  · exact Int.modEq_zero_iff_dvd.mpr h

/-- C6: for every sibling polynomial reached by a Gray-code flip (`1 ≤ t`) and every sieved
prime `p` of index at least 2 not dividing `A`, the roots left by the correction of sieve2 and
sieveInterval are reduced, `0 ≤ soln < p`, and are roots of
`Q(x) = A*x^2 + 2*B*x + C` at `x = soln - Mdiv2` modulo `p`, for the `B` and `C` of that
sibling. -/
theorem sieve_roots_correct (inp : PolyInput) (hA : GoodA inp) (hc : inp.cfg.Ordered)
    (i : Nat) (hS : SievedPrime inp i) (t : Nat) (h1 : 1 ≤ t) (ht : t < 2 ^ (inp.s - 1)) :
    (0 ≤ ((siblingSolns inp t).entry i).1 ∧
      ((siblingSolns inp t).entry i).1 < ((inp.factorBase.getD i 0 : Nat) : Int)) ∧
    (0 ≤ ((siblingSolns inp t).entry i).2 ∧
      ((siblingSolns inp t).entry i).2 < ((inp.factorBase.getD i 0 : Nat) : Int)) ∧
    polyQ (polyA inp) (siblingB inp t) (polyC inp (siblingB inp t))
        (((siblingSolns inp t).entry i).1 - (inp.Mdiv2 : Int))
      ≡ 0 [ZMOD ((inp.factorBase.getD i 0 : Nat) : Int)] ∧
    polyQ (polyA inp) (siblingB inp t) (polyC inp (siblingB inp t))
        (((siblingSolns inp t).entry i).2 - (inp.Mdiv2 : Int))
      ≡ 0 [ZMOD ((inp.factorBase.getD i 0 : Nat) : Int)] := by
  have ht' : t < 2 ^ inp.s :=
    lt_of_lt_of_le ht (Nat.pow_le_pow_right (by norm_num) (Nat.sub_le _ _))
  obtain ⟨a1, a2, a3, _, a5, a6, a7⟩ := root_invariant inp hc i hS t
  obtain ⟨_, _, hp, hnd, _, _, hsq⟩ := hS
  exact ⟨⟨a1, a2⟩, ⟨a3, a5 h1⟩,
    root_of_modEq inp hA t ht' _ hp hnd _ _ hsq (Or.inl a6),
    root_of_modEq inp hA t ht' _ hp hnd _ _ hsq (Or.inr a7)⟩

theorem sieve_roots_correct_witness :
    (0 ≤ ((siblingSolns polyExample 2).entry 4).1 ∧
      ((siblingSolns polyExample 2).entry 4).1
        < ((polyExample.factorBase.getD 4 0 : Nat) : Int)) ∧
    (0 ≤ ((siblingSolns polyExample 2).entry 4).2 ∧
      ((siblingSolns polyExample 2).entry 4).2
        < ((polyExample.factorBase.getD 4 0 : Nat) : Int)) ∧
    polyQ (polyA polyExample) (siblingB polyExample 2)
        (polyC polyExample (siblingB polyExample 2))
        (((siblingSolns polyExample 2).entry 4).1 - (polyExample.Mdiv2 : Int))
      ≡ 0 [ZMOD ((polyExample.factorBase.getD 4 0 : Nat) : Int)] ∧
    polyQ (polyA polyExample) (siblingB polyExample 2)
        (polyC polyExample (siblingB polyExample 2))
        (((siblingSolns polyExample 2).entry 4).2 - (polyExample.Mdiv2 : Int))
      ≡ 0 [ZMOD ((polyExample.factorBase.getD 4 0 : Nat) : Int)] :=
  sieve_roots_correct polyExample (by unfold GoodA; decide) (by unfold SieveConfig.Ordered; decide)
    4 (by unfold SievedPrime; decide) 2 (by decide) (by decide)

/-! ### sort_lp_file -/

theorem readLoop_spec : ∀ (rest : List (List Char)) (i : Nat) (table : List (List Char))
    (cur : List Char),
    readLoop rest i table cur = (i + rest.length, (cur :: rest).reverse ++ table) := by
  intro rest
  induction rest with
  | nil => intro i table cur; simp [readLoop]
  | cons l rest ih =>
    intro i table cur
    rw [readLoop, ih]
    simp
    omega

theorem writeLoop_prefix : ∀ (xs ys : List (List Char)) (old_s : List Char)
    (out : List (List Char) × Nat),
    writeLoop xs.length old_s (xs ++ ys) out = writeLoop xs.length old_s xs out := by
  intro xs
  induction xs with
  | nil => intro ys old_s out; simp [writeLoop]
  | cons x xs ih =>
    intro ys old_s out
    simp only [List.length_cons, List.cons_append, writeLoop]
    exact ih ys x _

theorem qsort_length (w : Nat) (t : List (List Char)) : (qsort w t).length = t.length := by
  unfold qsort
  exact List.length_insertionSort _ _

/-- Whenever the file has a second line, what `sort_lp_file` writes and returns does not
depend on the first line: the sorted part of the table ends before it. -/
theorem sort_lp_file_ignores_first (w : Nat) (first other l : List Char)
    (rest : List (List Char)) :
    sort_lp_file w (first :: l :: rest) = sort_lp_file w (other :: l :: rest) := by
  have key : ∀ f : List Char, sort_lp_file w (f :: l :: rest)
      = writeLoop (qsort w (l :: rest).reverse).tail.length
          ((qsort w (l :: rest).reverse).headD [])
          (qsort w (l :: rest).reverse).tail ([(qsort w (l :: rest).reverse).headD []], 1) := by
    intro f
    have hlen : (qsort w (l :: rest).reverse).length = rest.length + 1 := by
      rw [qsort_length]; simp
    unfold sort_lp_file
    simp only [readLoop_spec, List.append_nil, Nat.zero_add]
    have ht : ((f :: l :: rest).reverse).take (l :: rest).length = (l :: rest).reverse := by
      rw [List.reverse_cons]
      rw [List.take_append_of_le_length (by simp)]
      rw [List.take_of_length_le (by simp)]
    have hd : ((f :: l :: rest).reverse).drop (l :: rest).length = [f] := by
      rw [List.reverse_cons]
      rw [List.drop_append_of_le_length (by simp)]
      rw [List.drop_of_length_le (by simp)]
      rfl
    rw [ht, hd]
    cases hq : qsort w (l :: rest).reverse with
    | nil => rw [hq] at hlen; simp at hlen
    | cons a t =>
      rw [hq] at hlen
      simp only [List.length_cons, Nat.add_right_cancel_iff] at hlen
      simp only [List.cons_append, List.headD_cons, List.tail_cons, List.length_cons,
        Nat.add_sub_cancel]
      rw [← hlen]
      exact writeLoop_prefix t [f] a _
  rw [key first, key other]

/-- C11: on the two-line file `5 @ 1 : 1 2 0`, `7 @ 2 : 1 3 0` (two distinct lines, already in
order) `sort_lp_file` writes the second line only and returns 1: the first line of the
file is lost. -/
theorem sort_lp_file_loses_first_line :
    sort_lp_file 64 ["5 @ 1 : 1 2 0\n".toList, "7 @ 2 : 1 3 0\n".toList]
      = (["7 @ 2 : 1 3 0\n".toList], 1) := by
  decide

/-- C12: on a file of three distinct lines the second application of `sort_lp_file` changes
the file and the count again: two lines are left after the first, one after the second. -/
theorem sort_lp_file_twice_differs :
    sort_lp_file 64 ["3 @ 1 : 1 2 0\n".toList, "5 @ 2 : 1 3 0\n".toList, "7 @ 3 : 1 4 0\n".toList]
      = (["5 @ 2 : 1 3 0\n".toList, "7 @ 3 : 1 4 0\n".toList], 2) ∧
    sort_lp_file 64 (sort_lp_file 64
        ["3 @ 1 : 1 2 0\n".toList, "5 @ 2 : 1 3 0\n".toList, "7 @ 3 : 1 4 0\n".toList]).1
      = (["7 @ 3 : 1 4 0\n".toList], 1) := by
  decide

/-! ### mergesort_lp_file_internal -/

/-- Full-relations mode: from a state in which `c` counts the lines of `TMP`, enough
fuel brings the main loop to its `return`, and the value returned is the number of lines
of `TMP`. -/
theorem mergeRun_full_count (w : Nat) : ∀ (fuel : Nat) (ph : MergePhase) (st : MergeState),
    mergeMeasure ph st < fuel → st.c = st.tmp.length →
    ∃ out, mergeRun w false fuel ph st = some out ∧ out.ret = out.tmp.length := by
  intro fuel
  induction fuel with
  | zero => intro ph st h; omega
  | succ f ih =>
    intro ph st hm hc
    rw [mergeRun]
    cases ph with
    | newCatchesUp =>
      by_cases h1 : st.q > st.q_new
      · cases hl : st.lpnew with
        | nil =>
          simp [mergeStep, h1, hl, hc]
          omega
        | cons l rest =>
          simp only [mergeStep, h1, hl, if_true, Bool.not_false, Bool.true_or, if_true]
          apply ih
          · simp only [mergeMeasure, mergeRank, hl, List.length_cons] at hm ⊢
            split_ifs at hm ⊢ <;> omega
          · simp [hc]
      · simp only [mergeStep, h1, if_false]
        apply ih
        · simp only [mergeMeasure, mergeRank, h1, if_false] at hm ⊢
          split_ifs at hm ⊢ <;> omega
        · simp [hc]
    | relCatchesUp =>
      by_cases h1 : st.q < st.q_new
      · cases hl : st.lprel with
        | nil =>
          simp [mergeStep, h1, hl, hc]
          omega
        | cons l rest =>
          simp only [mergeStep, h1, hl, if_true, Bool.not_false]
          apply ih
          · simp only [mergeMeasure, mergeRank, hl, List.length_cons] at hm ⊢
            split_ifs at hm ⊢ <;> omega
          · simp [hc]
      · simp only [mergeStep, h1, if_false]
        apply ih
        · simp only [mergeMeasure, mergeRank, h1, if_false] at hm ⊢
          split_ifs at hm ⊢ <;> omega
        · exact hc
    | equalKeys =>
      by_cases h1 : st.q = st.q_new
      · by_cases hd : strcmp st.line_new st.line = 0
        · cases hl : st.lpnew with
          | nil =>
            simp [mergeStep, h1, hl, hc, hd]
            omega
          | cons l rest =>
            simp only [mergeStep, h1, hl, hd, if_true]
            apply ih
            · simp only [mergeMeasure, mergeRank, hl, List.length_cons] at hm ⊢
              split_ifs at hm ⊢ <;> omega
            · simp [hc]
        · cases hl : st.lpnew with
          | nil =>
            simp [mergeStep, h1, hl, hc, hd]
            omega
          | cons l rest =>
            simp only [mergeStep, h1, hl, hd, if_true, if_false, Bool.not_false]
            apply ih
            · simp only [mergeMeasure, mergeRank, hl, List.length_cons] at hm ⊢
              split_ifs at hm ⊢ <;> omega
            · simp [hc]
      · simp only [mergeStep, h1, if_false]
        apply ih
        · simp only [mergeMeasure, mergeRank, h1, if_false] at hm ⊢
          split_ifs at hm ⊢ <;> omega
        · simp [hc]

theorem mergeRank_le (ph : MergePhase) (st : MergeState) : mergeRank ph st ≤ 2 := by
  unfold mergeRank
  cases ph <;> simp only <;> split_ifs <;> omega

theorem mergeStart_measure (w : Nat) (line_new : List Char) (new_rest : List (List Char))
    (line : List Char) (rel_rest : List (List Char)) (ph : MergePhase) :
    mergeMeasure ph (mergeStart w line_new new_rest line rel_rest)
      < 3 * ((line :: rel_rest).length + (line_new :: new_rest).length) := by
  have h := mergeRank_le ph (mergeStart w line_new new_rest line rel_rest)
  unfold mergeMeasure
  simp only [mergeStart, List.length_cons] at h ⊢
  omega

/-- C15: in full-relations mode (`COMB` NULL) `mergesort_lp_file_internal` returns, for all
input files and with fuel for three passes per line, and the value it returns is the number
of lines of the merged file `TMP`, whichever `return` is taken. -/
theorem mergesort_full_returns_line_count (w fuel : Nat) ( LPREL LPNEW : List (List Char))
    (hfuel : 3 * (LPREL.length + LPNEW.length) ≤ fuel) :
    ∃ out, mergesort_lp_file_internal w fuel false LPREL LPNEW = some out ∧
      out.ret = out.tmp.length := by
  cases LPNEW with
  | nil => exact ⟨_, rfl, by simp⟩
  | cons line_new new_rest =>
    cases LPREL with
    | nil => exact ⟨_, rfl, by simp⟩
    | cons line rel_rest =>
      have hm := mergeStart_measure w line_new new_rest line rel_rest MergePhase.newCatchesUp
      exact mergeRun_full_count w fuel _ _ (lt_of_lt_of_le hm hfuel) rfl

theorem mergesort_full_returns_line_count_witness :
    ∃ out, mergesort_lp_file_internal 64 15 false
        ["5 : 1 2 0\n".toList, "6 : 1 3 0\n".toList]
        ["5 : 1 2 0\n".toList, "5 : 1 3 0\n".toList, "7 : 1 3 0\n".toList] = some out ∧
      out.ret = out.tmp.length :=
  mergesort_full_returns_line_count 64 15 _ _ (by decide)

/-- Large-prime mode: from a state that satisfies the bookkeeping `MergeInv`, enough fuel
brings the main loop to its `return`; every input line is then in `TMP`, or counted by the
return value, or dropped, and `COMB` holds the counted lines and one first line per run. -/
theorem mergeRun_lp_count (w total : Nat) :
    ∀ (fuel : Nat) (ph : MergePhase) (st : MergeState),
    mergeMeasure ph st < fuel → MergeInv total ph st →
    ∃ out, mergeRun w true fuel ph st = some out ∧
      out.tmp.length + out.ret + out.dropped = total ∧
      out.comb.length = out.ret + out.runs := by
  intro fuel
  induction fuel with
  | zero => intro ph st h; omega
  | succ f ih =>
    intro ph st hm hI
    obtain ⟨h1, h2, h3, h4⟩ := hI
    rw [mergeRun]
    cases ph with
    | newCatchesUp =>
      simp only [pendingNew, true_and] at h1
      by_cases hq : st.q > st.q_new
      · by_cases hcip : st.comb_in_progress = true
        · obtain ⟨h5, h6⟩ := h4 rfl hcip
          rw [if_pos hcip] at h1
          cases hl : st.lpnew with
          | nil =>
            simp only [hl, List.length_nil, List.length_cons] at h1
            simp [mergeStep, hq, hl, hcip]
            constructor <;> omega
          | cons l rest =>
            simp only [hl, List.length_nil, List.length_cons] at h1
            by_cases hne : atol w l = st.q_new_old
            · simp only [mergeStep, hq, hl, hcip, if_true, Bool.not_true, Bool.or_false,
                Bool.false_eq_true, if_false, ne_eq, hne, not_true_eq_false, writeCombinable]
              apply ih
              · simp only [mergeMeasure, mergeRank, hl, List.length_cons] at hm ⊢
                split_ifs at hm ⊢ <;> omega
              · refine ⟨?_, ?_, by simp, ?_⟩
                · simp [pendingNew, hcip]; omega
                · simp; omega
                · intro _ _
                  simp only
                  exact ⟨trivial, by rw [h5]; exact hq⟩
            · have hne2 : ¬ st.q_new_old = atol w l := fun h => hne h.symm
              simp only [mergeStep, hq, hl, hcip, if_true, Bool.not_true, Bool.or_false,
                Bool.false_eq_true, if_false, ne_eq, hne2, not_false_eq_true]
              apply ih
              · simp only [mergeMeasure, mergeRank, hl, List.length_cons] at hm ⊢
                split_ifs at hm ⊢ <;> omega
              · refine ⟨?_, ?_, by simp, ?_⟩
                · simp [pendingNew]; omega
                · simp; omega
                · intro _ hc; simp at hc
        · have hcf : st.comb_in_progress = false := by
            cases h : st.comb_in_progress <;> simp_all
          rw [if_neg hcip] at h1
          cases hl : st.lpnew with
          | nil =>
            simp only [hl, List.length_nil, List.length_cons] at h1
            simp [mergeStep, hq, hl, hcf, swap_lines]
            constructor <;> omega
          | cons l rest =>
            simp only [hl, List.length_nil, List.length_cons] at h1
            by_cases hne : atol w l = st.q_new
            · simp only [mergeStep, hq, hl, hcf, if_true, Bool.not_true, Bool.not_false,
                Bool.or_true, Bool.false_eq_true, if_false, ne_eq, hne, not_true_eq_false,
                writeCombinable, swap_lines]
              apply ih
              · simp only [mergeMeasure, mergeRank, hl, List.length_cons] at hm ⊢
                split_ifs at hm ⊢
                omega
              · refine ⟨?_, ?_, by simp, ?_⟩
                · simp [pendingNew]; omega
                · simp; omega
                · intro _ _
                  simp only
                  exact ⟨trivial, hq⟩
            · have hne2 : ¬ st.q_new = atol w l := fun h => hne h.symm
              simp only [mergeStep, hq, hl, hcf, if_true, Bool.not_true, Bool.not_false,
                Bool.or_true, Bool.false_eq_true, if_false, ne_eq, hne2, not_false_eq_true,
                swap_lines]
              apply ih
              · simp only [mergeMeasure, mergeRank, hl, List.length_cons] at hm ⊢
                split_ifs at hm ⊢ <;> omega
              · refine ⟨?_, ?_, by simp, ?_⟩
                · simp [pendingNew]; omega
                · simp; omega
                · intro _ hc; simp at hc
      · have hcf : ¬ st.comb_in_progress = true := fun hc => hq (h4 rfl hc).2
        rw [if_neg hcf] at h1
        simp only [mergeStep, hq, if_false, if_true]
        apply ih
        · simp only [mergeMeasure, mergeRank, hq, if_false] at hm ⊢
          split_ifs at hm ⊢ <;> omega
        · refine ⟨?_, ?_, by simp, by simp⟩
          · simp [pendingNew]; omega
          · simp; omega
    | relCatchesUp =>
      have hi := h3 rfl
      simp only [pendingNew] at h1
      rw [if_neg (by simp)] at h1
      by_cases hq : st.q < st.q_new
      · cases hl : st.lprel with
        | nil =>
          simp only [hl, List.length_nil, List.length_cons] at h1
          simp [mergeStep, hq, hl]
          constructor <;> omega
        | cons l rest =>
          simp only [hl, List.length_nil, List.length_cons] at h1
          simp only [mergeStep, hq, hl, if_true, Bool.not_true, Bool.false_eq_true, if_false]
          apply ih
          · simp only [mergeMeasure, mergeRank, hl, List.length_cons] at hm ⊢
            split_ifs at hm ⊢ <;> omega
          · refine ⟨?_, ?_, fun _ => hi, by simp⟩
            · simp [pendingNew]; omega
            · simp; omega
      · simp only [mergeStep, hq, if_false]
        apply ih
        · simp only [mergeMeasure, mergeRank, hq, if_false] at hm ⊢
          split_ifs at hm ⊢ <;> omega
        · refine ⟨?_, h2, by simp, by simp⟩
          simp [pendingNew]; omega
    | equalKeys =>
      simp only [pendingNew] at h1
      rw [if_neg (by simp)] at h1
      by_cases hq : st.q = st.q_new
      · by_cases hd : strcmp st.line_new st.line = 0
        · cases hl : st.lpnew with
          | nil =>
            simp only [hl, List.length_nil, List.length_cons] at h1
            simp [mergeStep, hq, hl, hd]
            constructor <;> omega
          | cons l rest =>
            simp only [hl, List.length_nil, List.length_cons] at h1
            simp only [mergeStep, hq, hl, hd, if_true]
            apply ih
            · simp only [mergeMeasure, mergeRank, hl, List.length_cons] at hm ⊢
              split_ifs at hm ⊢ <;> omega
            · refine ⟨?_, ?_, by simp, by simp⟩
              · simp [pendingNew]; omega
              · simp; omega
        · by_cases hcip : st.comb_in_progress = true
          · cases hl : st.lpnew with
            | nil =>
              simp only [hl, List.length_nil, List.length_cons] at h1
              simp [mergeStep, hq, hl, hd, writeCombinable, hcip]
              constructor <;> omega
            | cons l rest =>
              simp only [hl, List.length_nil, List.length_cons] at h1
              simp only [mergeStep, hq, hl, hd, if_true, if_false, Bool.not_true,
                Bool.false_eq_true, writeCombinable, hcip]
              apply ih
              · simp only [mergeMeasure, mergeRank, hl, List.length_cons] at hm ⊢
                split_ifs at hm ⊢ <;> omega
              · refine ⟨?_, ?_, by simp, by simp⟩
                · simp [pendingNew]; omega
                · simp; omega
          · have hcf : st.comb_in_progress = false := by
              cases h : st.comb_in_progress <;> simp_all
            cases hl : st.lpnew with
            | nil =>
              simp only [hl, List.length_nil, List.length_cons] at h1
              simp [mergeStep, hq, hl, hd, writeCombinable, hcf]
              constructor <;> omega
            | cons l rest =>
              simp only [hl, List.length_nil, List.length_cons] at h1
              simp only [mergeStep, hq, hl, hd, if_true, if_false, Bool.not_true,
                Bool.not_false, Bool.false_eq_true, writeCombinable, hcf]
              apply ih
              · simp only [mergeMeasure, mergeRank, hl, List.length_cons] at hm ⊢
                split_ifs at hm ⊢ <;> omega
              · refine ⟨?_, ?_, by simp, by simp⟩
                · simp [pendingNew]; omega
                · simp; omega
      · simp only [mergeStep, hq, if_false, if_true]
        apply ih
        · simp only [mergeMeasure, mergeRank, hq, if_false] at hm ⊢
          split_ifs at hm ⊢ <;> omega
        · refine ⟨?_, ?_, by simp, ?_⟩
          · simp [pendingNew]; omega
          · simp; omega
          · intro _ hc; simp at hc

theorem relEmptyLoop_count (w total : Nat) : ∀ (rest : List (List Char)) (st : MergeState),
    st.tmp.length + st.i + st.dropped + rest.length = total →
    st.comb.length = st.i + st.runs →
    (relEmptyLoop w rest st).tmp.length + (relEmptyLoop w rest st).ret
        + (relEmptyLoop w rest st).dropped = total ∧
      (relEmptyLoop w rest st).comb.length
        = (relEmptyLoop w rest st).ret + (relEmptyLoop w rest st).runs := by
  intro rest
  induction rest with
  | nil =>
    intro st h1 h2
    simp only [relEmptyLoop, List.length_nil] at h1 ⊢
    exact ⟨by omega, h2⟩
  | cons l rest ih =>
    intro st h1 h2
    simp only [List.length_cons] at h1
    rw [relEmptyLoop]
    simp only
    split_ifs with hq
    · by_cases hcip : st.comb_in_progress = true
      · apply ih
        · simp [writeCombinable, hcip]; omega
        · simp [writeCombinable, hcip]; omega
      · have hcf : st.comb_in_progress = false := (Bool.not_eq_true _).mp hcip
        apply ih
        · simp [writeCombinable, hcf]; omega
        · simp [writeCombinable, hcf]; omega
    · apply ih
      · simp [swap_lines]; omega
      · simp [swap_lines]; omega

theorem strcmp_eq_zero : ∀ (a b : List Char), strcmp a b = 0 → a = b := by
  intro a
  induction a with
  | nil =>
    intro b h
    cases b with
    | nil => rfl
    | cons c t => simp [strcmp] at h
  | cons x s ih =>
    intro b h
    cases b with
    | nil => simp [strcmp] at h
    | cons c t =>
      rw [strcmp] at h
      split_ifs at h with hx
      · rw [hx, ih t h]
      · exfalso
        apply hx
        have h1 : (x.toNat : Int) = c.toNat := by omega
        have h2 : x.toNat = c.toNat := by exact_mod_cast h1
        have := congrArg Char.ofNat h2
        simpa using this

theorem mergeStep_trace_rel (w : Nat) ( LPREL LPNEW : List (List Char)) (st : MergeState)
    (runs : List (List Char × List (List Char))) (dropped : List (List Char))
    (h : MergeTrace w LPREL LPNEW MergePhase.relCatchesUp st runs dropped) :
    match mergeStep w true MergePhase.relCatchesUp st with
    | Sum.inl out => ∃ runs1 dropped1, MergeFinal w LPREL LPNEW out runs1 dropped1
    | Sum.inr next => ∃ runs1 dropped1, MergeTrace w LPREL LPNEW next.1 next.2 runs1 dropped1 := by
  obtain ⟨h1, h2, h3, h4, h5, ⟨m1, m2, m3, m4⟩, ⟨k1, k2⟩, h8, _, _⟩ := h
  obtain ⟨hi, hc⟩ := h8 rfl
  by_cases hq : st.q < st.q_new
  · cases hl : st.lprel with
    | nil =>
      simp only [mergeStep, hq, hl, if_true, Bool.not_true, Bool.false_eq_true, if_false]
      refine ⟨runs, dropped, h1, ?_, h3, ?_, ?_⟩
      · intro r hr
        obtain ⟨a, b, c⟩ := h2 r hr
        refine ⟨a, ?_, c⟩
        rcases b with b | b
        · simp [b]
        · simp [b]
      · intro x
        have := h4 x
        simp only [pendingLine, hl, occurrences, List.countP_append, List.countP_cons, List.countP_nil] at this ⊢
        simp only [reduceCtorEq, false_and, if_false, List.countP_cons, List.countP_nil] at this
        omega
      · simp only; omega
    | cons l rest =>
      simp only [mergeStep, hq, hl, if_true, Bool.not_true, Bool.false_eq_true, if_false]
      refine ⟨runs, dropped, h1, ?_, h3, ?_, by simpa using h5, ?_, ?_, ?_, ?_, ?_⟩
      · intro r hr
        obtain ⟨a, b, c⟩ := h2 r hr
        refine ⟨a, Or.inl ?_, c⟩
        rcases b with b | b
        · simp [b]
        · simp [b]
      · intro x
        have := h4 x
        simp only [pendingLine, hl, occurrences, List.countP_append, List.countP_cons, List.countP_nil] at this ⊢
        simp only [reduceCtorEq, false_and, if_false, List.countP_cons, List.countP_nil] at this ⊢
        omega
      · refine ⟨m3 l (by simp [hl]), m2, fun x hx => m3 x (by simp [hl, hx]), m4⟩
      · exact ⟨rfl, k2⟩
      · intro _; exact ⟨hi, hc⟩
      · intro hph; simp at hph
      · intro hph; simp at hph
  · simp only [mergeStep, hq, if_false]
    refine ⟨runs, dropped, h1, h2, h3, ?_, h5, ⟨m1, m2, m3, m4⟩, ⟨k1, k2⟩, ?_, ?_, ?_⟩
    · intro x
      have := h4 x
      simp only [pendingLine] at this ⊢
      simp only [reduceCtorEq, false_and, if_false] at this ⊢
      exact this
    · intro hph; simp at hph
    · intro hph; simp at hph
    · intro _ hcip; rw [hc] at hcip; simp at hcip

theorem combOf_cons_tail (h : List Char) (fs : List (List Char)) (l : List Char)
    (rest : List (List Char × List (List Char))) :
    combOf ((h, fs ++ [l]) :: rest) = combOf ((h, fs) :: rest) ++ [l] := by
  simp [combOf]

set_option maxHeartbeats 1000000 in
theorem mergeStep_trace_eq (w : Nat) ( LPREL LPNEW : List (List Char)) (st : MergeState)
    (runs : List (List Char × List (List Char))) (dropped : List (List Char))
    (h : MergeTrace w LPREL LPNEW MergePhase.equalKeys st runs dropped) :
    match mergeStep w true MergePhase.equalKeys st with
    | Sum.inl out => ∃ runs1 dropped1, MergeFinal w LPREL LPNEW out runs1 dropped1
    | Sum.inr next => ∃ runs1 dropped1, MergeTrace w LPREL LPNEW next.1 next.2 runs1 dropped1 := by
  obtain ⟨h1, h2, h3, h4, h5, ⟨m1, m2, m3, m4⟩, ⟨k1, k2⟩, _, _, h10⟩ := h
  have hpend : ∀ s : MergeState, pendingLine MergePhase.equalKeys s = [s.line_new] := by
    intro s; simp [pendingLine]
  have hheads : ∀ (rs : List (List Char × List (List Char))) (extra : List (List Char)),
      (∀ r ∈ rs, r.2 ≠ [] ∧ (r.1 ∈ st.tmp ∨ r.1 = st.line) ∧ ∀ l ∈ r.2, atol w l = atol w r.1) →
      ∀ r ∈ rs, r.2 ≠ [] ∧ r.1 ∈ st.tmp ++ [st.line] ++ extra ∧
        ∀ l ∈ r.2, atol w l = atol w r.1 := by
    intro rs extra hrs r hr
    obtain ⟨a, b, c⟩ := hrs r hr
    refine ⟨a, ?_, c⟩
    rcases b with b | b
    · simp [b]
    · simp [b]
  by_cases hq : st.q = st.q_new
  · by_cases hd : strcmp st.line_new st.line = 0
    · -- an exact duplicate is dropped
      have hsame : st.line_new = st.line := strcmp_eq_zero _ _ hd
      have hdrop : ∀ l ∈ st.line_new :: dropped, l ∈ LPNEW ∧ l ∈ LPREL := by
        intro l hl
        rcases List.mem_cons.mp hl with rfl | hl
        · exact ⟨m2, by rw [hsame]; exact m1⟩
        · exact h3 l hl
      cases hl : st.lpnew with
      | nil =>
        simp only [mergeStep, if_pos hq, hl, hd, if_true, Bool.not_true, Bool.false_eq_true, if_false]
        refine ⟨runs, st.line_new :: dropped, h1, hheads runs st.lprel h2, hdrop, ?_, ?_⟩
        · intro x
          have := h4 x
          simp only [hpend, hl, occurrences, List.countP_append, List.countP_cons, List.countP_nil] at this ⊢
          omega
        · simp only; omega
      | cons l rest =>
        simp only [mergeStep, if_pos hq, hl, hd, if_true]
        refine ⟨runs, st.line_new :: dropped, h1, h2, hdrop, ?_, h5, ?_, ⟨k1, rfl⟩, ?_, ?_, ?_⟩
        · intro x
          have := h4 x
          simp only [hpend, hl, occurrences, List.countP_append, List.countP_cons, List.countP_nil] at this ⊢
          omega
        · exact ⟨m1, m4 l (by simp [hl]), m3, fun x hx => m4 x (by simp [hl, hx])⟩
        · intro hph; simp at hph
        · intro hph; simp at hph
        · intro _ hcip; exact h10 rfl hcip
    · by_cases hcip : st.comb_in_progress = true
      · obtain ⟨fs, rest0, hruns⟩ := h10 rfl hcip
        subst hruns
        have hwf : ∀ r ∈ (st.line, fs ++ [st.line_new]) :: rest0, r.2 ≠ [] ∧
            (r.1 ∈ st.tmp ∨ r.1 = st.line) ∧ ∀ l ∈ r.2, atol w l = atol w r.1 := by
          intro r hr
          rcases List.mem_cons.mp hr with rfl | hr
          · refine ⟨by simp, Or.inr rfl, ?_⟩
            intro l hl
            rcases List.mem_append.mp hl with hl | hl
            · exact (h2 _ (List.mem_cons_self _ _)).2.2 l hl
            · simp only [List.mem_singleton] at hl
              rw [hl, ← k1, ← k2, hq]
          · exact h2 r (List.mem_cons_of_mem _ hr)
        cases hl : st.lpnew with
        | nil =>
          simp only [mergeStep, if_pos hq, hl, hd, if_true, if_false, Bool.not_true,
            Bool.false_eq_true, writeCombinable, hcip]
          refine ⟨(st.line, fs ++ [st.line_new]) :: rest0, dropped, ?_,
            hheads _ st.lprel hwf, h3, ?_, ?_⟩
          · show _ = combOf _
            simp only [h1, combOf, List.append_assoc, List.singleton_append, List.cons_append,
              List.nil_append]
          · intro x
            have := h4 x
            simp only [hpend, hl, tailsOf, occurrences, List.countP_append, List.countP_cons,
              List.countP_nil] at this ⊢
            omega
          · simp only [tailsOf, List.length_append, List.length_cons, List.length_nil] at h5 ⊢
            omega
        | cons l rest =>
          simp only [mergeStep, if_pos hq, hl, hd, if_true, if_false, Bool.not_true,
            Bool.false_eq_true, writeCombinable, hcip]
          refine ⟨(st.line, fs ++ [st.line_new]) :: rest0, dropped, ?_, hwf, h3, ?_, ?_, ?_,
            ⟨k1, rfl⟩, ?_, ?_, ?_⟩
          · show _ = combOf _
            simp only [h1, combOf, List.append_assoc, List.singleton_append, List.cons_append,
              List.nil_append]
          · intro x
            have := h4 x
            simp only [hpend, hl, tailsOf, occurrences, List.countP_append, List.countP_cons,
              List.countP_nil] at this ⊢
            omega
          · simp only [tailsOf, List.length_append, List.length_cons, List.length_nil] at h5 ⊢
            omega
          · exact ⟨m1, m4 l (by simp [hl]), m3, fun x hx => m4 x (by simp [hl, hx])⟩
          · intro hph; simp at hph
          · intro hph; simp at hph
          · intro _ _; exact ⟨_, _, rfl⟩
      · have hcf : st.comb_in_progress = false := (Bool.not_eq_true _).mp hcip
        have hwf : ∀ r ∈ (st.line, [st.line_new]) :: runs, r.2 ≠ [] ∧
            (r.1 ∈ st.tmp ∨ r.1 = st.line) ∧ ∀ l ∈ r.2, atol w l = atol w r.1 := by
          intro r hr
          rcases List.mem_cons.mp hr with rfl | hr
          · refine ⟨by simp, Or.inr rfl, ?_⟩
            intro l hl
            simp only [List.mem_singleton] at hl
            rw [hl, ← k1, ← k2, hq]
          · exact h2 r hr
        cases hl : st.lpnew with
        | nil =>
          simp only [mergeStep, if_pos hq, hl, hd, if_true, if_false, Bool.not_true, Bool.not_false,
            Bool.false_eq_true, writeCombinable, hcf]
          refine ⟨(st.line, [st.line_new]) :: runs, dropped, ?_,
            hheads _ st.lprel hwf, h3, ?_, ?_⟩
          · show _ = combOf _
            simp only [h1, combOf, List.append_assoc, List.singleton_append, List.cons_append,
              List.nil_append]
          · intro x
            have := h4 x
            simp only [hpend, hl, tailsOf, occurrences, List.countP_append, List.countP_cons,
              List.countP_nil] at this ⊢
            omega
          · simp only [tailsOf, List.length_append, List.length_cons, List.length_nil] at h5 ⊢
            omega
        | cons l rest =>
          simp only [mergeStep, if_pos hq, hl, hd, if_true, if_false, Bool.not_true, Bool.not_false,
            Bool.false_eq_true, writeCombinable, hcf]
          refine ⟨(st.line, [st.line_new]) :: runs, dropped, ?_, hwf, h3, ?_, ?_, ?_,
            ⟨k1, rfl⟩, ?_, ?_, ?_⟩
          · show _ = combOf _
            simp only [h1, combOf, List.append_assoc, List.singleton_append, List.cons_append,
              List.nil_append]
          · intro x
            have := h4 x
            simp only [hpend, hl, tailsOf, occurrences, List.countP_append, List.countP_cons,
              List.countP_nil] at this ⊢
            omega
          · simp only [tailsOf, List.length_append, List.length_cons, List.length_nil] at h5 ⊢
            omega
          · exact ⟨m1, m4 l (by simp [hl]), m3, fun x hx => m4 x (by simp [hl, hx])⟩
          · intro hph; simp at hph
          · intro hph; simp at hph
          · intro _ _; exact ⟨_, _, rfl⟩
  · simp only [mergeStep, if_neg hq, if_false, if_true]
    refine ⟨runs, dropped, h1, h2, h3, ?_, by simpa using h5, ⟨m1, m2, m3, m4⟩, ⟨k1, k2⟩,
      ?_, ?_, ?_⟩
    · intro x
      have := h4 x
      simp only [pendingLine] at this ⊢
      simp only [reduceCtorEq, false_and, if_false, Bool.false_eq_true, and_false] at this ⊢
      exact this
    · intro hph; simp at hph
    · intro _ hcip; simp at hcip
    · intro hph; simp at hph

set_option maxHeartbeats 1000000 in
theorem mergeStep_trace_new (w : Nat) ( LPREL LPNEW : List (List Char)) (st : MergeState)
    (runs : List (List Char × List (List Char))) (dropped : List (List Char))
    (h : MergeTrace w LPREL LPNEW MergePhase.newCatchesUp st runs dropped) :
    match mergeStep w true MergePhase.newCatchesUp st with
    | Sum.inl out => ∃ runs1 dropped1, MergeFinal w LPREL LPNEW out runs1 dropped1
    | Sum.inr next => ∃ runs1 dropped1, MergeTrace w LPREL LPNEW next.1 next.2 runs1 dropped1 := by
  obtain ⟨h1, h2, h3, h4, h5, ⟨m1, m2, m3, m4⟩, ⟨k1, k2⟩, _, h9, _⟩ := h
  by_cases hq : st.q > st.q_new
  · by_cases hcip : st.comb_in_progress = true
    · obtain ⟨g1, g2, g3, g4, fs, rest0, hruns⟩ := h9 rfl hcip
      have hpend : pendingLine MergePhase.newCatchesUp st = [] := by
        simp [pendingLine, hcip]
      cases hl : st.lpnew with
      | nil =>
        simp only [mergeStep, if_pos hq, hl, hcip, if_true, Bool.not_true, Bool.or_false,
          Bool.false_eq_true, if_false]
        refine ⟨runs, dropped, h1, ?_, h3, ?_, ?_⟩
        · intro r hr
          obtain ⟨a, b, c⟩ := h2 r hr
          refine ⟨a, ?_, c⟩
          rcases b with b | b
          · simp [b]
          · simp [b]
        · intro x
          have := h4 x
          simp only [hpend, hl, occurrences, List.countP_append, List.countP_cons, List.countP_nil] at this ⊢
          omega
        · simp only; omega
      | cons l rest =>
        by_cases hne : st.q_new_old = atol w l
        · -- one more line of the run in progress
          subst hruns
          have hne1 : ¬ (st.q_new_old ≠ atol w l) := fun hc => hc hne
          simp only [mergeStep, if_pos hq, hl, hcip, if_true, Bool.not_true, Bool.or_false,
            Bool.false_eq_true, if_false, if_neg hne1, writeCombinable]
          refine ⟨(st.line_new_old, fs ++ [l]) :: rest0, dropped, ?_, ?_, h3, ?_, ?_, ?_,
            ⟨k1, rfl⟩, ?_, ?_, ?_⟩
          · show _ = combOf _
            simp only [h1, combOf, List.append_assoc, List.singleton_append, List.cons_append,
              List.nil_append]
          · intro r hr
            rcases List.mem_cons.mp hr with rfl | hr
            · refine ⟨by simp, Or.inl g3, ?_⟩
              intro l' hl'
              rcases List.mem_append.mp hl' with hl' | hl'
              · exact (h2 _ (List.mem_cons_self _ _)).2.2 l' hl'
              · simp only [List.mem_singleton] at hl'
                rw [hl', g4, hne]
            · exact h2 r (List.mem_cons_of_mem _ hr)
          · intro x
            have := h4 x
            simp only [hpend, hl, tailsOf, occurrences, List.countP_append, List.countP_cons,
              List.countP_nil] at this
            simp only [pendingLine, tailsOf, occurrences, List.countP_append, List.countP_cons,
              List.countP_nil, true_and, and_self, if_true]
            omega
          · simp only [tailsOf, List.length_append, List.length_cons, List.length_nil] at h5 ⊢
            omega
          · exact ⟨m1, m4 l (by simp [hl]), m3, fun x hx => m4 x (by simp [hl, hx])⟩
          · intro hph; simp at hph
          · intro _ _
            refine ⟨hne, ?_, g3, g4, _, _, rfl⟩
            show st.q > atol w l
            rw [← hne, g1]; exact hq
          · intro hph; simp at hph
        · -- the run is over
          have hne1 : st.q_new_old ≠ atol w l := hne
          simp only [mergeStep, if_pos hq, hl, hcip, if_true, Bool.not_true, Bool.or_false,
            Bool.false_eq_true, if_false, if_pos hne1]
          refine ⟨runs, dropped, h1, h2, h3, ?_, h5, ?_, ⟨k1, rfl⟩, ?_, ?_, ?_⟩
          · intro x
            have := h4 x
            simp only [hpend, hl, occurrences, List.countP_append, List.countP_cons, List.countP_nil] at this
            simp only [pendingLine, occurrences, List.countP_append, List.countP_cons,
              List.countP_nil, Bool.false_eq_true, and_false, if_false]
            omega
          · exact ⟨m1, m4 l (by simp [hl]), m3, fun x hx => m4 x (by simp [hl, hx])⟩
          · intro hph; simp at hph
          · intro _ hc; simp at hc
          · intro hph; simp at hph
    · have hcf : st.comb_in_progress = false := (Bool.not_eq_true _).mp hcip
      have hpend : pendingLine MergePhase.newCatchesUp st = [st.line_new] := by
        simp [pendingLine, hcf]
      have hheads : ∀ r ∈ runs, r.2 ≠ [] ∧ (r.1 ∈ st.tmp ++ [st.line_new] ∨ r.1 = st.line) ∧
          ∀ l ∈ r.2, atol w l = atol w r.1 := by
        intro r hr
        obtain ⟨a, b, c⟩ := h2 r hr
        refine ⟨a, ?_, c⟩
        rcases b with b | b
        · left; simp [b]
        · right; exact b
      cases hl : st.lpnew with
      | nil =>
        simp only [mergeStep, if_pos hq, hl, hcf, if_true, Bool.not_true, Bool.not_false,
          Bool.or_true, Bool.false_eq_true, if_false, swap_lines]
        refine ⟨runs, dropped, h1, ?_, h3, ?_, ?_⟩
        · intro r hr
          obtain ⟨a, b, c⟩ := h2 r hr
          refine ⟨a, ?_, c⟩
          rcases b with b | b
          · simp [b]
          · simp [b]
        · intro x
          have := h4 x
          simp only [hpend, hl, occurrences, List.countP_append, List.countP_cons, List.countP_nil] at this ⊢
          omega
        · simp only; omega
      | cons l rest =>
        by_cases hne : st.q_new = atol w l
        · -- a run begins: the line just written to `TMP` is its first line
          have hne1 : ¬ (st.q_new ≠ atol w l) := fun hc => hc hne
          simp only [mergeStep, if_pos hq, hl, hcf, if_true, Bool.not_true, Bool.not_false,
            Bool.or_true, Bool.false_eq_true, if_false, if_neg hne1,
            writeCombinable, swap_lines]
          refine ⟨(st.line_new, [l]) :: runs, dropped, ?_, ?_, h3, ?_, ?_, ?_,
            ⟨k1, rfl⟩, ?_, ?_, ?_⟩
          · show _ = combOf _
            simp only [h1, combOf, List.append_assoc, List.singleton_append, List.cons_append,
              List.nil_append]
          · intro r hr
            rcases List.mem_cons.mp hr with rfl | hr
            · refine ⟨by simp, Or.inl (by simp), ?_⟩
              intro l' hl'
              simp only [List.mem_singleton] at hl'
              rw [hl', ← k2, hne]
            · exact hheads r hr
          · intro x
            have := h4 x
            simp only [hpend, hl, tailsOf, occurrences, List.countP_append, List.countP_cons,
              List.countP_nil] at this
            simp only [pendingLine, tailsOf, occurrences, List.countP_append, List.countP_cons,
              List.countP_nil, true_and, and_self, if_true]
            omega
          · simp only [tailsOf, List.length_append, List.length_cons, List.length_nil] at h5 ⊢
            omega
          · exact ⟨m1, m4 l (by simp [hl]), m3, fun x hx => m4 x (by simp [hl, hx])⟩
          · intro hph; simp at hph
          · intro _ _
            refine ⟨hne, ?_, by simp, k2.symm, _, _, rfl⟩
            show st.q > atol w l
            rw [← hne]; exact hq
          · intro hph; simp at hph
        · have hne1 : st.q_new ≠ atol w l := hne
          simp only [mergeStep, if_pos hq, hl, hcf, if_true, Bool.not_true, Bool.not_false,
            Bool.or_true, Bool.false_eq_true, if_false, if_pos hne1,
            swap_lines]
          refine ⟨runs, dropped, h1, hheads, h3, ?_, h5, ?_, ⟨k1, rfl⟩, ?_, ?_, ?_⟩
          · intro x
            have := h4 x
            simp only [hpend, hl, occurrences, List.countP_append, List.countP_cons, List.countP_nil] at this
            simp only [pendingLine, occurrences, List.countP_append, List.countP_cons,
              List.countP_nil, Bool.false_eq_true, and_false, if_false]
            omega
          · exact ⟨m1, m4 l (by simp [hl]), m3, fun x hx => m4 x (by simp [hl, hx])⟩
          · intro hph; simp at hph
          · intro _ hc; simp at hc
          · intro hph; simp at hph
  · have hcf : st.comb_in_progress = false := by
      cases hb : st.comb_in_progress with
      | false => rfl
      | true => exact absurd (h9 rfl hb).2.1 hq
    simp only [mergeStep, if_neg hq, if_false, if_true]
    refine ⟨runs, dropped, h1, h2, h3, ?_, by simpa using h5, ⟨m1, m2, m3, m4⟩, ⟨k1, k2⟩,
      ?_, ?_, ?_⟩
    · intro x
      have := h4 x
      simp only [pendingLine, hcf] at this ⊢
      simp only [reduceCtorEq, false_and, if_false, Bool.false_eq_true, and_false] at this ⊢
      exact this
    · intro _; exact ⟨rfl, rfl⟩
    · intro hph; simp at hph
    · intro hph; simp at hph

theorem mergeStep_trace (w : Nat) ( LPREL LPNEW : List (List Char)) (ph : MergePhase)
    (st : MergeState) (runs : List (List Char × List (List Char))) (dropped : List (List Char))
    (h : MergeTrace w LPREL LPNEW ph st runs dropped) :
    match mergeStep w true ph st with
    | Sum.inl out => ∃ runs1 dropped1, MergeFinal w LPREL LPNEW out runs1 dropped1
    | Sum.inr next => ∃ runs1 dropped1, MergeTrace w LPREL LPNEW next.1 next.2 runs1 dropped1 := by
  cases ph with
  | newCatchesUp => exact mergeStep_trace_new w LPREL LPNEW st runs dropped h
  | relCatchesUp => exact mergeStep_trace_rel w LPREL LPNEW st runs dropped h
  | equalKeys => exact mergeStep_trace_eq w LPREL LPNEW st runs dropped h

/-- Large-prime mode: what the main loop returns, from a state that satisfies `MergeTrace`,
satisfies `MergeFinal`. -/
theorem mergeRun_trace (w : Nat) ( LPREL LPNEW : List (List Char)) :
    ∀ (fuel : Nat) (ph : MergePhase) (st : MergeState)
      (runs : List (List Char × List (List Char))) (dropped : List (List Char)) (out : MergeOut),
    MergeTrace w LPREL LPNEW ph st runs dropped → mergeRun w true fuel ph st = some out →
    ∃ runs1 dropped1, MergeFinal w LPREL LPNEW out runs1 dropped1 := by
  intro fuel
  induction fuel with
  | zero => intro ph st runs dropped out _ h; simp [mergeRun] at h
  | succ f ih =>
    intro ph st runs dropped out hT h
    have hs := mergeStep_trace w LPREL LPNEW ph st runs dropped hT
    rw [mergeRun] at h
    cases hm : mergeStep w true ph st with
    | inl o =>
      rw [hm] at h hs
      simp only [Option.some.injEq] at h
      rw [← h]
      exact hs
    | inr next =>
      rw [hm] at h hs
      obtain ⟨runs1, dropped1, hT1⟩ := hs
      exact ih next.1 next.2 runs1 dropped1 out hT1 h

/-- The loop run when `LPREL` is empty: `COMB` consists of the runs found in `LPNEW`, whose
first lines are in `TMP`. -/
theorem relEmptyLoop_trace (w : Nat) ( LPNEW : List (List Char)) :
    ∀ (rest : List (List Char)) (st : MergeState)
      (runs : List (List Char × List (List Char))),
    st.comb = combOf runs →
    (∀ r ∈ runs, r.2 ≠ [] ∧ r.1 ∈ st.tmp ∧ ∀ l ∈ r.2, atol w l = atol w r.1) →
    (∀ x, occurrences x st.tmp + occurrences x (tailsOf runs) + occurrences x rest = occurrences x LPNEW) →
    st.i = (tailsOf runs).length →
    st.line_new_old ∈ st.tmp → atol w st.line_new_old = st.q_new_old →
    (st.comb_in_progress = true → ∃ fs rest0, runs = (st.line_new_old, fs) :: rest0) →
    ∃ runs1, MergeFinal w [] LPNEW (relEmptyLoop w rest st) runs1 [] := by
  intro rest
  induction rest with
  | nil =>
    intro st runs h1 h2 h4 h5 _ _ _
    refine ⟨runs, h1, h2, by simp, ?_, h5⟩
    intro x
    have := h4 x
    simp only [relEmptyLoop, occurrences, List.countP_nil] at this ⊢
    omega
  | cons l rest ih =>
    intro st runs h1 h2 h4 h5 h6 h7 h8
    rw [relEmptyLoop]
    simp only
    by_cases hq : st.q_new_old = atol w l
    · rw [if_pos hq]
      by_cases hcip : st.comb_in_progress = true
      · obtain ⟨fs, rest0, hruns⟩ := h8 hcip
        subst hruns
        apply ih _ ((st.line_new_old, fs ++ [l]) :: rest0)
        · simp only [writeCombinable, hcip, Bool.not_true, Bool.false_eq_true, if_false, h1,
            combOf, List.append_assoc, List.singleton_append, List.cons_append, List.nil_append]
        · intro r hr
          rcases List.mem_cons.mp hr with rfl | hr
          · refine ⟨by simp, by simpa [writeCombinable, hcip] using h6, ?_⟩
            intro l' hl'
            rcases List.mem_append.mp hl' with hl' | hl'
            · exact (h2 _ (List.mem_cons_self _ _)).2.2 l' hl'
            · simp only [List.mem_singleton] at hl'
              rw [hl', h7, hq]
          · obtain ⟨a, b, c⟩ := h2 r (List.mem_cons_of_mem _ hr)
            exact ⟨a, by simpa [writeCombinable, hcip] using b, c⟩
        · intro x
          have := h4 x
          simp only [writeCombinable, hcip, Bool.not_true, Bool.false_eq_true, if_false,
            tailsOf, occurrences, List.countP_append, List.countP_cons, List.countP_nil] at this ⊢
          omega
        · simp only [writeCombinable, hcip, Bool.not_true, Bool.false_eq_true, if_false,
            tailsOf, List.length_append, List.length_cons, List.length_nil] at h5 ⊢
          omega
        · simpa [writeCombinable, hcip] using h6
        · simpa [writeCombinable, hcip] using h7
        · intro _; exact ⟨fs ++ [l], rest0, by simp [writeCombinable, hcip]⟩
      · have hcf : st.comb_in_progress = false := (Bool.not_eq_true _).mp hcip
        apply ih _ ((st.line_new_old, [l]) :: runs)
        · simp only [writeCombinable, hcf, Bool.not_false, if_true, h1,
            combOf, List.append_assoc, List.singleton_append, List.cons_append, List.nil_append]
        · intro r hr
          rcases List.mem_cons.mp hr with rfl | hr
          · refine ⟨by simp, by simpa [writeCombinable, hcf] using h6, ?_⟩
            intro l' hl'
            simp only [List.mem_singleton] at hl'
            rw [hl', h7, hq]
          · obtain ⟨a, b, c⟩ := h2 r hr
            exact ⟨a, by simpa [writeCombinable, hcf] using b, c⟩
        · intro x
          have := h4 x
          simp only [writeCombinable, hcf, Bool.not_false, if_true,
            tailsOf, occurrences, List.countP_append, List.countP_cons, List.countP_nil] at this ⊢
          omega
        · simp only [writeCombinable, hcf, Bool.not_false, if_true,
            tailsOf, List.length_append, List.length_cons, List.length_nil] at h5 ⊢
          omega
        · simpa [writeCombinable, hcf] using h6
        · simpa [writeCombinable, hcf] using h7
        · intro _; exact ⟨[l], runs, by simp [writeCombinable, hcf]⟩
    · rw [if_neg hq]
      apply ih _ runs
      · simpa [swap_lines] using h1
      · intro r hr
        obtain ⟨a, b, c⟩ := h2 r hr
        refine ⟨a, ?_, c⟩
        simp only [swap_lines, List.mem_append, List.mem_singleton]
        exact Or.inl b
      · intro x
        have := h4 x
        simp only [swap_lines, occurrences, List.countP_append, List.countP_cons, List.countP_nil] at this ⊢
        omega
      · simpa [swap_lines] using h5
      · simp [swap_lines]
      · simp [swap_lines]
      · intro hc; simp [swap_lines] at hc

theorem combOf_eq_flatMap : ∀ runs : List (List Char × List (List Char)),
    combOf runs = runs.reverse.flatMap (fun r => r.1 :: r.2) := by
  intro runs
  induction runs with
  | nil => rfl
  | cons r rest ih => simp [combOf, ih, List.flatMap_append]

theorem tailsOf_eq_flatMap : ∀ runs : List (List Char × List (List Char)),
    tailsOf runs = runs.reverse.flatMap (fun r => r.2) := by
  intro runs
  induction runs with
  | nil => rfl
  | cons r rest ih => simp [tailsOf, ih, List.flatMap_append]

theorem combOf_length : ∀ runs : List (List Char × List (List Char)),
    (combOf runs).length = (tailsOf runs).length + runs.length := by
  intro runs
  induction runs with
  | nil => rfl
  | cons r rest ih =>
    simp only [combOf, tailsOf, List.length_append, List.length_cons, ih]
    omega

/-- From `MergeFinal` to the runs in the order of `COMB`. -/
theorem mergeFinal_spec (w : Nat) ( LPREL LPNEW : List (List Char)) (out : MergeOut)
    (runs : List (List Char × List (List Char))) (dropped : List (List Char))
    (h : MergeFinal w LPREL LPNEW out runs dropped) :
    out.comb = runs.reverse.flatMap (fun r => r.1 :: r.2) ∧
    (∀ r ∈ runs.reverse, r.2 ≠ [] ∧ r.1 ∈ out.tmp ∧ ∀ l ∈ r.2, atol w l = atol w r.1) ∧
    (∀ l ∈ dropped, l ∈ LPNEW ∧ l ∈ LPREL) ∧
    List.Perm (out.tmp ++ runs.reverse.flatMap (fun r => r.2) ++ dropped) (LPREL ++ LPNEW) ∧
    out.ret = (runs.reverse.flatMap (fun r => r.2)).length ∧
    out.tmp.length + out.comb.length + dropped.length
      = LPREL.length + LPNEW.length + runs.reverse.length := by
  obtain ⟨h1, h2, h3, h4, h5⟩ := h
  have hperm : List.Perm (out.tmp ++ tailsOf runs ++ dropped) (LPREL ++ LPNEW) := by
    rw [List.perm_iff_count]
    intro x
    have hc : ∀ l : List (List Char),
        @List.count (List Char) instBEqOfDecidableEq x l = occurrences x l := by
      intro l; unfold occurrences List.count; rfl
    have := h4 x
    rw [hc, hc]
    simp only [occurrences, List.countP_append] at this ⊢
    omega
  refine ⟨by rw [h1, combOf_eq_flatMap], fun r hr => h2 r (List.mem_reverse.mp hr), h3,
    by rw [← tailsOf_eq_flatMap]; exact hperm, by rw [← tailsOf_eq_flatMap]; exact h5, ?_⟩
  have hl : (out.tmp ++ tailsOf runs ++ dropped).length = (LPREL ++ LPNEW).length :=
    hperm.length_eq
  simp only [List.length_append] at hl
  have hc : out.comb.length = (tailsOf runs).length + runs.length := by
    rw [h1, combOf_length]
  rw [List.length_reverse]
  omega
/-- C13, as stated, fails: with `5 @ 1 : 1 2 0` in `LPREL` and `5 @ 2 : 1 3 0` in `LPNEW` (each
file sorted and free of duplicates, the two lines different, so that no line is an exact
duplicate) the new `LPREL` has one line and `COMB` two, three lines for two read. -/
theorem mergesort_lp_count_off :
    mergesort_lp_file_internal 64 6 true
        ["5 @ 1 : 1 2 0\n".toList] ["5 @ 2 : 1 3 0\n".toList]
      = some { tmp := ["5 @ 1 : 1 2 0\n".toList]
               comb := ["5 @ 1 : 1 2 0\n".toList, "5 @ 2 : 1 3 0\n".toList]
               ret := 1, dropped := 0, runs := 1 } ∧
    "5 @ 2 : 1 3 0\n".toList ∉ ["5 @ 1 : 1 2 0\n".toList] ∧
    ["5 @ 1 : 1 2 0\n".toList].length
        + ["5 @ 1 : 1 2 0\n".toList, "5 @ 2 : 1 3 0\n".toList].length ≠ 1 + 1 - 0 := by
  decide

/-- C13, amended: in large-prime mode (`COMB` non-NULL) `mergesort_lp_file_internal` returns,
for all input files and with fuel for three passes per line.  `COMB` consists of runs, each
a first line that is also a line of the new `LPREL` (`TMP`), followed by one or more lines
with the same large prime.  Every line read is a line of the new `LPREL`, or a line of `COMB`
behind the first line of its run, or a dropped line, each once; a dropped line is a line of
`LPNEW` that is also a line of the old `LPREL`.  So the lines of the new `LPREL` and of `COMB`
together are the lines read, less the dropped ones, plus one for every run; and the return
value counts the lines of `COMB` behind the first lines. -/
theorem mergesort_lp_count (w fuel : Nat) ( LPREL LPNEW : List (List Char))
    (hfuel : 3 * (LPREL.length + LPNEW.length) ≤ fuel) :
    ∃ (out : MergeOut) (runs : List (List Char × List (List Char)))
      (dropped : List (List Char)),
      mergesort_lp_file_internal w fuel true LPREL LPNEW = some out ∧
      out.comb = runs.flatMap (fun r => r.1 :: r.2) ∧
      (∀ r ∈ runs, r.2 ≠ [] ∧ r.1 ∈ out.tmp ∧ ∀ l ∈ r.2, atol w l = atol w r.1) ∧
      (∀ l ∈ dropped, l ∈ LPNEW ∧ l ∈ LPREL) ∧
      List.Perm (out.tmp ++ runs.flatMap (fun r => r.2) ++ dropped) (LPREL ++ LPNEW) ∧
      out.ret = (runs.flatMap (fun r => r.2)).length ∧
      out.tmp.length + out.comb.length + dropped.length
        = LPREL.length + LPNEW.length + runs.length := by
  have key : ∃ out runs dropped, mergesort_lp_file_internal w fuel true LPREL LPNEW = some out ∧
      MergeFinal w LPREL LPNEW out runs dropped := by
    cases LPNEW with
    | nil =>
      refine ⟨_, [], [], rfl, rfl, by simp, by simp, ?_, rfl⟩
      intro x
      simp [occurrences, tailsOf]
    | cons line_new new_rest =>
      cases LPREL with
      | nil =>
        obtain ⟨runs1, hF⟩ := relEmptyLoop_trace w (line_new :: new_rest) new_rest
          (swap_lines
            { lprel := [], lpnew := new_rest, tmp := [line_new], comb := []
              line_new := line_new, line_new_old := [], line := []
              q_new := 0, q_new_old := atol w line_new, q := 0
              i := 0, c := 0, comb_in_progress := false, dropped := 0, runs := 0 })
          [] rfl (by simp)
          (by
            intro x
            simp only [swap_lines, occurrences, tailsOf, List.countP_cons, List.countP_nil]
            omega) rfl
          (by simp [swap_lines]) (by simp [swap_lines]) (by simp [swap_lines])
        exact ⟨_, runs1, [], rfl, hF⟩
      | cons line rel_rest =>
        have hm := mergeStart_measure w line_new new_rest line rel_rest MergePhase.newCatchesUp
        obtain ⟨out, hout, _⟩ := mergeRun_lp_count w
          ((line :: rel_rest).length + (line_new :: new_rest).length) fuel
          MergePhase.newCatchesUp (mergeStart w line_new new_rest line rel_rest)
          (lt_of_lt_of_le hm hfuel)
          ⟨by simp [mergeStart, pendingNew]; omega, by simp [mergeStart], by simp,
            by intro _ h; simp [mergeStart] at h⟩
        obtain ⟨runs1, dropped1, hF⟩ := mergeRun_trace w (line :: rel_rest)
          (line_new :: new_rest) fuel MergePhase.newCatchesUp
          (mergeStart w line_new new_rest line rel_rest) [] [] out
          ⟨rfl, by simp, by simp,
            by
              intro x
              simp only [mergeStart, pendingLine, occurrences, tailsOf, List.countP_cons,
                List.countP_nil, Bool.false_eq_true, and_false, if_false]
              omega,
            rfl,
            ⟨by simp [mergeStart], by simp [mergeStart],
              fun l hl => List.mem_cons_of_mem _ hl, fun l hl => List.mem_cons_of_mem _ hl⟩,
            ⟨rfl, rfl⟩, by simp, by simp [mergeStart], by simp⟩ hout
        exact ⟨out, runs1, dropped1, hout, hF⟩
  obtain ⟨out, runs, dropped, hout, hF⟩ := key
  have hs := mergeFinal_spec w LPREL LPNEW out runs dropped hF
  exact ⟨out, runs.reverse, dropped, hout, hs⟩

theorem mergesort_lp_count_witness :
    ∃ (out : MergeOut) (runs : List (List Char × List (List Char)))
      (dropped : List (List Char)),
      mergesort_lp_file_internal 64 12 true
        ["5 @ 1 : 1 2 0\n".toList, "9 @ 1 : 1 2 0\n".toList]
        ["5 @ 1 : 1 2 0\n".toList, "5 @ 2 : 1 3 0\n".toList] = some out ∧
      out.comb = runs.flatMap (fun r => r.1 :: r.2) ∧
      (∀ r ∈ runs, r.2 ≠ [] ∧ r.1 ∈ out.tmp ∧ ∀ l ∈ r.2, atol 64 l = atol 64 r.1) ∧
      (∀ l ∈ dropped, l ∈ ["5 @ 1 : 1 2 0\n".toList, "5 @ 2 : 1 3 0\n".toList] ∧
        l ∈ ["5 @ 1 : 1 2 0\n".toList, "9 @ 1 : 1 2 0\n".toList]) ∧
      List.Perm (out.tmp ++ runs.flatMap (fun r => r.2) ++ dropped)
        (["5 @ 1 : 1 2 0\n".toList, "9 @ 1 : 1 2 0\n".toList]
          ++ ["5 @ 1 : 1 2 0\n".toList, "5 @ 2 : 1 3 0\n".toList]) ∧
      out.ret = (runs.flatMap (fun r => r.2)).length ∧
      out.tmp.length + out.comb.length + dropped.length
        = ["5 @ 1 : 1 2 0\n".toList, "9 @ 1 : 1 2 0\n".toList].length
          + ["5 @ 1 : 1 2 0\n".toList, "5 @ 2 : 1 3 0\n".toList].length + runs.length :=
  mergesort_lp_count 64 12 _ _ (by decide)

/-- C14: with `3 @ 1 : 1 2 0` in `LPREL` (strictly increasing `q`) and the two lines
`5 @ 2 : 1 3 0`, `5 @ 3 : 1 4 0` in `LPNEW` (sorted), `LPREL` runs out in the loop
`while (q < q_new)` and the rest of `LPNEW` is appended as it is: the new `LPREL` carries
`q = 5` twice and nothing is written to `COMB`. -/
theorem mergesort_lp_appends_combinables :
    mergesort_lp_file_internal 64 6 true
        ["3 @ 1 : 1 2 0\n".toList] ["5 @ 2 : 1 3 0\n".toList, "5 @ 3 : 1 4 0\n".toList]
      = some { tmp := ["3 @ 1 : 1 2 0\n".toList, "5 @ 2 : 1 3 0\n".toList,
                       "5 @ 3 : 1 4 0\n".toList]
               comb := [], ret := 0, dropped := 0, runs := 0 } := by
  decide

/-- C16: in full-relations mode, with `5 : 1 2 0`, `5 : 1 3 0` in the old file and `5 : 1 3 0`
in the new one (each sorted by the comparison key and free of duplicates), the merged file
is `5 : 1 3 0`, `5 : 1 2 0`, `5 : 1 3 0`: the new line is compared with the first old line of
its key only, so the duplicate stays and the order of the key is broken. -/
theorem mergesort_full_keeps_duplicate :
    mergesort_lp_file_internal 64 9 false
        ["5 : 1 2 0\n".toList, "5 : 1 3 0\n".toList] ["5 : 1 3 0\n".toList]
      = some { tmp := ["5 : 1 3 0\n".toList, "5 : 1 2 0\n".toList, "5 : 1 3 0\n".toList]
               comb := [], ret := 3, dropped := 0, runs := 0 } ∧
    relations_cmp 64 "5 : 1 3 0\n".toList "5 : 1 2 0\n".toList > 0 := by
  decide


/-! ### Relation lines as strings -/

/-- The characters `decimal` writes. -/
theorem digitChar_props (d : Nat) (h : d < 10) :
    isdigit (Char.ofNat (48 + d)) = true ∧ (Char.ofNat (48 + d)).toNat - 48 = d ∧
    isspace (Char.ofNat (48 + d)) = false ∧ Char.ofNat (48 + d) ≠ ' ' ∧
    Char.ofNat (48 + d) ≠ '\n' ∧ Char.ofNat (48 + d) ≠ '-' ∧ Char.ofNat (48 + d) ≠ '+' ∧
    Char.ofNat (48 + d) ≠ ':' := by
  interval_cases d <;> decide

theorem isdigit_props (c : Char) (h : isdigit c = true) :
    isspace c = false ∧ c ≠ ' ' ∧ c ≠ '\n' ∧ c ≠ '-' ∧ c ≠ '+' ∧ c ≠ ':' := by
  unfold isdigit at h
  simp only [Bool.and_eq_true, decide_eq_true_eq] at h
  refine ⟨?_, ?_, ?_, ?_, ?_, ?_⟩
  · unfold isspace
    have : c ≠ ' ' := by
      intro e; rw [e] at h; revert h; decide
    simp [this]
    omega
  all_goals (intro e; rw [e] at h; revert h; decide)

theorem decimalAux_append : ∀ (fuel n : Nat) (acc : List Char),
    decimalAux fuel n acc = decimalAux fuel n [] ++ acc := by
  intro fuel
  induction fuel with
  | zero => intro n acc; simp [decimalAux]
  | succ f ih =>
    intro n acc
    simp only [decimalAux]
    split_ifs
    · simp
    · rw [ih (n / 10) (Char.ofNat (48 + n % 10) :: acc), ih (n / 10) [Char.ofNat (48 + n % 10)]]
      simp

theorem decimalAux_isdigit : ∀ (fuel n : Nat) (acc : List Char),
    (∀ c ∈ acc, isdigit c = true) → ∀ c ∈ decimalAux fuel n acc, isdigit c = true := by
  intro fuel
  induction fuel with
  | zero => intro n acc h; simpa [decimalAux] using h
  | succ f ih =>
    intro n acc h
    simp only [decimalAux]
    split_ifs with hn
    · intro c hc
      rcases List.mem_cons.mp hc with rfl | hc
      · exact (digitChar_props n hn).1
      · exact h c hc
    · apply ih
      intro c hc
      rcases List.mem_cons.mp hc with rfl | hc
      · exact (digitChar_props (n % 10) (Nat.mod_lt _ (by norm_num))).1
      · exact h c hc

theorem decimal_isdigit (n : Nat) : ∀ c ∈ decimal n, isdigit c = true :=
  decimalAux_isdigit _ _ [] (by simp)

theorem decimal_ne_nil (n : Nat) : decimal n ≠ [] := by
  unfold decimal
  rw [decimalAux]
  split_ifs
  · simp
  · rw [decimalAux_append]; simp

theorem digitsValue_decimalAux : ∀ (fuel n : Nat) (tail : List Char), n < fuel →
    digitsValue 0 (decimalAux fuel n tail) = digitsValue n tail := by
  intro fuel
  induction fuel with
  | zero => intro n tail h; omega
  | succ f ih =>
    intro n tail h
    simp only [decimalAux]
    split_ifs with hn
    · obtain ⟨h1, h2, _⟩ := digitChar_props n hn
      rw [digitsValue, if_pos h1, h2]
      simp
    · rw [ih (n / 10) _ (by omega)]
      obtain ⟨h1, h2, _⟩ := digitChar_props (n % 10) (Nat.mod_lt _ (by norm_num))
      rw [digitsValue, if_pos h1, h2]
      congr 1
      omega

/-- Reading back a decimal numeral that is followed by something other than a digit. -/
theorem digitsValue_decimal (n : Nat) (rest : List Char)
    (hrest : ∀ c ∈ rest.head?, isdigit c = false) :
    digitsValue 0 (decimal n ++ rest) = n := by
  unfold decimal
  rw [← decimalAux_append, digitsValue_decimalAux _ _ _ (Nat.lt_succ_self n)]
  cases rest with
  | nil => rfl
  | cons c s =>
    have := hrest c (by simp)
    rw [digitsValue, if_neg (by simp [this])]

theorem decimal_cons (n : Nat) : ∃ c t, decimal n = c :: t ∧ isdigit c = true := by
  cases h : decimal n with
  | nil => exact absurd h (decimal_ne_nil n)
  | cons c t => exact ⟨c, t, rfl, decimal_isdigit n c (by rw [h]; simp)⟩

theorem clampLong_of_range (w : Nat) (x : Int) (h1 : -(2 ^ (w - 1)) ≤ x)
    (h2 : x ≤ 2 ^ (w - 1) - 1) : clampLong w x = x := by
  unfold clampLong
  rw [if_neg (by omega), if_neg (by omega)]

theorem strtol_printInt (w : Nat) (x : Int) (rest : List Char)
    (hrest : ∀ c ∈ rest.head?, isdigit c = false) :
    strtol w (printInt x ++ rest) = clampLong w x := by
  unfold printInt
  split_ifs with hx
  · have hs : ('-' :: decimal x.natAbs ++ rest).dropWhile isspace
        = '-' :: (decimal x.natAbs ++ rest) := by
      rw [List.cons_append, List.dropWhile_cons_of_neg (by decide)]
    unfold strtol
    rw [hs]
    simp only
    rw [digitsValue_decimal _ _ hrest]
    congr 1
    omega
  · obtain ⟨c, t, hd, hc⟩ := decimal_cons x.natAbs
    obtain ⟨h1, _, _, h4, h5, _⟩ := isdigit_props c hc
    have hv := digitsValue_decimal x.natAbs rest hrest
    rw [hd] at hv ⊢
    have hs : (c :: t ++ rest).dropWhile isspace = c :: (t ++ rest) := by
      rw [List.cons_append, List.dropWhile_cons_of_neg (by simp [h1])]
    unfold strtol
    rw [hs]
    split
    · rename_i heq; exact absurd (List.cons.inj heq).1 h4
    · rename_i heq; exact absurd (List.cons.inj heq).1 h5
    · rw [List.cons_append] at hv
      rw [hv]
      congr 1
      omega

theorem gmp_sscanf_printInt (x : Int) (rest : List Char)
    (hrest : ∀ c ∈ rest.head?, isdigit c = false) :
    gmp_sscanf (printInt x ++ rest) = some x := by
  unfold printInt
  obtain ⟨c, t, hd, hc⟩ := decimal_cons x.natAbs
  obtain ⟨h1, _, _, h4, _⟩ := isdigit_props c hc
  have hv := digitsValue_decimal x.natAbs rest hrest
  rw [hd] at hv
  rw [List.cons_append] at hv
  split_ifs with hx
  · have hs : ('-' :: decimal x.natAbs ++ rest).dropWhile isspace
        = '-' :: c :: (t ++ rest) := by
      rw [List.cons_append, List.dropWhile_cons_of_neg (by decide), hd, List.cons_append]
    unfold gmp_sscanf
    rw [hs]
    simp only
    rw [if_pos hc, hv]
    congr 1
    omega
  · have hs : (decimal x.natAbs ++ rest).dropWhile isspace = c :: (t ++ rest) := by
      rw [hd, List.cons_append, List.dropWhile_cons_of_neg (by simp [h1])]
    unfold gmp_sscanf
    rw [hs]
    split
    · rename_i heq; exact absurd (List.cons.inj heq).1 h4
    · rename_i c2 t2 _ heq
      obtain ⟨e1, e2⟩ := List.cons.inj heq
      subst e1; subst e2
      rw [if_pos hc, hv]
      congr 1
      omega
    · rename_i heq; exact absurd heq (by simp)

/-- The bytes of a printed integer: none is a blank, a newline or a colon. -/
theorem printInt_chars (x : Int) : ∀ c ∈ printInt x, c ≠ ' ' ∧ c ≠ '\n' ∧ c ≠ ':' := by
  intro c hc
  have hdig : ∀ c ∈ decimal x.natAbs, c ≠ ' ' ∧ c ≠ '\n' ∧ c ≠ ':' := by
    intro c hc
    obtain ⟨_, h2, h3, _, _, h6⟩ := isdigit_props c (decimal_isdigit _ c hc)
    exact ⟨h2, h3, h6⟩
  unfold printInt at hc
  split_ifs at hc
  · rcases List.mem_cons.mp hc with rfl | hc
    · decide
    · exact hdig c hc
  · exact hdig c hc

theorem printInt_ne_nil (x : Int) : printInt x ≠ [] := by
  unfold printInt
  split_ifs
  · simp
  · exact decimal_ne_nil _

theorem cutAt_append (c : Char) : ∀ (s r : List Char), (∀ a ∈ s, a ≠ c) →
    cutAt c (s ++ c :: r) = some (s, r) := by
  intro s
  induction s with
  | nil => intro r _; simp [cutAt]
  | cons a s ih =>
    intro r h
    rw [List.cons_append, cutAt, if_neg (h a (by simp)), ih r (fun b hb => h b (by simp [hb]))]
    rfl

theorem foldl_add_factor (w : Nat) : ∀ (pairs : List (Nat × Nat)) (acc : List Char),
    pairs.foldl (fun str ep => add_factor w str ep.1 ep.2) acc = acc ++ pairsText w pairs := by
  intro pairs
  induction pairs with
  | nil => intro acc; simp [pairsText]
  | cons ep ps ih =>
    intro acc
    rw [List.foldl_cons, ih]
    simp [pairsText, add_factor]

theorem relString_eq (w : Nat) (pairs : List (Nat × Nat)) :
    relString w pairs = pairsText w pairs ++ [' ', '0'] := by
  unfold relString add_0
  rw [foldl_add_factor]
  simp

theorem strtokAll_append : ∀ (s cur rest : List Char), (∀ c ∈ s, c ≠ ' ' ∧ c ≠ '\n') →
    strtokAll cur (s ++ rest) = strtokAll (cur ++ s) rest := by
  intro s
  induction s with
  | nil => intro cur rest _; simp
  | cons a s ih =>
    intro cur rest h
    obtain ⟨h1, h2⟩ := h a (by simp)
    rw [List.cons_append, strtokAll]
    rw [if_neg (by simp [h1, h2])]
    rw [ih _ _ (fun c hc => h c (by simp [hc]))]
    simp

theorem strtokAll_blank (cur rest : List Char) (hcur : cur ≠ []) :
    strtokAll cur (' ' :: rest) = cur :: strtokAll [] (' ' :: rest) := by
  rw [strtokAll, strtokAll]
  simp [hcur]

theorem printLd_chars (w x : Nat) : ∀ c ∈ printLd w x, c ≠ ' ' ∧ c ≠ '\n' := by
  intro c hc
  obtain ⟨h1, h2, _⟩ := printInt_chars _ c hc
  exact ⟨h1, h2⟩

theorem pairsText_blank (w : Nat) (pairs : List (Nat × Nat)) (rest : List Char) :
    ∃ r, pairsText w pairs ++ ' ' :: rest = ' ' :: r := by
  cases pairs with
  | nil => exact ⟨rest, by simp [pairsText]⟩
  | cons ep ps => exact ⟨_, by simp [pairsText]; rfl⟩

/-- The tokens of the text of `pairs`, whatever follows the blank behind it. -/
theorem strtokAll_pairsText (w : Nat) : ∀ (pairs : List (Nat × Nat)) (rest : List Char),
    strtokAll [] (pairsText w pairs ++ ' ' :: rest)
      = pairsTokens w pairs ++ strtokAll [] (' ' :: rest) := by
  intro pairs
  induction pairs with
  | nil => intro rest; simp [pairsText, pairsTokens]
  | cons ep ps ih =>
    intro rest
    obtain ⟨r, hr⟩ := pairsText_blank w ps rest
    have e1 : pairsText w (ep :: ps) ++ ' ' :: rest
        = ' ' :: (printLd w ep.1 ++ ' ' :: (printLd w ep.2 ++ (pairsText w ps ++ ' ' :: rest))) := by
      simp [pairsText]
    have e2 : pairsTokens w (ep :: ps)
        = printLd w ep.1 :: printLd w ep.2 :: pairsTokens w ps := by
      simp [pairsTokens]
    have n1 : printLd w ep.1 ≠ [] := printInt_ne_nil _
    have n2 : printLd w ep.2 ≠ [] := printInt_ne_nil _
    rw [e1, e2]
    have s1 : strtokAll [] (' ' :: (printLd w ep.1 ++ ' ' :: (printLd w ep.2
          ++ (pairsText w ps ++ ' ' :: rest))))
        = strtokAll [] (printLd w ep.1 ++ ' ' :: (printLd w ep.2
          ++ (pairsText w ps ++ ' ' :: rest))) := by
      rw [strtokAll]; simp
    rw [s1, strtokAll_append _ _ _ (printLd_chars w ep.1), List.nil_append,
      strtokAll_blank _ _ n1]
    have s2 : strtokAll [] (' ' :: (printLd w ep.2 ++ (pairsText w ps ++ ' ' :: rest)))
        = strtokAll [] (printLd w ep.2 ++ (pairsText w ps ++ ' ' :: rest)) := by
      rw [strtokAll]; simp
    rw [s2, strtokAll_append _ _ _ (printLd_chars w ep.2), List.nil_append, hr,
      strtokAll_blank _ _ n2, ← hr, ih]
    simp

theorem atol_printLd (w x : Nat) (hw : 1 ≤ w) (hx : (x : Int) < 2 ^ (w - 1)) :
    atol w (printLd w x) = (x : Int) := by
  have hpow : (2 : Int) ^ w = 2 * 2 ^ (w - 1) := by
    obtain ⟨k, rfl⟩ : ∃ k, w = k + 1 := ⟨w - 1, by omega⟩
    simp [pow_succ]; ring
  have hp : (0 : Int) < 2 ^ (w - 1) := by positivity
  have h := strtol_printInt w (wrapLong w x) [] (by simp)
  rw [List.append_nil] at h
  unfold atol printLd
  rw [h, wrapLong_of_range w _ hpow (by omega) hx]
  exact clampLong_of_range w _ (by omega) (by omega)

theorem atol_zero (w : Nat) : atol w ['0'] = 0 := by
  have hp : (0 : Int) < 2 ^ (w - 1) := by positivity
  have h := strtol_printInt w 0 [] (by simp)
  have e : printInt 0 ++ [] = ['0'] := by decide
  rw [e] at h
  unfold atol
  rw [h]
  exact clampLong_of_range w 0 (by omega) (by omega)

theorem tokenPairs_pairsTokens (w : Nat) (hw : 1 ≤ w) : ∀ (pairs : List (Nat × Nat)),
    (∀ ep ∈ pairs, 0 < ep.1 ∧ (ep.1 : Int) < 2 ^ (w - 1) ∧ (ep.2 : Int) < 2 ^ (w - 1)) →
    tokenPairs w (pairsTokens w pairs ++ [['0']])
      = some (pairs.map (fun ep => ((ep.1 : Int), (ep.2 : Int)))) := by
  intro pairs
  induction pairs with
  | nil => intro _; simp [pairsTokens, tokenPairs, atol_zero]
  | cons ep ps ih =>
    intro h
    obtain ⟨h1, h2, h3⟩ := h ep (by simp)
    have e2 : pairsTokens w (ep :: ps) ++ [['0']]
        = printLd w ep.1 :: printLd w ep.2 :: (pairsTokens w ps ++ [['0']]) := by
      simp [pairsTokens]
    rw [e2, tokenPairs, atol_printLd w _ hw h2, atol_printLd w _ hw h3,
      if_neg (by omega), ih (fun e he => h e (by simp [he]))]
    simp

theorem natPairs_cast (pairs : List (Nat × Nat)) :
    natPairs (pairs.map (fun ep => ((ep.1 : Int), (ep.2 : Int)))) = pairs := by
  unfold natPairs
  rw [List.map_map]
  conv_rhs => rw [← List.map_id pairs]
  apply List.map_congr_left
  intro ep _
  simp

theorem pairsText_chars (w : Nat) (pairs : List (Nat × Nat)) :
    ∀ c ∈ pairsText w pairs, c ≠ '\n' := by
  intro c hc
  unfold pairsText at hc
  rw [List.mem_flatMap] at hc
  obtain ⟨ep, _, hc⟩ := hc
  simp only [List.mem_cons, List.mem_append] at hc
  rcases hc with (rfl | hc) | rfl | hc
  · decide
  · exact (printLd_chars w _ c hc).2
  · decide
  · exact (printLd_chars w _ c hc).2

/-- The string `rel_str` is a blank followed by the text `E` that `set_lp_entry` cuts out;
`E` has no newline and its tokens are the numerals of the pairs and the closing `0`, also
when a newline follows. -/
theorem relString_shape (w : Nat) (pairs : List (Nat × Nat)) :
    ∃ E, relString w pairs = ' ' :: E ∧ (∀ c ∈ E, c ≠ '\n') ∧
      strtokAll [] E = pairsTokens w pairs ++ [['0']] ∧
      strtokAll [] (E ++ ['\n']) = pairsTokens w pairs ++ [['0']] := by
  obtain ⟨E, hE⟩ := pairsText_blank w pairs ['0']
  have hskip : ∀ s, strtokAll [] (' ' :: s) = strtokAll [] s := by
    intro s; rw [strtokAll]; simp
  refine ⟨E, by rw [relString_eq]; exact hE, ?_, ?_, ?_⟩
  · intro c hc
    have hmem : c ∈ pairsText w pairs ++ [' ', '0'] := by
      rw [hE]; exact List.mem_cons_of_mem _ hc
    rcases List.mem_append.mp hmem with h | h
    · exact pairsText_chars w pairs c h
    · simp only [List.mem_cons, List.mem_singleton, List.not_mem_nil, or_false] at h
      rcases h with rfl | rfl <;> decide
  · rw [← hskip E, ← hE, strtokAll_pairsText]
    congr 1
  · have e : ' ' :: (E ++ ['\n']) = pairsText w pairs ++ ' ' :: ['0', '\n'] := by
      rw [← List.cons_append, ← hE]; simp
    rw [← hskip (E ++ ['\n']), e, strtokAll_pairsText]
    congr 1

theorem set_exponents_positive (numPrimes : Nat) (pairs : List (Nat × Nat))
    (hpos : ∀ ep ∈ pairs, 0 < ep.1) (hidx : ∀ ep ∈ pairs, ep.2 < numPrimes) (l : Nat) :
    (set_exponents (List.replicate numPrimes 0) pairs).getD l 0
      = ((pairs.filter (fun ep => ep.2 = l)).map (fun ep => ep.1)).sum := by
  have h := (set_exponents_spec (List.replicate numPrimes 0) pairs
    (by simpa using hidx)).2 l
  rw [h, getD_replicate_zero, Nat.zero_add]
  unfold exponentOf
  rw [List.takeWhile_eq_self_iff.mpr (fun ep hep => by simpa using (hpos ep hep).ne')]

/-- Reading back a line that fits the buffers.  For `q` in the range of a `long`, every
integer `X` and pairs with positive exponents (exponents and indices in the range of a
`long`), when the partial line `q @ X : e1 p1 ... 0` has fewer than `MPQS_STRING_LENGTH` bytes
and the numerals of `q` and `X` fewer than 200, the line is built within its arrays, one
`fgets` delivers it, `set_lp_entry` cuts it into `q`, the numeral of `X` and the exponent
text, which the loop of `set_exponents` reads back as the pairs written, so that a zeroed
array receives at every index the sum of the exponents written for it; the tokenizer of
`read_matrix` recovers `X` and the pairs from the full line `X : e1 p1 ... 0`. -/
theorem relation_line_round_trip (w numPrimes : Nat) (q X : Int) (pairs : List (Nat × Nat))
    (hw : 1 ≤ w) (hq0 : 0 < q) (hq : q < 2 ^ (w - 1))
    (hp : ∀ ep ∈ pairs, 0 < ep.1 ∧ (ep.1 : Int) < 2 ^ (w - 1) ∧ (ep.2 : Int) < 2 ^ (w - 1))
    (hidx : ∀ ep ∈ pairs, ep.2 < numPrimes)
    (hlen : (partialLine w q X pairs).length < MPQS_STRING_LENGTH)
    (hqlen : (printInt q).length < 200) (hXlen : (printInt X).length < 200) :
    writePartial w q X pairs = some (partialLine w q X pairs) ∧
    writeFull w X pairs = some (fullLine w X pairs) ∧
    set_lp_entry w (fgets MPQS_STRING_LENGTH (partialLine w q X pairs))
      = some (q, printInt X, (relString w pairs).drop 1) ∧
    lpEntryOfLine w (fgets MPQS_STRING_LENGTH (partialLine w q X pairs))
      = some { q := q, Y := X, E := pairs } ∧
    (∀ l, (set_exponents (List.replicate numPrimes 0) pairs).getD l 0
      = ((pairs.filter (fun ep => ep.2 = l)).map (fun ep => ep.1)).sum) ∧
    relLineOfLine w (fgets MPQS_STRING_LENGTH (fullLine w X pairs))
      = some { X := X, pairs := pairs } := by
  obtain ⟨E, hE, hEn, ht1, ht2⟩ := relString_shape w pairs
  have hblank : ∀ x : Int, ∀ a ∈ printInt x, a ≠ ' ' := fun x a ha => (printInt_chars x a ha).1
  have hlen' : (printInt q).length + 3 + (printInt X).length + 2 + (relString w pairs).length + 1
      < MPQS_STRING_LENGTH := by
    have := hlen
    unfold partialLine at this
    simp only [List.length_append, List.length_cons, List.length_nil] at this
    omega
  have hrel : (relString w pairs).length < MPQS_STRING_LENGTH := by omega
  have hElen : E.length < MPQS_STRING_LENGTH := by
    have : (relString w pairs).length = E.length + 1 := by rw [hE]; simp
    omega
  have hXl : (printInt X).length < MPQS_STRING_LENGTH := by omega
  have hget1 : fgets MPQS_STRING_LENGTH (partialLine w q X pairs) = partialLine w q X pairs := by
    unfold fgets
    exact List.take_of_length_le (by omega)
  have hfl : (fullLine w X pairs).length < MPQS_STRING_LENGTH := by
    unfold fullLine
    simp only [List.length_append, List.length_cons, List.length_nil]
    omega
  have hget2 : fgets MPQS_STRING_LENGTH (fullLine w X pairs) = fullLine w X pairs := by
    unfold fgets
    exact List.take_of_length_le (by omega)
  have hatol : atol w (printInt q) = q := by
    have h := strtol_printInt w q [] (by simp)
    rw [List.append_nil] at h
    unfold atol
    rw [h]
    exact clampLong_of_range w q (by omega) (by omega)
  have hset : set_lp_entry w (partialLine w q X pairs) = some (q, printInt X, E) := by
    have e1 : partialLine w q X pairs
        = printInt q ++ ' ' :: ('@' :: ' ' :: (printInt X ++ ' ' :: (':' :: ' ' :: (E ++ '\n' :: []))))
        := by
      unfold partialLine; rw [hE]; simp
    unfold set_lp_entry
    rw [e1, cutAt_append _ _ _ (hblank q)]
    simp only [List.drop_succ_cons, List.drop_zero]
    rw [cutAt_append _ _ _ (hblank X)]
    simp only [List.drop_succ_cons, List.drop_zero]
    rw [cutAt_append _ _ _ hEn, hatol]
    simp only [intoBuffer, if_pos hXl, if_pos hElen]
  have htok := tokenPairs_pairsTokens w hw pairs hp
  refine ⟨?_, ?_, by rw [hget1, hset, hE]; rfl, ?_, ?_, ?_⟩
  · unfold writePartial partialLine
    simp only [intoBuffer, if_pos hrel, if_pos hXlen, if_pos hqlen]
  · unfold writeFull fullLine
    simp only [intoBuffer, if_pos hrel, if_pos hXlen]
  · unfold lpEntryOfLine
    rw [hget1, hset]
    simp only
    have hy := gmp_sscanf_printInt X [] (by simp)
    rw [List.append_nil] at hy
    rw [hy, ht1, htok]
    simp only [natPairs_cast]
  · exact set_exponents_positive numPrimes pairs (fun ep hep => (hp ep hep).1) hidx
  · have e2 : fullLine w X pairs
        = (printInt X ++ [' ']) ++ ':' :: (' ' :: (E ++ ['\n'])) := by
      unfold fullLine; rw [hE]; simp
    have e3 : fullLine w X pairs = printInt X ++ ' ' :: (':' :: ' ' :: (E ++ ['\n'])) := by
      unfold fullLine; rw [hE]; simp
    have hx : gmp_sscanf (fullLine w X pairs) = some X := by
      rw [e3]; exact gmp_sscanf_printInt X _ (by simp; decide)
    have hcut : cutAt ':' (fullLine w X pairs) = some (printInt X ++ [' '], ' ' :: (E ++ ['\n'])) := by
      rw [e2]
      apply cutAt_append
      intro a ha
      rcases List.mem_append.mp ha with h | h
      · exact (printInt_chars X a h).2.2
      · simp only [List.mem_singleton] at h
        rw [h]; decide
    unfold relLineOfLine
    rw [hget2, hx, hcut]
    simp only [List.drop_succ_cons, List.drop_zero]
    rw [ht2, htok]
    simp only [Option.map_some', natPairs_cast]

set_option maxRecDepth 100000 in
theorem relation_line_round_trip_witness :
    writePartial 64 1009 (-12345) [(2, 1), (1, 7), (1, 1)]
      = some (partialLine 64 1009 (-12345) [(2, 1), (1, 7), (1, 1)]) ∧
    writeFull 64 (-12345) [(2, 1), (1, 7), (1, 1)]
      = some (fullLine 64 (-12345) [(2, 1), (1, 7), (1, 1)]) ∧
    set_lp_entry 64 (fgets MPQS_STRING_LENGTH (partialLine 64 1009 (-12345) [(2, 1), (1, 7), (1, 1)]))
      = some (1009, printInt (-12345), (relString 64 [(2, 1), (1, 7), (1, 1)]).drop 1) ∧
    lpEntryOfLine 64 (fgets MPQS_STRING_LENGTH (partialLine 64 1009 (-12345) [(2, 1), (1, 7), (1, 1)]))
      = some { q := 1009, Y := -12345, E := [(2, 1), (1, 7), (1, 1)] } ∧
    (∀ l, (set_exponents (List.replicate 8 0) [(2, 1), (1, 7), (1, 1)]).getD l 0
      = (([(2, 1), (1, 7), (1, 1)].filter (fun ep => ep.2 = l)).map (fun ep => ep.1)).sum) ∧
    relLineOfLine 64 (fgets MPQS_STRING_LENGTH (fullLine 64 (-12345) [(2, 1), (1, 7), (1, 1)]))
      = some { X := -12345, pairs := [(2, 1), (1, 7), (1, 1)] } :=
  relation_line_round_trip 64 8 1009 (-12345) [(2, 1), (1, 7), (1, 1)] (by decide) (by decide)
    (by decide) (by decide) (by decide) (by decide) (by decide) (by decide)

theorem classify_cases (res : Int) (largeprime : Nat) (X : Int) (pairs : List (Nat × Nat))
    (hlp : 1000 < largeprime) :
    (classify res largeprime X pairs = SieveOutput.fullRel X pairs ∧ |res| ≤ 1000) ∨
    (classify res largeprime X pairs = SieveOutput.partialRel |res| X pairs ∧
      1000 < |res| ∧ |res| < (largeprime : Int)) ∨
    (classify res largeprime X pairs = SieveOutput.nothing ∧ (largeprime : Int) ≤ |res|) := by
  have hl : (1000 : Int) < (largeprime : Int) := by exact_mod_cast hlp
  unfold classify
  rcases le_or_lt 0 res with h0 | h0
  · rw [abs_of_nonneg h0]
    split_ifs <;> simp <;> omega
  · rw [abs_of_neg h0]
    split_ifs <;> simp <;> omega

/-- One evaluation of a candidate position that passes the size test, with `r` what the
trial division leaves and `largeprime > 1000`, writes one full relation exactly when
`|r| ≤ 1000`, one partial relation, with leading `q = |r|`, exactly when
`1000 < |r| < largeprime`, and nothing exactly when `|r| ≥ largeprime`; the line carries
`X = A*x + B` and the pairs of the three `add_factor` loops, and a partial line has
`1000 < q < largeprime`. -/
theorem evaluateSieve_classifies (inp : EvalInput) (hsize : inp.passesSizeTest)
    (hlp : 1000 < inp.largeprime) :
    (evaluatePosition inp = SieveOutput.fullRel inp.X (writtenPairs inp (trialAll inp))
      ↔ |(trialAll inp).res| ≤ 1000) ∧
    (evaluatePosition inp
        = SieveOutput.partialRel |(trialAll inp).res| inp.X (writtenPairs inp (trialAll inp))
      ↔ 1000 < |(trialAll inp).res| ∧ |(trialAll inp).res| < (inp.largeprime : Int)) ∧
    (evaluatePosition inp = SieveOutput.nothing
      ↔ (inp.largeprime : Int) ≤ |(trialAll inp).res|) ∧
    (∀ X pairs, evaluatePosition inp = SieveOutput.fullRel X pairs →
      |(trialAll inp).res| ≤ 1000) ∧
    (∀ q X pairs, evaluatePosition inp = SieveOutput.partialRel q X pairs →
      q = |(trialAll inp).res| ∧ 1000 < q ∧ q < (inp.largeprime : Int)) := by
  have hl : (1000 : Int) < (inp.largeprime : Int) := by exact_mod_cast hlp
  have he : evaluatePosition inp
      = classify (trialAll inp).res inp.largeprime inp.X (writtenPairs inp (trialAll inp)) := by
    unfold evaluatePosition; rw [if_pos hsize]
  rw [he]
  rcases classify_cases (trialAll inp).res inp.largeprime inp.X
    (writtenPairs inp (trialAll inp)) hlp with ⟨h, hr⟩ | ⟨h, hr1, hr2⟩ | ⟨h, hr⟩
  · rw [h]
    refine ⟨by simp [hr], by simp; omega, by simp; omega, fun _ _ _ => hr, ?_⟩
    intro q X pairs hq; simp at hq
  · rw [h]
    refine ⟨by simp; omega, by simp [hr1, hr2], by simp; omega, ?_, ?_⟩
    · intro X pairs hq; simp at hq
    · intro q X pairs hq
      simp only [SieveOutput.partialRel.injEq] at hq
      rw [← hq.1]; exact ⟨rfl, hr1, hr2⟩
  · rw [h]
    refine ⟨by simp; omega, by simp; omega, by simp [hr], ?_, ?_⟩
    · intro X pairs hq; simp at hq
    · intro q X pairs hq; simp at hq

set_option maxRecDepth 100000 in
theorem evaluateSieve_classifies_witness :
    (evaluatePosition evalExample
        = SieveOutput.fullRel evalExample.X (writtenPairs evalExample (trialAll evalExample))
      ↔ |(trialAll evalExample).res| ≤ 1000) ∧
    (evaluatePosition evalExample
        = SieveOutput.partialRel |(trialAll evalExample).res| evalExample.X
            (writtenPairs evalExample (trialAll evalExample))
      ↔ 1000 < |(trialAll evalExample).res| ∧
        |(trialAll evalExample).res| < (evalExample.largeprime : Int)) ∧
    (evaluatePosition evalExample = SieveOutput.nothing
      ↔ (evalExample.largeprime : Int) ≤ |(trialAll evalExample).res|) ∧
    (∀ X pairs, evaluatePosition evalExample = SieveOutput.fullRel X pairs →
      |(trialAll evalExample).res| ≤ 1000) ∧
    (∀ q X pairs, evaluatePosition evalExample = SieveOutput.partialRel q X pairs →
      q = |(trialAll evalExample).res| ∧ 1000 < q ∧ q < (evalExample.largeprime : Int)) :=
  evaluateSieve_classifies evalExample (by decide) (by decide)


theorem removeLoop_spec (f : Int) : ∀ (fuel : Nat) (res : Int) (e : Nat),
    (removeLoop f fuel res e).1 * f ^ (removeLoop f fuel res e).2 = res * f ^ e ∧
    e ≤ (removeLoop f fuel res e).2 ∧
    (res ≠ 0 → (removeLoop f fuel res e).1 ≠ 0) ∧
    (1 ≤ fuel → f ∣ res → e < (removeLoop f fuel res e).2) := by
  intro fuel
  induction fuel with
  | zero => intro res e; simp [removeLoop]
  | succ n ih =>
    intro res e
    rw [removeLoop]
    split_ifs with hd
    · obtain ⟨h1, h2, h3, _⟩ := ih (res / f) (e + 1)
      have hdiv : f ∣ res := Int.dvd_of_emod_eq_zero hd
      refine ⟨?_, by omega, ?_, fun _ _ => by omega⟩
      · rw [h1, pow_succ]
        have hc := Int.ediv_mul_cancel hdiv
        calc res / f * (f ^ e * f) = (res / f * f) * f ^ e := by ring
          _ = res * f ^ e := by rw [hc]
      · intro hres
        apply h3
        intro h0
        have := Int.ediv_mul_cancel hdiv
        rw [h0, zero_mul] at this
        exact hres this.symm
    · refine ⟨rfl, le_refl _, fun h => h, fun _ hdiv => ?_⟩
      exact absurd (Int.emod_eq_zero_of_dvd hdiv) hd

theorem mpz_remove_spec (res : Int) (f : Nat) :
    (mpz_remove res f).1 * (f : Int) ^ (mpz_remove res f).2 = res ∧
    (res ≠ 0 → (mpz_remove res f).1 ≠ 0) ∧
    (2 ≤ f → res ≠ 0 → (f : Int) ∣ res → 0 < (mpz_remove res f).2) := by
  unfold mpz_remove
  split_ifs with h
  · refine ⟨by simp, fun h0 => h0, fun h2 h0 _ => ?_⟩
    rcases h with h | h
    · omega
    · exact absurd h h0
  · obtain ⟨h1, _, h3, h4⟩ := removeLoop_spec (f : Int) res.natAbs res 0
    refine ⟨by simpa using h1, h3, fun _ h0 hd => h4 ?_ hd⟩
    exact Int.natAbs_pos.mpr h0

theorem evalQ_eq (inp : EvalInput) :
    inp.Q = polyQ inp.A inp.B inp.C
      ((((inp.i + inp.ctimesreps : Nat) : Int)) - (inp.Mdiv2 : Int)) := by
  unfold EvalInput.Q sieveQ polyQ
  ring

theorem polyQ_congr (A B C x y p : Int) (h : x ≡ y [ZMOD p]) :
    polyQ A B C x ≡ polyQ A B C y [ZMOD p] := by
  unfold polyQ
  exact ((Int.ModEq.refl _).mul (h.pow 2)).add (((Int.ModEq.refl _).mul h)) |>.add
    (Int.ModEq.refl _)

/-- A position that matches a right root of index `k` has `Q` divisible by the prime. -/
theorem rootHit_dvd (inp : EvalInput) (k : Nat) (hr : RootsRight inp k) (hh : rootHit inp k) :
    ((inp.factorBase.getD k 0 : Nat) : Int) ∣ inp.Q := by
  have hmod : ((((inp.i + inp.ctimesreps) % inp.factorBase.getD k 0 : Nat)) : Int)
      ≡ ((inp.i + inp.ctimesreps : Nat) : Int) [ZMOD ((inp.factorBase.getD k 0 : Nat) : Int)] := by
    rw [Int.natCast_mod]
    exact Int.mod_modEq _ _
  rw [evalQ_eq]
  apply Int.modEq_zero_iff_dvd.mp
  rcases hh with h | h
  · rw [h] at hmod
    exact (polyQ_congr _ _ _ _ _ _ (hmod.symm.sub_right _)).trans hr.1
  · rw [h] at hmod
    exact (polyQ_congr _ _ _ _ _ _ (hmod.symm.sub_right _)).trans hr.2

theorem trialInv_remove (inp : EvalInput) (k : Nat) (st : TrialState)
    (hcop : ∀ k', k' < inp.cfg.numPrimes → ∀ j, j < k' →
      Nat.Coprime (inp.factorBase.getD j 0) (inp.factorBase.getD k' 0))
    (h : TrialInv inp k st) (extra : Nat) (exps : List Nat) (facts : List (Nat × Nat))
    (hf : ∀ ep ∈ facts, 0 < ep.1) :
    TrialInv inp (k + 1)
      { res := (mpz_remove st.res (inp.factorBase.getD k 0)).1, extra := extra
        exponents := exps, factors := facts } := by
  obtain ⟨⟨m, hm, hc⟩, h0, _⟩ := h
  obtain ⟨r1, r2, _⟩ := mpz_remove_spec st.res (inp.factorBase.getD k 0)
  refine ⟨⟨((inp.factorBase.getD k 0 : Nat) : Int)
      ^ (mpz_remove st.res (inp.factorBase.getD k 0)).2 * m, ?_, ?_⟩, r2 h0, hf⟩
  · simp only
    rw [← mul_assoc, r1]; exact hm
  · intro k' hk hk'
    apply IsCoprime.mul_left
    · apply IsCoprime.pow_left
      exact Nat.isCoprime_iff_coprime.mpr (hcop k' hk' k (by omega))
    · exact hc k' (by omega) hk'

theorem trialInv_mono (inp : EvalInput) (k : Nat) (st st2 : TrialState)
    (h : TrialInv inp k st) (hres : st2.res = st.res) (hfac : st2.factors = st.factors) :
    TrialInv inp (k + 1) st2 := by
  obtain ⟨⟨m, hm, hc⟩, h0, hf⟩ := h
  refine ⟨⟨m, by rw [hres]; exact hm, fun k' hk hk' => hc k' (by omega) hk'⟩,
    by rw [hres]; exact h0, by rw [hfac]; exact hf⟩

/-- A right root that is hit gives a positive exponent. -/
theorem trialInv_hit (inp : EvalInput) (k : Nat) (st : TrialState) (h : TrialInv inp k st)
    (hk : k < inp.cfg.numPrimes) (h2 : 2 ≤ inp.factorBase.getD k 0)
    (hr : RootsRight inp k) (hh : rootHit inp k) :
    0 < (mpz_remove st.res (inp.factorBase.getD k 0)).2 := by
  obtain ⟨⟨m, hm, hc⟩, h0, _⟩ := h
  have hd := rootHit_dvd inp k hr hh
  rw [hm] at hd
  have hdvd : ((inp.factorBase.getD k 0 : Nat) : Int) ∣ st.res :=
    (hc k (le_refl _) hk).symm.dvd_of_dvd_mul_right hd
  exact (mpz_remove_spec st.res _).2.2 h2 h0 hdvd

theorem factors_append_pos (facts : List (Nat × Nat)) (e k : Nat)
    (hf : ∀ ep ∈ facts, 0 < ep.1) (he : 0 < e) : ∀ ep ∈ facts ++ [(e, k)], 0 < ep.1 := by
  intro ep hep
  rcases List.mem_append.mp hep with h | h
  · exact hf ep h
  · simp only [List.mem_singleton] at h
    rw [h]; exact he

theorem firstStep_inv (inp : EvalInput) (k : Nat) (st : TrialState)
    (hcop : ∀ k', k' < inp.cfg.numPrimes → ∀ j, j < k' →
      Nat.Coprime (inp.factorBase.getD j 0) (inp.factorBase.getD k' 0))
    (h : TrialInv inp k st) : TrialInv inp (k + 1) (firstStep inp st k) := by
  unfold firstStep
  split_ifs
  · exact trialInv_remove inp k st hcop h _ _ _ h.2.2
  · exact trialInv_mono inp k st _ h rfl rfl
  · exact trialInv_remove inp k st hcop h _ _ _ h.2.2

theorem secondStep_inv (inp : EvalInput) (k : Nat) (st : TrialState)
    (hcop : ∀ k', k' < inp.cfg.numPrimes → ∀ j, j < k' →
      Nat.Coprime (inp.factorBase.getD j 0) (inp.factorBase.getD k' 0))
    (hk : k < inp.cfg.numPrimes)
    (hroot : inp.solns.soln2.getD k 0 ≠ 0xFFFFFFFF →
      2 ≤ inp.factorBase.getD k 0 ∧ RootsRight inp k)
    (h : TrialInv inp k st) : TrialInv inp (k + 1) (secondStep inp st k) := by
  unfold secondStep
  by_cases hs : inp.solns.soln2.getD k 0 ≠ 0xFFFFFFFF
  · rw [if_pos hs]
    obtain ⟨h2, hr⟩ := hroot hs
    by_cases hh : rootHit inp k
    · rw [if_pos hh]
      exact trialInv_remove inp k st hcop h _ _ _
        (factors_append_pos _ _ _ h.2.2 (trialInv_hit inp k st h hk h2 hr hh))
    · rw [if_neg hh]
      exact trialInv_mono inp k st _ h rfl rfl
  · rw [if_neg hs]
    apply trialInv_remove inp k st hcop h
    by_cases hz : (mpz_remove st.res (inp.factorBase.getD k 0)).2 ≠ 0
    · rw [if_pos hz]
      exact factors_append_pos _ _ _ h.2.2 (Nat.pos_of_ne_zero hz)
    · rw [if_neg hz]
      exact h.2.2

theorem thirdStep_inv (inp : EvalInput) (k : Nat) (st : TrialState)
    (hcop : ∀ k', k' < inp.cfg.numPrimes → ∀ j, j < k' →
      Nat.Coprime (inp.factorBase.getD j 0) (inp.factorBase.getD k' 0))
    (hk : k < inp.cfg.numPrimes)
    (hroot : 2 ≤ inp.factorBase.getD k 0 ∧ RootsRight inp k)
    (h : TrialInv inp k st) : TrialInv inp (k + 1) (thirdStep inp st k) := by
  unfold thirdStep
  split_ifs with hs hh
  · exact trialInv_remove inp k st hcop h _ _ _
      (factors_append_pos _ _ _ h.2.2 (trialInv_hit inp k st h hk hroot.1 hroot.2 hh))
  · exact trialInv_mono inp k st _ h rfl rfl
  · exact trialInv_mono inp k st _ h rfl rfl

theorem trialInv_le (inp : EvalInput) (k k' : Nat) (st : TrialState) (hk : k ≤ k')
    (h : TrialInv inp k st) : TrialInv inp k' st := by
  obtain ⟨⟨m, hm, hc⟩, h0, hf⟩ := h
  exact ⟨⟨m, hm, fun j hj hj' => hc j (by omega) hj'⟩, h0, hf⟩

/-- A loop of the trial division keeps the invariant, wherever the test on `extra` stops
it. -/
theorem trialLoop_inv (inp : EvalInput)
    (step : EvalInput → TrialState → Nat → TrialState) (lo bound : Nat)
    (hstep : ∀ k st, lo ≤ k → k < bound → TrialInv inp k st →
      TrialInv inp (k + 1) (step inp st k)) :
    ∀ (n k : Nat) (st : TrialState), lo ≤ k → k + n ≤ bound → TrialInv inp k st →
    TrialInv inp (k + n) (trialLoop inp step n k st) := by
  intro n
  induction n with
  | zero => intro k st _ _ h; exact h
  | succ n ih =>
    intro k st hlo hb h
    rw [trialLoop]
    split_ifs
    · have := ih (k + 1) _ (by omega) (by omega) (hstep k st hlo (by omega) h)
      rw [show k + (n + 1) = k + 1 + n by omega]
      exact this
    · exact trialInv_le inp k _ st (by omega) h

theorem trialStart_inv (inp : EvalInput) (hQ : inp.Q ≠ 0)
    (hcop : ∀ k', k' < inp.cfg.numPrimes → ∀ j, j < k' →
      Nat.Coprime (inp.factorBase.getD j 0) (inp.factorBase.getD k' 0)) :
    TrialInv inp 2 (trialStart inp) := by
  have h0 : TrialInv inp 0 ⟨inp.Q, 0, inp.exponents, []⟩ :=
    ⟨⟨1, by simp, fun _ _ _ => isCoprime_one_left⟩, hQ, by simp⟩
  unfold trialStart
  by_cases h1 : inp.factorBase.getD 0 0 ≠ 1
  · simp only [if_pos h1]
    have a := trialInv_remove inp 0 ⟨inp.Q, 0, inp.exponents, []⟩ hcop h0
      (if (mpz_remove inp.Q (inp.factorBase.getD 0 0)).2 ≠ 0
        then inp.primeSizes.getD 0 0 % 256 else 0)
      (inp.exponents.set 0 (mpz_remove inp.Q (inp.factorBase.getD 0 0)).2) [] (by simp)
    exact trialInv_remove inp 1 _ hcop a _ _ [] (by simp)
  · simp only [if_neg h1]
    have a : TrialInv inp 1 ⟨inp.Q, 0, inp.exponents, []⟩ :=
      trialInv_mono inp 0 ⟨inp.Q, 0, inp.exponents, []⟩ _ h0 rfl rfl
    exact trialInv_remove inp 1 _ hcop a _ _ [] (by simp)

theorem firstFold_inv (inp : EvalInput)
    (hcop : ∀ k', k' < inp.cfg.numPrimes → ∀ j, j < k' →
      Nat.Coprime (inp.factorBase.getD j 0) (inp.factorBase.getD k' 0)) :
    ∀ (n k : Nat) (st : TrialState), TrialInv inp k st →
      TrialInv inp (k + n) ((List.range' k n).foldl (firstStep inp) st) := by
  intro n
  induction n with
  | zero => intro k st h; exact h
  | succ n ih =>
    intro k st h
    rw [List.range'_succ, List.foldl_cons]
    have := ih (k + 1) _ (firstStep_inv inp k st hcop h)
    rw [show k + (n + 1) = k + 1 + n by omega]
    exact this

theorem trialAll_inv (inp : EvalInput) (hord : inp.cfg.Ordered) (hfirst : 2 ≤ inp.cfg.firstprime)
    (hQ : inp.Q ≠ 0)
    (hcop : ∀ k', k' < inp.cfg.numPrimes → ∀ j, j < k' →
      Nat.Coprime (inp.factorBase.getD j 0) (inp.factorBase.getD k' 0))
    (hroots : ∀ k, k < inp.cfg.numPrimes → inp.cfg.firstprime ≤ k →
      (k < inp.cfg.secondprime → inp.solns.soln2.getD k 0 ≠ 0xFFFFFFFF) →
      2 ≤ inp.factorBase.getD k 0 ∧ RootsRight inp k) :
    TrialInv inp inp.cfg.numPrimes (trialAll inp) := by
  obtain ⟨o1, o2, o3, o4⟩ := hord
  have h1 : TrialInv inp inp.cfg.firstprime (trialFirst inp) := by
    have := firstFold_inv inp hcop (inp.cfg.firstprime - 2) 2 _ (trialStart_inv inp hQ hcop)
    rw [show 2 + (inp.cfg.firstprime - 2) = inp.cfg.firstprime by omega] at this
    exact this
  have h2 := trialLoop_inv inp secondStep inp.cfg.firstprime inp.cfg.secondprime
    (fun k st hlo hb h => secondStep_inv inp k st hcop (by omega)
      (fun hs => hroots k (by omega) hlo (fun _ => hs)) h)
    (inp.cfg.secondprime - inp.cfg.firstprime) inp.cfg.firstprime _
    (le_refl _) (by omega) h1
  rw [show inp.cfg.firstprime + (inp.cfg.secondprime - inp.cfg.firstprime)
    = inp.cfg.secondprime by omega] at h2
  have h3 := trialLoop_inv inp thirdStep inp.cfg.secondprime inp.cfg.numPrimes
    (fun k st hlo hb h => thirdStep_inv inp k st hcop hb
      (hroots k hb (by omega) (fun hk => absurd hk (by omega))) h)
    (inp.cfg.numPrimes - inp.cfg.secondprime) inp.cfg.secondprime _
    (le_refl _) (by omega) h2
  rw [show inp.cfg.secondprime + (inp.cfg.numPrimes - inp.cfg.secondprime)
    = inp.cfg.numPrimes by omega] at h3
  exact h3

/-- Where `Q` is not zero: every pair `(exponent, index)` that one evaluation writes into a
full or partial relation line has a positive exponent, in every range of the factor base,
provided `Q` is not zero at the position, the entries of the factor base are pairwise
coprime, and the roots tested without a look at the exponent (index from `firstprime` on,
not marked by the sentinel below `secondprime`) are roots of `Q` modulo an entry that is at
least 2. -/
theorem evaluateSieve_exponents_positive (inp : EvalInput) (hord : inp.cfg.Ordered)
    (hfirst : 2 ≤ inp.cfg.firstprime) (hQ : inp.Q ≠ 0)
    (hcop : ∀ k', k' < inp.cfg.numPrimes → ∀ j, j < k' →
      Nat.Coprime (inp.factorBase.getD j 0) (inp.factorBase.getD k' 0))
    (hroots : ∀ k, k < inp.cfg.numPrimes → inp.cfg.firstprime ≤ k →
      (k < inp.cfg.secondprime → inp.solns.soln2.getD k 0 ≠ 0xFFFFFFFF) →
      2 ≤ inp.factorBase.getD k 0 ∧ RootsRight inp k) :
    (∀ ep ∈ writtenPairs inp (trialAll inp), 0 < ep.1) ∧
    (∀ X pairs, evaluatePosition inp = SieveOutput.fullRel X pairs →
      ∀ ep ∈ pairs, 0 < ep.1) ∧
    (∀ q X pairs, evaluatePosition inp = SieveOutput.partialRel q X pairs →
      ∀ ep ∈ pairs, 0 < ep.1) := by
  have hinv := trialAll_inv inp hord hfirst hQ hcop hroots
  have hw : ∀ ep ∈ writtenPairs inp (trialAll inp), 0 < ep.1 := by
    intro ep hep
    unfold writtenPairs at hep
    rcases List.mem_append.mp hep with h | h
    · rcases List.mem_append.mp h with h | h
      · obtain ⟨i, hi, rfl⟩ := List.mem_map.mp h
        have := (List.mem_filter.mp hi).2
        simp only [ne_eq, decide_not, Bool.not_eq_true', decide_eq_false_iff_not] at this
        exact Nat.pos_of_ne_zero this
      · exact hinv.2.2 ep h
    · obtain ⟨j, _, rfl⟩ := List.mem_map.mp h
      exact Nat.one_pos
  have hcl : ∀ out, evaluatePosition inp = out →
      out = SieveOutput.nothing ∨
      (∃ q, out = SieveOutput.partialRel q inp.X (writtenPairs inp (trialAll inp))) ∨
      out = SieveOutput.fullRel inp.X (writtenPairs inp (trialAll inp)) := by
    intro out ho
    rw [← ho]
    unfold evaluatePosition classify
    split_ifs <;> simp
  refine ⟨hw, ?_, ?_⟩
  · intro X pairs ho
    rcases hcl _ ho with h | ⟨q, h⟩ | h
    · simp at h
    · simp at h
    · simp only [SieveOutput.fullRel.injEq] at h
      rw [h.2]; exact hw
  · intro q X pairs ho
    rcases hcl _ ho with h | ⟨q', h⟩ | h
    · simp at h
    · simp only [SieveOutput.partialRel.injEq] at h
      rw [h.2.2]; exact hw
    · simp at h

set_option maxRecDepth 100000 in
theorem evaluateSieve_exponents_positive_witness :
    (∀ ep ∈ writtenPairs evalExample (trialAll evalExample), 0 < ep.1) ∧
    (∀ X pairs, evaluatePosition evalExample = SieveOutput.fullRel X pairs →
      ∀ ep ∈ pairs, 0 < ep.1) ∧
    (∀ q X pairs, evaluatePosition evalExample = SieveOutput.partialRel q X pairs →
      ∀ ep ∈ pairs, 0 < ep.1) :=
  evaluateSieve_exponents_positive evalExample (by unfold SieveConfig.Ordered; decide)
    (by decide) (by decide) (by decide) (by decide)


/-! ### The terms of B -/

/-- Each term `Bterms[i]` is a multiple of `A / p_i` and is one of the two square roots
`±r_i` modulo `p_i`. -/
theorem bTerm_pm_root (inp : PolyInput) (hA : GoodA inp) (i : Nat) (hi : i < inp.s) :
    (bTerm inp i ≡ inp.sqrts.getD (inp.aind.getD i 0 + inp.min) 0
        [ZMOD ((aPrime inp i : Nat) : Int)] ∨
      bTerm inp i ≡ -inp.sqrts.getD (inp.aind.getD i 0 + inp.min) 0
        [ZMOD ((aPrime inp i : Nat) : Int)]) ∧
    (polyA inp / ((aPrime inp i : Nat) : Int)) ∣ bTerm inp i := by
  obtain ⟨hs, hpr, hdist, hw, hsq⟩ := hA
  have hA' : GoodA inp := ⟨hs, hpr, hdist, hw, hsq⟩
  set p : Nat := aPrime inp i with hp
  set q : Int := polyA inp / (p : Int) with hq
  set r : Int := inp.sqrts.getD (inp.aind.getD i 0 + inp.min) 0 with hr
  have hnd : ¬ (p : Int) ∣ q := aPrime_not_dvd_div_self inp hA' i hi
  obtain ⟨_, _, hinv⟩ := modinverseU_spec inp.w q p (hpr i hi) (hw i hi) hnd
  set u : Int := modinverseU inp.w (q % (p : Int)) p with hu
  set t2 : Int := (u * r) % (p : Int) with ht2
  have ht2c : t2 ≡ u * r [ZMOD p] := Int.mod_modEq _ _
  set t3 : Int := if t2 > ((p / 2 : Nat) : Int) then -(t2 - (p : Int)) else t2 with ht3
  have hb : bTerm inp i = t3 * q := by
    have : bTerm inp i = (t3 * polyA inp) / (p : Int) := rfl
    rw [this, Int.mul_ediv_assoc _ (aPrime_dvd_polyA inp i hi)]
  rw [hb]
  refine ⟨?_, Dvd.intro_left t3 rfl⟩
  have h1 : u * r * q ≡ r [ZMOD p] := by
    have : u * r * q = r * (q * u) := by ring
    rw [this]
    have := hinv.mul_left r
    simpa using this
  by_cases hc : t2 > ((p / 2 : Nat) : Int)
  · right
    have e : t3 = -(t2 - (p : Int)) := by rw [ht3, if_pos hc]
    rw [e]
    have h2 : -(t2 - (p : Int)) ≡ -(u * r) [ZMOD p] := by
      have h3 : t2 - (p : Int) ≡ u * r - 0 [ZMOD p] :=
        Int.ModEq.sub ht2c (Int.modEq_zero_iff_dvd.mpr (dvd_refl _))
      simpa using h3.neg
    have h4 : -(u * r) * q ≡ -r [ZMOD p] := by
      have e4 : -(u * r) * q = -(u * r * q) := by ring
      rw [e4]; exact h1.neg
    exact (h2.mul_right q).trans h4
  · left
    have e : t3 = t2 := by rw [ht3, if_neg hc]
    rw [e]
    exact (ht2c.mul_right q).trans h1

/-- C20: for an `A` made of `s` distinct factor-base primes `p_j` with stored roots `r_j`
(`r_j^2 ≡ kN mod p_j`), every term `B_j` satisfies `B_j ≡ ±r_j (mod p_j)` and is a multiple
of `A / p_j`, and the initial `B`, the sum of the `B_j`, satisfies `B^2 ≡ kN (mod A)`. -/
theorem bTerms_spec (inp : PolyInput) (hA : GoodA inp) :
    (∀ j, j < inp.s →
      (bTerm inp j ≡ inp.sqrts.getD (inp.aind.getD j 0 + inp.min) 0
          [ZMOD ((aPrime inp j : Nat) : Int)] ∨
        bTerm inp j ≡ -inp.sqrts.getD (inp.aind.getD j 0 + inp.min) 0
          [ZMOD ((aPrime inp j : Nat) : Int)]) ∧
      bTerm inp j ≡ 0 [ZMOD polyA inp / ((aPrime inp j : Nat) : Int)]) ∧
    initialB inp ^ 2 ≡ inp.n [ZMOD polyA inp] := by
  refine ⟨fun j hj => ?_, ?_⟩
  · obtain ⟨h1, h2⟩ := bTerm_pm_root inp hA j hj
    exact ⟨h1, Int.modEq_zero_iff_dvd.mpr h2⟩
  · have hpos : 0 < 2 ^ inp.s := by positivity
    have h := polyA_dvd inp hA 0 hpos
    have e : siblingB inp 0 = initialB inp := rfl
    rw [e, ← sq] at h
    exact (Int.modEq_iff_dvd.mpr h).symm

theorem bTerms_spec_witness :
    (∀ j, j < polyExample.s →
      (bTerm polyExample j ≡ polyExample.sqrts.getD (polyExample.aind.getD j 0 + polyExample.min) 0
          [ZMOD ((aPrime polyExample j : Nat) : Int)] ∨
        bTerm polyExample j
          ≡ -polyExample.sqrts.getD (polyExample.aind.getD j 0 + polyExample.min) 0
          [ZMOD ((aPrime polyExample j : Nat) : Int)]) ∧
      bTerm polyExample j ≡ 0 [ZMOD polyA polyExample / ((aPrime polyExample j : Nat) : Int)]) ∧
    initialB polyExample ^ 2 ≡ polyExample.n [ZMOD polyA polyExample] :=
  bTerms_spec polyExample (by unfold GoodA; decide)

/-! ### The size of B -/

theorem polyA_pos (inp : PolyInput) (hA : GoodA inp) : 0 < polyA inp := by
  rw [polyA_eq_prod]
  apply Finset.prod_pos
  intro i hi
  have := (hA.2.1 i (Finset.mem_range.mp hi)).pos
  exact_mod_cast this

/-- Each term `Bterms[i]` of an odd prime lies in `[0, A/2)`. -/
theorem bTerm_bounds (inp : PolyInput) (hA : GoodA inp) (i : Nat) (hi : i < inp.s)
    (hodd : aPrime inp i ≠ 2) : 0 ≤ bTerm inp i ∧ 2 * bTerm inp i < polyA inp := by
  have hApos := polyA_pos inp hA
  have hpr := hA.2.1 i hi
  set p : Nat := aPrime inp i with hp
  have hp3 : 3 ≤ p := by
    have := hpr.two_le
    omega
  have hpodd : p % 2 = 1 := by
    rcases hpr.eq_two_or_odd with h | h
    · exact absurd h hodd
    · exact h
  set q : Int := polyA inp / (p : Int) with hq
  have hdvd := aPrime_dvd_polyA inp i hi
  have hpq : (p : Int) * q = polyA inp := Int.mul_ediv_cancel' hdvd
  have hp0 : (0 : Int) < (p : Int) := by exact_mod_cast hpr.pos
  have hq0 : 0 < q := by
    by_contra h
    have : (p : Int) * q ≤ 0 := mul_nonpos_of_nonneg_of_nonpos (le_of_lt hp0) (not_lt.mp h)
    omega
  set t2 : Int := (modinverseU inp.w (amodp inp i) p
    * inp.sqrts.getD (inp.aind.getD i 0 + inp.min) 0) % (p : Int) with ht2
  have h20 : 0 ≤ t2 := Int.emod_nonneg _ (ne_of_gt hp0)
  have h2p : t2 < p := Int.emod_lt_of_pos _ hp0
  set t3 : Int := if t2 > ((p / 2 : Nat) : Int) then -(t2 - (p : Int)) else t2 with ht3
  have hb : bTerm inp i = t3 * q := by
    have : bTerm inp i = (t3 * polyA inp) / (p : Int) := rfl
    rw [this, Int.mul_ediv_assoc _ hdvd]
  have hhalf : (((p / 2 : Nat)) : Int) * 2 + 1 = (p : Int) := by
    have : p / 2 * 2 + 1 = p := by omega
    exact_mod_cast this
  have ht3b : 0 ≤ t3 ∧ 2 * t3 + 1 ≤ (p : Int) := by
    rw [ht3]
    split_ifs with h
    · constructor <;> omega
    · constructor <;> omega
  rw [hb]
  constructor
  · exact mul_nonneg ht3b.1 (le_of_lt hq0)
  · have h1 : (2 * t3 + 1) * q ≤ (p : Int) * q := mul_le_mul_of_nonneg_right ht3b.2 (le_of_lt hq0)
    rw [hpq] at h1
    have h2 : 2 * (t3 * q) + q = (2 * t3 + 1) * q := by ring
    omega

/-- C21, as stated, fails: for the `A = 14467 = 17 * 23 * 37` of `polyExample` (a well-formed
`A` of three odd primes) the initial `B` is `9302`, more than `A/2`. -/
theorem initialB_exceeds_half :
    GoodA polyExample ∧ polyA polyExample = 14467 ∧ initialB polyExample = 9302 ∧
    ¬ (2 * |initialB polyExample| < polyA polyExample) := by
  refine ⟨by unfold GoodA; decide, by decide, by decide, by decide⟩

/-- C21, amended: every term `B_j` of an `A` made of `s` odd primes lies in `[0, A/2)`, so the
initial `B`, their sum (which is not reduced modulo `A`), satisfies `0 ≤ B < s * A / 2`. -/
theorem initialB_bound (inp : PolyInput) (hA : GoodA inp)
    (hodd : ∀ j, j < inp.s → aPrime inp j ≠ 2) :
    (∀ j, j < inp.s → 0 ≤ bTerm inp j ∧ 2 * bTerm inp j < polyA inp) ∧
    0 ≤ initialB inp ∧ 2 * initialB inp < (inp.s : Int) * polyA inp := by
  have hb := fun j hj => bTerm_bounds inp hA j hj (hodd j hj)
  refine ⟨hb, ?_, ?_⟩
  · rw [initialB_eq_sum inp hA.1]
    apply Finset.sum_nonneg
    intro j hj
    rw [graySign_zero, one_mul]
    exact (hb j (Finset.mem_range.mp hj)).1
  · rw [initialB_eq_sum inp hA.1, Finset.mul_sum]
    have hne : (Finset.range inp.s).Nonempty := by
      rw [Finset.nonempty_range_iff]
      have := hA.1
      omega
    have hlt : ∑ j in Finset.range inp.s, 2 * (graySign 0 j * bTerm inp j)
        < ∑ _j in Finset.range inp.s, polyA inp := by
      apply Finset.sum_lt_sum_of_nonempty hne
      intro j hj
      rw [graySign_zero, one_mul]
      exact (hb j (Finset.mem_range.mp hj)).2
    rw [Finset.sum_const, Finset.card_range, nsmul_eq_mul] at hlt
    exact hlt

theorem initialB_bound_witness :
    (∀ j, j < polyExample.s → 0 ≤ bTerm polyExample j ∧
      2 * bTerm polyExample j < polyA polyExample) ∧
    0 ≤ initialB polyExample ∧
    2 * initialB polyExample < (polyExample.s : Int) * polyA polyExample :=
  initialB_bound polyExample (by unfold GoodA; decide) (by decide)

/-! ### Gray code of the sibling polynomials -/

theorem testBit_bitsToNat : ∀ (bs : List Bool) (j : Nat),
    (bitsToNat bs).testBit j = bs.getD j false := by
  intro bs
  induction bs with
  | nil => intro j; simp [bitsToNat]
  | cons b bs ih =>
    intro j
    cases j with
    | zero => simp [bitsToNat, Nat.testBit_bit_zero]
    | succ j => simp [bitsToNat, Nat.testBit_bit_succ, ih]

theorem bitsToNat_lt : ∀ (bs : List Bool), bitsToNat bs < 2 ^ bs.length := by
  intro bs
  induction bs with
  | nil => simp [bitsToNat]
  | cons b bs ih =>
    simp only [bitsToNat, List.length_cons, pow_succ]
    cases b <;> simp [Nat.bit] <;> omega

theorem suffixXor_length : ∀ (es : List Bool), (suffixXor es).length = es.length := by
  intro es
  induction es with
  | nil => rfl
  | cons e es ih => simp [suffixXor, ih]

theorem suffixXor_getD : ∀ (es : List Bool) (j : Nat),
    (suffixXor es).getD j false
      = xor (es.getD j false) ((suffixXor es).getD (j + 1) false) := by
  intro es
  induction es with
  | nil => intro j; simp [suffixXor]
  | cons e es ih =>
    intro j
    cases j with
    | zero =>
      simp only [suffixXor, List.getD_cons_zero, List.getD_cons_succ]
      cases h : suffixXor es <;> simp
    | succ j =>
      simp only [suffixXor, List.getD_cons_succ]
      exact ih j

theorem graySign_values (t j : Nat) : graySign t j = 1 ∨ graySign t j = -1 := by
  unfold graySign
  split_ifs
  · right; rfl
  · left; rfl

theorem graySign_eq_neg_one (t j : Nat) :
    graySign t j = -1 ↔ xor (t.testBit j) (t.testBit (j + 1)) = true := by
  unfold graySign
  split_ifs with h
  · simp [h]
  · simp [h]

theorem testBit_of_lt_pow (t m i : Nat) (ht : t < 2 ^ m) (hi : m ≤ i) :
    t.testBit i = false :=
  Nat.testBit_lt_two_pow (lt_of_lt_of_le ht (Nat.pow_le_pow_right (by norm_num) hi))

theorem graySign_top (s t : Nat) (_hs : 1 ≤ s) (ht : t < 2 ^ (s - 1)) :
    graySign t (s - 1) = 1 := by
  unfold graySign
  rw [testBit_of_lt_pow t (s - 1) (s - 1) ht (le_refl _),
    testBit_of_lt_pow t (s - 1) (s - 1 + 1) ht (by omega)]
  simp

/-- Two indices below `2^(s-1)` with the same signs are equal. -/
theorem graySign_injective (s t t' : Nat) (ht : t < 2 ^ (s - 1)) (ht' : t' < 2 ^ (s - 1))
    (h : ∀ j, j < s → graySign t j = graySign t' j) : t = t' := by
  have key : ∀ d i, s - 1 ≤ i + d → t.testBit i = t'.testBit i := by
    intro d
    induction d with
    | zero =>
      intro i hi
      rw [testBit_of_lt_pow t (s - 1) i ht (by omega),
        testBit_of_lt_pow t' (s - 1) i ht' (by omega)]
    | succ d ih =>
      intro i hi
      by_cases hlt : i < s - 1
      · have h1 := h i (by omega)
        have h2 := ih (i + 1) (by omega)
        have h3 : (graySign t i = -1) ↔ (graySign t' i = -1) := by rw [h1]
        rw [graySign_eq_neg_one, graySign_eq_neg_one, h2] at h3
        cases hb : t.testBit i <;> cases hb' : t'.testBit i <;>
          cases hc : t'.testBit (i + 1) <;> simp_all
      · rw [testBit_of_lt_pow t (s - 1) i ht (by omega),
          testBit_of_lt_pow t' (s - 1) i ht' (by omega)]
  exact Nat.eq_of_testBit_eq (fun i => key (s - 1) i (by omega))

theorem grayIndex_lt (s : Nat) (ε : Nat → Int) : grayIndex s ε < 2 ^ (s - 1) := by
  unfold grayIndex
  have := bitsToNat_lt (suffixXor ((List.range (s - 1)).map (fun j => decide (ε j = -1))))
  rw [suffixXor_length, List.length_map, List.length_range] at this
  exact this

theorem graySign_grayIndex (s : Nat) (ε : Nat → Int) (hs : 1 ≤ s)
    (hε : ∀ j, j < s → ε j = 1 ∨ ε j = -1) (htop : ε (s - 1) = 1) :
    ∀ j, j < s → graySign (grayIndex s ε) j = ε j := by
  intro j hj
  by_cases hlt : j < s - 1
  · have hx : xor ((grayIndex s ε).testBit j) ((grayIndex s ε).testBit (j + 1))
        = decide (ε j = -1) := by
      unfold grayIndex
      rw [testBit_bitsToNat, testBit_bitsToNat, suffixXor_getD _ j]
      have hg : ((List.range (s - 1)).map (fun j => decide (ε j = -1))).getD j false
          = decide (ε j = -1) := by
        rw [List.getD_eq_getElem?_getD, List.getElem?_map, List.getElem?_range hlt]
        rfl
      rw [hg]
      cases decide (ε j = -1) <;>
        cases (suffixXor ((List.range (s - 1)).map
          (fun j => decide (ε j = -1)))).getD (j + 1) false <;> rfl
    unfold graySign
    rw [hx]
    rcases hε j hj with h | h
    · rw [h]; simp
    · rw [h]; simp
  · have hj' : j = s - 1 := by omega
    rw [hj', graySign_top s _ hs (grayIndex_lt s ε), htop]

theorem polyBound_eq (s : Nat) (hs : 1 ≤ s) (hs31 : s ≤ 31) :
    polyBound s = some (((2 ^ (s - 1) - 1 : Nat) : Int)) := by
  unfold polyBound
  rw [if_pos ⟨hs, by omega⟩, Nat.one_shiftLeft]
  have hpos : 0 < 2 ^ (s - 1) := by positivity
  congr 1
  omega

theorem graySign_last (s j : Nat) (hs : 2 ≤ s) (hj : j < s) :
    graySign (2 ^ (s - 1) - 1) j = if j = s - 2 then -1 else 1 := by
  unfold graySign
  rw [Nat.testBit_two_pow_sub_one, Nat.testBit_two_pow_sub_one]
  by_cases h1 : j = s - 2
  · have a : j < s - 1 := by omega
    have b : ¬ (j + 1 < s - 1) := by omega
    simp [h1, a, b]
    omega
  · by_cases h2 : j < s - 1
    · have b : j + 1 < s - 1 := by omega
      simp [h1, h2, b]
    · have b : ¬ (j + 1 < s - 1) := by omega
      simp [h1, h2, b]

theorem flipLoop_eq (inp : PolyInput) (b : Nat) :
    ∀ (fuel i : Nat), b - (i + 1) ≤ fuel →
      flipLoop inp (b : Int) fuel (i + 1) (siblingB inp i)
        = (List.range' (i + 1) (b - (i + 1))).map (siblingB inp) := by
  intro fuel
  induction fuel with
  | zero =>
    intro i h
    have : b - (i + 1) = 0 := by omega
    rw [this]; rfl
  | succ fuel ih =>
    intro i h
    rw [flipLoop]
    by_cases hc : i + 1 < b
    · rw [if_pos (by exact_mod_cast hc)]
      have e : flipB inp (siblingB inp i) (i + 1) = siblingB inp (i + 1) := rfl
      rw [e, ih (i + 1) (by omega)]
      have : b - (i + 1) = (b - (i + 1 + 1)) + 1 := by omega
      rw [this, List.range'_succ, List.map_cons]
    · rw [if_neg (by intro h'; exact hc (by exact_mod_cast h'))]
      have : b - (i + 1) = 0 := by omega
      rw [this]; rfl

theorem siblingBs_eq (inp : PolyInput) (fuel : Nat) (hs : 1 ≤ inp.s) (hs31 : inp.s ≤ 31)
    (hfuel : 2 ^ (inp.s - 1) ≤ fuel) :
    siblingBs inp fuel = some ((List.range (2 ^ (inp.s - 1) - 1 - 1 + 1)).map (siblingB inp)) := by
  unfold siblingBs
  rw [polyBound_eq inp.s hs hs31, Option.map_some']
  have h := flipLoop_eq inp (2 ^ (inp.s - 1) - 1) fuel 0 (by omega)
  simp only [Nat.zero_add] at h
  have e0 : siblingB inp 0 = initialB inp := rfl
  rw [e0] at h
  rw [h, List.range_succ_eq_map, List.map_cons, List.map_map, e0]
  congr 2
  rw [List.range'_eq_map_range]
  simp [Function.comp, Nat.add_comm]

/-- C22, as claimed: for `polyExample` (`s = 3`) the program computes three values of `B`,
for `polyindex = 0, 1, 2`, not `2^(s-1) = 4`; the sum `B_0 - B_1 + B_2 = 496` of the sign
vector `(+1, -1, +1)`, which belongs to `polyindex = 3`, is not among them. -/
theorem gray_code_last_sibling_missing :
    siblingBs polyExample 10 = some [9302, 4196, -4610] ∧ 2 ^ (polyExample.s - 1) = 4 ∧
    bTerm polyExample 0 - bTerm polyExample 1 + bTerm polyExample 2 = 496 ∧
    (496 : Int) ∉ [9302, 4196, -4610] := by
  decide

/-- C22, amended: for `2 ≤ s ≤ 31`, with `polyindex` 0 for the initial `B` and the flip rule
of `mainRoutine`, the values of `B` the program computes are those of
`polyindex = 0, ..., 2^(s-1) - 2` (any fuel of at least `2^(s-1)` rounds gives them); the `B`
of `polyindex = t` is the sum of `ε_j * B_j` for the sign vector `ε_j = graySign t j` (`-1`
where bits `j` and `j + 1` of `t` differ), which has `ε_(s-1) = +1`; different `t` have
different sign vectors; and a sign vector with `ε_(s-1) = +1` is reached unless it is the
one with `ε_(s-2) = -1` and every other sign `+1`. -/
theorem gray_code_siblings (inp : PolyInput) (fuel : Nat) (hs : 2 ≤ inp.s) (hs31 : inp.s ≤ 31)
    (hfuel : 2 ^ (inp.s - 1) ≤ fuel) :
    siblingBs inp fuel = some ((List.range (2 ^ (inp.s - 1) - 1)).map
      (fun t => ∑ j in Finset.range inp.s, graySign t j * bTerm inp j)) ∧
    (∀ t, t < 2 ^ (inp.s - 1) - 1 →
      graySign t (inp.s - 1) = 1 ∧ ∀ j, graySign t j = 1 ∨ graySign t j = -1) ∧
    (∀ t t', t < 2 ^ (inp.s - 1) - 1 → t' < 2 ^ (inp.s - 1) - 1 →
      (∀ j, j < inp.s → graySign t j = graySign t' j) → t = t') ∧
    (∀ ε : Nat → Int, (∀ j, j < inp.s → ε j = 1 ∨ ε j = -1) → ε (inp.s - 1) = 1 →
      ((∃ t, t < 2 ^ (inp.s - 1) - 1 ∧ ∀ j, j < inp.s → graySign t j = ε j) ↔
        ¬ ∀ j, j < inp.s → ε j = if j = inp.s - 2 then -1 else 1)) := by
  have hs1 : 1 ≤ inp.s := by omega
  have hpos : 2 ≤ 2 ^ (inp.s - 1) := by
    calc 2 = 2 ^ 1 := rfl
      _ ≤ 2 ^ (inp.s - 1) := Nat.pow_le_pow_right (by norm_num) (by omega)
  refine ⟨?_, ?_, ?_, ?_⟩
  · rw [siblingBs_eq inp fuel hs1 hs31 hfuel]
    have e : 2 ^ (inp.s - 1) - 1 - 1 + 1 = 2 ^ (inp.s - 1) - 1 := by omega
    rw [e]
    congr 1
    apply List.map_congr_left
    intro t ht
    have ht' : t < 2 ^ (inp.s - 1) - 1 := List.mem_range.mp ht
    exact siblingB_eq_sum inp hs1 t (lt_of_lt_of_le (by omega)
      (Nat.pow_le_pow_right (by norm_num) (Nat.sub_le inp.s 1)))
  · intro t ht
    exact ⟨graySign_top inp.s t hs1 (by omega), graySign_values t⟩
  · intro t t' ht ht' h
    exact graySign_injective inp.s t t' (by omega) (by omega) h
  · intro ε hε htop
    constructor
    · rintro ⟨t, ht, hsig⟩ hall
      have := graySign_injective inp.s t (2 ^ (inp.s - 1) - 1) (by omega) (by omega)
        (fun j hj => by rw [hsig j hj, hall j hj, graySign_last inp.s j hs hj])
      omega
    · intro hne
      have hg := graySign_grayIndex inp.s ε hs1 hε htop
      have hlt := grayIndex_lt inp.s ε
      refine ⟨grayIndex inp.s ε, ?_, hg⟩
      by_contra hge
      have heq : grayIndex inp.s ε = 2 ^ (inp.s - 1) - 1 := by omega
      apply hne
      intro j hj
      rw [← hg j hj, heq, graySign_last inp.s j hs hj]

theorem gray_code_siblings_witness :
    siblingBs polyExample 4 = some ((List.range (2 ^ (polyExample.s - 1) - 1)).map
      (fun t => ∑ j in Finset.range polyExample.s, graySign t j * bTerm polyExample j)) ∧
    (∀ t, t < 2 ^ (polyExample.s - 1) - 1 →
      graySign t (polyExample.s - 1) = 1 ∧ ∀ j, graySign t j = 1 ∨ graySign t j = -1) ∧
    (∀ t t', t < 2 ^ (polyExample.s - 1) - 1 → t' < 2 ^ (polyExample.s - 1) - 1 →
      (∀ j, j < polyExample.s → graySign t j = graySign t' j) → t = t') ∧
    (∀ ε : Nat → Int, (∀ j, j < polyExample.s → ε j = 1 ∨ ε j = -1) →
      ε (polyExample.s - 1) = 1 →
      ((∃ t, t < 2 ^ (polyExample.s - 1) - 1 ∧ ∀ j, j < polyExample.s → graySign t j = ε j) ↔
        ¬ ∀ j, j < polyExample.s → ε j = if j = polyExample.s - 2 then -1 else 1)) :=
  gray_code_siblings polyExample 4 (by decide) (by decide) (by decide)

/-- C23: with mask 0 the search `while (!(mask & (1 << l))) l++` finds no set bit among
`l = 0, ..., 63` and leaves the range of the shift; with mask 1 it stops at `l = 0` first and
leaves the range in the next round of the `for` loop, which starts at `l = 1 < 64`. -/
theorem factor_loop_leaves_mask_range :
    skipClearBits 0 64 0 = none ∧ skipClearBits 1 64 0 = some 0 ∧
    skipClearBits 1 63 1 = none := by
  decide

theorem fmod_modEq (x m : Int) (hm : 0 < m) : Int.fmod x m ≡ x [ZMOD m] := by
  rw [Int.fmod_eq_emod _ (le_of_lt hm)]
  exact Int.mod_modEq _ _

theorem modmul_modEq (a b m : Int) (hm : 0 < m) : modmul a b m ≡ a * b [ZMOD m] := by
  unfold modmul
  exact fmod_modEq _ _ hm

/-- One lifting step: from a root modulo `p^i` to a root modulo `p^(i+1)`. -/
theorem sqrtmodpow_lift (p : Nat) (hp : p.Prime) (hodd : p ≠ 2) (a z : Int) (i : Nat)
    (hi : 1 ≤ i) (ha : ¬ (p : Int) ∣ a) (hz : z ^ 2 ≡ a [ZMOD (p : Int) ^ i]) :
    ∃ r, sqrtmodpow z a ((p : Int) ^ i * p) = some r ∧
      r ^ 2 ≡ a [ZMOD (p : Int) ^ (i + 1)] := by
  have hp0 : (0 : Int) < (p : Int) := by exact_mod_cast hp.pos
  have hpk : (0 : Int) < (p : Int) ^ i * p := by positivity
  have hpi : Prime (p : Int) := Nat.prime_iff_prime_int.mp hp
  -- `p` does not divide `z`
  have hzp : z ^ 2 ≡ a [ZMOD (p : Int)] :=
    hz.of_dvd (dvd_pow_self _ (by omega))
  have hnz : ¬ (p : Int) ∣ z := by
    intro h
    apply ha
    have : (p : Int) ∣ z ^ 2 := Dvd.dvd.pow h (by norm_num)
    exact (Int.modEq_zero_iff_dvd.mp ((hzp.symm).trans (Int.modEq_zero_iff_dvd.mpr this)))
  have hn2 : ¬ (p : Int) ∣ 2 := by
    intro h
    have h2 : p ∣ 2 := by exact_mod_cast h
    have := (Nat.prime_dvd_prime_iff_eq hp Nat.prime_two).mp h2
    exact hodd this
  have hcop : IsCoprime (z * 2) ((p : Int) ^ i * p) := by
    have h1 : IsCoprime (z * 2) (p : Int) := by
      apply IsCoprime.symm
      rw [Prime.coprime_iff_not_dvd hpi]
      intro h
      rcases hpi.dvd_or_dvd h with h | h
      · exact hnz h
      · exact hn2 h
    exact IsCoprime.mul_right (IsCoprime.pow_right h1) h1
  have hgcd : Int.gcd (z * 2) ((p : Int) ^ i * p) = 1 := Int.isCoprime_iff_gcd_eq_one.mp hcop
  obtain ⟨inv, hinv, hmul⟩ := mpz_invert_of_gcd hpk hgcd
  refine ⟨_, by unfold sqrtmodpow; rw [hinv], ?_⟩
  rw [pow_succ]
  set m : Int := (p : Int) ^ i * p with hm
  set d : Int := modmul (mpz_fdiv_r (a - z * z) m) inv m with hd
  have hd1 : d ≡ (a - z * z) * inv [ZMOD m] := by
    refine (modmul_modEq _ _ _ hpk).trans ?_
    exact (fmod_modEq _ _ hpk).mul_right _
  -- `2 z d = a - z^2` modulo `m`
  have h2zd : 2 * z * d ≡ a - z * z [ZMOD m] := by
    have := hd1.mul_left (2 * z)
    refine this.trans ?_
    have e : 2 * z * ((a - z * z) * inv) = (z * 2 * inv) * (a - z * z) := by ring
    rw [e]
    have := hmul.mul_right (a - z * z)
    simpa using this
  -- `p^i` divides `d`, so `m` divides `d^2`
  have hpd : (p : Int) ^ i ∣ d := by
    have h1 : (p : Int) ^ i ∣ a - z * z := by
      have := Int.modEq_iff_dvd.mp hz
      rw [sq] at this
      exact this
    have h2 : d ≡ 0 [ZMOD (p : Int) ^ i] := by
      have h3 : d ≡ (a - z * z) * inv [ZMOD (p : Int) ^ i] :=
        hd1.of_dvd (Dvd.intro _ rfl)
      refine h3.trans ?_
      exact Int.modEq_zero_iff_dvd.mpr (Dvd.dvd.mul_right h1 inv)
    exact Int.modEq_zero_iff_dvd.mp h2
  have hdd : m ∣ d * d := by
    obtain ⟨c, hc⟩ := hpd
    have hpp : (p : Int) ∣ (p : Int) ^ i := dvd_pow_self _ (by omega)
    obtain ⟨e, he⟩ := hpp
    refine ⟨c * c * e, ?_⟩
    rw [hc, hm]
    calc (p : Int) ^ i * c * ((p : Int) ^ i * c) = (p : Int) ^ i * ((p : Int) ^ i) * (c * c) := by
          ring
      _ = (p : Int) ^ i * ((p : Int) * e) * (c * c) := by rw [← he]
      _ = (p : Int) ^ i * (p : Int) * (c * c * e) := by ring
  have hfin : (d + z) ^ 2 ≡ a [ZMOD m] := by
    have e : (d + z) ^ 2 = z * z + 2 * z * d + d * d := by ring
    rw [e]
    have h1 : z * z + 2 * z * d + d * d ≡ z * z + (a - z * z) + 0 [ZMOD m] :=
      ((Int.ModEq.refl _).add h2zd).add (Int.modEq_zero_iff_dvd.mpr hdd)
    have e2 : z * z + (a - z * z) + 0 = a := by ring
    rw [e2] at h1
    exact h1
  exact hfin

theorem sqrtmodpkLoop_spec (p : Nat) (hp : p.Prime) (hodd : p ≠ 2) (a : Int)
    (ha : ¬ (p : Int) ∣ a) :
    ∀ (n i : Nat) (res : Int), 1 ≤ i → res ^ 2 ≡ a [ZMOD (p : Int) ^ i] →
    ∃ r, sqrtmodpkLoop a p n res ((p : Int) ^ i) = some r ∧
      r ^ 2 ≡ a [ZMOD (p : Int) ^ (i + n)] := by
  intro n
  induction n with
  | zero => intro i res _ h; exact ⟨res, rfl, h⟩
  | succ n ih =>
    intro i res hi h
    obtain ⟨r, hr, hr2⟩ := sqrtmodpow_lift p hp hodd a res i hi ha h
    obtain ⟨r', hr', hr2'⟩ := ih (i + 1) r (by omega) hr2
    refine ⟨r', ?_, ?_⟩
    · rw [sqrtmodpkLoop, hr]
      simp only
      rw [← pow_succ]
      exact hr'
    · rw [show i + (n + 1) = i + 1 + n by omega]
      exact hr2'

/-- C25: for an odd prime `p`, `k ≥ 1`, `a` not divisible by `p` and `z^2 ≡ a (mod p)`,
`sqrtmodpk(res, z, a, p, k)` runs through (every inverse exists) and leaves in `res` a value
with `res^2 ≡ a (mod p^k)`. -/
theorem sqrtmodpk_lifts_root (p : Nat) (hp : p.Prime) (hodd : p ≠ 2) (k : Nat) (hk : 1 ≤ k)
    (a z : Int) (ha : ¬ (p : Int) ∣ a) (hz : z ^ 2 ≡ a [ZMOD (p : Int)]) :
    ∃ res, sqrtmodpk z a p k = some res ∧ res ^ 2 ≡ a [ZMOD (p : Int) ^ k] := by
  have h1 : z ^ 2 ≡ a [ZMOD (p : Int) ^ 1] := by rw [pow_one]; exact hz
  obtain ⟨r, hr, hr2⟩ := sqrtmodpkLoop_spec p hp hodd a ha (k - 1) 1 z (le_refl _) h1
  rw [pow_one] at hr
  rw [show 1 + (k - 1) = k by omega] at hr2
  exact ⟨r, hr, hr2⟩

theorem sqrtmodpk_lifts_root_witness :
    ∃ res, sqrtmodpk 3 2 7 3 = some res ∧ res ^ 2 ≡ 2 [ZMOD ((7 : Nat) : Int) ^ 3] :=
  sqrtmodpk_lifts_root 7 (by decide) (by decide) 3 (by decide) 2 3 (by decide) (by decide)

/-- C26: for coprime positive `n1`, `n2` and any `x1`, `x2`, `chinese` runs through (both
inverses exist), sets `n = n1 * n2` and `res` to a value with `0 ≤ res < n`,
`res ≡ x1 (mod n1)` and `res ≡ x2 (mod n2)`. -/
theorem chinese_spec (x1 x2 n1 n2 : Int) (h1 : 0 < n1) (h2 : 0 < n2)
    (hcop : Int.gcd n1 n2 = 1) :
    ∃ res, chinese x1 x2 n1 n2 = some (res, n1 * n2) ∧ 0 ≤ res ∧ res < n1 * n2 ∧
      res ≡ x1 [ZMOD n1] ∧ res ≡ x2 [ZMOD n2] := by
  have hn : 0 < n1 * n2 := mul_pos h1 h2
  obtain ⟨i1, hi1, hm1⟩ := mpz_invert_of_gcd (a := n2) h1 (by rw [Int.gcd_comm]; exact hcop)
  obtain ⟨i2, hi2, hm2⟩ := mpz_invert_of_gcd (a := n1) h2 hcop
  refine ⟨_, by unfold chinese; rw [hi1, hi2], ?_, ?_, ?_, ?_⟩
  · unfold mpz_fdiv_r
    rw [Int.fmod_eq_emod _ (le_of_lt hn)]
    exact Int.emod_nonneg _ (ne_of_gt hn)
  · unfold mpz_fdiv_r
    rw [Int.fmod_eq_emod _ (le_of_lt hn)]
    exact Int.emod_lt_of_pos _ hn
  all_goals
    set R : Int := modmul (modmul i1 n2 (n1 * n2)) x1 (n1 * n2) with hR
    set S : Int := modmul (modmul i2 n1 (n1 * n2)) x2 (n1 * n2) with hS
    have hRm : R ≡ i1 * n2 * x1 [ZMOD n1 * n2] :=
      (modmul_modEq _ _ _ hn).trans ((modmul_modEq _ _ _ hn).mul_right _)
    have hSm : S ≡ i2 * n1 * x2 [ZMOD n1 * n2] :=
      (modmul_modEq _ _ _ hn).trans ((modmul_modEq _ _ _ hn).mul_right _)
    have hres : mpz_fdiv_r (R + S) (n1 * n2) ≡ i1 * n2 * x1 + i2 * n1 * x2 [ZMOD n1 * n2] :=
      (fmod_modEq _ _ hn).trans (hRm.add hSm)
  · have h := hres.of_dvd (Dvd.intro n2 rfl)
    refine h.trans ?_
    have a1 : i1 * n2 * x1 ≡ x1 [ZMOD n1] := by
      have e : i1 * n2 * x1 = (n2 * i1) * x1 := by ring
      rw [e]
      have := hm1.mul_right x1
      simpa using this
    have a2 : i2 * n1 * x2 ≡ 0 [ZMOD n1] :=
      Int.modEq_zero_iff_dvd.mpr ⟨i2 * x2, by ring⟩
    have := a1.add a2
    simpa using this
  · have h := hres.of_dvd (Dvd.intro_left n1 rfl)
    refine h.trans ?_
    have a1 : i1 * n2 * x1 ≡ 0 [ZMOD n2] :=
      Int.modEq_zero_iff_dvd.mpr ⟨i1 * x1, by ring⟩
    have a2 : i2 * n1 * x2 ≡ x2 [ZMOD n2] := by
      have e : i2 * n1 * x2 = (n1 * i2) * x2 := by ring
      rw [e]
      have := hm2.mul_right x2
      simpa using this
    have := a1.add a2
    simpa using this

theorem chinese_spec_witness :
    ∃ res, chinese 2 3 5 7 = some (res, 5 * 7) ∧ 0 ≤ res ∧ res < 5 * 7 ∧
      res ≡ 2 [ZMOD 5] ∧ res ≡ 3 [ZMOD 7] :=
  chinese_spec 2 3 5 7 (by decide) (by decide) (by decide)

theorem wordMasked_sentinel (W M : Nat) (sieve : List Nat) (hW : 0 < W) (hM : W ∣ M)
    (hlen : sieve.length = M + W) (hsent : sieve[M]? = some 255) :
    wordMasked W sieve (M / W) = some true := by
  have hMW : M / W * W = M := Nat.div_mul_cancel hM
  unfold wordMasked
  rw [if_pos (by rw [Nat.add_mul, hMW]; omega), hMW]
  congr 1
  rw [List.any_eq_true]
  refine ⟨255, ?_, by decide⟩
  have h1 : (sieve.drop M)[0]? = some 255 := by
    rw [List.getElem?_drop]; simpa using hsent
  have h2 : ((sieve.drop M).take W)[0]? = some 255 := by
    rw [List.getElem?_take_of_lt hW]; exact h1
  exact List.mem_iff_getElem?.mpr ⟨0, h2⟩

theorem wordMasked_some (W M : Nat) (sieve : List Nat) (hM : W ∣ M)
    (hlen : sieve.length = M + W) (j : Nat) (hj : j ≤ M / W) :
    ∃ b, wordMasked W sieve j = some b := by
  have hMW : M / W * W = M := Nat.div_mul_cancel hM
  unfold wordMasked
  have : (j + 1) * W ≤ sieve.length := by
    rw [hlen, Nat.add_mul, one_mul]
    have := Nat.mul_le_mul_right W hj
    omega
  rw [if_pos this]
  exact ⟨_, rfl⟩

theorem skipWords_spec (W M : Nat) (sieve : List Nat) (hW : 0 < W) (hM : W ∣ M)
    (hlen : sieve.length = M + W) (hsent : sieve[M]? = some 255) :
    ∀ (fuel j : Nat), j ≤ M / W → M / W - j < fuel →
      ∃ j1, skipWords W sieve fuel j = some j1 ∧ j ≤ j1 ∧ j1 ≤ M / W := by
  intro fuel
  induction fuel with
  | zero => intro j _ h; omega
  | succ fuel ih =>
    intro j hj hf
    obtain ⟨b, hb⟩ := wordMasked_some W M sieve hM hlen j hj
    rw [skipWords, hb]
    cases b with
    | true => exact ⟨j, rfl, le_refl _, hj⟩
    | false =>
      have hne : j ≠ M / W := by
        intro h
        rw [h, wordMasked_sentinel W M sieve hW hM hlen hsent] at hb
        cases hb
      obtain ⟨j1, h1, h2, h3⟩ := ih (j + 1) (by omega) (by omega)
      exact ⟨j1, h1, by omega, h3⟩

theorem skipBytes_spec (thr M W : Nat) (sieve : List Nat) (hW : 0 < W)
    (hlen : sieve.length = M + W) (hsent : sieve[M]? = some 255) (hthr : thr ≤ 255) :
    ∀ (n i : Nat), i ≤ M →
      ∃ i1, skipBytes thr sieve n i = some i1 ∧ i ≤ i1 ∧ i1 ≤ M ∧ i1 ≤ i + n ∧
        (i1 < i + n → ∃ b, sieve[i1]? = some b ∧ ¬ b < thr) := by
  intro n
  induction n with
  | zero => intro i hi; exact ⟨i, rfl, le_refl _, hi, le_refl _, fun h => absurd h (by omega)⟩
  | succ n ih =>
    intro i hi
    have hlt : i < sieve.length := by omega
    rw [skipBytes, List.getElem?_eq_getElem hlt]
    simp only
    by_cases hb : sieve[i] < thr
    · rw [if_pos hb]
      have hiM : i ≠ M := by
        intro h
        subst h
        rw [List.getElem?_eq_getElem hlt] at hsent
        have : sieve[i] = 255 := Option.some.inj hsent
        omega
      obtain ⟨i1, h1, h2, h3, h4, h5⟩ := ih (i + 1) (by omega)
      exact ⟨i1, h1, by omega, h3, by omega, fun h => h5 (by omega)⟩
    · rw [if_neg hb]
      exact ⟨i, rfl, le_refl _, hi, by omega,
        fun _ => ⟨sieve[i], List.getElem?_eq_getElem hlt, hb⟩⟩

theorem findCandidate_spec (W thr M : Nat) (sieve : List Nat) (hW : 0 < W) (hM : W ∣ M)
    (hlen : sieve.length = M + W) (hsent : sieve[M]? = some 255) (hthr : thr ≤ 255) :
    ∀ (fuel j : Nat), j ≤ M / W → M / W - j < fuel →
      ∃ i j1, findCandidate W thr sieve fuel j = some (i, j1) ∧ i ≤ M ∧ j < j1 ∧
        j1 ≤ M / W + 1 := by
  have hMW : M / W * W = M := Nat.div_mul_cancel hM
  intro fuel
  induction fuel with
  | zero => intro j _ h; omega
  | succ fuel ih =>
    intro j hj hf
    obtain ⟨j1, h1, h2, h3⟩ := skipWords_spec W M sieve hW hM hlen hsent (fuel + 1) j hj hf
    have hj1M : j1 * W ≤ M := by
      have := Nat.mul_le_mul_right W h3
      omega
    obtain ⟨i, hi1, hi2, hi3, hi4, hi5⟩ :=
      skipBytes_spec thr M W sieve hW hlen hsent hthr W (j1 * W) hj1M
    have hlt : i < sieve.length := by omega
    rw [findCandidate, h1]
    simp only
    rw [hi1]
    simp only
    rw [List.getElem?_eq_getElem hlt]
    simp only
    by_cases hb : sieve[i] < thr
    · rw [if_pos hb]
      have hiM : i ≠ M := by
        intro h
        subst h
        rw [List.getElem?_eq_getElem hlt] at hsent
        have : sieve[i] = 255 := Option.some.inj hsent
        omega
      have hi6 : i = j1 * W + W := by
        by_contra hne
        obtain ⟨b, hb1, hb2⟩ := hi5 (by omega)
        rw [List.getElem?_eq_getElem hlt] at hb1
        exact hb2 (Option.some.inj hb1 ▸ hb)
      have hj1 : j1 + 1 ≤ M / W := by
        rw [Nat.le_div_iff_mul_le hW, Nat.add_mul, one_mul]
        omega
      obtain ⟨i2, j2, g1, g2, g3, g4⟩ := ih (j1 + 1) hj1 (by omega)
      exact ⟨i2, j2, g1, g2, by omega, g4⟩
    · rw [if_neg hb]
      exact ⟨i, j1 + 1, rfl, hi3, by omega, by omega⟩

theorem scanLoop_spec (W thr M : Nat) (sieve : List Nat) (hW : 0 < W) (hM : W ∣ M)
    (hlen : sieve.length = M + W) (hsent : sieve[M]? = some 255) (hthr : thr ≤ 255) :
    ∀ (fuel j : Nat), M / W + 1 - j < fuel →
      ∃ ps, scanLoop W thr M sieve fuel j = some ps ∧ ∀ i ∈ ps, i < M := by
  intro fuel
  induction fuel with
  | zero => intro j h; omega
  | succ fuel ih =>
    intro j hf
    rw [scanLoop]
    by_cases hj : j < M / W
    · rw [if_pos hj]
      obtain ⟨i, j1, h1, h2, h3, h4⟩ :=
        findCandidate_spec W thr M sieve hW hM hlen hsent hthr (fuel + 1) j (le_of_lt hj)
          (by omega)
      obtain ⟨ps, g1, g2⟩ := ih j1 (by omega)
      rw [h1]
      simp only
      rw [g1]
      refine ⟨_, rfl, ?_⟩
      intro x hx
      by_cases hiM : i < M
      · rw [if_pos hiM] at hx
        rcases List.mem_cons.mp hx with rfl | hx
        · exact hiM
        · exact g2 x hx
      · rw [if_neg hiM] at hx
        exact g2 x hx
    · rw [if_neg hj]
      exact ⟨[], rfl, fun _ h => absurd h (List.not_mem_nil _)⟩

/-- C29: with `sieve[M] = 255`, `M` a multiple of the word size `W` and `threshold ≤ 255`,
the scan of `evaluateSieve` comes to an end for every content of the accumulator (any fuel
of at least `M/W + 2` rounds gives its result), it reads nothing past the word that starts
at the sentinel byte (the buffer ends with that word, and a read outside it would give no
result), and every position it evaluates is below `M`. -/
theorem scan_terminates_in_range (W threshold M : Nat) (sieve : List Nat) (fuel : Nat)
    (hW : 0 < W) (hM : W ∣ M) (hlen : sieve.length = M + W)
    (hsent : sieve[M]? = some 255) (hthr : threshold ≤ 255) (hfuel : M / W + 2 ≤ fuel) :
    ∃ ps, evaluatedPositions W threshold M sieve fuel = some ps ∧ ∀ i ∈ ps, i < M :=
  scanLoop_spec W threshold M sieve hW hM hlen hsent hthr fuel 0
    (Nat.lt_of_lt_of_le (by rw [Nat.sub_zero]; exact Nat.lt_succ_self _) hfuel)

theorem scan_terminates_in_range_witness :
    ∃ ps, evaluatedPositions 8 100 16
        [0, 0, 0, 0, 0, 0, 0, 70, 100, 0, 0, 0, 0, 0, 0, 0, 255, 0, 0, 0, 0, 0, 0, 0] 4
          = some ps ∧ ∀ i ∈ ps, i < 16 :=
  scan_terminates_in_range 8 100 16
    [0, 0, 0, 0, 0, 0, 0, 70, 100, 0, 0, 0, 0, 0, 0, 0, 255, 0, 0, 0, 0, 0, 0, 0] 4
    (by decide) (by decide) (by decide) (by decide) (by decide) (by decide)

/-- C28: on the accumulator `100 100 0 0 0 0 0 0` of one word (`M = 8`, threshold 100),
followed by the sentinel word, the scan of `evaluateSieve` examines position 0 only:
position 1, whose byte reaches the threshold too, is never examined. -/
theorem scan_skips_second_candidate :
    evaluatedPositions 8 100 8
        [100, 100, 0, 0, 0, 0, 0, 0, 255, 0, 0, 0, 0, 0, 0, 0] 3 = some [0] ∧
      ([100, 100, 0, 0, 0, 0, 0, 0, 255, 0, 0, 0, 0, 0, 0, 0] : List Nat)[1]? = some 100 := by
  decide

set_option maxRecDepth 100000 in
/-- A byte has bit 6 or bit 7 set exactly when it is at least 64. -/
theorem byte_masked_iff : ∀ b, b < 256 → (b &&& 0xC0 ≠ 0 ↔ 64 ≤ b) := by
  decide

/-- Up to 304 decimal digits the threshold chosen by `main` is at least 64. -/
theorem mainThreshold_ge (d : Nat) (h40 : 40 ≤ d) (h304 : d ≤ 304) : 64 ≤ mainThreshold d := by
  unfold mainThreshold
  by_cases h : d ≤ 91
  · rw [if_pos h]
    interval_cases d <;> decide
  · rw [if_neg h]
    have h1 : 7 * d / 10 ≤ 212 := by omega
    have h2 : 64 ≤ 7 * d / 10 := by omega
    rw [Nat.mod_eq_of_lt (by omega)]
    omega

/-- C39: for a number of 305 decimal digits the fallback value `43+(7*decdigits)/10` is 256,
which the `unsigned char threshold` holds as 0; every byte then reaches the threshold, but
a word of zero bytes is not taken by the `SIEVEMASK` test and the scan examines none of
its positions. -/
theorem fallback_threshold_wraps :
    mainThreshold 305 = 0 ∧
      wordMasked 8 [0, 0, 0, 0, 0, 0, 0, 0, 255, 0, 0, 0, 0, 0, 0, 0] 0 = some false ∧
      evaluatedPositions 8 (mainThreshold 305) 8
        [0, 0, 0, 0, 0, 0, 0, 0, 255, 0, 0, 0, 0, 0, 0, 0] 3 = some [] := by
  decide

/-- C31, as claimed: for 40 decimal digits (`M = 64000`) the only call of `sieveInterval`
has `first = 1` and `last = 0`, so the final call is not made with `last = 1`. -/
theorem sieveCalls_single_block :
    2 * mainMdiv2 40 = 64000 ∧
      sieveCalls (mainMdiv2 40) =
        [{ M := 64000, start := 0, last := false, first := true }] := by
  decide

theorem mainMdiv2_values (d : Nat) (hd : 40 ≤ d) :
    mainMdiv2 d = 32000 ∨ mainMdiv2 d = 64000 ∨ mainMdiv2 d = 96000 ∨
      mainMdiv2 d = 128000 ∨ mainMdiv2 d = 160000 ∨ mainMdiv2 d = 192000 := by
  by_cases h : d ≤ 91
  · interval_cases d <;> decide
  · right; right; right; right; right
    unfold mainMdiv2
    rw [if_neg h]

/-- C31, amended: for every number of decimal digits from 40 on, the sieve length
`M = 2 * Mdiv2` chosen by `main` is a positive multiple of `CACHEBLOCKSIZE`, and the calls
of `sieveInterval` for one sibling are, in order, the `M / CACHEBLOCKSIZE` blocks of
`CACHEBLOCKSIZE` bytes starting at `0, CACHEBLOCKSIZE, 2 * CACHEBLOCKSIZE, ...`; `first = 1`
on block 0 only, and `last = 1` on the final block only, and only when there is more than
one block. -/
theorem sieveCalls_sweep (d : Nat) (hd : 40 ≤ d) :
    0 < 2 * mainMdiv2 d ∧ CACHEBLOCKSIZE ∣ 2 * mainMdiv2 d ∧
      sieveCalls (mainMdiv2 d) =
        (List.range (2 * mainMdiv2 d / CACHEBLOCKSIZE)).map (fun b =>
          { M := CACHEBLOCKSIZE, start := CACHEBLOCKSIZE * b,
            last := decide (b + 1 = 2 * mainMdiv2 d / CACHEBLOCKSIZE ∧
              1 < 2 * mainMdiv2 d / CACHEBLOCKSIZE),
            first := decide (b = 0) }) := by
  rcases mainMdiv2_values d hd with h | h | h | h | h | h <;> rw [h] <;> decide

theorem sieveCalls_sweep_witness :
    0 < 2 * mainMdiv2 80 ∧ CACHEBLOCKSIZE ∣ 2 * mainMdiv2 80 ∧
      sieveCalls (mainMdiv2 80) =
        (List.range (2 * mainMdiv2 80 / CACHEBLOCKSIZE)).map (fun b =>
          { M := CACHEBLOCKSIZE, start := CACHEBLOCKSIZE * b,
            last := decide (b + 1 = 2 * mainMdiv2 80 / CACHEBLOCKSIZE ∧
              1 < 2 * mainMdiv2 80 / CACHEBLOCKSIZE),
            first := decide (b = 0) }) :=
  sieveCalls_sweep 80 (by decide)

theorem bitLength_zero (fuel : Nat) : bitLength fuel 0 = 0 := by
  cases fuel <;> simp [bitLength]

theorem bitLength_spec : ∀ (fuel n : Nat), n ≤ fuel →
    n < 2 ^ bitLength fuel n ∧ (0 < n → 2 ^ bitLength fuel n ≤ 2 * n) := by
  intro fuel
  induction fuel with
  | zero =>
    intro n hn
    have : n = 0 := by omega
    subst this
    exact ⟨by simp [bitLength], fun h => absurd h (lt_irrefl _)⟩
  | succ fuel ih =>
    intro n hn
    by_cases h0 : n = 0
    · subst h0
      exact ⟨by simp [bitLength], fun h => absurd h (lt_irrefl _)⟩
    · have hb : bitLength (fuel + 1) n = bitLength fuel (n / 2) + 1 := by
        rw [bitLength, if_neg h0]
      obtain ⟨h1, h2⟩ := ih (n / 2) (by omega)
      rw [hb, pow_succ]
      refine ⟨by omega, fun _ => ?_⟩
      by_cases hh : n / 2 = 0
      · rw [hh, bitLength_zero]
        omega
      · have := h2 (Nat.pos_of_ne_zero hh)
        omega

set_option maxRecDepth 100000 in
/-- C35, as claimed: for `kN = 2^139` (140 bits) the code takes `s = 6`, while `s = 5`
already has `2^(28*5) ≥ kN`. -/
theorem numAFactors_not_ceil :
    numAFactors (2 ^ 139) = 6 ∧ (2 : Int) ^ 139 ≤ 2 ^ (28 * 5) := by
  decide

/-- C35, amended: for `kN > 0` the number `s = mpz_sizeinbase(kN,2)/28 + 1` is the least
`s` with `2 * kN < 2^(28*s)`, i.e. `s = floor(bits/28) + 1` for the bit length `bits` of
`kN`. -/
theorem numAFactors_least (n : Int) (hn : 0 < n) :
    2 * n < 2 ^ (28 * numAFactors n) ∧
      ∀ s : Nat, 2 * n < 2 ^ (28 * s) → numAFactors n ≤ s := by
  obtain ⟨m, rfl⟩ := Int.eq_ofNat_of_zero_le (le_of_lt hn)
  have hm : 0 < m := by exact_mod_cast hn
  have hb : mpz_sizeinbase2 (m : Int) = bitLength m m := by
    unfold mpz_sizeinbase2
    rw [if_neg (by exact_mod_cast (ne_of_gt hm))]
    rfl
  obtain ⟨h1, h2⟩ := bitLength_spec m m (le_refl _)
  have h2 := h2 hm
  unfold numAFactors
  rw [hb]
  set b := bitLength m m with hbdef
  constructor
  · have hle : b + 1 ≤ 28 * (b / 28 + 1) := by omega
    have : 2 * m < 2 ^ (28 * (b / 28 + 1)) :=
      calc 2 * m < 2 * 2 ^ b := by omega
        _ = 2 ^ (b + 1) := by rw [pow_succ]; ring
        _ ≤ 2 ^ (28 * (b / 28 + 1)) := Nat.pow_le_pow_right (by norm_num) hle
    exact_mod_cast this
  · intro s hs
    have hs' : 2 * m < 2 ^ (28 * s) := by exact_mod_cast hs
    have : 2 ^ b < 2 ^ (28 * s) := lt_of_le_of_lt h2 hs'
    have hlt : b < 28 * s := (Nat.pow_lt_pow_iff_right (by norm_num)).mp this
    omega

theorem numAFactors_least_witness :
    2 * (1000 : Int) < 2 ^ (28 * numAFactors 1000) ∧
      ∀ s : Nat, 2 * (1000 : Int) < 2 ^ (28 * s) → numAFactors 1000 ≤ s :=
  numAFactors_least 1000 (by decide)

/-- C32: in the family `polyExample` (`A = 17 * 23 * 37`, `kN = 77`, `Mdiv2 = 10`) the
sibling of `polyindex = 1` has `B = 4196`, and for the prime `p = 17` of `A` the recomputed
root is `soln1 = 2`, stored with the sentinel in `soln2`; but
`Q(2 - 10) = 14467 * 64 - 2 * 4196 * 8 + 1217 = 859969` leaves the remainder 7 modulo 17. -/
theorem aPrimeSoln_not_root :
    siblingB polyExample 1 = 4196 ∧ aPrime polyExample 0 = 17 ∧
      aPrimeSoln polyExample (siblingB polyExample 1) 0 = 2 ∧
      (siblingSolns polyExample 1).entry 3 = (2, 0xFFFFFFFF) ∧
      polyQ (polyA polyExample) (siblingB polyExample 1)
        (polyC polyExample (siblingB polyExample 1))
        (aPrimeSoln polyExample (siblingB polyExample 1) 0 - (polyExample.Mdiv2 : Int)) % 17
          = 7 := by
  decide

/-- C34, as claimed: for `N = 10^40 + 1`, multiplier `k = 2` and `p = 3` the symbols are
`(N/3) = -1` and `(k/3) = -1`, the product is 1 and `2.0*logpdivp` is added, although
`(k/p) = 1` does not hold. -/
theorem ksIncrement_both_nonresidues :
    ksIncrement (10 ^ 40 + 1) 2 3 = 2 ∧ mpz_kronecker 2 3 = -1 ∧
      mpz_kronecker (10 ^ 40 + 1) 3 = -1 := by
  decide

theorem mpz_kronecker_values (a : Int) (p : Nat) (hp2 : p ≠ 2) :
    mpz_kronecker a p = 0 ∨ mpz_kronecker a p = 1 ∨ mpz_kronecker a p = -1 := by
  unfold mpz_kronecker
  rw [if_neg hp2]
  simp only
  split_ifs <;> simp

theorem ksIncrement_cases (n : Int) (k p : Nat) :
    ksIncrement n k p =
      if mpz_kronecker n p * mpz_kronecker (k : Int) p = 0 then 1
      else if mpz_kronecker n p * mpz_kronecker (k : Int) p = 1 then 2 else 0 := by
  unfold ksIncrement
  simp only
  split
  · next h => rw [if_pos h]
  · next h => rw [if_neg (by rw [h]; decide), if_pos h]
  · next h0 h1 => rw [if_neg h0, if_neg h1]

/-- C34, amended: for an odd prime `p` the score of the multiplier `k` gets `ln(p)/p` once
when `p` divides `kN`, twice when `(kN/p) = 1` (whatever `(k/p)` is), and not at all
otherwise. -/
theorem ksIncrement_spec (n : Int) (k p : Nat) (hp : p.Prime) (hp2 : p ≠ 2) :
    ksIncrement n k p =
      if (p : Int) ∣ (k : Int) * n then 1
      else if mpz_kronecker ((k : Int) * n) p = 1 then 2 else 0 := by
  haveI : Fact p.Prime := ⟨hp⟩
  obtain ⟨n1, nm1, n0⟩ := mpz_kronecker_odd p hp2 n
  obtain ⟨k1, km1, k0⟩ := mpz_kronecker_odd p hp2 (k : Int)
  obtain ⟨m1, mm1, m0⟩ := mpz_kronecker_odd p hp2 ((k : Int) * n)
  have hdvd : (p : Int) ∣ (k : Int) * n ↔ mpz_kronecker ((k : Int) * n) p = 0 := by
    rw [m0, ZMod.intCast_zmod_eq_zero_iff_dvd]
  have hmul : (((k : Int) * n : Int) : ZMod p) ^ (p / 2) =
      ((k : Int) : ZMod p) ^ (p / 2) * (n : ZMod p) ^ (p / 2) := by
    push_cast; rw [mul_pow]
  have hcastmul : (((k : Int) * n : Int) : ZMod p) = ((k : Int) : ZMod p) * (n : ZMod p) := by
    push_cast; rfl
  have hm1 : (-1 : ZMod p) ≠ 1 := by
    haveI : Fact (2 < p) := ⟨by have := hp.two_le; omega⟩
    exact ZMod.neg_one_ne_one
  rw [ksIncrement_cases]
  rcases mpz_kronecker_values n p hp2 with hn | hn | hn <;>
    rcases mpz_kronecker_values (k : Int) p hp2 with hk | hk | hk
  all_goals rw [hn, hk]
  · have : mpz_kronecker ((k : Int) * n) p = 0 := by
      rw [m0, hcastmul, n0.mp hn]; simp
    simp [hdvd, this]
  · have : mpz_kronecker ((k : Int) * n) p = 0 := by
      rw [m0, hcastmul, n0.mp hn]; simp
    simp [hdvd, this]
  · have : mpz_kronecker ((k : Int) * n) p = 0 := by
      rw [m0, hcastmul, n0.mp hn]; simp
    simp [hdvd, this]
  · have : mpz_kronecker ((k : Int) * n) p = 0 := by
      rw [m0, hcastmul, k0.mp hk]; simp
    simp [hdvd, this]
  · have : mpz_kronecker ((k : Int) * n) p = 1 := by
      rw [m1, hmul, n1.mp hn, k1.mp hk]; simp
    simp [hdvd, this]
  · have : mpz_kronecker ((k : Int) * n) p = -1 := by
      rw [mm1, hmul, n1.mp hn, km1.mp hk]; simp
    simp [hdvd, this]
  · have : mpz_kronecker ((k : Int) * n) p = 0 := by
      rw [m0, hcastmul, k0.mp hk]; simp
    simp [hdvd, this]
  · have : mpz_kronecker ((k : Int) * n) p = -1 := by
      rw [mm1, hmul, nm1.mp hn, k1.mp hk]; simp
    simp [hdvd, this]
  · have : mpz_kronecker ((k : Int) * n) p = 1 := by
      rw [m1, hmul, nm1.mp hn, km1.mp hk]; simp
    simp [hdvd, this]

theorem ksIncrement_spec_witness :
    ksIncrement 11 2 7 =
      if ((7 : Nat) : Int) ∣ ((2 : Nat) : Int) * 11 then 1
      else if mpz_kronecker (((2 : Nat) : Int) * 11) 7 = 1 then 2 else 0 :=
  ksIncrement_spec 11 2 7 (by decide) (by decide)


/-- C40: on the matrix of two rows that both hold a single entry in column 0, the first
call `gaussReduce(m, 1, 2, 0)` returns the rank 1 and clears row 1 in column 0; a second
call in the same process, on an identical fresh matrix and with the same arguments, starts
from the `static` `rowUpto = 1` left by the first call, returns 2 and leaves row 1 with its
entry in column 0. -/
theorem gaussReduce_second_call_differs :
    (gaussReduce gaussStatics0 gaussExample 1 2 0).1 = 1 ∧
      getEntry (gaussReduce gaussStatics0 gaussExample 1 2 0).2.1 1 0 = 0 ∧
      (gaussReduce (gaussReduce gaussStatics0 gaussExample 1 2 0).2.2 gaussExample 1 2 0).1
        = 2 ∧
      getEntry
        (gaussReduce (gaussReduce gaussStatics0 gaussExample 1 2 0).2.2 gaussExample 1 2 0).2.1
        1 0 ≠ 0 := by
  decide


theorem scanAind_eq_length (aind : List Int) (x : Int) :
    scanAind aind x = aind.length ↔ x ∉ aind := by
  unfold scanAind
  induction aind with
  | nil => simp
  | cons a l ih =>
    by_cases h : a = x
    · subst h
      simp [List.takeWhile_cons]
    · have h' : x ≠ a := fun e => h e.symm
      have hd : decide (a ≠ x) = true := decide_eq_true h
      rw [List.takeWhile_cons, hd]
      simp only [if_true, List.length_cons, add_left_inj, List.mem_cons, not_or]
      rw [ih]
      exact ⟨fun hx => ⟨h', hx⟩, fun hx => hx.2⟩

theorem countP_gt_succ (l : List Int) (x : Int) :
    l.countP (fun a => decide (x < a)) =
      l.countP (fun a => decide (x + 1 < a)) + l.countP (fun a => decide (a = x + 1)) := by
  induction l with
  | nil => rfl
  | cons a l ih =>
    simp only [List.countP_cons, ih]
    by_cases h1 : x < a <;> by_cases h2 : x + 1 < a <;> by_cases h3 : a = x + 1 <;>
      simp [h1, h2, h3] <;> omega

theorem freshIndex_spec (aind : List Int) :
    ∀ (fuel : Nat) (ran : Int), aind.countP (fun a => decide (ran < a)) < fuel →
      ∃ r, freshIndex aind fuel ran = some r ∧ ran < r ∧
        r ≤ ran + (aind.countP (fun a => decide (ran < a)) : Nat) + 1 ∧ r ∉ aind := by
  intro fuel
  induction fuel with
  | zero => intro ran h; omega
  | succ fuel ih =>
    intro ran h
    rw [freshIndex]
    by_cases hm : ran + 1 ∈ aind
    · rw [if_neg (fun e => (scanAind_eq_length aind (ran + 1)).mp e hm)]
      have hc := countP_gt_succ aind ran
      have hpos : 0 < aind.countP (fun a => decide (a = ran + 1)) :=
        List.countP_pos_iff.mpr ⟨ran + 1, hm, by simp⟩
      obtain ⟨r, h1, h2, h3, h4⟩ := ih (ran + 1) (by omega)
      refine ⟨r, h1, by omega, ?_, h4⟩
      rw [hc]
      push_cast
      omega
    · rw [if_pos ((scanAind_eq_length aind (ran + 1)).mpr hm)]
      exact ⟨ran + 1, rfl, by omega, by omega, hm⟩

theorem freshIndex_total (aind : List Int) (ran : Int) :
    ∃ r, freshIndex aind (aind.length + 1) ran = some r ∧ ran < r ∧
      r ≤ ran + (aind.length : Int) + 1 ∧ r ∉ aind := by
  have hle : aind.countP (fun a => decide (ran < a)) ≤ aind.length := List.countP_le_length _
  obtain ⟨r, h1, h2, h3, h4⟩ := freshIndex_spec aind (aind.length + 1) ran (by omega)
  exact ⟨r, h1, h2, by omega, h4⟩

theorem random_lt (randval upto : Nat) (h : 0 < upto) : (random randval upto).2 < upto :=
  Nat.mod_lt _ h

theorem getD_concat (l : List Int) (x : Int) (j : Nat) :
    (l ++ [x]).getD j 0 = if j < l.length then l.getD j 0 else if j = l.length then x else 0 := by
  rw [List.getD_eq_getElem?_getD, List.getD_eq_getElem?_getD]
  by_cases h : j < l.length
  · rw [if_pos h, List.getElem?_append_left h]
  · rw [if_neg h, List.getElem?_append_right (by omega)]
    by_cases h2 : j = l.length
    · subst h2; simp
    · rw [if_neg h2]
      have : j - l.length ≠ 0 := by omega
      obtain ⟨k, hk⟩ := Nat.exists_eq_succ_of_ne_zero this
      rw [hk]; rfl

theorem nodup_concat_of_not_mem (l : List Int) (x : Int) (hl : l.Nodup) (hx : x ∉ l) :
    (l ++ [x]).Nodup := by
  rw [List.nodup_append]
  refine ⟨hl, List.nodup_singleton x, ?_⟩
  intro a ha hb
  rw [List.mem_singleton] at hb
  subst hb
  exact hx ha

theorem sampleLoop_spec (s span min : Int) (hspan : 2 ≤ span) :
    ∀ (fuel randval : Nat) (aind : List Int), aind.Nodup → aind.length % 2 = 0 →
      (∀ j, j < aind.length → j % 2 = 0 →
        Int.tdiv span 2 < aind.getD j 0 ∧ aind.getD j 0 ≤ 2 * Int.tdiv span 2 + (j : Int)) →
      s - 1 - (aind.length : Int) < 2 * (fuel : Int) → 0 < fuel →
      ∃ rv out, sampleLoop s span min fuel (randval, aind) = some (rv, out) ∧ out.Nodup ∧
        (out.length : Int) = max (aind.length : Int) (s - 1) ∧
        ∀ j, j < out.length → j % 2 = 0 →
          Int.tdiv span 2 < out.getD j 0 ∧ out.getD j 0 ≤ 2 * Int.tdiv span 2 + (j : Int) := by
  have hh : Int.tdiv span 2 = span / 2 := Int.tdiv_eq_ediv (by omega) (by norm_num)
  have hpos : 1 ≤ Int.tdiv span 2 := by rw [hh]; omega
  have hnat : 0 < (Int.tdiv span 2).toNat := by omega
  intro fuel
  induction fuel with
  | zero => intro rv aind _ _ _ _ h; omega
  | succ fuel ih =>
    intro rv aind hnd hev hb hf _
    rw [sampleLoop]
    by_cases hlt : (aind.length : Int) < s - 1
    · rw [if_pos hlt]
      simp only
      have hr := random_lt rv (Int.tdiv span 2).toNat hnat
      obtain ⟨ran, f1, f2, f3, f4⟩ :=
        freshIndex_total aind (Int.tdiv span 2 + ((random rv (Int.tdiv span 2).toNat).2 : Int))
      rw [f1]
      simp only
      have hnd1 : (aind ++ [ran]).Nodup := nodup_concat_of_not_mem aind ran hnd f4
      have hlen1 : (aind ++ [ran]).length = aind.length + 1 := by simp
      have hb1 : ∀ j, j < (aind ++ [ran]).length → j % 2 = 0 →
          Int.tdiv span 2 < (aind ++ [ran]).getD j 0 ∧
            (aind ++ [ran]).getD j 0 ≤ 2 * Int.tdiv span 2 + (j : Int) := by
        intro j hj hje
        rw [getD_concat]
        by_cases hj1 : j < aind.length
        · rw [if_pos hj1]; exact hb j hj1 hje
        · have hj2 : j = aind.length := by omega
          rw [if_neg hj1, if_pos hj2, hj2]
          constructor
          · omega
          · omega
      by_cases hlt1 : ((aind ++ [ran]).length : Int) < s - 1
      · rw [if_pos hlt1]
        obtain ⟨ran2, g1, _, _, g4⟩ := freshIndex_total (aind ++ [ran])
          (Int.tdiv ((min + Int.tdiv span 2) * (min + Int.tdiv span 2)) (ran + min)
            - (((random (random rv (Int.tdiv span 2).toNat).1 10).2 : Nat) : Int) - min)
        rw [g1]
        simp only
        have hnd2 : (aind ++ [ran] ++ [ran2]).Nodup :=
          nodup_concat_of_not_mem _ ran2 hnd1 g4
        have hlen2 : (aind ++ [ran] ++ [ran2]).length = aind.length + 2 := by simp
        have hb2 : ∀ j, j < (aind ++ [ran] ++ [ran2]).length → j % 2 = 0 →
            Int.tdiv span 2 < (aind ++ [ran] ++ [ran2]).getD j 0 ∧
              (aind ++ [ran] ++ [ran2]).getD j 0 ≤ 2 * Int.tdiv span 2 + (j : Int) := by
          intro j hj hje
          rw [getD_concat]
          have hj1 : j < (aind ++ [ran]).length := by omega
          rw [if_pos hj1]
          exact hb1 j hj1 hje
        obtain ⟨rv', out, e1, e2, e3, e4⟩ :=
          ih (random (random rv (Int.tdiv span 2).toNat).1 10).1 (aind ++ [ran] ++ [ran2])
            hnd2 (by omega) hb2 (by rw [hlen2]; push_cast; omega)
            (by rw [hlen1] at hlt1; push_cast at hlt1; omega)
        refine ⟨rv', out, e1, e2, ?_, e4⟩
        rw [e3, hlen2]
        rw [hlen1] at hlt1
        push_cast at hlt1 ⊢
        omega
      · rw [if_neg hlt1]
        refine ⟨_, _, rfl, hnd1, ?_, hb1⟩
        rw [hlen1] at hlt1 ⊢
        push_cast at hlt1 ⊢
        omega
    · rw [if_neg hlt]
      refine ⟨rv, aind, rfl, hnd, ?_, hb⟩
      omega

/-- C36, as claimed: with `s = 5`, `span = 30`, `min = 100` (the values `mainRoutine`
derives for `N = 10^39 + 3`) and the initial state `2994439072` of the generator, the
sampling loop chooses the offsets `20, 7, 28, -2`: the paired offset `-2` is negative, its
factor-base index `98` lies below `min`. From the state `554681256` it chooses
`30, -2, 22, 3`: the sampled offset `30` equals `span`. -/
theorem sampled_offsets_leave_span :
    sampleLoop 5 30 100 3 (2994439072, []) = some (1959788836, [20, 7, 28, -2]) ∧
      sampleLoop 5 30 100 3 (554681256, []) = some (2532412266, [30, -2, 22, 3]) := by
  decide

/-- C36, amended: for `s ≥ 1` and `span ≥ 2` the sampling loop comes to an end for every
state of the generator (any fuel of at least `s` rounds gives its result) and leaves `s - 1`
offsets; each pseudo-randomly sampled one, `aind_j` with `j` even, satisfies
`span/2 < aind_j ≤ 2 * (span/2) + j`. -/
theorem sampled_offsets_bound (s span min : Int) (randval fuel : Nat) (hs : 1 ≤ s)
    (hspan : 2 ≤ span) (hfuel : s ≤ (fuel : Int)) :
    ∃ rv aind, sampleLoop s span min fuel (randval, []) = some (rv, aind) ∧
      (aind.length : Int) = s - 1 ∧
      ∀ j, j < aind.length → j % 2 = 0 →
        Int.tdiv span 2 < aind.getD j 0 ∧ aind.getD j 0 ≤ 2 * Int.tdiv span 2 + (j : Int) := by
  obtain ⟨rv, out, e1, _, e3, e4⟩ := sampleLoop_spec s span min hspan fuel randval []
    List.nodup_nil rfl (fun j hj => absurd hj (Nat.not_lt_zero _))
    (by simp only [List.length_nil, Nat.cast_zero]; omega) (by omega)
  refine ⟨rv, out, e1, ?_, e4⟩
  rw [e3]
  simp only [List.length_nil, Nat.cast_zero]
  omega

set_option maxRecDepth 100000 in
theorem sampled_offsets_bound_witness :
    ∃ rv aind, sampleLoop 5 30 100 5 (2994439072, []) = some (rv, aind) ∧
      (aind.length : Int) = 5 - 1 ∧
      ∀ j, j < aind.length → j % 2 = 0 →
        Int.tdiv 30 2 < aind.getD j 0 ∧ aind.getD j 0 ≤ 2 * Int.tdiv 30 2 + (j : Int) :=
  sampled_offsets_bound 5 30 100 2994439072 5 (by decide) (by decide) (by decide)

theorem startRun_of_invert (N q inv : Int) (h : mpz_invert (toUlong q) N = some inv) :
    startRun N q = RunStart.inverted inv q := by
  unfold startRun
  rw [h]

theorem combineLoop_pairs (numPrimes : Nat) (N : Int) (hN : 0 < N) :
    ∀ (rest : List LpEntry) (st : CombState) (f : LpEntry),
      (∀ a ∈ rest, 0 ≤ a.q ∧ a.q < 2 ^ 63 ∧ Int.gcd a.q N = 1 ∧
        ∀ ep ∈ a.E, ep.2 < numPrimes) →
      (∀ ep ∈ f.E, ep.2 < numPrimes) →
      st.i ≤ 1 → (if st.i = 0 then st.e1 else st.e0) = f → st.old_q = f.q → st.Y1 = f.Y →
      mpz_invert (toUlong f.q) N = some st.inv_q →
      combineLoop numPrimes N rest st =
        some { c := st.c + (pairRuns numPrimes N (some f) rest).length,
               fnew := st.fnew ++ pairRuns numPrimes N (some f) rest, factor := none } := by
  intro rest
  induction rest with
  | nil =>
    intro st f _ _ _ _ _ _ _
    simp [combineLoop, pairRuns]
  | cons b rest ih =>
    intro st f hs hfE hi hrow hq hY hinv
    obtain ⟨hb0, hb1, hbg, hbE⟩ := hs b (List.mem_cons_self _ _)
    have hrest : ∀ a ∈ rest, 0 ≤ a.q ∧ a.q < 2 ^ 63 ∧ Int.gcd a.q N = 1 ∧
        ∀ ep ∈ a.E, ep.2 < numPrimes := fun a ha => hs a (List.mem_cons_of_mem _ ha)
    have hi01 : st.i = 0 ∨ st.i = 1 := by omega
    by_cases hne : b.q = st.old_q
    · -- same run
      have hbf : b.q = f.q := hne.trans hq
      have hpairs : exponentPairs (set_exponents (set_exponents (List.replicate numPrimes 0)
            (if st.i = 0 then b else st.e0).E) (if st.i = 0 then st.e1 else b).E)
          = (pairedLine numPrimes N f b).pairs := by
        rcases hi01 with h0 | h1
        · rw [h0] at hrow
          simp only [if_true] at hrow
          simp only [h0, if_true]
          rw [hrow, exponentPairs_combined numPrimes b.E f.E hbE hfE]
          unfold pairedLine
          simp only [Nat.add_comm (exponentOf b.E _) (exponentOf f.E _)]
        · rw [h1] at hrow
          simp only [one_ne_zero, if_false] at hrow
          simp only [h1, one_ne_zero, if_false]
          rw [hrow, exponentPairs_combined numPrimes f.E b.E hfE hbE]
          rfl
      have hX : combinedY N st.Y1 b.Y st.inv_q = (pairedLine numPrimes N f b).X := by
        unfold pairedLine
        simp only [hinv, Option.getD_some, hY]
      by_cases hYY : st.Y1.natAbs ≠ b.Y.natAbs
      · rw [combineLoop_same_run numPrimes N b rest st hne hYY]
        have key := ih
          { st with e0 := if st.i = 0 then b else st.e0, e1 := if st.i = 0 then st.e1 else b,
                    c := st.c + 1,
                    fnew := st.fnew ++ [{ X := combinedY N st.Y1 b.Y st.inv_q,
                                          pairs := exponentPairs (set_exponents (set_exponents
                                            (List.replicate numPrimes 0)
                                            (if st.i = 0 then b else st.e0).E)
                                            (if st.i = 0 then st.e1 else b).E) }] }
          f hrest hfE hi (by
          rcases hi01 with h0 | h1
          · rw [h0] at hrow; simp only [if_true] at hrow; simp only [h0, if_true]; exact hrow
          · rw [h1] at hrow; simp only [one_ne_zero, if_false] at hrow
            simp only [h1, one_ne_zero, if_false]; exact hrow) hq hY hinv
        rw [key]
        simp only
        rw [hpairs, hX]
        have hp : pairRuns numPrimes N (some f) (b :: rest) =
            pairedLine numPrimes N f b :: pairRuns numPrimes N (some f) rest := by
          rw [pairRuns, if_pos hbf, if_pos (by rw [← hY]; exact hYY)]
          rfl
        rw [hp]
        simp only [List.length_cons, List.append_assoc, List.singleton_append]
        congr 2
        omega
      · rw [combineLoop_same_run_skip numPrimes N b rest st hne hYY]
        have key := ih
          { st with e0 := if st.i = 0 then b else st.e0, e1 := if st.i = 0 then st.e1 else b }
          f hrest hfE hi (by
          rcases hi01 with h0 | h1
          · rw [h0] at hrow; simp only [if_true] at hrow; simp only [h0, if_true]; exact hrow
          · rw [h1] at hrow; simp only [one_ne_zero, if_false] at hrow
            simp only [h1, one_ne_zero, if_false]; exact hrow) hq hY hinv
        rw [key]
        simp only
        have hp : pairRuns numPrimes N (some f) (b :: rest) =
            pairRuns numPrimes N (some f) rest := by
          rw [pairRuns, if_pos hbf, if_neg (by rw [← hY]; exact hYY)]
          rfl
        rw [hp]
    · -- a new run starts with `b`
      have hbf : ¬ b.q = f.q := fun h => hne (h.trans hq.symm)
      obtain ⟨inv, hinv1, _⟩ := mpz_invert_of_gcd (a := b.q) hN hbg
      have hinv2 : mpz_invert (toUlong b.q) N = some inv := by
        rw [toUlong_of_range hb0 hb1]; exact hinv1
      rw [combineLoop_new_run numPrimes N b rest st inv b.q hne
        (startRun_of_invert N b.q inv hinv2)]
      have key := ih
        { st with e0 := if st.i = 0 then b else st.e0, e1 := if st.i = 0 then st.e1 else b,
                  old_q := b.q, inv_q := inv, Y1 := b.Y, i := 1 - st.i }
        b hrest hbE (by simp only; omega) (by
          rcases hi01 with h0 | h1
          · simp [h0]
          · simp [h1]) rfl rfl hinv2
      rw [key]
      simp only
      have hp : pairRuns numPrimes N (some f) (b :: rest) =
          pairRuns numPrimes N (some b) rest := by
        rw [pairRuns, if_neg hbf]
      rw [hp]

/-- C38: when `N > 0` and every line of `COMB` has a large prime `q` that is a machine word
prime to `N` (so every inverse exists) and prime indices inside the factor base,
`combine_large_primes` writes exactly the lines of the pairing rule: each line that is not
the first of its run of equal `q` is paired with the first line of that run only, one
relation per later line whose `|Y|` differs from that of the first line and none for equal
`|Y|`; the return value is the number of lines written to `FNEW`. -/
theorem combine_pairs_with_first (numPrimes : Nat) (N : Int) (lines : List LpEntry)
    (hN : 0 < N)
    (hs : ∀ a ∈ lines, 0 ≤ a.q ∧ a.q < 2 ^ 63 ∧ Int.gcd a.q N = 1 ∧
      ∀ ep ∈ a.E, ep.2 < numPrimes) :
    combine_large_primes numPrimes N lines =
      some { c := (pairRuns numPrimes N none lines).length,
             fnew := pairRuns numPrimes N none lines, factor := none } := by
  cases lines with
  | nil => rfl
  | cons a rest =>
    obtain ⟨ha0, ha1, hag, haE⟩ := hs a (List.mem_cons_self _ _)
    obtain ⟨inv, hinv1, _⟩ := mpz_invert_of_gcd (a := a.q) hN hag
    have hinv2 : mpz_invert (toUlong a.q) N = some inv := by
      rw [toUlong_of_range ha0 ha1]; exact hinv1
    unfold combine_large_primes
    rw [hinv2]
    simp only
    rw [combineLoop_pairs numPrimes N hN rest _ a
      (fun b hb => hs b (List.mem_cons_of_mem _ hb)) haE (le_refl _) (by simp) rfl rfl hinv2]
    simp [pairRuns]

set_option maxRecDepth 100000 in
theorem combine_pairs_with_first_witness :
    combine_large_primes 4 77 runExample =
      some { c := (pairRuns 4 77 none runExample).length,
             fnew := pairRuns 4 77 none runExample, factor := none } ∧
      pairRuns 4 77 none runExample = [{ X := 12, pairs := [(4, 1), (2, 2)] }] :=
  ⟨combine_pairs_with_first 4 77 runExample (by decide) (by decide), by decide⟩


set_option maxRecDepth 100000 in
/-- C24: with `N = 77` and three partial relations of large prime `q = 7` in `lpnew`
(`gcd(7, 77) = 7`), the lines that reach `comb` make `combine_large_primes` return at once
with `c = 0`, nothing written, and 7 stored in `factor`; the processing of the relation
files in `mainRoutine` goes on as if nothing had been found: it merges the empty `fnew`,
moves the cutoff, and the test `relsFound + totcomb < relSought` keeps the sieve running. -/
theorem combine_factor_is_dropped :
    ((mergesort_lp_file_internal 64 20 true factorExample.lprels
        (sort_lp_file 64 factorExample.lpnew).1).bind
      (fun m1 => readComb 64 m1.comb)).bind (combine_large_primes 4 77)
      = some { c := 0, fnew := [], factor := some 7 } ∧
    (relationsBlock 64 20 4 68 77 factorExample).map
        (fun out => (out.relsFound, out.totcomb, out.next_cutoff, keepsSieving 68 out))
      = some (0, 0, 2, true) := by
  decide


theorem Adds_refl (size : Nat) (mem : Int → Nat) : Adds size mem mem (fun _ => 0) :=
  fun _ => ⟨fun _ => rfl, by simp, fun h => h⟩

theorem Adds_trans {size : Nat} {m1 m2 m3 : Int → Nat} {f g : Int → Nat}
    (h1 : Adds size m1 m2 f) (h2 : Adds size m2 m3 g) :
    Adds size m1 m3 (fun i => f i + g i) := by
  intro i
  obtain ⟨a1, a2, a3⟩ := h1 i
  obtain ⟨b1, b2, b3⟩ := h2 i
  refine ⟨fun h => ?_, ?_, fun h => b3 (a3 h)⟩
  · have h' : f i + g i = 0 := h
    have hf : f i = 0 := by omega
    have hg : g i = 0 := by omega
    rw [b1 hg, a1 hf]
  · show m3 i % 256 = (m1 i + size * (f i + g i)) % 256
    rw [b2, Nat.add_mod, a2, Nat.mul_add, ← Nat.add_assoc]
    simp [Nat.add_mod]

theorem Adds_congr {size : Nat} {m1 m2 : Int → Nat} {f g : Int → Nat} (h : Adds size m1 m2 f)
    (hfg : ∀ i, f i = g i) : Adds size m1 m2 g := by
  intro i
  rw [← hfg i]
  exact h i

theorem Adds_addByte (mem : Int → Nat) (pos : Int) (size : Nat) :
    Adds size mem (addByte mem pos size) (fun i => if i = pos then 1 else 0) := by
  intro i
  unfold addByte
  by_cases h : i = pos
  · refine ⟨?_, ?_, ?_⟩
    · simp [h]
    · simp [h]
    · intro _
      simp only [if_pos h]
      exact Nat.mod_lt _ (by norm_num)
  · refine ⟨?_, ?_, ?_⟩
    · simp [h]
    · simp [h]
    · simp [h]

theorem progHits_single (p pos i : Int) (hp : 0 < p) :
    (if i = pos then 1 else 0) = progHits p pos (pos + p) i := by
  unfold progHits
  by_cases h : i = pos
  · subst h
    rw [if_pos rfl, if_pos ⟨le_refl _, by omega, by simp⟩]
  · rw [if_neg h, if_neg]
    rintro ⟨h1, h2, h3⟩
    have h4 : (i - pos) % p = i - pos := Int.emod_eq_of_lt (by omega) (by omega)
    omega

theorem progHits_append (p a b c i : Int) (k : Nat) (hb : b = a + k * p)
    (hab : a ≤ b) (hbc : b ≤ c) :
    progHits p a b i + progHits p b c i = progHits p a c i := by
  unfold progHits
  have hmod : (i - b) % p = (i - a) % p := by
    rw [hb, show i - (a + (k : Int) * p) = (i - a) + (-(k : Int)) * p by ring,
      Int.add_mul_emod_self]
  rw [hmod]
  by_cases hm : (i - a) % p = 0
  · by_cases h1 : i < b
    · by_cases h0 : a ≤ i
      · rw [if_pos ⟨h0, h1, hm⟩, if_neg (by omega), if_pos ⟨h0, by omega, hm⟩]
      · rw [if_neg (by omega), if_neg (by omega), if_neg (by omega)]
    · by_cases h2 : i < c
      · rw [if_neg (by omega), if_pos ⟨by omega, h2, hm⟩, if_pos ⟨by omega, h2, hm⟩]
      · rw [if_neg (by omega), if_neg (by omega), if_neg (by omega)]
  · rw [if_neg (fun h => hm h.2.2), if_neg (fun h => hm h.2.2), if_neg (fun h => hm h.2.2)]

theorem progHits_empty (p a i : Int) : progHits p a a i = 0 := by
  unfold progHits
  rw [if_neg (by omega)]

/-- Beyond the last element below `e` the progression meets nothing: the hits before `b`
are the hits before `e`. -/
theorem progHits_cut (p a b e i : Int) (k : Nat) (hb : b = a + k * p)
    (he : e ≤ b) (hlast : k = 0 ∨ b - p < e) :
    progHits p a b i = progHits p a (max a e) i := by
  unfold progHits
  by_cases hm : (i - a) % p = 0
  · by_cases h0 : a ≤ i
    · by_cases h1 : i < e
      · rw [if_pos ⟨h0, by omega, hm⟩, if_pos ⟨h0, by omega, hm⟩]
      · -- `i ≥ e`: then `i` is not below `b` either
        have hib : ¬ i < b := by
          intro hlt
          rcases hlast with hk | hk
          · subst hk; simp at hb; omega
          · -- `b - p < e ≤ i < b` and `i ≡ a ≡ b (mod p)`
            have hmb : (b - i) % p = 0 := by
              have : b - i = p * k - (i - a) := by rw [hb]; ring
              rw [this, Int.sub_emod, Int.mul_emod_right, hm]; simp
            have h4 : (b - i) % p = b - i := Int.emod_eq_of_lt (by omega) (by omega)
            omega
        rw [if_neg (by omega), if_neg (by omega)]
    · rw [if_neg (by omega), if_neg (by omega)]
  · rw [if_neg (fun h => hm h.2.2), if_neg (fun h => hm h.2.2)]

theorem flag_or_testBit (flag b0 b : Nat) (hb : b < 8) :
    ((flag ||| 1 <<< b0) % 256).testBit b = (flag.testBit b || decide (b0 = b)) := by
  rw [show 256 = 2 ^ 8 by norm_num, Nat.testBit_mod_two_pow, Nat.testBit_or,
    Nat.one_shiftLeft, Nat.testBit_two_pow]
  simp [hb]

theorem flagWhile_spec (p : Int) (size : Nat) (e : Int) (hp : 0 < p) :
    ∀ (fuel : Nat) (pos : Int) (mem : Int → Nat) (flag : Nat), ∃ k : Nat,
      (flagWhile p size e fuel (pos, mem, flag)).1 = pos + k * p ∧
      Adds size mem (flagWhile p size e fuel (pos, mem, flag)).2.1
        (progHits p pos (flagWhile p size e fuel (pos, mem, flag)).1) ∧
      (∀ b, b < 8 → flag.testBit b = true →
        (flagWhile p size e fuel (pos, mem, flag)).2.2.testBit b = true) ∧
      (∀ j : Nat, j < k →
        (flagWhile p size e fuel (pos, mem, flag)).2.2.testBit ((pos + j * p) % 8).toNat
          = true) ∧
      (k = 0 ∨ (flagWhile p size e fuel (pos, mem, flag)).1 - p < e) ∧
      ((e - pos).toNat ≤ fuel → e ≤ (flagWhile p size e fuel (pos, mem, flag)).1) := by
  intro fuel
  induction fuel with
  | zero =>
    intro pos mem flag
    refine ⟨0, by simp [flagWhile], ?_, fun b _ h => h, fun j hj => absurd hj (by omega),
      Or.inl rfl, fun h => ?_⟩
    · exact Adds_congr (Adds_refl size mem) (fun i => (progHits_empty p pos i).symm)
    · simp only [flagWhile]; omega
  | succ fuel ih =>
    intro pos mem flag
    by_cases hc : e - pos > 0
    · have hstep : flagWhile p size e (fuel + 1) (pos, mem, flag) =
          flagWhile p size e fuel
            (pos + p, addByte mem pos size, (flag ||| 1 <<< (pos % 8).toNat) % 256) := by
        rw [flagWhile]; simp only [if_pos hc]
      rw [hstep]
      obtain ⟨k, h1, h2, h3, h4, h5, h6⟩ :=
        ih (pos + p) (addByte mem pos size) ((flag ||| 1 <<< (pos % 8).toNat) % 256)
      have hb0 : (pos % 8).toNat < 8 := by omega
      refine ⟨k + 1, by rw [h1]; push_cast; ring, ?_, ?_, ?_, ?_, ?_⟩
      · have hk0 : (0 : Int) ≤ (k : Int) * p := by positivity
        have := Adds_trans
          (Adds_congr (Adds_addByte mem pos size) (fun i => progHits_single p pos i hp)) h2
        refine Adds_congr this (fun i => ?_)
        exact progHits_append p pos (pos + p) _ i 1 (by simp) (by omega) (by rw [h1]; omega)
      · intro b hb hfb
        apply h3 b hb
        rw [flag_or_testBit _ _ _ hb, hfb]; rfl
      · intro j hj
        cases j with
        | zero =>
          simp only [Nat.cast_zero, zero_mul, add_zero]
          apply h3 _ hb0
          rw [flag_or_testBit _ _ _ hb0]; simp
        | succ j =>
          have := h4 j (by omega)
          rw [show pos + ((j + 1 : Nat) : Int) * p = pos + p + (j : Int) * p by push_cast; ring]
          exact this
      · right
        rcases h5 with h5 | h5
        · subst h5; rw [h1]; simp; omega
        · exact h5
      · intro hf
        exact h6 (by omega)
    · have hstep : flagWhile p size e (fuel + 1) (pos, mem, flag) = (pos, mem, flag) := by
        rw [flagWhile]; simp only [if_neg hc]
      rw [hstep]
      refine ⟨0, by simp, ?_, fun b _ h => h, fun j hj => absurd hj (by omega),
        Or.inl rfl, fun _ => by simp only; omega⟩
      exact Adds_congr (Adds_refl size mem) (fun i => (progHits_empty p pos i).symm)

/-- Every position of `[0, M)` in the progression of a root `0 ≤ soln < p` is one of the
cursor values of the loop. -/
theorem progression_index (p soln : Int) (i : Nat) (hp : 0 < p) (h1 : soln < p) (hhit : ((i : Int) - soln) % p = 0) :
    ∃ j : Nat, (i : Int) = soln + j * p := by
  have hge : soln ≤ (i : Int) := by
    by_contra hlt
    have hneg : (i : Int) - soln < 0 := by omega
    have hgt : -p < (i : Int) - soln := by omega
    have : ((i : Int) - soln) % p = (i : Int) - soln + p := by
      rw [← Int.add_mul_emod_self (b := 1), one_mul]
      exact Int.emod_eq_of_lt (by omega) (by omega)
    omega
  obtain ⟨c, hc⟩ := Int.dvd_of_emod_eq_zero hhit
  have hc0 : 0 ≤ c := by
    by_contra hneg
    have : p * c < 0 := mul_neg_of_pos_of_neg hp (by omega)
    omega
  refine ⟨c.toNat, ?_⟩
  rw [Int.toNat_of_nonneg hc0]
  linarith [hc, mul_comm p c]

theorem sieve2Flagged_flags_mono (inp : SieveInput) (M fuel : Nat) (st : SieveState)
    (q prime b : Nat) (hq : 0 < inp.factorBase.getD q 0) (hb : b < 8)
    (h : (st.flags prime).testBit b = true) :
    ((sieve2Flagged inp M fuel st q).flags prime).testBit b = true := by
  have hp : (0 : Int) < ((inp.factorBase.getD q 0 : Nat) : Int) := by exact_mod_cast hq
  unfold sieve2Flagged
  simp only
  by_cases hk : prime = q
  · rw [if_pos hk]
    subst hk
    obtain ⟨_, _, _, a3, _, _, _⟩ := flagWhile_spec _ (inp.primeSizes.getD prime 0) (M : Int) hp
      fuel (inp.soln1.getD prime 0) st.mem (st.flags prime)
    obtain ⟨_, _, _, b3, _, _, _⟩ := flagWhile_spec _ (inp.primeSizes.getD prime 0) (M : Int) hp
      fuel (inp.soln2.getD prime 0)
      (flagWhile _ (inp.primeSizes.getD prime 0) (M : Int) fuel
        (inp.soln1.getD prime 0, st.mem, st.flags prime)).2.1
      (flagWhile _ (inp.primeSizes.getD prime 0) (M : Int) fuel
        (inp.soln1.getD prime 0, st.mem, st.flags prime)).2.2
    exact b3 b hb (a3 b hb h)
  · rw [if_neg hk]
    exact h

theorem sieve2Flagged_sets (inp : SieveInput) (M fuel : Nat) (st : SieveState) (prime : Nat)
    (hfuel : M ≤ fuel) (hq : 0 < inp.factorBase.getD prime 0)
    (h1 : 0 ≤ inp.soln1.getD prime 0)
    (h1p : inp.soln1.getD prime 0 < ((inp.factorBase.getD prime 0 : Nat) : Int))
    (h2 : 0 ≤ inp.soln2.getD prime 0)
    (h2p : inp.soln2.getD prime 0 < ((inp.factorBase.getD prime 0 : Nat) : Int))
    (i : Nat) (hi : i < M)
    (hhit : ((i : Int) - inp.soln1.getD prime 0) % ((inp.factorBase.getD prime 0 : Nat) : Int) = 0
      ∨ ((i : Int) - inp.soln2.getD prime 0) % ((inp.factorBase.getD prime 0 : Nat) : Int) = 0) :
    ((sieve2Flagged inp M fuel st prime).flags prime).testBit (i % 8) = true := by
  have hp : (0 : Int) < ((inp.factorBase.getD prime 0 : Nat) : Int) := by exact_mod_cast hq
  have hi8 : i % 8 < 8 := Nat.mod_lt _ (by norm_num)
  unfold sieve2Flagged
  simp only [if_true]
  generalize ((inp.factorBase.getD prime 0 : Nat) : Int) = p at *
  obtain ⟨k1, a1, _, _, a4, _, a6⟩ := flagWhile_spec _ (inp.primeSizes.getD prime 0) (M : Int) hp
    fuel (inp.soln1.getD prime 0) st.mem (st.flags prime)
  obtain ⟨k2, b1, _, b3, b4, _, b6⟩ := flagWhile_spec _ (inp.primeSizes.getD prime 0) (M : Int)
    hp fuel (inp.soln2.getD prime 0)
    (flagWhile _ (inp.primeSizes.getD prime 0) (M : Int) fuel
      (inp.soln1.getD prime 0, st.mem, st.flags prime)).2.1
    (flagWhile _ (inp.primeSizes.getD prime 0) (M : Int) fuel
      (inp.soln1.getD prime 0, st.mem, st.flags prime)).2.2
  rcases hhit with hh | hh
  · obtain ⟨j, hj⟩ := progression_index _ _ i hp h1p hh
    have hjk : j < k1 := by
      have hM := a6 (by omega)
      rw [a1] at hM
      have : (j : Int) * p < (k1 : Int) * p := by
        have : (i : Int) < M := by exact_mod_cast hi
        linarith
      exact_mod_cast lt_of_mul_lt_mul_right this (le_of_lt hp)
    have := a4 j hjk
    rw [← hj] at this
    apply b3 _ hi8
    have e8 : ((i : Int) % 8).toNat = i % 8 := by omega
    rw [e8] at this
    exact this
  · obtain ⟨j, hj⟩ := progression_index _ _ i hp h2p hh
    have hjk : j < k2 := by
      have hM := b6 (by omega)
      rw [b1] at hM
      have : (j : Int) * p < (k2 : Int) * p := by
        have : (i : Int) < M := by exact_mod_cast hi
        linarith
      exact_mod_cast lt_of_mul_lt_mul_right this (le_of_lt hp)
    have := b4 j hjk
    rw [← hj] at this
    have e8 : ((i : Int) % 8).toNat = i % 8 := by omega
    rw [e8] at this
    exact this

theorem foldl_sieve2Flagged_mono (inp : SieveInput) (M fuel : Nat) (prime b : Nat)
    (hb : b < 8) :
    ∀ (l : List Nat) (st : SieveState), (∀ q ∈ l, 0 < inp.factorBase.getD q 0) →
      (st.flags prime).testBit b = true →
      ((l.foldl (sieve2Flagged inp M fuel) st).flags prime).testBit b = true := by
  intro l
  induction l with
  | nil => intro st _ h; exact h
  | cons q l ih =>
    intro st hq h
    rw [List.foldl_cons]
    exact ih _ (fun x hx => hq x (List.mem_cons_of_mem _ hx))
      (sieve2Flagged_flags_mono inp M fuel st q prime b (hq q (List.mem_cons_self _ _)) hb h)

theorem foldl_sieve2Flagged_sets (inp : SieveInput) (M fuel : Nat) (prime : Nat)
    (hfuel : M ≤ fuel)
    (h1 : 0 ≤ inp.soln1.getD prime 0)
    (h1p : inp.soln1.getD prime 0 < ((inp.factorBase.getD prime 0 : Nat) : Int))
    (h2 : 0 ≤ inp.soln2.getD prime 0)
    (h2p : inp.soln2.getD prime 0 < ((inp.factorBase.getD prime 0 : Nat) : Int))
    (i : Nat) (hi : i < M)
    (hhit : ((i : Int) - inp.soln1.getD prime 0) % ((inp.factorBase.getD prime 0 : Nat) : Int) = 0
      ∨ ((i : Int) - inp.soln2.getD prime 0) % ((inp.factorBase.getD prime 0 : Nat) : Int) = 0) :
    ∀ (l : List Nat) (st : SieveState), (∀ q ∈ l, 0 < inp.factorBase.getD q 0) → prime ∈ l →
      ((l.foldl (sieve2Flagged inp M fuel) st).flags prime).testBit (i % 8) = true := by
  intro l
  induction l with
  | nil => intro st _ h; exact absurd h (List.not_mem_nil _)
  | cons q l ih =>
    intro st hq hmem
    rw [List.foldl_cons]
    have hq' : ∀ x ∈ l, 0 < inp.factorBase.getD x 0 :=
      fun x hx => hq x (List.mem_cons_of_mem _ hx)
    by_cases hqp : prime = q
    · subst hqp
      exact foldl_sieve2Flagged_mono inp M fuel prime (i % 8) (Nat.mod_lt _ (by norm_num)) l _
        hq' (sieve2Flagged_sets inp M fuel st prime hfuel (hq prime (List.mem_cons_self _ _))
          h1 h1p h2 h2p i hi hhit)
    · rcases List.mem_cons.mp hmem with h | h
      · exact absurd h hqp
      · exact ih _ hq' h

/-- C30: after `sieve2(M, ...)`, for a prime index in `[secondprime, numPrimes)` whose
roots lie in `[0, p)` and every position `i < M` with `i ≡ soln1` or `i ≡ soln2` modulo
the prime, bit `i & 7` of `flags[prime]` is set, which is the bit `flags[k] & vv` that
evaluateSieve tests at position `i` before it looks at the roots (the loops of sieve2 come
to an end within `M` rounds). -/
theorem sieve2_sets_flags (inp : SieveInput) (M fuel : Nat) (st : SieveState) (prime i : Nat)
    (hfuel : M ≤ fuel)
    (hfb : ∀ q, q < inp.cfg.numPrimes → inp.cfg.secondprime ≤ q →
      0 < inp.factorBase.getD q 0)
    (hlo : inp.cfg.secondprime ≤ prime) (hhi : prime < inp.cfg.numPrimes)
    (h1 : 0 ≤ inp.soln1.getD prime 0)
    (h1p : inp.soln1.getD prime 0 < ((inp.factorBase.getD prime 0 : Nat) : Int))
    (h2 : 0 ≤ inp.soln2.getD prime 0)
    (h2p : inp.soln2.getD prime 0 < ((inp.factorBase.getD prime 0 : Nat) : Int))
    (hi : i < M)
    (hhit : ((i : Int) - inp.soln1.getD prime 0) % ((inp.factorBase.getD prime 0 : Nat) : Int) = 0
      ∨ ((i : Int) - inp.soln2.getD prime 0) % ((inp.factorBase.getD prime 0 : Nat) : Int) = 0) :
    ((sieve2 inp M fuel st).flags prime).testBit (i % 8) = true := by
  unfold sieve2
  simp only
  apply foldl_sieve2Flagged_sets inp M fuel prime hfuel h1 h1p h2 h2p i hi hhit
  · intro q hq
    rw [List.mem_range'_1] at hq
    exact hfb q (by omega) hq.1
  · rw [List.mem_range'_1]
    omega

theorem sieve2_sets_flags_witness :
    ((sieve2 sieveExample 40 40 sieveState0).flags 5).testBit (15 % 8) = true :=
  sieve2_sets_flags sieveExample 40 40 sieveState0 5 15 (by decide) (by decide) (by decide)
    (by decide) (by decide) (by decide) (by decide) (by decide) (by decide)
    (Or.inl (by decide))


theorem hitSteps_spec (p : Int) (size : Nat) (diff : Int) (hp : 0 < p) :
    ∀ (n : Nat) (pos : Int) (mem : Int → Nat),
      (hitSteps p size diff n (pos, mem)).1 = pos + n * p ∧
      Adds size mem (hitSteps p size diff n (pos, mem)).2
        (fun i => progHits p pos (pos + n * p) i +
          progHits p (pos + diff) (pos + diff + n * p) i) := by
  intro n
  induction n with
  | zero =>
    intro pos mem
    refine ⟨by simp [hitSteps], ?_⟩
    refine Adds_congr (Adds_refl size mem) (fun i => ?_)
    simp [progHits_empty]
  | succ n ih =>
    intro pos mem
    have hstep : hitSteps p size diff (n + 1) (pos, mem) =
        hitSteps p size diff n
          (pos + p, addByte (addByte mem pos size) (pos + diff) size) := rfl
    rw [hstep]
    obtain ⟨h1, h2⟩ := ih (pos + p) (addByte (addByte mem pos size) (pos + diff) size)
    refine ⟨by rw [h1]; push_cast; ring, ?_⟩
    have hn0 : (0 : Int) ≤ (n : Int) * p := by positivity
    have a1 := Adds_congr (Adds_addByte mem pos size) (fun i => progHits_single p pos i hp)
    have a2 := Adds_congr (Adds_addByte (addByte mem pos size) (pos + diff) size)
      (fun i => progHits_single p (pos + diff) i hp)
    refine Adds_congr (Adds_trans (Adds_trans a1 a2) h2) (fun i => ?_)
    have e1 := progHits_append p pos (pos + p) (pos + ((n + 1 : Nat) : Int) * p) i 1
      (by simp) (by omega) (by push_cast; nlinarith)
    have e2 := progHits_append p (pos + diff) (pos + diff + p)
      (pos + diff + ((n + 1 : Nat) : Int) * p) i 1 (by simp) (by omega)
      (by push_cast; nlinarith)
    have e3 : pos + p + (n : Int) * p = pos + ((n + 1 : Nat) : Int) * p := by
      push_cast; ring
    have e4 : pos + p + diff + (n : Int) * p = pos + diff + ((n + 1 : Nat) : Int) * p := by
      push_cast; ring
    have e5 : pos + p + diff = pos + diff + p := by ring
    rw [e3, e4, e5, ← e1, ← e2]
    omega

theorem sieveWhile_spec (cond : Int → Bool) (reps : Nat) (p : Int) (size : Nat) (diff : Int)
    (hp : 0 < p) (hreps : 0 < reps) :
    ∀ (fuel : Nat) (pos : Int) (mem : Int → Nat), ∃ k : Nat,
      (sieveWhile cond reps p size diff fuel (pos, mem)).1 = pos + k * (reps * p) ∧
      Adds size mem (sieveWhile cond reps p size diff fuel (pos, mem)).2
        (fun i => progHits p pos (sieveWhile cond reps p size diff fuel (pos, mem)).1 i +
          progHits p (pos + diff)
            ((sieveWhile cond reps p size diff fuel (pos, mem)).1 + diff) i) ∧
      (k = 0 ∨
        cond ((sieveWhile cond reps p size diff fuel (pos, mem)).1 - reps * p) = true) ∧
      (∀ e, (∀ x, cond x = true → x < e) → (e - pos).toNat ≤ fuel →
        cond (sieveWhile cond reps p size diff fuel (pos, mem)).1 = false) := by
  have hrp : (1 : Int) ≤ reps * p := by
    have : (1 : Int) ≤ reps := by exact_mod_cast hreps
    nlinarith
  intro fuel
  induction fuel with
  | zero =>
    intro pos mem
    refine ⟨0, by simp [sieveWhile], ?_, Or.inl rfl, ?_⟩
    · refine Adds_congr (Adds_refl size mem) (fun i => ?_)
      simp [sieveWhile, progHits_empty]
    · intro e he hf
      simp only [sieveWhile]
      by_contra hc
      have := he pos (by simpa using hc)
      omega
  | succ fuel ih =>
    intro pos mem
    by_cases hc : cond pos = true
    · have hstep : sieveWhile cond reps p size diff (fuel + 1) (pos, mem) =
          sieveWhile cond reps p size diff fuel (hitSteps p size diff reps (pos, mem)) := by
        rw [sieveWhile]; simp only [if_pos hc]
      obtain ⟨g1, g2⟩ := hitSteps_spec p size diff hp reps pos mem
      obtain ⟨k, h1, h2, h3, h4⟩ := ih (hitSteps p size diff reps (pos, mem)).1
        (hitSteps p size diff reps (pos, mem)).2
      rw [hstep]
      have hpair : hitSteps p size diff reps (pos, mem) =
          ((hitSteps p size diff reps (pos, mem)).1, (hitSteps p size diff reps (pos, mem)).2) :=
        rfl
      rw [hpair]
      rw [g1] at h1 h2 h3 h4 ⊢
      have hk0 : (0 : Int) ≤ (k : Int) * (reps * p) := by positivity
      refine ⟨k + 1, by rw [h1]; push_cast; ring, ?_, ?_, ?_⟩
      · refine Adds_congr (Adds_trans g2 h2) (fun i => ?_)
        have e1 := progHits_append p pos (pos + reps * p)
          (sieveWhile cond reps p size diff fuel
            (pos + reps * p, (hitSteps p size diff reps (pos, mem)).2)).1 i reps rfl
          (by omega) (by rw [h1]; omega)
        have e2 := progHits_append p (pos + diff) (pos + diff + reps * p)
          ((sieveWhile cond reps p size diff fuel
            (pos + reps * p, (hitSteps p size diff reps (pos, mem)).2)).1 + diff) i reps rfl
          (by omega) (by rw [h1]; omega)
        have e5 : pos + reps * p + diff = pos + diff + reps * p := by ring
        rw [e5, ← e1, ← e2]
        omega
      · right
        rcases h3 with h3 | h3
        · subst h3
          rw [h1]
          simp only [Nat.cast_zero, zero_mul, add_zero, add_sub_cancel_right]
          exact hc
        · exact h3
      · intro e he hf
        have := he pos hc
        exact h4 e he (by omega)
    · have hstep : sieveWhile cond reps p size diff (fuel + 1) (pos, mem) = (pos, mem) := by
        rw [sieveWhile]; simp only [if_neg hc]
      rw [hstep]
      refine ⟨0, by simp, ?_, Or.inl rfl, fun e _ _ => by simpa using hc⟩
      refine Adds_congr (Adds_refl size mem) (fun i => ?_)
      simp [progHits_empty]

theorem pairWhile_spec (p : Int) (size : Nat) (e : Int) (hp : 0 < p) :
    ∀ (fuel : Nat) (pos pos2 : Int) (mem : Int → Nat), ∃ k : Nat,
      (pairWhile p size e fuel (pos, pos2, mem)).1 = pos + k * p ∧
      (pairWhile p size e fuel (pos, pos2, mem)).2.1 = pos2 + k * p ∧
      Adds size mem (pairWhile p size e fuel (pos, pos2, mem)).2.2
        (fun i => progHits p pos (pairWhile p size e fuel (pos, pos2, mem)).1 i +
          progHits p pos2 (pairWhile p size e fuel (pos, pos2, mem)).2.1 i) ∧
      (k = 0 ∨ ((pairWhile p size e fuel (pos, pos2, mem)).1 - p < e ∧
        (pairWhile p size e fuel (pos, pos2, mem)).2.1 - p < e)) ∧
      ((e - pos).toNat ≤ fuel →
        ¬ (e - (pairWhile p size e fuel (pos, pos2, mem)).1 > 0 ∧
          e - (pairWhile p size e fuel (pos, pos2, mem)).2.1 > 0)) := by
  intro fuel
  induction fuel with
  | zero =>
    intro pos pos2 mem
    refine ⟨0, by simp [pairWhile], by simp [pairWhile], ?_, Or.inl rfl, ?_⟩
    · refine Adds_congr (Adds_refl size mem) (fun i => ?_)
      simp [pairWhile, progHits_empty]
    · intro hf
      simp only [pairWhile]
      omega
  | succ fuel ih =>
    intro pos pos2 mem
    by_cases hc : e - pos > 0 ∧ e - pos2 > 0
    · have hstep : pairWhile p size e (fuel + 1) (pos, pos2, mem) =
          pairWhile p size e fuel
            (pos + p, pos2 + p, addByte (addByte mem pos size) pos2 size) := by
        rw [pairWhile]; simp only [if_pos hc]
      rw [hstep]
      obtain ⟨k, h1, h2, h3, h4, h5⟩ :=
        ih (pos + p) (pos2 + p) (addByte (addByte mem pos size) pos2 size)
      have hk0 : (0 : Int) ≤ (k : Int) * p := by positivity
      refine ⟨k + 1, by rw [h1]; push_cast; ring, by rw [h2]; push_cast; ring, ?_, ?_, ?_⟩
      · have a1 := Adds_congr (Adds_addByte mem pos size) (fun i => progHits_single p pos i hp)
        have a2 := Adds_congr (Adds_addByte (addByte mem pos size) pos2 size)
          (fun i => progHits_single p pos2 i hp)
        refine Adds_congr (Adds_trans (Adds_trans a1 a2) h3) (fun i => ?_)
        have e1 := progHits_append p pos (pos + p)
          (pairWhile p size e fuel
            (pos + p, pos2 + p, addByte (addByte mem pos size) pos2 size)).1 i 1
          (by simp) (by omega) (by rw [h1]; omega)
        have e2 := progHits_append p pos2 (pos2 + p)
          (pairWhile p size e fuel
            (pos + p, pos2 + p, addByte (addByte mem pos size) pos2 size)).2.1 i 1
          (by simp) (by omega) (by rw [h2]; omega)
        rw [← e1, ← e2]
        omega
      · right
        rcases h4 with h4 | h4
        · subst h4
          rw [h1, h2]
          simp only [Nat.cast_zero, zero_mul, add_zero, add_sub_cancel_right]
          omega
        · exact h4
      · intro hf
        exact h5 (by omega)
    · have hstep : pairWhile p size e (fuel + 1) (pos, pos2, mem) = (pos, pos2, mem) := by
        rw [pairWhile]; simp only [if_neg hc]
      rw [hstep]
      refine ⟨0, by simp, by simp, ?_, Or.inl rfl, fun _ => hc⟩
      refine Adds_congr (Adds_refl size mem) (fun i => ?_)
      simp [progHits_empty]


theorem cursorAt_spec (p s e : Int) (hp : 0 < p) :
    ∃ k : Nat, cursorAt p s e = s + k * p ∧ e ≤ cursorAt p s e ∧
      (k = 0 ∨ (cursorAt p s e - p < e ∧ s + p ≤ cursorAt p s e)) := by
  unfold cursorAt
  by_cases h : e ≤ s
  · rw [if_pos h]
    exact ⟨0, by simp, h, Or.inl rfl⟩
  · rw [if_neg h]
    set x := e - s + p - 1 with hx
    have h1 := Int.emod_add_ediv x p
    have h2 := Int.emod_nonneg x (ne_of_gt hp)
    have h3 := Int.emod_lt_of_pos x hp
    have hq1 : 1 ≤ x / p := by
      by_contra hlt
      have hq0 : x / p ≤ 0 := by omega
      have : p * (x / p) ≤ 0 := mul_nonpos_of_nonneg_of_nonpos (le_of_lt hp) hq0
      omega
    have hcomm : x / p * p = p * (x / p) := mul_comm _ _
    have hge : p ≤ p * (x / p) := by nlinarith
    refine ⟨(x / p).toNat, ?_, ?_, Or.inr ⟨?_, ?_⟩⟩
    · rw [Int.toNat_of_nonneg (by omega)]
    · rw [hcomm]; omega
    · rw [hcomm]; omega
    · rw [hcomm]; omega

theorem cursorAt_unique (p pos e pos1 : Int) (k : Nat) (hp : 0 < p) (h1 : pos1 = pos + k * p)
    (h2 : e ≤ pos1) (h3 : k = 0 ∨ pos1 - p < e) : pos1 = cursorAt p pos e := by
  obtain ⟨k', c1, c2, c3⟩ := cursorAt_spec p pos e hp
  rw [c1, h1]
  have hkk : k = k' := by
    rcases Nat.lt_trichotomy k k' with hlt | heq | hgt
    · exfalso
      have hk' : k' ≠ 0 := by omega
      rcases c3 with c3 | c3
      · exact hk' c3
      · have hle : (k : Int) + 1 ≤ k' := by exact_mod_cast hlt
        have : ((k : Int) + 1) * p ≤ k' * p := mul_le_mul_of_nonneg_right hle (le_of_lt hp)
        rw [c1] at c3
        nlinarith
    · exact heq
    · exfalso
      have hk : k ≠ 0 := by omega
      rcases h3 with h3 | h3
      · exact hk h3
      · have hle : (k' : Int) + 1 ≤ k := by exact_mod_cast hgt
        have : ((k' : Int) + 1) * p ≤ k * p := mul_le_mul_of_nonneg_right hle (le_of_lt hp)
        rw [c1] at c2
        rw [h1] at h3
        nlinarith
  rw [hkk]

theorem cursorAt_self (p s e : Int) (h : e ≤ s) : cursorAt p s e = s := by
  unfold cursorAt
  rw [if_pos h]

theorem cursorAt_cursorAt (p s e1 e2 : Int) (hp : 0 < p) (h : e1 ≤ e2) :
    cursorAt p (cursorAt p s e1) e2 = cursorAt p s e2 := by
  obtain ⟨k1, a1, a2, a3⟩ := cursorAt_spec p s e1 hp
  obtain ⟨k2, b1, b2, b3⟩ := cursorAt_spec p s e2 hp
  have hk : k1 ≤ k2 := by
    by_contra hlt
    have hgt : k2 < k1 := by omega
    have hk1 : k1 ≠ 0 := by omega
    rcases a3 with a3 | a3
    · exact hk1 a3
    · have hle : (k2 : Int) + 1 ≤ k1 := by exact_mod_cast hgt
      have : ((k2 : Int) + 1) * p ≤ k1 * p := mul_le_mul_of_nonneg_right hle (le_of_lt hp)
      rw [a1] at a3
      rw [b1] at b2
      nlinarith
  symm
  apply cursorAt_unique p (cursorAt p s e1) e2 (cursorAt p s e2) (k2 - k1) hp
  · rw [a1, b1, Nat.cast_sub hk]; ring
  · exact b2
  · rcases b3 with b3 | b3
    · left; omega
    · right; exact b3.1

theorem cursorAt_close (p s1 s2 e : Int) (hp : 0 < p) (h1 : -p < s2 - s1)
    (h2 : s2 - s1 < p) :
    -p < cursorAt p s2 e - cursorAt p s1 e ∧ cursorAt p s2 e - cursorAt p s1 e < p := by
  obtain ⟨k1, a1, a2, a3⟩ := cursorAt_spec p s1 e hp
  obtain ⟨k2, b1, b2, b3⟩ := cursorAt_spec p s2 e hp
  rcases a3 with a3 | a3 <;> rcases b3 with b3 | b3
  · subst a3; subst b3
    simp only [Nat.cast_zero, zero_mul, add_zero] at a1 b1
    omega
  · subst a3
    simp only [Nat.cast_zero, zero_mul, add_zero] at a1
    omega
  · subst b3
    simp only [Nat.cast_zero, zero_mul, add_zero] at b1
    omega
  · omega

theorem cursors_of_steps (p e pos pos2 : Int) (hp : 0 < p) (K : Nat)
    (posB : Int) (hB : posB = pos + K * p)
    (hlast : K = 0 ∨ (posB - p < e ∧ posB + (pos2 - pos) - p < e))
    (r1 r2 : Int) (j j2 : Nat) (hr1 : r1 = posB + j * p)
    (hr2 : r2 = posB + (pos2 - pos) + j2 * p) (he1 : e ≤ r1) (he2 : e ≤ r2)
    (hj : j = 0 ∨ r1 - p < e) (hj2 : j2 = 0 ∨ r2 - p < e) :
    r1 = cursorAt p pos e ∧ r2 = cursorAt p pos2 e := by
  constructor
  · apply cursorAt_unique p pos e r1 (K + j) hp
    · rw [hr1, hB]; push_cast; ring
    · exact he1
    · rcases hj with hj | hj
      · subst hj
        simp only [Nat.cast_zero, zero_mul, add_zero] at hr1
        rcases hlast with hl | hl
        · left; omega
        · right; rw [hr1]; exact hl.1
      · right; exact hj
  · apply cursorAt_unique p pos2 e r2 (K + j2) hp
    · rw [hr2, hB]; push_cast; ring
    · exact he2
    · rcases hj2 with hj2 | hj2
      · subst hj2
        simp only [Nat.cast_zero, zero_mul, add_zero] at hr2
        rcases hlast with hl | hl
        · left; omega
        · right; rw [hr2]; exact hl.2
      · right; exact hj2


theorem tailHits_spec (p : Int) (size : Nat) (e : Int) (hp : 0 < p) (posB diff : Int)
    (memB : Int → Nat) (hd1 : -p < diff) (hd2 : diff < p)
    (hexit : ¬ (e - posB > 0 ∧ e - (posB + diff) > 0)) :
    ∃ j j2 : Nat,
      (tailHits p size e (posB, posB + diff, memB)).1 = posB + j * p ∧
      (tailHits p size e (posB, posB + diff, memB)).2.1 = posB + diff + j2 * p ∧
      e ≤ (tailHits p size e (posB, posB + diff, memB)).1 ∧
      e ≤ (tailHits p size e (posB, posB + diff, memB)).2.1 ∧
      (j = 0 ∨ (tailHits p size e (posB, posB + diff, memB)).1 - p < e) ∧
      (j2 = 0 ∨ (tailHits p size e (posB, posB + diff, memB)).2.1 - p < e) ∧
      Adds size memB (tailHits p size e (posB, posB + diff, memB)).2.2
        (fun i => progHits p posB (tailHits p size e (posB, posB + diff, memB)).1 i +
          progHits p (posB + diff) (tailHits p size e (posB, posB + diff, memB)).2.1 i) := by
  unfold tailHits
  simp only
  by_cases h2 : e - (posB + diff) > 0
  · have h1 : ¬ e - posB > 0 := fun h => hexit ⟨h, h2⟩
    rw [if_pos h2, if_pos h2, if_neg h1, if_neg h1]
    refine ⟨0, 1, by simp, by simp, by omega, by omega, Or.inl rfl, Or.inr (by omega), ?_⟩
    refine Adds_congr (Adds_addByte memB (posB + diff) size) (fun i => ?_)
    rw [progHits_empty, Nat.zero_add]
    exact progHits_single p (posB + diff) i hp
  · by_cases h1 : e - posB > 0
    · rw [if_neg h2, if_neg h2, if_pos h1, if_pos h1]
      refine ⟨1, 0, by simp, by simp, by omega, by omega, Or.inr (by omega), Or.inl rfl, ?_⟩
      refine Adds_congr (Adds_addByte memB posB size) (fun i => ?_)
      rw [progHits_empty, Nat.add_zero]
      exact progHits_single p posB i hp
    · rw [if_neg h2, if_neg h2, if_neg h1, if_neg h1]
      refine ⟨0, 0, by simp, by simp, by omega, by omega, Or.inl rfl, Or.inl rfl, ?_⟩
      refine Adds_congr (Adds_refl size memB) (fun i => ?_)
      rw [progHits_empty, progHits_empty]

/-- From the state a loop leaves to the end of the block: the closing tests bring both
cursors to the first element of their progression that is not below `e`, and the hits made
on the way are those of both progressions. -/
theorem block_finish (p : Int) (size : Nat) (e : Int) (hp : 0 < p) (pos pos2 : Int)
    (mem memB : Int → Nat) (hd1 : -p < pos2 - pos) (hd2 : pos2 - pos < p) (K : Nat)
    (posB : Int) (hB : posB = pos + K * p)
    (hadds : Adds size mem memB
      (fun i => progHits p pos posB i + progHits p pos2 (posB + (pos2 - pos)) i))
    (hlast : K = 0 ∨ (posB - p < e ∧ posB + (pos2 - pos) - p < e))
    (hexit : ¬ (e - posB > 0 ∧ e - (posB + (pos2 - pos)) > 0)) :
    (tailHits p size e (posB, posB + (pos2 - pos), memB)).1 = cursorAt p pos e ∧
    (tailHits p size e (posB, posB + (pos2 - pos), memB)).2.1 = cursorAt p pos2 e ∧
    Adds size mem (tailHits p size e (posB, posB + (pos2 - pos), memB)).2.2
      (fun i => progHits p pos (cursorAt p pos e) i +
        progHits p pos2 (cursorAt p pos2 e) i) := by
  obtain ⟨j, j2, t1, t2, t3, t4, t5, t6, t7⟩ :=
    tailHits_spec p size e hp posB (pos2 - pos) memB hd1 hd2 hexit
  obtain ⟨c1, c2⟩ := cursors_of_steps p e pos pos2 hp K posB hB hlast _ _ j j2 t1 t2 t3 t4 t5 t6
  refine ⟨c1, c2, ?_⟩
  have hK0 : (0 : Int) ≤ (K : Int) * p := by positivity
  have hj0 : (0 : Int) ≤ (j : Int) * p := by positivity
  have hj20 : (0 : Int) ≤ (j2 : Int) * p := by positivity
  refine Adds_congr (Adds_trans hadds t7) (fun i => ?_)
  have e1 := progHits_append p pos posB
    (tailHits p size e (posB, posB + (pos2 - pos), memB)).1 i K hB (by omega)
    (by rw [t1]; omega)
  have e2 := progHits_append p pos2 (posB + (pos2 - pos))
    (tailHits p size e (posB, posB + (pos2 - pos), memB)).2.1 i K (by rw [hB]; ring)
    (by omega) (by rw [t2]; omega)
  rw [← c1, ← c2, ← e1, ← e2]
  omega

theorem smallPrimeBlock_spec (p : Int) (size : Nat) (e : Int) (fuel : Nat) (pos pos2 : Int)
    (mem : Int → Nat) (hp : 0 < p) (hd1 : -p < pos2 - pos) (hd2 : pos2 - pos < p)
    (hfuel : (e - pos).toNat ≤ fuel) :
    (smallPrimeBlock p size e fuel pos pos2 mem).1 = cursorAt p pos e ∧
    (smallPrimeBlock p size e fuel pos pos2 mem).2.1 = cursorAt p pos2 e ∧
    Adds size mem (smallPrimeBlock p size e fuel pos pos2 mem).2.2
      (fun i => progHits p pos (cursorAt p pos e) i +
        progHits p pos2 (cursorAt p pos2 e) i) := by
  unfold smallPrimeBlock
  simp only
  obtain ⟨k1, a1, a2, a3, _⟩ := sieveWhile_spec (fun x => decide (e - p * 4 - x > 0)) 4 p size
    (pos2 - pos) hp (by norm_num) fuel pos mem
  generalize sieveWhile (fun x => decide (e - p * 4 - x > 0)) 4 p size (pos2 - pos) fuel
    (pos, mem) = s1 at a1 a2 a3 ⊢
  obtain ⟨pos1, mem1⟩ := s1
  simp only at a1 a2 a3 ⊢
  obtain ⟨kB, b1, b2, b3, b4⟩ := sieveWhile_spec
    (fun x => decide (e - x > 0 ∧ e - x - (pos2 - pos) > 0)) 1 p size (pos2 - pos) hp
    (by norm_num) fuel pos1 mem1
  generalize sieveWhile (fun x => decide (e - x > 0 ∧ e - x - (pos2 - pos) > 0)) 1 p size
    (pos2 - pos) fuel (pos1, mem1) = s2 at b1 b2 b3 b4 ⊢
  obtain ⟨posB, memB⟩ := s2
  simp only at b1 b2 b3 b4 ⊢
  have hk10 : (0 : Int) ≤ (k1 : Int) * (((4 : Nat) : Int) * p) := by positivity
  have hkB0 : (0 : Int) ≤ (kB : Int) * (((1 : Nat) : Int) * p) := by positivity
  have hexit := b4 e (fun x hx => by
    have := of_decide_eq_true hx
    omega) (by omega)
  have hexit' : ¬ (e - posB > 0 ∧ e - (posB + (pos2 - pos)) > 0) := by
    intro h
    have : decide (e - posB > 0 ∧ e - posB - (pos2 - pos) > 0) = true :=
      decide_eq_true ⟨h.1, by omega⟩
    rw [this] at hexit
    cases hexit
  apply block_finish p size e hp pos pos2 mem memB hd1 hd2 (k1 * 4 + kB) posB
    (by rw [b1, a1]; push_cast; ring) ?_ ?_ hexit'
  · refine Adds_congr (Adds_trans a2 b2) (fun i => ?_)
    have e1 := progHits_append p pos pos1 posB i (k1 * 4)
      (by rw [a1]; push_cast; ring) (by omega) (by omega)
    have e2 := progHits_append p pos2 (pos1 + (pos2 - pos))
      (posB + (pos2 - pos)) i (k1 * 4) (by rw [a1]; push_cast; ring) (by omega) (by omega)
    have e3 : pos + (pos2 - pos) = pos2 := by ring
    have e4 : progHits p (pos + (pos2 - pos)) (pos1 + (pos2 - pos)) i =
        progHits p pos2 (pos1 + (pos2 - pos)) i := by rw [e3]
    rw [e4, ← e1, ← e2]
    omega
  · by_cases hkB : kB = 0
    · subst hkB
      simp only [Nat.cast_zero, zero_mul, add_zero] at b1
      by_cases hk1 : k1 = 0
      · left; omega
      · right
        rcases a3 with a3 | a3
        · exact absurd a3 hk1
        · have := of_decide_eq_true a3
          push_cast at this
          omega
    · right
      rcases b3 with b3 | b3
      · exact absurd b3 hkB
      · have := of_decide_eq_true b3
        push_cast at this
        omega

theorem mediumPrimeBlock_spec (p : Int) (size : Nat) (e : Int) (fuel : Nat) (pos pos2 : Int)
    (mem : Int → Nat) (hp : 0 < p) (hd1 : -p < pos2 - pos) (hd2 : pos2 - pos < p)
    (hfuel : (e - pos).toNat ≤ fuel) :
    (mediumPrimeBlock p size e fuel pos pos2 mem).1 = cursorAt p pos e ∧
    (mediumPrimeBlock p size e fuel pos pos2 mem).2.1 = cursorAt p pos2 e ∧
    Adds size mem (mediumPrimeBlock p size e fuel pos pos2 mem).2.2
      (fun i => progHits p pos (cursorAt p pos e) i +
        progHits p pos2 (cursorAt p pos2 e) i) := by
  unfold mediumPrimeBlock
  simp only
  obtain ⟨k1, a1, a2, a3, _⟩ := sieveWhile_spec (fun x => decide (e - 2 * p - x > 0)) 2 p size
    (pos2 - pos) hp (by norm_num) fuel pos mem
  generalize sieveWhile (fun x => decide (e - 2 * p - x > 0)) 2 p size (pos2 - pos) fuel
    (pos, mem) = s1 at a1 a2 a3 ⊢
  obtain ⟨pos1, mem1⟩ := s1
  simp only at a1 a2 a3 ⊢
  obtain ⟨kB, b1, b1', b2, b3, b4⟩ := pairWhile_spec p size e hp fuel pos1
    (pos1 + (pos2 - pos)) mem1
  generalize pairWhile p size e fuel (pos1, pos1 + (pos2 - pos), mem1) = s2
    at b1 b1' b2 b3 b4 ⊢
  obtain ⟨posB, posB2, memB⟩ := s2
  simp only at b1 b1' b2 b3 b4 ⊢
  have hk10 : (0 : Int) ≤ (k1 : Int) * (((2 : Nat) : Int) * p) := by positivity
  have hkB0 : (0 : Int) ≤ (kB : Int) * p := by positivity
  have hB2 : posB2 = posB + (pos2 - pos) := by rw [b1', b1]; ring
  rw [hB2] at b2 b3 b4 ⊢
  have hexit := b4 (by omega)
  apply block_finish p size e hp pos pos2 mem memB hd1 hd2 (k1 * 2 + kB) posB
    (by rw [b1, a1]; push_cast; ring) ?_ ?_ hexit
  · refine Adds_congr (Adds_trans a2 b2) (fun i => ?_)
    have e1 := progHits_append p pos pos1 posB i (k1 * 2)
      (by rw [a1]; push_cast; ring) (by omega) (by omega)
    have e2 := progHits_append p pos2 (pos1 + (pos2 - pos))
      (posB + (pos2 - pos)) i (k1 * 2) (by rw [a1]; push_cast; ring) (by omega) (by omega)
    have e3 : pos + (pos2 - pos) = pos2 := by ring
    have e4 : progHits p (pos + (pos2 - pos)) (pos1 + (pos2 - pos)) i =
        progHits p pos2 (pos1 + (pos2 - pos)) i := by rw [e3]
    rw [e4, ← e1, ← e2]
    omega
  · by_cases hkB : kB = 0
    · subst hkB
      simp only [Nat.cast_zero, zero_mul, add_zero] at b1
      by_cases hk1 : k1 = 0
      · left; omega
      · right
        rcases a3 with a3 | a3
        · exact absurd a3 hk1
        · have := of_decide_eq_true a3
          push_cast at this
          omega
    · right
      rcases b3 with b3 | b3
      · exact absurd b3 hkB
      · omega


theorem SieveAdds_refl (M : Int) (mem : Int → Nat) : SieveAdds M mem mem (fun _ => 0) :=
  ⟨fun _ => by simp, fun _ _ => rfl, fun _ h => h⟩

theorem SieveAdds_trans {M : Int} {m1 m2 m3 : Int → Nat} {F G : Int → Nat}
    (h1 : SieveAdds M m1 m2 F) (h2 : SieveAdds M m2 m3 G) :
    SieveAdds M m1 m3 (fun i => F i + G i) := by
  obtain ⟨a1, a2, a3⟩ := h1
  obtain ⟨b1, b2, b3⟩ := h2
  refine ⟨fun i => ?_, fun i hi => by rw [b2 i hi, a2 i hi], fun i h => b3 i (a3 i h)⟩
  rw [b1 i, Nat.add_mod, a1 i, ← Nat.add_assoc]
  simp [Nat.add_mod]

theorem SieveAdds_congr {M : Int} {m1 m2 : Int → Nat} {F G : Int → Nat}
    (h : SieveAdds M m1 m2 F) (hFG : ∀ i, F i = G i) : SieveAdds M m1 m2 G := by
  have : F = G := funext hFG
  rw [← this]
  exact h

theorem Adds_to_SieveAdds {M : Int} {size : Nat} {m1 m2 : Int → Nat} {h : Int → Nat}
    (ha : Adds size m1 m2 h) (hout : ∀ i, (i < 0 ∨ M ≤ i) → h i = 0) :
    SieveAdds M m1 m2 (fun i => size * h i) :=
  ⟨fun i => (ha i).2.1, fun i hi => (ha i).1 (hout i hi), fun i => (ha i).2.2⟩

theorem cursorAt_ge_self (p s e : Int) (hp : 0 < p) : s ≤ cursorAt p s e := by
  obtain ⟨k, h1, _, _⟩ := cursorAt_spec p s e hp
  have : (0 : Int) ≤ (k : Int) * p := by positivity
  omega

theorem cursorAt_mono (p s e1 e2 : Int) (hp : 0 < p) (h : e1 ≤ e2) :
    ∃ k : Nat, cursorAt p s e2 = cursorAt p s e1 + k * p ∧
      cursorAt p s e1 ≤ cursorAt p s e2 := by
  obtain ⟨k, h1, _, _⟩ := cursorAt_spec p (cursorAt p s e1) e2 hp
  rw [cursorAt_cursorAt p s e1 e2 hp h] at h1
  have : (0 : Int) ≤ (k : Int) * p := by positivity
  exact ⟨k, h1, by omega⟩

/-- Between the cursor positions at `lo` and at `hi` a progression that starts at
`soln ≥ 0` meets nothing below 0 and nothing from `hi` on. -/
theorem progHits_cursor_outside (p s lo hi i : Int) (hp : 0 < p) (hs : 0 ≤ s)
    (hlohi : lo ≤ hi) (hi' : i < 0 ∨ hi ≤ i) :
    progHits p (cursorAt p s lo) (cursorAt p s hi) i = 0 := by
  have hge := cursorAt_ge_self p s lo hp
  obtain ⟨k, h1, h2, h3⟩ := cursorAt_spec p (cursorAt p s lo) hi hp
  rw [cursorAt_cursorAt p s lo hi hp hlohi] at h1 h2 h3
  rw [progHits_cut p (cursorAt p s lo) (cursorAt p s hi) hi i k h1 h2
    (by rcases h3 with h3 | h3; exact Or.inl h3; exact Or.inr h3.1)]
  unfold progHits
  rw [if_neg]
  rintro ⟨a, b, _⟩
  rcases hi' with h | h
  · omega
  · rcases le_total (cursorAt p s lo) hi with hc | hc
    · rw [max_eq_right hc] at b; omega
    · rw [max_eq_left hc] at b; omega

/-- Below `hi` the hits between the cursor positions at 0 and at `hi` are the hits of the
whole progression: one when `i ≡ soln (mod p)`. -/
theorem progHits_cursor_inside (p s hi i : Int) (hp : 0 < p) (hs : 0 ≤ s) (hsp : s < p)
    (h0 : 0 ≤ i) (h1 : i < hi) :
    progHits p (cursorAt p s 0) (cursorAt p s hi) i = rootHits p s i := by
  rw [cursorAt_self p s 0 hs]
  obtain ⟨k, c1, c2, c3⟩ := cursorAt_spec p s hi hp
  unfold progHits rootHits
  by_cases hm : (i - s) % p = 0
  · rw [if_pos hm, if_pos]
    refine ⟨?_, by omega, hm⟩
    by_contra hlt
    have hneg : i - s < 0 := by omega
    have hgt : -p < i - s := by omega
    have : (i - s) % p = i - s + p := by
      rw [← Int.add_mul_emod_self (b := 1), one_mul]
      exact Int.emod_eq_of_lt (by omega) (by omega)
    omega
  · rw [if_neg hm, if_neg (fun h => hm h.2.2)]

theorem primeHits_append (inp : SieveInput) (prime : Nat) (lo mid hi i : Int)
    (hp : 0 < inp.factorBase.getD prime 0) (h1 : lo ≤ mid) (h2 : mid ≤ hi) :
    primeHits inp prime lo mid i + primeHits inp prime mid hi i =
      primeHits inp prime lo hi i := by
  have hp' : (0 : Int) < ((inp.factorBase.getD prime 0 : Nat) : Int) := by exact_mod_cast hp
  unfold primeHits
  generalize ((inp.factorBase.getD prime 0 : Nat) : Int) = p at *
  obtain ⟨k1, a1, a2⟩ := cursorAt_mono p (inp.soln1.getD prime 0) lo mid hp' h1
  obtain ⟨_, _, a3⟩ := cursorAt_mono p (inp.soln1.getD prime 0) mid hi hp' h2
  obtain ⟨k2, b1, b2⟩ := cursorAt_mono p (inp.soln2.getD prime 0) lo mid hp' h1
  obtain ⟨_, _, b3⟩ := cursorAt_mono p (inp.soln2.getD prime 0) mid hi hp' h2
  rw [← progHits_append p _ _ _ i k1 a1 a2 a3, ← progHits_append p _ _ _ i k2 b1 b2 b3]
  ring

theorem primeHits_outside (inp : SieveInput) (prime : Nat) (lo hi i : Int)
    (hp : 0 < inp.factorBase.getD prime 0) (hs1 : 0 ≤ inp.soln1.getD prime 0)
    (hs2 : 0 ≤ inp.soln2.getD prime 0) (hlohi : lo ≤ hi) (hi' : i < 0 ∨ hi ≤ i) :
    primeHits inp prime lo hi i = 0 := by
  have hp' : (0 : Int) < ((inp.factorBase.getD prime 0 : Nat) : Int) := by exact_mod_cast hp
  unfold primeHits
  rw [progHits_cursor_outside _ _ lo hi i hp' hs1 hlohi hi',
    progHits_cursor_outside _ _ lo hi i hp' hs2 hlohi hi']
  rfl


theorem foldl_SieveAdds (M : Int) (step : SieveState → Nat → SieveState)
    (contrib : Nat → Int → Nat) :
    ∀ (l : List Nat), (∀ st, ∀ q ∈ l, SieveAdds M st.mem (step st q).mem (contrib q)) →
      ∀ st, SieveAdds M st.mem (l.foldl step st).mem
        (fun i => (l.map (fun q => contrib q i)).sum) := by
  intro l
  induction l with
  | nil =>
    intro _ st
    exact SieveAdds_congr (SieveAdds_refl M st.mem) (fun i => by simp)
  | cons q l ih =>
    intro h st
    rw [List.foldl_cons]
    have h1 := h st q (List.mem_cons_self _ _)
    have h2 := ih (fun st' q' hq' => h st' q' (List.mem_cons_of_mem _ hq')) (step st q)
    exact SieveAdds_congr (SieveAdds_trans h1 h2) (fun i => by simp)

theorem sieve2Prime_spec (inp : SieveInput) (M fuel : Nat) (st : SieveState) (prime : Nat)
    (hr : RootsReduced inp prime) (hfuel : M ≤ fuel) :
    SieveAdds (M : Int) st.mem (sieve2Prime inp M fuel st prime).mem
      (primeHits inp prime 0 M) := by
  obtain ⟨hq, h1, h1p, h2, h2p⟩ := hr
  have hp : (0 : Int) < ((inp.factorBase.getD prime 0 : Nat) : Int) := by exact_mod_cast hq
  have hmem : (sieve2Prime inp M fuel st prime).mem =
      (tailHits ((inp.factorBase.getD prime 0 : Nat) : Int) (inp.primeSizes.getD prime 0) (M : Int)
        (pairWhile ((inp.factorBase.getD prime 0 : Nat) : Int) (inp.primeSizes.getD prime 0)
          (M : Int) fuel (inp.soln1.getD prime 0, inp.soln2.getD prime 0, st.mem))).2.2 := rfl
  rw [hmem]
  unfold primeHits
  generalize ((inp.factorBase.getD prime 0 : Nat) : Int) = p at *
  generalize inp.primeSizes.getD prime 0 = size at *
  generalize inp.soln1.getD prime 0 = s1 at *
  generalize inp.soln2.getD prime 0 = s2 at *
  obtain ⟨k, b1, b1', b2, b3, b4⟩ := pairWhile_spec p size (M : Int) hp fuel s1 s2 st.mem
  generalize pairWhile p size (M : Int) fuel (s1, s2, st.mem) = r at b1 b1' b2 b3 b4 ⊢
  obtain ⟨posB, posB2, memB⟩ := r
  simp only at b1 b1' b2 b3 b4 ⊢
  have hB2 : posB2 = posB + (s2 - s1) := by rw [b1', b1]; ring
  rw [hB2] at b2 b3 b4 ⊢
  obtain ⟨c1, c2, c3⟩ := block_finish p size (M : Int) hp s1 s2 st.mem memB (by omega)
    (by omega) k posB b1 b2 (by
      rcases b3 with b3 | b3
      · exact Or.inl b3
      · exact Or.inr b3) (b4 (by omega))
  rw [cursorAt_self p s1 0 h1, cursorAt_self p s2 0 h2]
  refine Adds_to_SieveAdds c3 (fun i hi => ?_)
  have e1 := progHits_cursor_outside p s1 0 M i hp h1 (by omega) hi
  have e2 := progHits_cursor_outside p s2 0 M i hp h2 (by omega) hi
  rw [cursorAt_self p s1 0 h1] at e1
  rw [cursorAt_self p s2 0 h2] at e2
  rw [e1, e2]

theorem sieve2Flagged_spec (inp : SieveInput) (M fuel : Nat) (st : SieveState) (prime : Nat)
    (hr : RootsReduced inp prime) (hfuel : M ≤ fuel) :
    SieveAdds (M : Int) st.mem (sieve2Flagged inp M fuel st prime).mem
      (primeHits inp prime 0 M) := by
  obtain ⟨hq, h1, h1p, h2, h2p⟩ := hr
  have hp : (0 : Int) < ((inp.factorBase.getD prime 0 : Nat) : Int) := by exact_mod_cast hq
  unfold sieve2Flagged primeHits
  simp only
  generalize ((inp.factorBase.getD prime 0 : Nat) : Int) = p at *
  generalize inp.primeSizes.getD prime 0 = size at *
  generalize inp.soln1.getD prime 0 = s1 at *
  generalize inp.soln2.getD prime 0 = s2 at *
  obtain ⟨k1, a1, a2, _, _, a5, a6⟩ := flagWhile_spec p size (M : Int) hp fuel s1 st.mem
    (st.flags prime)
  generalize flagWhile p size (M : Int) fuel (s1, st.mem, st.flags prime) = r1
    at a1 a2 a5 a6 ⊢
  obtain ⟨pos1, mem1, flag1⟩ := r1
  simp only at a1 a2 a5 a6 ⊢
  obtain ⟨k2, b1, b2, _, _, b5, b6⟩ := flagWhile_spec p size (M : Int) hp fuel s2 mem1 flag1
  generalize flagWhile p size (M : Int) fuel (s2, mem1, flag1) = r2 at b1 b2 b5 b6 ⊢
  obtain ⟨pos2, mem2, flag2⟩ := r2
  simp only at b1 b2 b5 b6 ⊢
  have c1 := cursorAt_unique p s1 (M : Int) pos1 k1 hp a1 (a6 (by omega)) a5
  have c2 := cursorAt_unique p s2 (M : Int) pos2 k2 hp b1 (b6 (by omega)) b5
  rw [cursorAt_self p s1 0 h1, cursorAt_self p s2 0 h2, ← c1, ← c2]
  refine Adds_to_SieveAdds (Adds_trans a2 b2) (fun i hi => ?_)
  have e1 := progHits_cursor_outside p s1 0 M i hp h1 (by omega) hi
  have e2 := progHits_cursor_outside p s2 0 M i hp h2 (by omega) hi
  rw [cursorAt_self p s1 0 h1, ← c1] at e1
  rw [cursorAt_self p s2 0 h2, ← c2] at e2
  rw [e1, e2]


theorem sieveIntervalPrime_marked (inp : SieveInput) (call : SieveCall) (fuel : Nat)
    (st : SieveState) (prime : Nat) (hm : inp.marked prime = true) :
    sieveIntervalPrime inp call fuel true st prime = st := by
  unfold sieveIntervalPrime
  rw [if_pos ⟨rfl, hm⟩]

theorem sieveIntervalPrime_frame (inp : SieveInput) (call : SieveCall) (fuel : Nat)
    (small : Bool) (st : SieveState) (prime q : Nat) (hq : q ≠ prime) :
    (sieveIntervalPrime inp call fuel small st prime).offsets q = st.offsets q ∧
      (sieveIntervalPrime inp call fuel small st prime).offsets2 q = st.offsets2 q := by
  unfold sieveIntervalPrime
  by_cases hm : small = true ∧ inp.marked prime = true
  · rw [if_pos hm]
    exact ⟨rfl, rfl⟩
  · rw [if_neg hm]
    simp only
    by_cases hl : call.last = true
    · simp [hl]
    · simp [hl, hq]

theorem sieveIntervalPrime_spec (inp : SieveInput) (call : SieveCall) (fuel : Nat)
    (small : Bool) (st : SieveState) (prime : Nat) (Mtot : Int)
    (hr : RootsReduced inp prime) (hfirst : call.first = true → call.start = 0)
    (hpos : call.first = false →
      st.offsets prime = cursorAt ((inp.factorBase.getD prime 0 : Nat) : Int)
        (inp.soln1.getD prime 0) call.start ∧
      st.offsets2 prime = cursorAt ((inp.factorBase.getD prime 0 : Nat) : Int)
        (inp.soln2.getD prime 0) call.start)
    (he : (call.start : Int) + call.M ≤ Mtot) (hfuel : Mtot ≤ fuel)
    (hm : ¬ (small = true ∧ inp.marked prime = true)) :
    SieveAdds Mtot st.mem (sieveIntervalPrime inp call fuel small st prime).mem
        (primeHits inp prime call.start ((call.start : Int) + call.M)) ∧
      (call.last = false →
        (sieveIntervalPrime inp call fuel small st prime).offsets prime =
            cursorAt ((inp.factorBase.getD prime 0 : Nat) : Int) (inp.soln1.getD prime 0)
              ((call.start : Int) + call.M) ∧
          (sieveIntervalPrime inp call fuel small st prime).offsets2 prime =
            cursorAt ((inp.factorBase.getD prime 0 : Nat) : Int) (inp.soln2.getD prime 0)
              ((call.start : Int) + call.M)) := by
  obtain ⟨hq, h1, h1p, h2, h2p⟩ := hr
  have hp : (0 : Int) < ((inp.factorBase.getD prime 0 : Nat) : Int) := by exact_mod_cast hq
  unfold sieveIntervalPrime primeHits
  rw [if_neg hm]
  simp only
  generalize ((inp.factorBase.getD prime 0 : Nat) : Int) = p at *
  generalize inp.primeSizes.getD prime 0 = size at *
  generalize inp.soln1.getD prime 0 = s1 at *
  generalize inp.soln2.getD prime 0 = s2 at *
  have hstart0 : (0 : Int) ≤ (call.start : Int) := Int.natCast_nonneg _
  have hM0 : (0 : Int) ≤ (call.M : Int) := Int.natCast_nonneg _
  -- the cursors the call starts from
  have hpos1 : (if call.first = true then (call.start : Int) + s1 else st.offsets prime) =
      cursorAt p s1 call.start := by
    by_cases hf : call.first = true
    · rw [if_pos hf, hfirst hf]
      simp only [Nat.cast_zero, zero_add]
      exact (cursorAt_self p s1 0 h1).symm
    · rw [if_neg hf]
      exact (hpos (by simpa using hf)).1
  have hpos2 : (if call.first = true then (call.start : Int) + s2 else st.offsets2 prime) =
      cursorAt p s2 call.start := by
    by_cases hf : call.first = true
    · rw [if_pos hf, hfirst hf]
      simp only [Nat.cast_zero, zero_add]
      exact (cursorAt_self p s2 0 h2).symm
    · rw [if_neg hf]
      exact (hpos (by simpa using hf)).2
  rw [hpos1, hpos2]
  obtain ⟨d1, d2⟩ := cursorAt_close p s1 s2 call.start hp (by omega) (by omega)
  have hc1 := cursorAt_ge_self p s1 call.start hp
  have hfu : (((call.start : Int) + call.M) - cursorAt p s1 call.start).toNat ≤ fuel := by
    have : ((Mtot.toNat : Nat) : Int) = Mtot := Int.toNat_of_nonneg (by omega)
    omega
  have key : ∀ r : Int × Int × (Int → Nat),
      (r.1 = cursorAt p (cursorAt p s1 call.start) ((call.start : Int) + call.M) ∧
        r.2.1 = cursorAt p (cursorAt p s2 call.start) ((call.start : Int) + call.M) ∧
        Adds size st.mem r.2.2
          (fun i => progHits p (cursorAt p s1 call.start)
              (cursorAt p (cursorAt p s1 call.start) ((call.start : Int) + call.M)) i +
            progHits p (cursorAt p s2 call.start)
              (cursorAt p (cursorAt p s2 call.start) ((call.start : Int) + call.M)) i)) →
      SieveAdds Mtot st.mem r.2.2
          (fun i => size *
            (progHits p (cursorAt p s1 call.start)
                (cursorAt p s1 ((call.start : Int) + call.M)) i +
              progHits p (cursorAt p s2 call.start)
                (cursorAt p s2 ((call.start : Int) + call.M)) i)) ∧
        r.1 = cursorAt p s1 ((call.start : Int) + call.M) ∧
        r.2.1 = cursorAt p s2 ((call.start : Int) + call.M) := by
    intro r ⟨r1, r2, r3⟩
    rw [cursorAt_cursorAt p s1 _ _ hp (by omega)] at r1 r3
    rw [cursorAt_cursorAt p s2 _ _ hp (by omega)] at r2 r3
    refine ⟨Adds_to_SieveAdds r3 (fun i hi => ?_), r1, r2⟩
    rw [progHits_cursor_outside p s1 _ _ i hp h1 (by omega) (by omega),
      progHits_cursor_outside p s2 _ _ i hp h2 (by omega) (by omega)]
  by_cases hs : small = true
  · rw [if_pos hs]
    obtain ⟨k1, k2, k3⟩ := key _ (smallPrimeBlock_spec p size ((call.start : Int) + call.M) fuel
      (cursorAt p s1 call.start) (cursorAt p s2 call.start) st.mem hp d1 d2 hfu)
    refine ⟨k1, fun hl => ?_⟩
    rw [hl]
    simp only [Bool.false_eq_true, if_false, if_true]
    exact ⟨k2, k3⟩
  · rw [if_neg hs]
    obtain ⟨k1, k2, k3⟩ := key _ (mediumPrimeBlock_spec p size ((call.start : Int) + call.M)
      fuel (cursorAt p s1 call.start) (cursorAt p s2 call.start) st.mem hp d1 d2 hfu)
    refine ⟨k1, fun hl => ?_⟩
    rw [hl]
    simp only [Bool.false_eq_true, if_false, if_true]
    exact ⟨k2, k3⟩


theorem foldl_sieveIntervalPrime (inp : SieveInput) (call : SieveCall) (fuel : Nat)
    (small : Bool) (Mtot : Int) (hfirst : call.first = true → call.start = 0)
    (he : (call.start : Int) + call.M ≤ Mtot) (hfuel : Mtot ≤ fuel) :
    ∀ (l : List Nat), l.Nodup → (∀ q ∈ l, inp.marked q = false → RootsReduced inp q) →
      (small = false → ∀ q ∈ l, inp.marked q = false) →
      ∀ st : SieveState,
        (call.first = false → ∀ q ∈ l, inp.marked q = false →
          st.offsets q = cursorAt ((inp.factorBase.getD q 0 : Nat) : Int)
            (inp.soln1.getD q 0) call.start ∧
          st.offsets2 q = cursorAt ((inp.factorBase.getD q 0 : Nat) : Int)
            (inp.soln2.getD q 0) call.start) →
        SieveAdds Mtot st.mem (l.foldl (sieveIntervalPrime inp call fuel small) st).mem
            (fun i => (l.map (fun q => if inp.marked q = true then 0
              else primeHits inp q call.start ((call.start : Int) + call.M) i)).sum) ∧
          (call.last = false → ∀ q ∈ l, inp.marked q = false →
            (l.foldl (sieveIntervalPrime inp call fuel small) st).offsets q =
                cursorAt ((inp.factorBase.getD q 0 : Nat) : Int) (inp.soln1.getD q 0)
                  ((call.start : Int) + call.M) ∧
              (l.foldl (sieveIntervalPrime inp call fuel small) st).offsets2 q =
                cursorAt ((inp.factorBase.getD q 0 : Nat) : Int) (inp.soln2.getD q 0)
                  ((call.start : Int) + call.M)) ∧
          (∀ x, x ∉ l →
            (l.foldl (sieveIntervalPrime inp call fuel small) st).offsets x = st.offsets x ∧
              (l.foldl (sieveIntervalPrime inp call fuel small) st).offsets2 x =
                st.offsets2 x) := by
  intro l
  induction l with
  | nil =>
    intro _ _ _ st _
    refine ⟨SieveAdds_congr (SieveAdds_refl Mtot st.mem) (fun i => by simp), ?_, ?_⟩
    · intro _ q hq
      exact absurd hq (List.not_mem_nil _)
    · intro x _
      exact ⟨rfl, rfl⟩
  | cons q l ih =>
    intro hnd hroots hsmall st hpre
    obtain ⟨hql, hnd'⟩ := List.nodup_cons.mp hnd
    rw [List.foldl_cons]
    have hroots' : ∀ x ∈ l, inp.marked x = false → RootsReduced inp x :=
      fun x hx => hroots x (List.mem_cons_of_mem _ hx)
    have hsmall' : small = false → ∀ x ∈ l, inp.marked x = false :=
      fun h x hx => hsmall h x (List.mem_cons_of_mem _ hx)
    have hpre' : call.first = false → ∀ x ∈ l, inp.marked x = false →
        (sieveIntervalPrime inp call fuel small st q).offsets x =
            cursorAt ((inp.factorBase.getD x 0 : Nat) : Int) (inp.soln1.getD x 0) call.start ∧
          (sieveIntervalPrime inp call fuel small st q).offsets2 x =
            cursorAt ((inp.factorBase.getD x 0 : Nat) : Int) (inp.soln2.getD x 0)
              call.start := by
      intro hf x hx hmx
      have hxq : x ≠ q := fun h => hql (h ▸ hx)
      obtain ⟨f1, f2⟩ := sieveIntervalPrime_frame inp call fuel small st q x hxq
      rw [f1, f2]
      exact hpre hf x (List.mem_cons_of_mem _ hx) hmx
    obtain ⟨i1, i2, i3⟩ := ih hnd' hroots' hsmall' (sieveIntervalPrime inp call fuel small st q)
      hpre'
    -- the step for `q`
    have hstep : SieveAdds Mtot st.mem (sieveIntervalPrime inp call fuel small st q).mem
          (fun i => if inp.marked q = true then 0
            else primeHits inp q call.start ((call.start : Int) + call.M) i) ∧
        (call.last = false → inp.marked q = false →
          (sieveIntervalPrime inp call fuel small st q).offsets q =
              cursorAt ((inp.factorBase.getD q 0 : Nat) : Int) (inp.soln1.getD q 0)
                ((call.start : Int) + call.M) ∧
            (sieveIntervalPrime inp call fuel small st q).offsets2 q =
              cursorAt ((inp.factorBase.getD q 0 : Nat) : Int) (inp.soln2.getD q 0)
                ((call.start : Int) + call.M)) := by
      by_cases hm : inp.marked q = true
      · have hs : small = true := by
          by_contra hns
          have := hsmall (by simpa using hns) q (List.mem_cons_self _ _)
          rw [this] at hm
          cases hm
        subst hs
        rw [sieveIntervalPrime_marked inp call fuel st q hm]
        refine ⟨SieveAdds_congr (SieveAdds_refl Mtot st.mem) (fun i => by simp [hm]), ?_⟩
        intro _ hmf
        rw [hmf] at hm
        cases hm
      · have hmf : inp.marked q = false := by simpa using hm
        obtain ⟨s1, s2⟩ := sieveIntervalPrime_spec inp call fuel small st q Mtot
          (hroots q (List.mem_cons_self _ _) hmf) hfirst
          (fun hf => hpre hf q (List.mem_cons_self _ _) hmf) he hfuel (fun h => hm h.2)
        exact ⟨SieveAdds_congr s1 (fun i => by simp [hm]), fun hl _ => s2 hl⟩
    refine ⟨SieveAdds_congr (SieveAdds_trans hstep.1 i1) (fun i => by simp), ?_, ?_⟩
    · intro hl x hx hmx
      rcases List.mem_cons.mp hx with rfl | hx
      · obtain ⟨f1, f2⟩ := i3 x hql
        rw [f1, f2]
        exact hstep.2 hl hmx
      · exact i2 hl x hx hmx
    · intro x hx
      have hxq : x ≠ q := fun h => hx (h ▸ List.mem_cons_self _ _)
      have hxl : x ∉ l := fun h => hx (List.mem_cons_of_mem _ h)
      obtain ⟨f1, f2⟩ := i3 x hxl
      obtain ⟨g1, g2⟩ := sieveIntervalPrime_frame inp call fuel small st q x hxq
      rw [f1, f2, g1, g2]
      exact ⟨rfl, rfl⟩


theorem range'_split (a b c : Nat) (h1 : a ≤ b) (h2 : b ≤ c) :
    List.range' a (c - a) = List.range' a (b - a) ++ List.range' b (c - b) := by
  have h := List.range'_append a (b - a) (c - b) 1
  rw [show a + 1 * (b - a) = b by omega, show c - b + (b - a) = c - a by omega] at h
  exact h.symm

theorem sieveInterval_spec (inp : SieveInput) (call : SieveCall) (fuel : Nat) (Mtot : Int)
    (hord : inp.cfg.Ordered)
    (hmarked : ∀ q, q < inp.cfg.numPrimes → inp.cfg.MEDIUMPRIME ≤ q → inp.marked q = false)
    (hroots : ∀ q, q < inp.cfg.numPrimes → inp.cfg.firstprime ≤ q → inp.marked q = false →
      RootsReduced inp q)
    (hfirst : call.first = true → call.start = 0)
    (he : (call.start : Int) + call.M ≤ Mtot) (hfuel : Mtot ≤ fuel) (st : SieveState)
    (hpre : call.first = false → ∀ q, q < inp.cfg.midprime → inp.cfg.firstprime ≤ q →
      inp.marked q = false →
      st.offsets q = cursorAt ((inp.factorBase.getD q 0 : Nat) : Int)
        (inp.soln1.getD q 0) call.start ∧
      st.offsets2 q = cursorAt ((inp.factorBase.getD q 0 : Nat) : Int)
        (inp.soln2.getD q 0) call.start) :
    SieveAdds Mtot st.mem (sieveInterval inp fuel st call).mem
        (fun i => ((List.range' inp.cfg.firstprime (inp.cfg.midprime - inp.cfg.firstprime)).map
          (fun q => if inp.marked q = true then 0
            else primeHits inp q call.start ((call.start : Int) + call.M) i)).sum) ∧
      (call.last = false → ∀ q, q < inp.cfg.midprime → inp.cfg.firstprime ≤ q →
        inp.marked q = false →
        (sieveInterval inp fuel st call).offsets q =
            cursorAt ((inp.factorBase.getD q 0 : Nat) : Int) (inp.soln1.getD q 0)
              ((call.start : Int) + call.M) ∧
          (sieveInterval inp fuel st call).offsets2 q =
            cursorAt ((inp.factorBase.getD q 0 : Nat) : Int) (inp.soln2.getD q 0)
              ((call.start : Int) + call.M)) := by
  obtain ⟨o1, o2, o3, o4⟩ := hord
  have hsplit := range'_split inp.cfg.firstprime inp.cfg.MEDIUMPRIME inp.cfg.midprime o1 o2
  unfold sieveInterval
  simp only
  obtain ⟨a1, a2, a3⟩ := foldl_sieveIntervalPrime inp call fuel true Mtot hfirst he hfuel
    (List.range' inp.cfg.firstprime (inp.cfg.MEDIUMPRIME - inp.cfg.firstprime))
    (List.nodup_range' _ _)
    (fun q hq hm => by
      rw [List.mem_range'_1] at hq
      exact hroots q (by omega) hq.1 hm)
    (fun h => by cases h) st
    (fun hf q hq hm => by
      rw [List.mem_range'_1] at hq
      exact hpre hf q (by omega) hq.1 hm)
  generalize (List.range' inp.cfg.firstprime (inp.cfg.MEDIUMPRIME - inp.cfg.firstprime)).foldl
    (sieveIntervalPrime inp call fuel true) st = st1 at a1 a2 a3 ⊢
  obtain ⟨b1, b2, b3⟩ := foldl_sieveIntervalPrime inp call fuel false Mtot hfirst he hfuel
    (List.range' inp.cfg.MEDIUMPRIME (inp.cfg.midprime - inp.cfg.MEDIUMPRIME))
    (List.nodup_range' _ _)
    (fun q hq hm => by
      rw [List.mem_range'_1] at hq
      exact hroots q (by omega) (by omega) hm)
    (fun _ q hq => by
      rw [List.mem_range'_1] at hq
      exact hmarked q (by omega) hq.1) st1
    (fun hf q hq hm => by
      rw [List.mem_range'_1] at hq
      obtain ⟨f1, f2⟩ := a3 q (by rw [List.mem_range'_1]; omega)
      rw [f1, f2]
      exact hpre hf q (by omega) (by omega) hm)
  refine ⟨SieveAdds_congr (SieveAdds_trans a1 b1) (fun i => ?_), ?_⟩
  · rw [hsplit, List.map_append, List.sum_append]
  · intro hl q hq1 hq2 hm
    by_cases hmed : q < inp.cfg.MEDIUMPRIME
    · obtain ⟨f1, f2⟩ := b3 q (by rw [List.mem_range'_1]; omega)
      rw [f1, f2]
      exact a2 hl q (by rw [List.mem_range'_1]; omega) hm
    · exact b2 hl q (by rw [List.mem_range'_1]; omega) hm

theorem middleBlocks_eq (q : Nat) :
    ∀ (fuel reps : Nat), q - 1 - reps ≤ fuel →
      middleBlocks q fuel reps =
        ((List.range' reps (q - 1 - reps)).map (fun b =>
          ({ M := CACHEBLOCKSIZE, start := CACHEBLOCKSIZE * b, last := false,
             first := false } : SieveCall)),
          max reps (q - 1)) := by
  intro fuel
  induction fuel with
  | zero =>
    intro reps h
    have h0 : q - 1 - reps = 0 := by omega
    rw [h0]
    simp only [middleBlocks, List.range'_zero, List.map_nil, Prod.mk.injEq, true_and]
    omega
  | succ fuel ih =>
    intro reps h
    rw [middleBlocks]
    by_cases hc : reps < q - 1
    · rw [if_pos hc]
      simp only
      rw [ih (reps + 1) (by omega)]
      have h1 : q - 1 - reps = (q - 1 - (reps + 1)) + 1 := by omega
      rw [h1, List.range'_succ, List.map_cons]
      simp only [Prod.mk.injEq, true_and]
      omega
    · rw [if_neg hc]
      have h0 : q - 1 - reps = 0 := by omega
      rw [h0]
      simp only [List.range'_zero, List.map_nil, Prod.mk.injEq, true_and]
      omega

/-- When the sieve length is a positive multiple of `CACHEBLOCKSIZE`, the calls of
sieveInterval are its blocks in order: `first` on block 0, `last` on the final block when
there is more than one. -/
theorem sieveCalls_blocks (Mdiv2 : Nat) (hpos : 0 < Mdiv2) (hdvd : CACHEBLOCKSIZE ∣ Mdiv2 * 2) :
    sieveCalls Mdiv2 =
      (List.range (Mdiv2 * 2 / CACHEBLOCKSIZE)).map (fun b =>
        ({ M := CACHEBLOCKSIZE, start := CACHEBLOCKSIZE * b,
           last := decide (b + 1 = Mdiv2 * 2 / CACHEBLOCKSIZE ∧ 1 < Mdiv2 * 2 / CACHEBLOCKSIZE),
           first := decide (b = 0) } : SieveCall)) := by
  have hB : 0 < CACHEBLOCKSIZE := by decide
  have hr : Mdiv2 * 2 % CACHEBLOCKSIZE = 0 := Nat.mod_eq_zero_of_dvd hdvd
  have hq : 1 ≤ Mdiv2 * 2 / CACHEBLOCKSIZE := by
    rw [Nat.one_le_div_iff hB]
    exact Nat.le_of_dvd (by omega) hdvd
  unfold sieveCalls
  simp only
  rw [hr]
  generalize Mdiv2 * 2 / CACHEBLOCKSIZE = q at hq ⊢
  by_cases h1 : 1 < q
  · rw [if_pos h1, if_pos rfl, middleBlocks_eq q q 1 (by omega)]
    simp only
    have hmax : max 1 (q - 1) = q - 1 := by omega
    rw [hmax]
    have hrange : List.range q = 0 :: (List.range' 1 (q - 1 - 1) ++ [q - 1]) := by
      rw [List.range_eq_range']
      have e1 := range'_split 0 1 q (by omega) (by omega)
      have e2 := range'_split 1 (q - 1) q (by omega) (by omega)
      rw [Nat.sub_zero] at e1
      rw [e1, e2, show q - (q - 1) = 1 by omega]
      rfl
    rw [hrange, List.map_cons, List.map_append, List.map_singleton]
    congr 1
    · simp only [SieveCall.mk.injEq, true_and]
      refine ⟨rfl, ?_, ?_⟩
      · symm; rw [decide_eq_false_iff_not]; omega
      · simp
    · congr 1
      · apply List.map_congr_left
        intro b hb
        rw [List.mem_range'_1] at hb
        simp only [SieveCall.mk.injEq, true_and]
        refine ⟨?_, ?_⟩
        · symm; rw [decide_eq_false_iff_not]; omega
        · symm; rw [decide_eq_false_iff_not]; omega
      · simp only [List.cons.injEq, and_true, SieveCall.mk.injEq, true_and]
        refine ⟨?_, ?_⟩
        · symm; rw [decide_eq_true_iff]; omega
        · symm; rw [decide_eq_false_iff_not]; omega
  · have hq1 : q = 1 := by omega
    subst hq1
    rw [if_neg h1]
    decide


theorem primeHits_self (inp : SieveInput) (prime : Nat) (lo i : Int) :
    primeHits inp prime lo lo i = 0 := by
  unfold primeHits
  rw [progHits_empty, progHits_empty]
  rfl

/-- After the first `b` blocks the accumulator holds what the cursors of the primes of
`[firstprime, midprime)` add on their way to `CACHEBLOCKSIZE * b`, and `offsets`,
`offsets2` hold those cursors for the next block. -/
theorem foldl_sieveInterval_blocks (inp : SieveInput) (fuel n : Nat) (st : SieveState)
    (hord : inp.cfg.Ordered)
    (hmarked : ∀ q, q < inp.cfg.numPrimes → inp.cfg.MEDIUMPRIME ≤ q → inp.marked q = false)
    (hroots : ∀ q, q < inp.cfg.numPrimes → inp.cfg.firstprime ≤ q → inp.marked q = false →
      RootsReduced inp q)
    (hfuel : CACHEBLOCKSIZE * n ≤ fuel) :
    ∀ b, b ≤ n →
      SieveAdds ((CACHEBLOCKSIZE * n : Nat) : Int) st.mem
          (((List.range b).map (fun b =>
            ({ M := CACHEBLOCKSIZE, start := CACHEBLOCKSIZE * b,
               last := decide (b + 1 = n ∧ 1 < n), first := decide (b = 0) } : SieveCall))).foldl
            (sieveInterval inp fuel) st).mem
          (fun i =>
            ((List.range' inp.cfg.firstprime (inp.cfg.midprime - inp.cfg.firstprime)).map
              (fun q => if inp.marked q = true then 0
                else primeHits inp q 0 ((CACHEBLOCKSIZE * b : Nat) : Int) i)).sum) ∧
        (0 < b → b < n → ∀ q, q < inp.cfg.midprime → inp.cfg.firstprime ≤ q →
          inp.marked q = false →
          (((List.range b).map (fun b =>
            ({ M := CACHEBLOCKSIZE, start := CACHEBLOCKSIZE * b,
               last := decide (b + 1 = n ∧ 1 < n), first := decide (b = 0) } : SieveCall))).foldl
            (sieveInterval inp fuel) st).offsets q =
              cursorAt ((inp.factorBase.getD q 0 : Nat) : Int) (inp.soln1.getD q 0)
                ((CACHEBLOCKSIZE * b : Nat) : Int) ∧
          (((List.range b).map (fun b =>
            ({ M := CACHEBLOCKSIZE, start := CACHEBLOCKSIZE * b,
               last := decide (b + 1 = n ∧ 1 < n), first := decide (b = 0) } : SieveCall))).foldl
            (sieveInterval inp fuel) st).offsets2 q =
              cursorAt ((inp.factorBase.getD q 0 : Nat) : Int) (inp.soln2.getD q 0)
                ((CACHEBLOCKSIZE * b : Nat) : Int)) := by
  intro b
  induction b with
  | zero =>
    intro _
    refine ⟨SieveAdds_congr (SieveAdds_refl _ st.mem) (fun i => ?_), fun h => absurd h (by omega)⟩
    symm
    apply List.sum_eq_zero
    intro x hx
    obtain ⟨q, _, rfl⟩ := List.mem_map.mp hx
    by_cases hm : inp.marked q = true
    · rw [if_pos hm]
    · rw [if_neg hm]
      simp only [Nat.mul_zero, Nat.cast_zero]
      exact primeHits_self inp q 0 i
  | succ b ih =>
    intro hb
    obtain ⟨i1, i2⟩ := ih (by omega)
    rw [List.range_succ, List.map_append, List.foldl_append, List.map_singleton,
      List.foldl_cons, List.foldl_nil]
    generalize ((List.range b).map (fun b =>
      ({ M := CACHEBLOCKSIZE, start := CACHEBLOCKSIZE * b,
         last := decide (b + 1 = n ∧ 1 < n), first := decide (b = 0) } : SieveCall))).foldl
      (sieveInterval inp fuel) st = stb at i1 i2 ⊢
    have hle : CACHEBLOCKSIZE * (b + 1) ≤ CACHEBLOCKSIZE * n := Nat.mul_le_mul_left _ hb
    have hend : ((CACHEBLOCKSIZE * b : Nat) : Int) + (CACHEBLOCKSIZE : Int) =
        ((CACHEBLOCKSIZE * (b + 1) : Nat) : Int) := by push_cast; ring
    obtain ⟨c1, c2⟩ := sieveInterval_spec inp
      { M := CACHEBLOCKSIZE, start := CACHEBLOCKSIZE * b,
        last := decide (b + 1 = n ∧ 1 < n), first := decide (b = 0) } fuel
      ((CACHEBLOCKSIZE * n : Nat) : Int) hord hmarked hroots
      (fun hf => by
        have : b = 0 := of_decide_eq_true hf
        simp only [this, Nat.mul_zero])
      (by simp only; rw [hend]; exact_mod_cast hle) (by exact_mod_cast hfuel) stb
      (fun hf q hq1 hq2 hm => by
        have hb0 : ¬ b = 0 := of_decide_eq_false hf
        exact i2 (by omega) (by omega) q hq1 hq2 hm)
    simp only at c1 c2
    rw [hend] at c1 c2
    refine ⟨SieveAdds_congr (SieveAdds_trans i1 c1) (fun i => ?_), ?_⟩
    · rw [← List.sum_map_add]
      congr 1
      apply List.map_congr_left
      intro q hq
      rw [List.mem_range'_1] at hq
      by_cases hm : inp.marked q = true
      · simp [hm]
      · simp only [if_neg hm]
        have hr := hroots q (by have := hord.2.2; omega) hq.1 (by simpa using hm)
        exact primeHits_append inp q 0 ((CACHEBLOCKSIZE * b : Nat) : Int)
          ((CACHEBLOCKSIZE * (b + 1) : Nat) : Int) i hr.1 (Int.natCast_nonneg _)
          (by exact_mod_cast Nat.mul_le_mul_left CACHEBLOCKSIZE (Nat.le_succ b))
    · intro _ hbn q hq1 hq2 hm
      exact c2 (by rw [decide_eq_false_iff_not]; omega) q hq1 hq2 hm

theorem sieve2_spec (inp : SieveInput) (M fuel : Nat) (st : SieveState)
    (hord : inp.cfg.Ordered)
    (hmarked : ∀ q, q < inp.cfg.numPrimes → inp.cfg.MEDIUMPRIME ≤ q → inp.marked q = false)
    (hroots : ∀ q, q < inp.cfg.numPrimes → inp.cfg.firstprime ≤ q → inp.marked q = false →
      RootsReduced inp q)
    (hfuel : M ≤ fuel) :
    SieveAdds (M : Int)
      (fun i => if 0 ≤ i ∧ i < (M : Int) then 0 else if i = (M : Int) then 255 else st.mem i)
      (sieve2 inp M fuel st).mem
      (fun i => ((List.range' inp.cfg.midprime (inp.cfg.numPrimes - inp.cfg.midprime)).map
        (fun q => if inp.marked q = true then 0 else primeHits inp q 0 M i)).sum) := by
  obtain ⟨o1, o2, o3, o4⟩ := hord
  unfold sieve2
  simp only
  have hA := foldl_SieveAdds (M : Int) (sieve2Prime inp M fuel)
    (fun q i => if inp.marked q = true then 0 else primeHits inp q 0 M i)
    (List.range' inp.cfg.midprime (inp.cfg.secondprime - inp.cfg.midprime))
    (fun st' q hq => by
      rw [List.mem_range'_1] at hq
      have hm := hmarked q (by omega) (by omega)
      simp only [hm, Bool.false_eq_true, if_false]
      exact sieve2Prime_spec inp M fuel st' q (hroots q (by omega) (by omega) hm) hfuel)
    { st with
      mem := fun i => if 0 ≤ i ∧ i < (M : Int) then 0 else if i = (M : Int) then 255 else st.mem i
      flags := fun k => if k < inp.cfg.numPrimes then 0 else st.flags k }
  have hB := foldl_SieveAdds (M : Int) (sieve2Flagged inp M fuel)
    (fun q i => if inp.marked q = true then 0 else primeHits inp q 0 M i)
    (List.range' inp.cfg.secondprime (inp.cfg.numPrimes - inp.cfg.secondprime))
    (fun st' q hq => by
      rw [List.mem_range'_1] at hq
      have hm := hmarked q (by omega) (by omega)
      simp only [hm, Bool.false_eq_true, if_false]
      exact sieve2Flagged_spec inp M fuel st' q (hroots q (by omega) (by omega) hm) hfuel)
    ((List.range' inp.cfg.midprime (inp.cfg.secondprime - inp.cfg.midprime)).foldl
      (sieve2Prime inp M fuel)
      { st with
        mem := fun i =>
          if 0 ≤ i ∧ i < (M : Int) then 0 else if i = (M : Int) then 255 else st.mem i
        flags := fun k => if k < inp.cfg.numPrimes then 0 else st.flags k })
  refine SieveAdds_congr (SieveAdds_trans hA hB) (fun i => ?_)
  rw [range'_split inp.cfg.midprime inp.cfg.secondprime inp.cfg.numPrimes o3 o4,
    List.map_append, List.sum_append]


theorem primeHits_inside (inp : SieveInput) (prime : Nat) (M i : Int)
    (hr : RootsReduced inp prime) (h0 : 0 ≤ i) (h1 : i < M) :
    primeHits inp prime 0 M i =
      inp.primeSizes.getD prime 0 *
        (rootHits ((inp.factorBase.getD prime 0 : Nat) : Int) (inp.soln1.getD prime 0) i +
          rootHits ((inp.factorBase.getD prime 0 : Nat) : Int) (inp.soln2.getD prime 0) i) := by
  obtain ⟨hq, a1, a2, b1, b2⟩ := hr
  have hp : (0 : Int) < ((inp.factorBase.getD prime 0 : Nat) : Int) := by exact_mod_cast hq
  unfold primeHits
  rw [progHits_cursor_inside _ _ M i hp a1 a2 h0 h1,
    progHits_cursor_inside _ _ M i hp b1 b2 h0 h1]

/-- C27: when the sieve length `M = 2 * Mdiv2` is a positive multiple of `CACHEBLOCKSIZE`
(as every length `main` selects), the ranges are ordered, no prime from `MEDIUMPRIME` on is
marked by the sentinel, and the corrected roots of every unmarked prime of
`[firstprime, numPrimes)` lie in `[0, p)`, then `sieve2` followed by the calls of
sieveInterval for one sibling comes to an end (any fuel of at least `M` rounds per loop) and
leaves in every byte `i` of `[0, M)` the naive sum modulo 256: `primeSizes[p]` for each
unmarked prime of `[firstprime, numPrimes)`, once for `i ≡ soln1_p` and once for
`i ≡ soln2_p` modulo the prime. The byte at `M` is the sentinel 255 and no other byte
outside `[0, M)` is changed. -/
theorem blocked_sieve_eq_naive (inp : SieveInput) (Mdiv2 fuel : Nat) (st : SieveState)
    (hpos : 0 < Mdiv2) (hdvd : CACHEBLOCKSIZE ∣ Mdiv2 * 2) (hfuel : Mdiv2 * 2 ≤ fuel)
    (hord : inp.cfg.Ordered)
    (hmarked : ∀ q, q < inp.cfg.numPrimes → inp.cfg.MEDIUMPRIME ≤ q → inp.marked q = false)
    (hroots : ∀ q, q < inp.cfg.numPrimes → inp.cfg.firstprime ≤ q → inp.marked q = false →
      RootsReduced inp q) :
    (∀ i : Int, 0 ≤ i → i < ((Mdiv2 * 2 : Nat) : Int) →
      (siblingSieve inp Mdiv2 fuel st).mem i = naiveSieve inp i % 256) ∧
    (siblingSieve inp Mdiv2 fuel st).mem ((Mdiv2 * 2 : Nat) : Int) = 255 ∧
    (∀ i : Int, (i < 0 ∨ ((Mdiv2 * 2 : Nat) : Int) < i) →
      (siblingSieve inp Mdiv2 fuel st).mem i = st.mem i) := by
  have hMn : CACHEBLOCKSIZE * (Mdiv2 * 2 / CACHEBLOCKSIZE) = Mdiv2 * 2 :=
    Nat.mul_div_cancel' hdvd
  have hS2 := sieve2_spec inp (Mdiv2 * 2) fuel st hord hmarked hroots hfuel
  obtain ⟨hB, _⟩ := foldl_sieveInterval_blocks inp fuel (Mdiv2 * 2 / CACHEBLOCKSIZE)
    (sieve2 inp (Mdiv2 * 2) fuel st) hord hmarked hroots (by rw [hMn]; exact hfuel)
    (Mdiv2 * 2 / CACHEBLOCKSIZE) (le_refl _)
  rw [hMn] at hB
  have hout : siblingSieve inp Mdiv2 fuel st =
      ((List.range (Mdiv2 * 2 / CACHEBLOCKSIZE)).map (fun b =>
        ({ M := CACHEBLOCKSIZE, start := CACHEBLOCKSIZE * b,
           last := decide (b + 1 = Mdiv2 * 2 / CACHEBLOCKSIZE ∧ 1 < Mdiv2 * 2 / CACHEBLOCKSIZE),
           first := decide (b = 0) } : SieveCall))).foldl
        (sieveInterval inp fuel) (sieve2 inp (Mdiv2 * 2) fuel st) := by
    unfold siblingSieve
    rw [sieveCalls_blocks Mdiv2 hpos hdvd]
  rw [hout]
  obtain ⟨t1, t2, t3⟩ := SieveAdds_trans hS2 hB
  obtain ⟨o1, o2, o3, o4⟩ := hord
  refine ⟨fun i h0 h1 => ?_, ?_, fun i hi => ?_⟩
  · have hlt := t3 i (by simp only [if_pos (And.intro h0 h1)]; norm_num)
    have hmod := t1 i
    simp only [if_pos (And.intro h0 h1), Nat.zero_add] at hmod
    rw [Nat.mod_eq_of_lt hlt] at hmod
    rw [hmod]
    congr 1
    unfold naiveSieve
    rw [range'_split inp.cfg.firstprime inp.cfg.midprime inp.cfg.numPrimes (by omega) (by omega),
      List.map_append, List.sum_append, Nat.add_comm]
    congr 1
    · congr 1
      apply List.map_congr_left
      intro q hq
      rw [List.mem_range'_1] at hq
      by_cases hm : inp.marked q = true
      · rw [if_pos hm, if_pos hm]
      · rw [if_neg hm, if_neg hm]
        exact primeHits_inside inp q _ i (hroots q (by omega) hq.1 (by simpa using hm)) h0 h1
    · congr 1
      apply List.map_congr_left
      intro q hq
      rw [List.mem_range'_1] at hq
      by_cases hm : inp.marked q = true
      · rw [if_pos hm, if_pos hm]
      · rw [if_neg hm, if_neg hm]
        exact primeHits_inside inp q _ i (hroots q (by omega) (by omega) (by simpa using hm))
          h0 h1
  · rw [t2 _ (Or.inr (le_refl _))]
    simp
  · rw [t2 i (by omega)]
    have h1 : ¬ (0 ≤ i ∧ i < ((Mdiv2 * 2 : Nat) : Int)) := by omega
    have h2 : ¬ i = ((Mdiv2 * 2 : Nat) : Int) := by omega
    simp only [if_neg h1, if_neg h2]

theorem blocked_sieve_eq_naive_witness :
    (∀ i : Int, 0 ≤ i → i < ((32000 * 2 : Nat) : Int) →
      (siblingSieve sieveExample 32000 64000 sieveState0).mem i =
        naiveSieve sieveExample i % 256) ∧
    (siblingSieve sieveExample 32000 64000 sieveState0).mem ((32000 * 2 : Nat) : Int) = 255 ∧
    (∀ i : Int, (i < 0 ∨ ((32000 * 2 : Nat) : Int) < i) →
      (siblingSieve sieveExample 32000 64000 sieveState0).mem i = sieveState0.mem i) :=
  blocked_sieve_eq_naive sieveExample 32000 64000 sieveState0 (by decide) (by decide)
    (by decide) (by unfold SieveConfig.Ordered; decide) (by decide) (by decide)


set_option maxRecDepth 100000 in
/-- C18: on an accumulator whose word 0 has a byte with bit 6 set but none that reaches
the threshold, and whose word 1 begins with a candidate, the scan of lines 526-536 leaves its
`do` loop with `i` on the first byte of word 1, and the next round finds the same byte again:
position 8 is evaluated twice and its partial relation is written twice. -/
theorem evaluateSieve_writes_line_twice :
    evaluatedPositions 8 100 16 twiceExample 5 = some [8, 8] ∧
    evaluateSieve 8 100 16 evalExample twiceExample 5
      = some [(8, SieveOutput.partialRel 42301 (-24738) [(1, 3), (1, 5), (1, 6)]),
              (8, SieveOutput.partialRel 42301 (-24738) [(1, 3), (1, 5), (1, 6)])] := by
  decide

set_option maxRecDepth 100000 in
/-- C19: for the perfect square `n = 90509^2` the first sibling of `squareExample` has
`Q(x) = 0` at position 3 (`A*x + B = -90509`); the stored roots of the entries 4 and 7 are
roots of `Q`, the position passes the size test, `mpz_remove` takes nothing out of zero, and
the full relation written carries the pairs `0 4` and `0 7` with exponent zero. -/
theorem evaluateSieve_writes_zero_exponent :
    squareExample.n = 90509 ^ 2 ∧ zeroExample.X = -90509 ∧ zeroExample.Q = 0 ∧
    RootsRight zeroExample 4 ∧ RootsRight zeroExample 7 ∧ zeroExample.passesSizeTest ∧
    evaluatePosition zeroExample
      = SieveOutput.fullRel (-90509) [(0, 4), (0, 7), (1, 3), (1, 5), (1, 6)] := by
  decide

end FlintQS
